import Mathlib

/-!
# The metafied-string codec of `Src/utils.c`

A shallow embedding of the string codec of zsh's `Src/utils.c` (`metafy`,
`unmetafy`, `ztrlen`, `ztrcmp`, `metadiffer`) together with the part of
`inittyptab` that decides which bytes are protected.

Conventions of the embedding.

* A byte is a natural number below 256; a memory area is a `List Nat`.
* A pointer into an area that the code moves in both directions, or writes
  through, is an index into the list. Reading `*p` is `buf.getD p 0`, writing
  `*p = c` is `buf.set p c`.
* A pointer that is only read and only moved forward (`ztrlen`, `ztrcmp`) is
  the list of the bytes from the pointer on: `*s` is `s.headD 0` and `s++` is
  `s.tail`.
* The byte values `Meta`, `Pound`, `Nularg` and `Marker` are defined in `zsh.h`,
  which is not part of the sources at hand. They are the fields of `ZshH`, and
  every function takes them as the parameter `K`.
-/

namespace Zsh

/-! ## Definitions -/

/-- The byte constants of `zsh.h` that `utils.c` refers to. -/
structure ZshH where
  /-- The escape byte `Meta`. -/
  Meta : Nat
  /-- The first token byte, `Pound`. -/
  Pound : Nat
  /-- The last token byte, `Nularg`. -/
  Nularg : Nat
  /-- The byte `Marker`. -/
  Marker : Nat
deriving Repr, DecidableEq

/-- The values the constants have in the zsh 3.1 header: `Meta` is 0x83, the
tokens run from `Pound` = 0x84 to `Nularg` = 0x9b, and `Marker` is 0x9c. -/
def zsh_h : ZshH := { Meta := 0x83, Pound := 0x84, Nularg := 0x9b, Marker := 0x9c }

/-- The protected bytes other than NUL lie in the block 0x80..0x9f: this holds
for `Meta`, for `Marker` and for the whole token range `Pound .. Nularg`. In
that block bit 5 is clear, so `b ^ 32` is `b + 32`. -/
def ZshH.inBand (K : ZshH) : Prop :=
  (128 ≤ K.Meta ∧ K.Meta < 160) ∧ (128 ≤ K.Marker ∧ K.Marker < 160) ∧
    (128 ≤ K.Pound ∧ K.Nularg < 160)

instance (K : ZshH) : Decidable K.inBand := by
  unfold ZshH.inBand
  infer_instance

/-- The macro `imeta(c)`: the `IMETA` bit of `typtab[c]` as `inittyptab` leaves
it. The table is first filled with flag sets that do not contain `IMETA`; then
`typtab['\0']`, `typtab[Meta]` and `typtab[Marker]` get `IMETA`, and so does every
entry from `Pound` to `Nularg`; the later updates only add other flags. -/
def imeta (K : ZshH) (c : Nat) : Bool :=
  c == 0 || c == K.Meta || c == K.Marker || (decide (K.Pound ≤ c) && decide (c ≤ K.Nularg))

/-- The allocation policies of `metafy`, its third argument `heap`. -/
inductive MetaHeap where
  | META_REALLOC
  | META_HREALLOC
  | META_USEHEAP
  | META_NOALLOC
  | META_STATIC
  | META_ALLOC
  | META_DUP
  | META_HEAPDUP
deriving Repr, DecidableEq

/-- The C library function `strlen`: the number of bytes before the first NUL. -/
def strlen (s : List Nat) : Nat := (s.takeWhile (fun c => c != 0)).length

/-- The loop `while (meta) { if (imeta(*--t = *--p)) { *t-- ^= 32; *t = Meta; meta--; } }`
of `metafy`, with `p` and `t` as indices into `buf`. The recursion is on `p`,
which the loop decrements every time round. The second equation is never
reached from `metafy`, where `meta` counts the protected bytes below `p`. -/
def metafyLoop (K : ZshH) : Nat → Nat → Nat → List Nat → List Nat
  | _, _, 0, buf => buf
  | 0, _, _ + 1, buf => buf
  | p + 1, t, meta + 1, buf =>
    let c := buf.getD p 0
    let buf1 := buf.set (t - 1) c
    if imeta K c then
      metafyLoop K p (t - 2) meta ((buf1.set (t - 1) (c ^^^ 32)).set (t - 2) K.Meta)
    else
      metafyLoop K p (t - 1) (meta + 1) buf1

/-- The function `metafy(buf, len, heap)`. The argument `buf` is the memory area
the pointer `buf` points to, the result is the memory area the returned pointer
points to. Memory that comes from the allocator, or is left in the static area
`mbuf`, has unknown contents: cell `i` of it holds `fresh i`. For the
allocating policies the result is the area of `len + meta + 1` bytes the code
asks for; for `META_REALLOC` the bytes of the old area that fit are kept. -/
def metafy (K : ZshH) (fresh : Nat → Nat) (buf : List Nat) (len : Int) (heap : MetaHeap) :
    List Nat :=
  let n : Nat := if len = -1 then strlen buf else len.toNat
  let meta : Nat := (buf.take n).countP (imeta K)
  if meta ≠ 0 ∨ heap = MetaHeap.META_DUP ∨ heap = MetaHeap.META_HEAPDUP then
    let area : List Nat :=
      match heap with
      | MetaHeap.META_NOALLOC => buf
      | MetaHeap.META_REALLOC => (buf ++ (List.range (meta + 1)).map fresh).take (n + meta + 1)
      | _ => buf.take n ++ (List.range (meta + 1)).map fresh
    (metafyLoop K n (n + meta) meta area).set (n + meta) 0
  else
    buf.set n 0

/-- The first loop of `unmetafy`: `for (p = s; *p && *p != Meta; p++);`. Every
round moves `p` one byte on, so `s.length` rounds of fuel are never used up. -/
def unmetafyScan (K : ZshH) (s : List Nat) : Nat → Nat → Nat
  | 0, p => p
  | fuel + 1, p =>
    if s.getD p 0 ≠ 0 ∧ s.getD p 0 ≠ K.Meta then unmetafyScan K s fuel (p + 1) else p

/-- The second loop of `unmetafy`:
`for (t = p; (*t = *p++);) if (*t++ == Meta) t[-1] = *p++ ^ 32;`
It returns the buffer and the final `t`. -/
def unmetafyCopy (K : ZshH) : Nat → Nat → Nat → List Nat → List Nat × Nat
  | 0, t, _, buf => (buf, t)
  | fuel + 1, t, p, buf =>
    let c := buf.getD p 0
    let buf1 := buf.set t c
    if c = 0 then (buf1, t)
    else if c = K.Meta then
      unmetafyCopy K fuel (t + 1) (p + 2) (buf1.set t (buf1.getD (p + 1) 0 ^^^ 32))
    else
      unmetafyCopy K fuel (t + 1) (p + 1) buf1

/-- The function `unmetafy(s, len)`: the buffer after the call, and the value
`t - s` stored in `*len`. Every round of the second loop moves `p` at least one
byte on and a read past the area gives 0, so the fuel `s.length + 1` is never
used up. -/
def unmetafy (K : ZshH) (s : List Nat) : List Nat × Nat :=
  let p := unmetafyScan K s s.length 0
  unmetafyCopy K (s.length + 1) p p s

/-- The function `ztrlen(s)`, as compiled without `DEBUG`:
`for (l = 0; *s; l++) if (*s++ == Meta) s++;`. -/
def ztrlen (K : ZshH) : List Nat → Nat
  | [] => 0
  | c :: s =>
    if c = 0 then 0
    else if c = K.Meta then
      match s with
      | [] => 1
      | _ :: s1 => ztrlen K s1 + 1
    else ztrlen K s + 1

/-- The value `ztrcmp` gives to `c1` (and to `c2`) after its loop: -1 at the end
of the string, the decoded byte at `Meta`, the byte itself otherwise. -/
def ztrcmpEnd (K : ZshH) (s : List Nat) : Int :=
  if s.headD 0 = 0 then -1
  else if s.headD 0 = K.Meta then ((s.tail.headD 0 ^^^ 32 : Nat) : Int)
  else (s.headD 0 : Int)

/-- The part of `ztrcmp` after its loop: the three-way comparison of `c1` and `c2`. -/
def ztrcmpTail (K : ZshH) (s1 s2 : List Nat) : Int :=
  if ztrcmpEnd K s1 = ztrcmpEnd K s2 then 0
  else if ztrcmpEnd K s1 < ztrcmpEnd K s2 then -1
  else 1

/-- The function `ztrcmp(s1, s2)`: the loop `while(*s1 && *s1 == *s2) { s1++; s2++; }`
followed by the comparison. -/
def ztrcmp (K : ZshH) : List Nat → List Nat → Int
  | [], s2 => ztrcmpTail K [] s2
  | c1 :: s1, s2 =>
    if c1 ≠ 0 ∧ c1 = s2.headD 0 then ztrcmp K s1 s2.tail
    else ztrcmpTail K (c1 :: s1) s2

/-- The C library predicate `isupper` in the C locale. -/
def isupper (c : Nat) : Bool := decide (65 ≤ c) && decide (c ≤ 90)

/-- The C library function `tolower` in the C locale. -/
def tolower (c : Nat) : Nat := if isupper c then c + 32 else c

/-- The function `tulower(c)`: `c &= 0xff; return (isupper(c) ? tolower(c) : c);`. -/
def tulower (c : Nat) : Nat :=
  if isupper (c &&& 0xff) then tolower (c &&& 0xff) else c &&& 0xff

/-- The value of a byte read through a plain `char` and promoted to `int`.
Whether plain `char` is signed is the choice of the compiler and is a
parameter: where it is signed, a byte from 0x80 on has a negative value. -/
def plainChar (charSigned : Bool) (b : Nat) : Int :=
  if charSigned = true ∧ 128 ≤ b ∧ b < 256 then (b : Int) - 256 else (b : Int)

/-- The two loops of `metadiffer`, which differ in the counter and in the right
operand of the comparison:
`while (l-- && *s && *r++ == f(*s == Meta ? *++s ^ 32 : *s)) s++;`
The state is the index of `s`, the index of `r` and the counter. The left
operand `*r++` is a plain `char` promoted to `int`; `f` gives the value of the
right operand as an `int` from the decoded byte. Every round moves `s` at
least one byte on and a read past the area gives 0, so the fuel
`s.length + 1` is never used up. -/
def metadifferLoop (K : ZshH) (charSigned : Bool) (f : Nat → Int) (s r : List Nat) :
    Nat → Nat → Nat → Int → Nat × Nat × Int
  | 0, si, ri, l => (si, ri, l)
  | fuel + 1, si, ri, l =>
    if l = 0 then (si, ri, l - 1)
    else if s.getD si 0 = 0 then (si, ri, l - 1)
    else
      let si1 := if s.getD si 0 = K.Meta then si + 1 else si
      let c := if s.getD si 0 = K.Meta then s.getD (si + 1) 0 ^^^ 32 else s.getD si 0
      if plainChar charSigned (r.getD ri 0) = f c then
        metadifferLoop K charSigned f s r fuel (si1 + 1) (ri + 1) (l - 1)
      else (si1, ri + 1, l - 1)

/-- The function `metadiffer(s, r, len)`. In the first loop the right operand
`*s == Meta ? *++s ^ 32 : *s` is a plain `char` promoted to `int` as well (the
XOR changes bit 5 only), so it is `plainChar` of the decoded byte. In the
second loop it is the result of `tulower`, a value from 0 to 255. Between the
loops the code moves the pointers back with `s -= len - l - 1; r -= len - l;`. -/
def metadiffer (K : ZshH) (charSigned : Bool) (s r : List Nat) (len : Int) : Int :=
  let st := metadifferLoop K charSigned (plainChar charSigned) s r (s.length + 1) 0 0 len
  if s.getD st.1 0 ≠ 0 ∧ st.2.2 < 0 then -1
  else if st.2.2 < 0 then 0
  else if s.getD st.1 0 = 0 then 3
  else
    let si := ((st.1 : Int) - (len - st.2.2 - 1)).toNat
    let ri := ((st.2.1 : Int) - (len - st.2.2)).toNat
    let st2 := metadifferLoop K charSigned (fun c => (tulower c : Int)) s r (s.length + 1) si ri len
    if s.getD st2.1 0 ≠ 0 ∧ st2.2.2 < 0 then 2
    else if st2.2.2 < 0 then 1
    else 3

/-! ### Reference definitions, written from the specification -/

/-- The protection rule: each protected byte `b` becomes the pair
`(Meta, b XOR 0x20)`, every other byte stays as it is. -/
def protect (K : ZshH) : List Nat → List Nat
  | [] => []
  | b :: x => if imeta K b then K.Meta :: (b ^^^ 32) :: protect K x else b :: protect K x

/-- The decode rule: each pair `(Meta, y)` becomes the byte `y XOR 0x20`, every
other byte stays as it is. -/
def decode (K : ZshH) : List Nat → List Nat
  | [] => []
  | c :: s =>
    if c = K.Meta then
      match s with
      | [] => []
      | y :: s1 => (y ^^^ 32) :: decode K s1
    else c :: decode K s

/-- The number of escape pairs met by a left-to-right scan. -/
def pairs (K : ZshH) : List Nat → Nat
  | [] => 0
  | c :: s =>
    if c = K.Meta then
      match s with
      | [] => 0
      | _ :: s1 => pairs K s1 + 1
    else pairs K s

/-- A well-formed encoded string, given by its bytes before the terminator: no
byte is NUL and every `Meta` met by a left-to-right scan is followed by a
payload byte. -/
def wellFormed (K : ZshH) : List Nat → Bool
  | [] => true
  | c :: s =>
    c != 0 &&
      if c = K.Meta then
        match s with
        | [] => false
        | y :: s1 => y != 0 && wellFormed K s1
      else wellFormed K s

/-- The scan of invariant I3: it steps over pairs `(Meta, payload)` and over
single plain bytes, and checks that a payload is neither NUL nor `Meta` and
that a plain byte is not protected. -/
def pairedScan (K : ZshH) : List Nat → Bool
  | [] => true
  | c :: s =>
    if c = K.Meta then
      match s with
      | [] => false
      | y :: s1 => y != 0 && y != K.Meta && pairedScan K s1
    else !imeta K c && pairedScan K s

/-- The three-way lexicographic comparison of two byte sequences as sequences
of unsigned bytes, a proper initial segment being smaller than its extensions. -/
def lexCmp : List Nat → List Nat → Int
  | [], [] => 0
  | [], _ :: _ => -1
  | _ :: _, [] => 1
  | a :: x, b :: y => if a < b then -1 else if b < a then 1 else lexCmp x y

/-- The buffer handed to `metafy` is large enough. The bytes to encode are `x`
and `rest` is what follows them in the area. The policies that copy need no
room; writing in place needs one byte for the terminator and one for each
protected byte. -/
def metafyRoom (K : ZshH) (x rest : List Nat) (heap : MetaHeap) : Prop :=
  (heap = MetaHeap.META_NOALLOC ∨
      (x.countP (imeta K) = 0 ∧ heap ≠ MetaHeap.META_DUP ∧ heap ≠ MetaHeap.META_HEAPDUP)) →
    x.countP (imeta K) + 1 ≤ rest.length

instance (K : ZshH) (x rest : List Nat) (heap : MetaHeap) : Decidable (metafyRoom K x rest heap) := by
  unfold metafyRoom
  infer_instance

/-! ### More of the codec: `metalen` and `unmeta` -/

/-- The loop of `metalen`: `while (len--) { if (*s++ == Meta) { mlen++; s++; } }`.
The pointer `s` is only read and moved forward. The recursion is on `len`. -/
def metalenLoop (K : ZshH) : Nat → List Nat → Nat → Nat
  | 0, _, mlen => mlen
  | len + 1, s, mlen =>
    if s.headD 0 = K.Meta then metalenLoop K len s.tail.tail (mlen + 1)
    else metalenLoop K len s.tail mlen

/-- The function `metalen(s, len)` for a `len` that is not negative (with a
negative `len` the loop of the C function runs off the string). -/
def metalen (K : ZshH) (s : List Nat) (len : Nat) : Nat := metalenLoop K len s len

/-- The three pointers `unmeta` can return: `NULL`, its argument `file_name`, or
the static area `fn`. -/
inductive UnmetaResult where
  | NULL
  | file_name
  | fn
deriving Repr, DecidableEq

/-- The loop of `unmeta`:
`for (t = file_name, p = fn; *t && p < fn + 4 * PATH_MAX - 1; p++)
   if ((*p = *t++) == Meta) *p = *t++ ^ 32;`
with `t` an index into `file_name` and `p` an index into the static area `fn`.
The state is `t`, `p` and the area. Every round moves `t` at least one byte on
and a read past `file_name` gives 0, so `file_name.length` rounds of fuel are
never used up. -/
def unmetaLoop (K : ZshH) (PATH_MAX : Nat) (file_name : List Nat) :
    Nat → Nat → Nat → List Nat → Nat × Nat × List Nat
  | 0, t, p, fn => (t, p, fn)
  | fuel + 1, t, p, fn =>
    if file_name.getD t 0 ≠ 0 ∧ p < 4 * PATH_MAX - 1 then
      if file_name.getD t 0 = K.Meta then
        unmetaLoop K PATH_MAX file_name fuel (t + 2) (p + 1)
          ((fn.set p (file_name.getD t 0)).set p (file_name.getD (t + 1) 0 ^^^ 32))
      else
        unmetaLoop K PATH_MAX file_name fuel (t + 1) (p + 1) (fn.set p (file_name.getD t 0))
    else (t, p, fn)

/-- The function `unmeta(file_name)`. The argument `fn` is the static area
`fn[4 * PATH_MAX]` as the previous call left it; the result is the pointer
returned and the static area after the call. The constant `PATH_MAX` comes from
the system headers and is a parameter. -/
def unmeta (K : ZshH) (PATH_MAX : Nat) (fn file_name : List Nat) : UnmetaResult × List Nat :=
  let st := unmetaLoop K PATH_MAX file_name file_name.length 0 0 fn
  if file_name.getD st.1 0 ≠ 0 then (UnmetaResult.NULL, st.2.2)
  else if st.2.1 = st.1 then (UnmetaResult.file_name, st.2.2)
  else (UnmetaResult.fn, st.2.2.set st.2.1 0)

/-! ### The display codec: `nicechar` and the functions built on it -/

/-- The C library predicate `isprint` in the C locale: the bytes 0x20..0x7E. -/
def isprintC (c : Nat) : Bool := decide (0x20 ≤ c) && decide (c ≤ 0x7e)

/-- The part of `nicechar` from `if (c == 0x7f)` to the end, with the bytes it
stores, the terminating NUL included. -/
def nicecharTail (c : Nat) : List Nat :=
  if c = 0x7f then [94, 63, 0]
  else if c = 10 then [92, 110, 0]
  else if c = 9 then [92, 116, 0]
  else if c < 0x20 then [94, c + 0x40, 0]
  else [c, 0]

/-- The function `nicechar(c)`: the bytes it stores in its static buffer `buf`,
in order, the terminating NUL included. The library predicate `isprint` and the
option `PRINTEIGHTBIT` are parameters. The argument is an `int`; `c &= 0xff`
leaves its low eight bits. -/
def nicechar (isprint : Nat → Bool) (PRINTEIGHTBIT : Bool) (c : Int) : List Nat :=
  let c0 : Nat := (c % 256).toNat
  if isprint c0 then [c0, 0]
  else if c0 &&& 0x80 ≠ 0 then
    if PRINTEIGHTBIT then [c0, 0]
    else if isprint (c0 &&& 0x7f) then [92, 77, 45, c0 &&& 0x7f, 0]
    else [92, 77, 45] ++ nicecharTail (c0 &&& 0x7f)
  else nicecharTail c0

/-- The macro `itok(c)`: the `ITOK` bit of `typtab[c]`, which `inittyptab` sets
for the entries from `Pound` to `Nularg` and for no other. -/
def itok (K : ZshH) (c : Nat) : Bool := decide (K.Pound ≤ c) && decide (c ≤ K.Nularg)

/-- The C string at a pointer: the bytes before the first NUL. This is what
`fputs` writes and what `strlen` counts. -/
def cstr (s : List Nat) : List Nat := s.takeWhile (fun c => c != 0)

/-- The function `nicezputs(s, stream)`: the bytes it writes to `stream`, for a
stream that accepts every byte. The byte `Comma` and the table `ztokens` are
defined outside `utils.c` and are parameters, like `isprint` and
`PRINTEIGHTBIT`. The loop is
`while ((c = *s++)) { if (itok(c)) if (c <= Comma) c = ztokens[c - Pound]; else continue;
   if (c == Meta) c = *s++ ^ 32; fputs(nicechar(c), stream); }`. -/
def nicezputs (K : ZshH) (Comma : Nat) (ztokens : List Nat) (isprint : Nat → Bool)
    (PRINTEIGHTBIT : Bool) : List Nat → List Nat
  | [] => []
  | c :: s =>
    if c = 0 then []
    else if itok K c = true ∧ ¬ c ≤ Comma then nicezputs K Comma ztokens isprint PRINTEIGHTBIT s
    else
      let c1 := if itok K c = true then ztokens.getD (c - K.Pound) 0 else c
      if c1 = K.Meta then
        match s with
        | [] => cstr (nicechar isprint PRINTEIGHTBIT ((0 ^^^ 32 : Nat) : Int))
        | y :: s1 =>
          cstr (nicechar isprint PRINTEIGHTBIT ((y ^^^ 32 : Nat) : Int)) ++
            nicezputs K Comma ztokens isprint PRINTEIGHTBIT s1
      else
        cstr (nicechar isprint PRINTEIGHTBIT (c1 : Int)) ++
          nicezputs K Comma ztokens isprint PRINTEIGHTBIT s

/-- The loop of `niceztrdup`, which has the same shape and copies each visible
form with `while(*n) *p++ = *n++;`: the bytes stored in `buf` below `p`. -/
def niceztrdupLoop (K : ZshH) (Comma : Nat) (ztokens : List Nat) (isprint : Nat → Bool)
    (PRINTEIGHTBIT : Bool) : List Nat → List Nat
  | [] => []
  | c :: s =>
    if c = 0 then []
    else if itok K c = true ∧ ¬ c ≤ Comma then
      niceztrdupLoop K Comma ztokens isprint PRINTEIGHTBIT s
    else
      let c1 := if itok K c = true then ztokens.getD (c - K.Pound) 0 else c
      if c1 = K.Meta then
        match s with
        | [] => cstr (nicechar isprint PRINTEIGHTBIT ((0 ^^^ 32 : Nat) : Int))
        | y :: s1 =>
          cstr (nicechar isprint PRINTEIGHTBIT ((y ^^^ 32 : Nat) : Int)) ++
            niceztrdupLoop K Comma ztokens isprint PRINTEIGHTBIT s1
      else
        cstr (nicechar isprint PRINTEIGHTBIT (c1 : Int)) ++
          niceztrdupLoop K Comma ztokens isprint PRINTEIGHTBIT s

/-- The function `niceztrdup(s)`: the area it returns. The buffer `buf` of
`strlen(s) * 5` bytes comes from the allocator; the result is
`metafy(buf, p - buf, META_DUP)`. -/
def niceztrdup (K : ZshH) (Comma : Nat) (ztokens : List Nat) (isprint : Nat → Bool)
    (PRINTEIGHTBIT : Bool) (fresh : Nat → Nat) (s : List Nat) : List Nat :=
  let written := niceztrdupLoop K Comma ztokens isprint PRINTEIGHTBIT s
  let buf := written ++ (List.range (strlen s * 5 - written.length)).map fresh
  metafy K fresh buf (written.length : Int) MetaHeap.META_DUP

/-- The function `niceztrlen(s)`, whose loop has the same shape and adds
`strlen(nicechar(STOUC(c)))` to `l`. -/
def niceztrlen (K : ZshH) (Comma : Nat) (ztokens : List Nat) (isprint : Nat → Bool)
    (PRINTEIGHTBIT : Bool) : List Nat → Nat
  | [] => 0
  | c :: s =>
    if c = 0 then 0
    else if itok K c = true ∧ ¬ c ≤ Comma then niceztrlen K Comma ztokens isprint PRINTEIGHTBIT s
    else
      let c1 := if itok K c = true then ztokens.getD (c - K.Pound) 0 else c
      if c1 = K.Meta then
        match s with
        | [] => strlen (nicechar isprint PRINTEIGHTBIT ((0 ^^^ 32 : Nat) : Int))
        | y :: s1 =>
          strlen (nicechar isprint PRINTEIGHTBIT ((y ^^^ 32 : Nat) : Int)) +
            niceztrlen K Comma ztokens isprint PRINTEIGHTBIT s1
      else
        strlen (nicechar isprint PRINTEIGHTBIT (c1 : Int)) +
          niceztrlen K Comma ztokens isprint PRINTEIGHTBIT s

/-- The display of an encoded string, written from the specification: a pair
`(Meta, y)` shows the decoded byte `y XOR 0x20`; a raw token byte `c` up to `Comma`
shows `ztokens[c - Pound]` and one above `Comma` shows nothing; every other byte
shows itself. The visible form of a byte is `nice`. -/
def displayRef (K : ZshH) (Comma : Nat) (ztokens : List Nat) (nice : Nat → List Nat) :
    List Nat → List Nat
  | [] => []
  | c :: s =>
    if c = K.Meta then
      match s with
      | [] => []
      | y :: s1 => nice (y ^^^ 32) ++ displayRef K Comma ztokens nice s1
    else if itok K c = true then
      (if c ≤ Comma then nice (ztokens.getD (c - K.Pound) 0) else []) ++
        displayRef K Comma ztokens nice s
    else nice c ++ displayRef K Comma ztokens nice s

/-- The byte `Comma` and the table `ztokens` as zsh 3.1 defines them: `Comma` is
0x97 and `ztokens` is the string ``#$^*()$=|{}[]`<>?~`,'"\``. -/
def zsh_Comma : Nat := 0x97

/-- See `zsh_Comma`. -/
def zsh_ztokens : List Nat :=
  [35, 36, 94, 42, 40, 41, 36, 61, 124, 123, 125, 91, 93, 96, 60, 62, 63, 126, 96, 44, 39, 34, 92]

/-! ### The quoting codec: `hasspecial`, `zputs`, `quotedzputs` -/

/-- The function `hasspecial(s)`:
`for (; *s; s++) if (ispecial(*s == Meta ? *++s ^ 32 : *s)) return 1; return 0;`.
The macro `ispecial` tests the `ISPECIAL` bit of `typtab`, which `inittyptab` sets
from `SPECCHARS` and `bangchar`, defined outside `utils.c`; it is a parameter. -/
def hasspecial (K : ZshH) (ispecial : Nat → Bool) : List Nat → Bool
  | [] => false
  | c :: s =>
    if c = 0 then false
    else if c = K.Meta then
      match s with
      | [] => ispecial (0 ^^^ 32)
      | y :: s1 => ispecial (y ^^^ 32) || hasspecial K ispecial s1
    else ispecial c || hasspecial K ispecial s

/-- The function `zputs(s, stream)`: the bytes it writes to `stream`, for a
stream that accepts every byte. Pairs are decoded and raw tokens are skipped. -/
def zputs (K : ZshH) : List Nat → List Nat
  | [] => []
  | c :: s =>
    if c = 0 then []
    else if c = K.Meta then
      match s with
      | [] => [0 ^^^ 32]
      | y :: s1 => (y ^^^ 32) :: zputs K s1
    else if itok K c = true then zputs K s
    else c :: zputs K s

/-- What the rc-style loop of `quotedzputs` writes for one decoded byte `c`: a
quote before a quote, a backslash before a newline when `CSHJUNKIEQUOTES` is
set, then `c`. -/
def quotedzputsRcChar (CSHJUNKIEQUOTES : Bool) (c : Nat) : List Nat :=
  (if c = 39 then [39] else if c = 10 ∧ CSHJUNKIEQUOTES = true then [92] else []) ++ [c]

/-- The loop of the rc-style branch of `quotedzputs`. -/
def quotedzputsRc (K : ZshH) (CSHJUNKIEQUOTES : Bool) : List Nat → List Nat
  | [] => []
  | c :: s =>
    if c = 0 then []
    else if c = K.Meta then
      match s with
      | [] => quotedzputsRcChar CSHJUNKIEQUOTES (0 ^^^ 32)
      | y :: s1 => quotedzputsRcChar CSHJUNKIEQUOTES (y ^^^ 32) ++ quotedzputsRc K CSHJUNKIEQUOTES s1
    else quotedzputsRcChar CSHJUNKIEQUOTES c ++ quotedzputsRc K CSHJUNKIEQUOTES s

/-- What the Bourne-style loop of `quotedzputs` writes for one decoded byte `c`
when the flag `inquote` has the value given. Afterwards `inquote` is set exactly
when `c` is not a quote. -/
def quotedzputsBourneChar (CSHJUNKIEQUOTES : Bool) (inquote : Bool) (c : Nat) : List Nat :=
  if c = 39 then (if inquote = true then [39] else []) ++ [92, 39]
  else
    (if inquote = true then [] else [39]) ++
      (if c = 10 ∧ CSHJUNKIEQUOTES = true then [92] else []) ++ [c]

/-- The loop of the Bourne-style branch of `quotedzputs` and the closing quote
written after it, with the flag `inquote` as first argument. -/
def quotedzputsBourne (K : ZshH) (CSHJUNKIEQUOTES : Bool) : Bool → List Nat → List Nat
  | inquote, [] => if inquote = true then [39] else []
  | inquote, c :: s =>
    if c = 0 then (if inquote = true then [39] else [])
    else if c = K.Meta then
      match s with
      | [] => quotedzputsBourneChar CSHJUNKIEQUOTES inquote (0 ^^^ 32) ++
          (if (0 ^^^ 32 : Nat) = 39 then [] else [39])
      | y :: s1 =>
        quotedzputsBourneChar CSHJUNKIEQUOTES inquote (y ^^^ 32) ++
          quotedzputsBourne K CSHJUNKIEQUOTES (decide (y ^^^ 32 ≠ 39)) s1
    else
      quotedzputsBourneChar CSHJUNKIEQUOTES inquote c ++
        quotedzputsBourne K CSHJUNKIEQUOTES (decide (c ≠ 39)) s

/-- The function `quotedzputs(s, stream)`: the bytes it writes to `stream`, for a
stream that accepts every byte. The options `RCQUOTES` and `CSHJUNKIEQUOTES` are
parameters. -/
def quotedzputs (K : ZshH) (ispecial : Nat → Bool) (RCQUOTES CSHJUNKIEQUOTES : Bool)
    (s : List Nat) : List Nat :=
  if s.headD 0 = 0 then [39, 39]
  else if hasspecial K ispecial s = false then zputs K s
  else if RCQUOTES = true then [39] ++ quotedzputsRc K CSHJUNKIEQUOTES s ++ [39]
  else quotedzputsBourne K CSHJUNKIEQUOTES false s

/-- The states of a reader of shell text: outside quotes, after a backslash
outside quotes, inside single quotes, and inside single quotes just after a
quote that may be the first of a doubled one. -/
inductive ShState where
  | out
  | esc
  | inq
  | inqq
deriving Repr, DecidableEq

/-- Reading text by the shell's single-quote rules, written from the
specification: inside quotes every byte is literal, except that with `RCQUOTES`
a doubled quote stands for one quote; outside quotes a backslash makes the next
byte literal. The result is `none` when the text ends inside quotes or after a
backslash. -/
def shParse (rc : Bool) : ShState → List Nat → Option (List Nat)
  | ShState.out, [] => some []
  | ShState.esc, [] => none
  | ShState.inq, [] => none
  | ShState.inqq, [] => some []
  | ShState.out, c :: r =>
    if c = 39 then shParse rc ShState.inq r
    else if c = 92 then shParse rc ShState.esc r
    else (shParse rc ShState.out r).map (fun l => c :: l)
  | ShState.esc, c :: r => (shParse rc ShState.out r).map (fun l => c :: l)
  | ShState.inq, c :: r =>
    if c = 39 then (if rc = true then shParse rc ShState.inqq r else shParse rc ShState.out r)
    else (shParse rc ShState.inq r).map (fun l => c :: l)
  | ShState.inqq, c :: r =>
    if c = 39 then (shParse rc ShState.inq r).map (fun l => 39 :: l)
    else if c = 92 then shParse rc ShState.esc r
    else (shParse rc ShState.out r).map (fun l => c :: l)

/-- The maximal runs of bytes other than the single quote, in order: the pieces
between the quotes of `x`. -/
def quoteRuns : List Nat → List (List Nat)
  | [] => [[]]
  | c :: x =>
    if c = 39 then [] :: quoteRuns x
    else
      match quoteRuns x with
      | [] => [[c]]
      | r :: rs => (c :: r) :: rs

/-- A run written as one quoted segment, written from the specification: nothing
for an empty run, otherwise an opening quote, the bytes of the run (a newline
preceded by a backslash under `CSHJUNKIEQUOTES`) and a closing quote. -/
def bourneSegment (csh : Bool) (r : List Nat) : List Nat :=
  if r = [] then []
  else [39] ++ r.flatMap (fun c => if c = 10 ∧ csh = true then [92, 10] else [c]) ++ [39]

/-- The shape of Bourne-style output, written from the specification: outside
quotes there is nothing but opening quotes and backslash-quote pairs, an
opening quote is followed by at least one byte before its closing quote, and
the text ends outside quotes. The states are: outside, after a backslash,
just after an opening quote, inside a segment that has a byte. -/
def bourneShape : Nat → List Nat → Bool
  | 0, [] => true
  | _, [] => false
  | 0, c :: r => if c = 39 then bourneShape 2 r else if c = 92 then bourneShape 1 r else false
  | 1, c :: r => c == 39 && bourneShape 0 r
  | 2, c :: r => c != 39 && bourneShape 3 r
  | _, c :: r => if c = 39 then bourneShape 0 r else bourneShape 3 r

/-! ### Double quoting: `dquotedztrdup` -/

/-- What the loop of the `CSHJUNKIEQUOTES` branch of `dquotedztrdup` stores for
one decoded byte `c` when the flag `inquote` has the value given. Afterwards
`inquote` is set exactly when `c` is none of `"`, `$` and the backquote. -/
def dquotedToggleChar (inquote : Bool) (c : Nat) : List Nat :=
  if c = 34 ∨ c = 36 ∨ c = 96 then (if inquote = true then [34] else []) ++ [92, c]
  else (if inquote = true then [] else [34]) ++ (if c = 10 then [92] else []) ++ [c]

/-- The loop of the `CSHJUNKIEQUOTES` branch of `dquotedztrdup` and the closing
quote stored after it, with the flag `inquote` as first argument:
`while(*s) { int c = *s++; if (c == Meta) c = *s++ ^ 32; switch(c) ... }`. -/
def dquotedToggle (K : ZshH) : Bool → List Nat → List Nat
  | inquote, [] => if inquote = true then [34] else []
  | inquote, c :: s =>
    if c = 0 then (if inquote = true then [34] else [])
    else if c = K.Meta then
      match s with
      | [] => dquotedToggleChar inquote (0 ^^^ 32) ++ [34]
      | y :: s1 =>
        dquotedToggleChar inquote (y ^^^ 32) ++
          dquotedToggle K (decide (¬ (y ^^^ 32 = 34 ∨ y ^^^ 32 = 36 ∨ y ^^^ 32 = 96))) s1
    else
      dquotedToggleChar inquote c ++
        dquotedToggle K (decide (¬ (c = 34 ∨ c = 36 ∨ c = 96))) s

/-- What the loop of the other branch of `dquotedztrdup` stores for one decoded
byte `c` when the flag `pending` has the value given. Afterwards `pending` is
set exactly when `c` is a backslash. -/
def dquotedContigChar (pending : Bool) (c : Nat) : List Nat :=
  if c = 92 then (if pending = true then [92] else []) ++ [92]
  else if c = 34 ∨ c = 36 ∨ c = 96 then (if pending = true then [92] else []) ++ [92, c]
  else [c]

/-- The loop of the branch of `dquotedztrdup` without `CSHJUNKIEQUOTES`, with
what is stored after it (`if(pending) *p++ = '\\'; *p++ = '"';`), with the flag
`pending` as first argument. -/
def dquotedContig (K : ZshH) : Bool → List Nat → List Nat
  | pending, [] => (if pending = true then [92] else []) ++ [34]
  | pending, c :: s =>
    if c = 0 then (if pending = true then [92] else []) ++ [34]
    else if c = K.Meta then
      match s with
      | [] => dquotedContigChar pending (0 ^^^ 32) ++ [34]
      | y :: s1 =>
        dquotedContigChar pending (y ^^^ 32) ++ dquotedContig K (decide (y ^^^ 32 = 92)) s1
    else dquotedContigChar pending c ++ dquotedContig K (decide (c = 92)) s

/-- The bytes `dquotedztrdup` stores in its scratch buffer `buf`, below `p`. -/
def dquotedztrdupBuf (K : ZshH) (CSHJUNKIEQUOTES : Bool) (s : List Nat) : List Nat :=
  if CSHJUNKIEQUOTES = true then dquotedToggle K false s
  else [34] ++ dquotedContig K false s

/-- The function `dquotedztrdup(s)`: the area it returns. The buffer `buf` of
`strlen(s) * 4 + 2` bytes comes from the allocator; the result is
`metafy(buf, p - buf, META_DUP)`. -/
def dquotedztrdup (K : ZshH) (CSHJUNKIEQUOTES : Bool) (fresh : Nat → Nat) (s : List Nat) :
    List Nat :=
  let written := dquotedztrdupBuf K CSHJUNKIEQUOTES s
  let buf := written ++ (List.range (strlen s * 4 + 2 - written.length)).map fresh
  metafy K fresh buf (written.length : Int) MetaHeap.META_DUP

/-- The interior of a contiguous double-quoted text, written from the
specification: a double quote, a dollar and a backquote are preceded by a
backslash; a backslash is doubled when the next byte is a backslash or one of
those three, or when it is the last byte, and stands alone otherwise; every
other byte is itself. -/
def dqRef : List Nat → List Nat
  | [] => []
  | c :: x =>
    (if c = 92 then
        (match x with
          | [] => [92, 92]
          | d :: _ => if d = 92 ∨ d = 34 ∨ d = 36 ∨ d = 96 then [92, 92] else [92])
      else if c = 34 ∨ c = 36 ∨ c = 96 then [92, c]
      else [c]) ++ dqRef x

/-- Reading the interior of a double-quoted text, written from the
specification: a backslash followed by a backslash, a double quote, a dollar or
a backquote stands for that byte, any other backslash is literal, and a double
quote without a backslash before it is not allowed (`none`). The first argument
tells that the byte before was a backslash still to be accounted for. -/
def dqParse : Bool → List Nat → Option (List Nat)
  | false, [] => some []
  | true, [] => some [92]
  | false, c :: r =>
    if c = 92 then dqParse true r
    else if c = 34 then none
    else (dqParse false r).map (fun l => c :: l)
  | true, c :: r =>
    if c = 92 ∨ c = 34 ∨ c = 36 ∨ c = 96 then (dqParse false r).map (fun l => c :: l)
    else (dqParse false r).map (fun l => 92 :: c :: l)

/-- The pieces of a byte sequence for the toggle mode: the run of ordinary bytes
before the first of `"`, `$` and backquote, and then each such byte with the run
of ordinary bytes that follows it. -/
def dqRuns : List Nat → List Nat × List (Nat × List Nat)
  | [] => ([], [])
  | c :: x =>
    if c = 34 ∨ c = 36 ∨ c = 96 then ([], (c, (dqRuns x).1) :: (dqRuns x).2)
    else (c :: (dqRuns x).1, (dqRuns x).2)

/-- A run written as one double-quoted segment, written from the
specification: nothing for an empty run, otherwise an opening double quote, the
bytes of the run with a backslash before each newline, and a closing double
quote. -/
def dqSegment (r : List Nat) : List Nat :=
  if r = [] then []
  else [34] ++ r.flatMap (fun c => if c = 10 then [92, 10] else [c]) ++ [34]

/-- The shape of toggle-mode output, written from the specification: outside
double quotes there is nothing but opening quotes and a backslash followed by
one of `"`, `$` and backquote; an opening quote is followed by at least one byte
before its closing quote; the text ends outside quotes. The states are:
outside, after a backslash, just after an opening quote, inside a segment that
has a byte. -/
def dqShape : Nat → List Nat → Bool
  | 0, [] => true
  | _, [] => false
  | 0, c :: r => if c = 34 then dqShape 2 r else if c = 92 then dqShape 1 r else false
  | 1, c :: r => (c == 34 || c == 36 || c == 96) && dqShape 0 r
  | 2, c :: r => c != 34 && dqShape 3 r
  | _, c :: r => if c = 34 then dqShape 0 r else dqShape 3 r

/-! ### Escape sequences: `zstrtol` and `getkeystring` -/

/-- The macro `idigit(c)`: `inittyptab` sets `IDIGIT` for `'0'` to `'9'` only. -/
def idigit (c : Nat) : Bool := decide (48 ≤ c) && decide (c ≤ 57)

/-- The macro `inblank(c)`: `inittyptab` sets `INBLANK` for the space, the tab
and the newline only. -/
def inblank (c : Nat) : Bool := c == 32 || c == 9 || c == 10

/-- The digit loops of `zstrtol`, started with the value `ret`: the value after
the last digit and the number of bytes stepped over. A byte beyond the end of
the list reads as NUL, which is no digit. The type `long` is taken without
overflow. -/
def zstrtolDigits (base : Nat) : List Nat → Int → Int × Nat
  | [], ret => (ret, 0)
  | c :: s, ret =>
    if base ≤ 10 then
      if 48 ≤ c ∧ c < 48 + base then
        ((zstrtolDigits base s (ret * (base : Int) + (c : Int) - 48)).1,
          (zstrtolDigits base s (ret * (base : Int) + (c : Int) - 48)).2 + 1)
      else (ret, 0)
    else
      if idigit c = true ∨ (97 ≤ c ∧ c < 97 + base - 10) ∨ (65 ≤ c ∧ c < 65 + base - 10) then
        ((zstrtolDigits base s (ret * (base : Int) +
            (if idigit c = true then (c : Int) - 48 else ((c &&& 0x1f : Nat) : Int) + 9))).1,
          (zstrtolDigits base s (ret * (base : Int) +
            (if idigit c = true then (c : Int) - 48 else ((c &&& 0x1f : Nat) : Int) + 9))).2 + 1)
      else (ret, 0)

/-- The function `zstrtol(s, &t, base)`: the value returned, and how many bytes
after `s` the pointer stored in `t` lies. -/
def zstrtol (s : List Nat) (base : Nat) : Int × Nat :=
  let nb := (s.takeWhile inblank).length
  let s1 := s.drop nb
  let neg := decide (s1.headD 0 = 45)
  let ns := if s1.headD 0 = 45 ∨ s1.headD 0 = 43 then 1 else 0
  let s2 := s1.drop ns
  let base1 := if base = 0 then
      (if s2.headD 0 ≠ 48 then 10 else if s2.getD 1 0 = 120 ∨ s2.getD 1 0 = 88 then 16 else 8)
    else base
  let nz := if base = 0 then
      (if s2.headD 0 ≠ 48 then 0 else if s2.getD 1 0 = 120 ∨ s2.getD 1 0 = 88 then 2 else 1)
    else 0
  let r := zstrtolDigits base1 (s2.drop nz) 0
  (if neg = true then - r.1 else r.1, nb + ns + nz + r.2)

/-- The local variables of `getkeystring` that live across the iterations of
its loop: `out` holds the bytes stored so far, from `buf` up to `t`, and `misc`
is the cell that the argument `misc` points to. -/
structure GksState where
  /-- The bytes from `buf` up to `t`. -/
  out : List Nat
  /-- The variable `meta`. -/
  meta : Nat
  /-- The variable `control`. -/
  control : Nat
  /-- The cell `*misc`. -/
  misc : Nat
deriving Repr, DecidableEq

/-- How one iteration of the loop of `getkeystring` ends: `brk k st` leaves the
`switch` or the chain of `if`s, so that the statements applying the pending
prefixes run; `cont k st` is `continue`; in both, `k + 1` is the number of bytes
by which `s` has advanced when the next iteration starts. `snull` is the branch
that finds `Snull`. -/
inductive GksStep where
  | brk (k : Nat) (st : GksState)
  | cont (k : Nat) (st : GksState)
  | snull
deriving Repr, DecidableEq

/-- An update `t[-1] = f(t[-1])` of the last byte stored. With nothing stored
yet the byte lies before the buffer; then the model changes nothing. -/
def gksModLast (f : Nat → Nat) (out : List Nat) : List Nat :=
  if out = [] then [] else out.dropLast ++ [f (out.getLastD 0)]

/-- The statements after the `if` chain in the loop of `getkeystring`:
`if (meta == 2) ...; if (control) ...; if (meta) ...;
if (fromwhere == 4 && imeta(t[-1])) ...`. -/
def gksPost (K : ZshH) (fromwhere : Nat) (st : GksState) : GksState :=
  let o1 := if st.meta = 2 then gksModLast (fun b => b ||| 0x80) st.out else st.out
  let m1 := if st.meta = 2 then 0 else st.meta
  let o2 := if st.control ≠ 0 then
      gksModLast (fun b => if b = 63 then 0x7f else b &&& 0x9f) o1 else o1
  let o3 := if m1 ≠ 0 then gksModLast (fun b => b ||| 0x80) o2 else o2
  let o4 := if fromwhere = 4 ∧ imeta K (o3.getLastD 0) = true then
      o3.dropLast ++ [K.Meta, o3.getLastD 0 ^^^ 32] else o3
  { st with out := o4, meta := 0, control := 0 }

/-- The `default:` label of the `switch (*++s)` of `getkeystring`, which `\c`
falls into when `fromwhere` is 2 or more; `r` holds the bytes from the one after
the backslash on. A numeric escape is handed to `zstrtol` cut after three bytes
when `s[1]`, `s[2]` and `s[3]` are all set (`s[3] = '\0'`), and the value is
stored as one byte. -/
def gksDefault (fromwhere : Nat) (r : List Nat) (st : GksState) : GksStep :=
  let e := r.headD 0
  let put := fun (b : Nat) => { st with out := st.out ++ [b] }
  if (idigit e = true ∧ e < 56) ∨ e = 120 then
    if fromwhere = 0 ∧ e ≠ 48 ∧ e ≠ 120 then GksStep.cont 0 (put 92)
    else
      let d := if fromwhere = 0 ∧ e = 48 then 1 else 0
      let q := r.drop d
      let num := if q.getD 1 0 ≠ 0 ∧ q.getD 2 0 ≠ 0 ∧ q.getD 3 0 ≠ 0 then q.take 3 else q
      let x := if q.headD 0 = 120 then 1 else 0
      let z := zstrtol (num.drop x) (if q.headD 0 = 120 then 16 else 8)
      GksStep.brk (d + x + z.2) (put (z.1 % 256).toNat)
  else if fromwhere = 0 ∧ e ≠ 92 then
    GksStep.brk 1 { st with out := st.out ++ [92, e] }
  else GksStep.brk 1 (put e)

/-- The `switch (*++s)` of `getkeystring`; `r` holds the bytes from the one
after the backslash on. -/
def gksEscape (K : ZshH) (fromwhere : Nat) (r : List Nat) (st : GksState) : GksStep :=
  let e := r.headD 0
  let put := fun (b : Nat) => { st with out := st.out ++ [b] }
  if e = 97 then GksStep.brk 1 (put 7)
  else if e = 110 then GksStep.brk 1 (put 10)
  else if e = 98 then GksStep.brk 1 (put 8)
  else if e = 116 then GksStep.brk 1 (put 9)
  else if e = 118 then GksStep.brk 1 (put 11)
  else if e = 102 then GksStep.brk 1 (put 12)
  else if e = 114 then GksStep.brk 1 (put 13)
  else if e = 69 ∧ fromwhere = 0 then GksStep.cont 0 (put 92)
  else if e = 69 ∨ e = 101 then GksStep.brk 1 (put 27)
  else if e = 77 then
    if fromwhere ≠ 0 then
      GksStep.cont (if r.getD 1 0 = 45 then 2 else 1) { st with meta := 1 + st.control }
    else GksStep.cont 0 (put 92)
  else if e = 67 then
    if fromwhere ≠ 0 then
      GksStep.cont (if r.getD 1 0 = 45 then 2 else 1) { st with control := 1 }
    else GksStep.cont 0 (put 92)
  else if e = K.Meta then GksStep.brk 0 (put 92)
  else if e = 99 ∧ fromwhere < 2 then GksStep.brk 1 { st with misc := 1 }
  else gksDefault fromwhere r st

/-- One iteration of the loop of `getkeystring`, up to the end of the chain of
`if`s, with the bytes from `s` on in `w`; `*s` is not NUL. -/
def gksStep (K : ZshH) (Snull : Nat) (fromwhere : Nat) (w : List Nat) (st : GksState) :
    GksStep :=
  let c := w.headD 0
  if c = 92 ∧ w.getD 1 0 ≠ 0 then gksEscape K fromwhere (w.drop 1) st
  else if fromwhere = 4 ∧ c = Snull then GksStep.snull
  else if c = 94 ∧ fromwhere = 2 then GksStep.cont 0 { st with control := 1 }
  else if c = K.Meta then GksStep.brk 1 { st with out := st.out ++ [w.getD 1 0 ^^^ 32] }
  else GksStep.brk 0 { st with out := st.out ++ [c] }

/-- What `getkeystring` hands back. `returned buf len misc` is the end of the
loop: `buf` holds the bytes stored and the NUL after them, `*len` is their
number. `sentinel out rest misc` is the branch for `Snull` with `fromwhere` 4:
the area then holds `out`, `Snull`, the string `rest` that followed it and a
NUL, the pointer returned points to `rest`, and `*len` is not assigned.
`overrun` stands for a run with `fromwhere` 4 in which `t` has passed `s`, so
that bytes not yet read would be overwritten; such a run is not followed
further. -/
inductive GksResult where
  | returned (buf : List Nat) (len : Nat) (misc : Nat)
  | sentinel (out : List Nat) (rest : List Nat) (misc : Nat)
  | overrun
deriving Repr, DecidableEq

/-- The rest of an iteration after `gksStep`: after `break` the statements that
apply the pending prefixes run, after `continue` they do not. The result is the
advance of `s` and the new state, or `none` in the branch for `Snull`. -/
def gksFinish (K : ZshH) (fromwhere : Nat) : GksStep → Option (Nat × GksState)
  | GksStep.brk k st => some (k, gksPost K fromwhere st)
  | GksStep.cont k st => some (k, st)
  | GksStep.snull => none

/-- The loop of `getkeystring`. The list holds the bytes from `s` on (a byte
beyond it reads as NUL); the first `skip` of them have been read by the
iteration before and are stepped over; `lead` is `s - t` when `fromwhere` is 4,
where both pointers run through the same area, and is not used otherwise. -/
def gksLoop (K : ZshH) (Snull : Nat) (fromwhere : Nat) :
    List Nat → Nat → Nat → GksState → GksResult
  | [], _, _, st => GksResult.returned (st.out ++ [0]) st.out.length st.misc
  | _ :: w, skip + 1, lead, st => gksLoop K Snull fromwhere w skip lead st
  | c :: w, 0, lead, st =>
    if c = 0 then GksResult.returned (st.out ++ [0]) st.out.length st.misc
    else
      match gksFinish K fromwhere (gksStep K Snull fromwhere (c :: w) st) with
      | none => GksResult.sentinel st.out (cstr w) st.misc
      | some (k, st1) =>
        if fromwhere = 4 then
          if lead + (k + 1) < st1.out.length - st.out.length then GksResult.overrun
          else gksLoop K Snull fromwhere w k
            (lead + (k + 1) - (st1.out.length - st.out.length)) st1
        else gksLoop K Snull fromwhere w k lead st1

/-- The function `getkeystring(s, &len, fromwhere, &misc)`, with the value of
`*misc` before the call as last argument. For `fromwhere` other than 4 the
bytes are stored in a buffer of `strlen(s) + 1` bytes from `halloc`; the model
keeps the bytes stored and does not bound them by the size of that buffer. For
4 they are stored in the area of `s` itself, from its start, while reading
starts two bytes further on. -/
def getkeystring (K : ZshH) (Snull : Nat) (s : List Nat) (fromwhere : Nat) (misc : Nat) :
    GksResult :=
  if fromwhere ≠ 4 then gksLoop K Snull fromwhere s 0 0 ⟨[], 0, 0, misc⟩
  else gksLoop K Snull fromwhere (s.drop 2) 0 2 ⟨[], 0, 0, misc⟩

/-- The value of `Snull` in the zsh 3.1 header. -/
def zsh_Snull : Nat := 0x98

/-- The named escapes with the byte each stands for, written from the
specification: `\a \b \f \n \r \t \v \e`. -/
def namedEscapes : List (Nat × Nat) :=
  [(97, 0x07), (98, 0x08), (102, 0x0C), (110, 0x0A), (114, 0x0D), (116, 0x09), (118, 0x0B),
    (101, 0x1B)]

/-- The number that a run of octal digits denotes, written from the
specification. -/
def octalValue (ds : List Nat) : Nat := ds.foldl (fun v d => v * 8 + (d - 48)) 0

/-- A state with `*misc` set to `m`. -/
def GksState.setMisc (m : Nat) (st : GksState) : GksState := { st with misc := m }

/-- A result with `*misc` set to `m` and all else as it is. -/
def GksResult.setMisc (m : Nat) : GksResult → GksResult
  | GksResult.returned buf len _ => GksResult.returned buf len m
  | GksResult.sentinel out rest _ => GksResult.sentinel out rest m
  | GksResult.overrun => GksResult.overrun

/-- The number of leading bytes of `r` that agree with the bytes of `x` after
`f` has been applied to them; a helper for stating what the loops of
`metadiffer` do on a string without `Meta`. -/
def commonLen (f : Nat → Nat) : List Nat → List Nat → Nat
  | a :: x, c :: r => if c = f a then commonLen f x r + 1 else 0
  | _, _ => 0

/-- The variables of the loop of `metafy` at one test of `while (meta)`: the
indices `p` and `t`, the counter `meta` and the buffer. -/
structure MetafyCursor where
  /-- The read pointer `p`, as an index. -/
  p : Nat
  /-- The write pointer `t`, as an index. -/
  t : Nat
  /-- The number of pairs still to be made, `meta`. -/
  meta : Nat
  /-- The buffer. -/
  buf : List Nat
deriving Repr, DecidableEq

/-- The run of the loop of `metafy`: the values of `p`, `t`, `meta` and the
buffer at every test of `while (meta)`, in order. It follows `metafyLoop` round
by round; the buffer of the last entry is the result of `metafyLoop`. -/
def metafyStates (K : ZshH) : Nat → Nat → Nat → List Nat → List MetafyCursor
  | p, t, 0, buf => [⟨p, t, 0, buf⟩]
  | 0, t, meta + 1, buf => [⟨0, t, meta + 1, buf⟩]
  | p + 1, t, meta + 1, buf =>
    let c := buf.getD p 0
    let buf1 := buf.set (t - 1) c
    ⟨p + 1, t, meta + 1, buf⟩ ::
      (if imeta K c then
        metafyStates K p (t - 2) meta ((buf1.set (t - 1) (c ^^^ 32)).set (t - 2) K.Meta)
      else
        metafyStates K p (t - 1) (meta + 1) buf1)

/-- What one iteration of the loop of `getkeystring` reads: either an encoded
pair, or `k + 1` bytes none of which is NUL or `Meta`. A helper for stating
what all branches of the loop have in common. -/
def gksConsumed (K : ZshH) (w : List Nat) (k : Nat) : Prop :=
  (w.headD 0 = K.Meta ∧ k = 1) ∨ ∀ i, i ≤ k → w.getD i 0 ≠ 0 ∧ w.getD i 0 ≠ K.Meta

/-- What all branches of one iteration of the loop of `getkeystring` have in
common, as a property of the outcome of `gksStep` on the bytes `w` in the state
`st`: the branch for `Snull` is taken only with `fromwhere` 4 and on `Snull`;
a branch that ends in `break` leaves the prefix flags alone and stores at most
two bytes, not more than it reads, exactly one when `fromwhere` is 2 or more,
and the byte read when it reads one byte only; a branch that ends in `continue`
stores a byte only when `fromwhere` is 0, and with `fromwhere` 4 it reads at
least two bytes. -/
def gksShape (K : ZshH) (Snull fromwhere : Nat) (w : List Nat) (st : GksState) :
    GksStep → Prop
  | GksStep.snull => fromwhere = 4 ∧ w.headD 0 = Snull
  | GksStep.brk k st1 =>
    st1.meta = st.meta ∧ st1.control = st.control ∧ gksConsumed K w k ∧
      ∃ o, st1.out = st.out ++ o ∧ o.length ≤ k + 1 ∧ o.length ≤ 2 ∧
        (2 ≤ fromwhere → o.length = 1) ∧ (fromwhere ≠ 0 → o.length ≤ 1) ∧
        (k = 0 → o = [w.headD 0])
  | GksStep.cont k st1 =>
    gksConsumed K w k ∧
      ∃ o, st1.out = st.out ++ o ∧ o.length ≤ k + 1 ∧ (fromwhere ≠ 0 → o = []) ∧
        (fromwhere = 4 → 1 ≤ k)

/-- The byte in `t[-1]` after the three modifier statements at the end of the
loop body (`if (meta == 2)`, `if (control)`, `if (meta)`) and before the
re-encoding statement `if (fromwhere == 4 && imeta(t[-1]))`. -/
def gksModified (st : GksState) : Nat :=
  let b := st.out.getLastD 0
  let b1 := if st.meta = 2 then b ||| 0x80 else b
  let m1 := if st.meta = 2 then 0 else st.meta
  let b2 := if st.control ≠ 0 then (if b1 = 63 then 0x7f else b1 &&& 0x9f) else b1
  if m1 ≠ 0 then b2 ||| 0x80 else b2

/-- The parsed bytes of a `$'...'` run (`fromwhere == 4`): the value of `t[-1]`
that each iteration ending in `break` hands to the re-encoding statement, in
order, up to the `Snull` branch or the terminating NUL. The recursion is the
one of `gksLoop`. -/
def gksParsed (K : ZshH) (Snull : Nat) : List Nat → Nat → GksState → List Nat
  | [], _, _ => []
  | _ :: w, skip + 1, st => gksParsed K Snull w skip st
  | c :: w, 0, st =>
    if c = 0 then []
    else
      match gksStep K Snull 4 (c :: w) st with
      | GksStep.brk k st1 => gksModified st1 :: gksParsed K Snull w k (gksPost K 4 st1)
      | GksStep.cont k st1 => gksParsed K Snull w k st1
      | GksStep.snull => []

/-- The offsets, counted from the character after the backslash, of the bytes
that the test `if (s[1] && s[2] && s[3])` of the numeric escapes reads; `&&`
stops at the first NUL. In the echo context `\0` has moved `s` one byte on
before the test. No byte is read when the escape is not numeric or is left
to the caller. -/
def gksLookahead (fromwhere : Nat) (r : List Nat) : List Nat :=
  let e := r.headD 0
  if (idigit e = true ∧ e < 56) ∨ e = 120 then
    if fromwhere = 0 ∧ e ≠ 48 ∧ e ≠ 120 then []
    else
      let d := if fromwhere = 0 ∧ e = 48 then 1 else 0
      let q := r.drop d
      if q.getD 1 0 = 0 then [d + 1]
      else if q.getD 2 0 = 0 then [d + 1, d + 2]
      else [d + 1, d + 2, d + 3]
  else []

/-- The offset, counted from the character after the backslash, of the byte
that the numeric escapes replace by NUL while `zstrtol` runs (`s[3] = '\0'`,
put back afterwards), if the test `if (s[1] && s[2] && s[3])` succeeds. -/
def gksCapped (fromwhere : Nat) (r : List Nat) : Option Nat :=
  let e := r.headD 0
  if (idigit e = true ∧ e < 56) ∨ e = 120 then
    if fromwhere = 0 ∧ e ≠ 48 ∧ e ≠ 120 then none
    else
      let d := if fromwhere = 0 ∧ e = 48 then 1 else 0
      let q := r.drop d
      if q.getD 1 0 ≠ 0 ∧ q.getD 2 0 ≠ 0 ∧ q.getD 3 0 ≠ 0 then some (d + 3) else none
  else none

/-! ### The classification table

`inittyptab` fills the table `typtab[256]`. The flag constants `IDIGIT` ..
`IWSEP`, the macro `inblank`, the strings `DEFAULT_IFS`, `DEFAULT_WORDCHARS`
and `SPECCHARS`, and the variables `ifs`, `wordchars`, `bangchar`, `interact`
and the options are declared outside `utils.c` and are parameters. -/

/-- The flag constants of the table. -/
structure ZTypes where
  /-- Flag `IDIGIT`. -/
  IDIGIT : Nat
  /-- Flag `IALNUM`. -/
  IALNUM : Nat
  /-- Flag `IBLANK`. -/
  IBLANK : Nat
  /-- Flag `INBLANK`. -/
  INBLANK : Nat
  /-- Flag `ITOK`. -/
  ITOK : Nat
  /-- Flag `ISEP`. -/
  ISEP : Nat
  /-- Flag `IALPHA`. -/
  IALPHA : Nat
  /-- Flag `IIDENT`. -/
  IIDENT : Nat
  /-- Flag `IUSER`. -/
  IUSER : Nat
  /-- Flag `ICNTRL`. -/
  ICNTRL : Nat
  /-- Flag `IWORD`. -/
  IWORD : Nat
  /-- Flag `ISPECIAL`. -/
  ISPECIAL : Nat
  /-- Flag `IMETA`. -/
  IMETA : Nat
  /-- Flag `IWSEP`. -/
  IWSEP : Nat

/-- The values the flags have in the zsh 3.1 header: `IDIGIT` is `1 << 0`, and
so on in the order of the fields up to `IWSEP`, which is `1 << 13`. -/
def zsh_ztypes : ZTypes :=
  { IDIGIT := 1, IALNUM := 2, IBLANK := 4, INBLANK := 8, ITOK := 16, ISEP := 32, IALPHA := 64,
    IIDENT := 128, IUSER := 256, ICNTRL := 512, IWORD := 1024, ISPECIAL := 2048, IMETA := 4096,
    IWSEP := 8192 }

/-- The flags `IMETA` and `ITOK` are not empty and share no bit with each
other or with any of the twelve other flags. -/
def ZTypes.separate (F : ZTypes) : Prop :=
  F.IMETA ≠ 0 ∧ F.ITOK ≠ 0 ∧ F.IMETA &&& F.ITOK = 0 ∧
    ∀ f ∈ [F.IDIGIT, F.IALNUM, F.IBLANK, F.INBLANK, F.ISEP, F.IALPHA, F.IIDENT, F.IUSER,
        F.ICNTRL, F.IWORD, F.ISPECIAL, F.IWSEP],
      f &&& F.IMETA = 0 ∧ f &&& F.ITOK = 0

instance (F : ZTypes) : Decidable F.separate := by
  unfold ZTypes.separate
  infer_instance

/-- What `inittyptab` reads besides the constants: the variables `ifs` and
`wordchars` (`none` for a null pointer, else the bytes from the pointer on),
the strings `DEFAULT_IFS`, `DEFAULT_WORDCHARS` and `SPECCHARS`, the variable
`bangchar`, and `isset(BANGHIST)`, `interact` and `isset(SHINSTDIN)`. -/
structure TypConfig where
  /-- Variable `ifs`. -/
  ifs : Option (List Nat)
  /-- Variable `wordchars`. -/
  wordchars : Option (List Nat)
  /-- String `DEFAULT_IFS`. -/
  DEFAULT_IFS : List Nat
  /-- String `DEFAULT_WORDCHARS`. -/
  DEFAULT_WORDCHARS : List Nat
  /-- String `SPECCHARS`. -/
  SPECCHARS : List Nat
  /-- Variable `bangchar`. -/
  bangchar : Nat
  /-- Option `BANGHIST`. -/
  BANGHIST : Bool
  /-- Variable `interact`. -/
  interact : Bool
  /-- Option `SHINSTDIN`. -/
  SHINSTDIN : Bool

/-- The statement `typtab[i] |= f`. -/
def orAt (t : List Nat) (i f : Nat) : List Nat := t.set i (t.getD i 0 ||| f)

/-- The macro `inblank(c)` as the header defines it: the `INBLANK` bit of
`typtab[STOUC(c)]`. -/
def zsh_inblank (F : ZTypes) (t : List Nat) (c : Nat) : Bool :=
  t.getD (c % 256) 0 &&& F.INBLANK != 0

/-- The first part of `inittyptab`, up to `typtab['\n'] |= INBLANK`: the table
is cleared and the entries of the control characters, digits, letters, the
bytes 0240..0377, `_`, `-`, blank, tab and newline are set. -/
def typtabBase (F : ZTypes) (typtab : List Nat) : List Nat :=
  let al := F.IALPHA ||| F.IALNUM ||| F.IIDENT ||| F.IUSER ||| F.IWORD
  let t := (List.range 256).foldl (fun t t0 => t.set t0 0) typtab
  let t := (List.range 32).foldl (fun t t0 => (t.set (t0 + 128) F.ICNTRL).set t0 F.ICNTRL) t
  let t := t.set 127 F.ICNTRL
  let t := (List.range 10).foldl
    (fun t i => t.set (48 + i) (F.IDIGIT ||| F.IALNUM ||| F.IWORD ||| F.IIDENT ||| F.IUSER)) t
  let t := (List.range 26).foldl (fun t i => (t.set (97 + i - 97 + 65) al).set (97 + i) al) t
  let t := (List.range 96).foldl (fun t i => t.set (160 + i) al) t
  let t := t.set 95 (F.IIDENT ||| F.IUSER)
  let t := t.set 45 F.IUSER
  let t := orAt t 32 (F.IBLANK ||| F.INBLANK)
  let t := orAt t 9 (F.IBLANK ||| F.INBLANK)
  orAt t 10 F.INBLANK

/-- The second part of `inittyptab`: `IMETA` for NUL, `Meta` and `Marker`, and
`ITOK | IMETA` for every entry from `Pound` to `Nularg`. -/
def typtabMeta (F : ZTypes) (K : ZshH) (t : List Nat) : List Nat :=
  let t := orAt t 0 F.IMETA
  let t := orAt t (K.Meta % 256) F.IMETA
  let t := orAt t (K.Marker % 256) F.IMETA
  (List.range (K.Nularg % 256 + 1 - K.Pound % 256)).foldl
    (fun t i => orAt t (K.Pound % 256 + i) (F.ITOK ||| F.IMETA)) t

/-- The loop over the separators, `for (s = ifs ? ifs : DEFAULT_IFS; *s; s++)`.
The second argument counts the bytes the last iteration has stepped over
besides its first. -/
def typtabSep (F : ZTypes) (K : ZshH) (inblank : List Nat → Nat → Bool) :
    List Nat → Nat → List Nat → List Nat
  | [], _, t => t
  | _ :: s, skip + 1, t => typtabSep F K inblank s skip t
  | c :: s, 0, t =>
    if c = 0 then t
    else
      let d := if inblank t c = true ∧ s.headD 0 = c then 1 else 0
      let t1 := if inblank t c = true ∧ s.headD 0 ≠ c then orAt t (c % 256) F.IWSEP else t
      if c = K.Meta then
        typtabSep F K inblank s (d + 1) (orAt t1 (((s.drop d).headD 0 ^^^ 32) % 256) F.ISEP)
      else typtabSep F K inblank s d (orAt t1 (c % 256) F.ISEP)

/-- The loop over the word characters,
`for (s = wordchars ? wordchars : DEFAULT_WORDCHARS; *s; s++)`. -/
def typtabWord (F : ZTypes) (K : ZshH) : List Nat → Nat → List Nat → List Nat
  | [], _, t => t
  | _ :: s, skip + 1, t => typtabWord F K s skip t
  | c :: s, 0, t =>
    if c = 0 then t
    else if c = K.Meta then typtabWord F K s 1 (orAt t ((s.headD 0 ^^^ 32) % 256) F.IWORD)
    else typtabWord F K s 0 (orAt t (c % 256) F.IWORD)

/-- The function `inittyptab`; its last argument is the table it finds. -/
def inittyptab (F : ZTypes) (K : ZshH) (inblank : List Nat → Nat → Bool) (cfg : TypConfig)
    (typtab : List Nat) : List Nat :=
  let t := typtabMeta F K (typtabBase F typtab)
  let t := typtabSep F K inblank (cfg.ifs.getD cfg.DEFAULT_IFS) 0 t
  let t := typtabWord F K (cfg.wordchars.getD cfg.DEFAULT_WORDCHARS) 0 t
  let t := (cstr cfg.SPECCHARS).foldl (fun t c => orAt t (c % 256) F.ISPECIAL) t
  if cfg.BANGHIST = true ∧ cfg.bangchar ≠ 0 ∧ cfg.interact = true ∧ cfg.SHINSTDIN = true then
    orAt t cfg.bangchar F.ISPECIAL
  else t

/-- The strings of the zsh 3.1 header: `DEFAULT_IFS` is blank, tab, newline
and the encoded NUL; `DEFAULT_WORDCHARS` is `*?_-.[]~=/&;!#$%^(){}<>`;
`SPECCHARS` is the list of the characters special to the shell. The
variables are unset, `bangchar` is `!`, and the shell is interactive. -/
def zsh_typconfig : TypConfig :=
  { ifs := none, wordchars := none,
    DEFAULT_IFS := [32, 9, 10, 131, 32, 0],
    DEFAULT_WORDCHARS := [42, 63, 95, 45, 46, 91, 93, 126, 61, 47, 38, 59, 33, 35, 36, 37, 94,
      40, 41, 123, 125, 60, 62, 0],
    SPECCHARS := [35, 36, 94, 42, 40, 41, 61, 124, 123, 125, 91, 93, 96, 60, 62, 63, 126, 59,
      38, 10, 9, 32, 92, 39, 34, 0],
    bangchar := 33, BANGHIST := true, interact := true, SHINSTDIN := true }

/-- The table has 256 entries; its `IMETA` bit is set exactly at the entries
stated by `P` and its `ITOK` bit exactly at those stated by `Q`. -/
def typMarks (F : ZTypes) (t : List Nat) (P Q : Nat → Prop) : Prop :=
  t.length = 256 ∧
    ∀ b, b < 256 → (t.getD b 0 &&& F.IMETA ≠ 0 ↔ P b) ∧ (t.getD b 0 &&& F.ITOK ≠ 0 ↔ Q b)

/-! ## Theorems -/

/-! ### Lists as memory areas -/

theorem set_length_append (a : List Nat) (z c : Nat) (s : List Nat) :
    (a ++ z :: s).set a.length c = a ++ c :: s := by
  induction a with
  | nil => rfl
  | cons h t ih => simp [ih]

theorem getD_length_append (a : List Nat) (z d : Nat) (s : List Nat) :
    (a ++ z :: s).getD a.length d = z := by
  induction a with
  | nil => rfl
  | cons h t ih => simpa using ih

theorem exists_snoc (l : List Nat) (h : 0 < l.length) : ∃ a z, l = a ++ [z] := by
  rcases List.eq_nil_or_concat l with h0 | ⟨a, z, h1⟩
  · subst h0
    simp at h
  · exact ⟨a, z, by simpa using h1⟩

/-! ### The protection rule -/

theorem protect_append (K : ZshH) (a b : List Nat) :
    protect K (a ++ b) = protect K a ++ protect K b := by
  induction a with
  | nil => rfl
  | cons h t ih =>
    by_cases hm : imeta K h = true
    · simp [protect, hm, ih]
    · simp [protect, hm, ih]

theorem protect_of_countP_zero (K : ZshH) (a : List Nat) (h : a.countP (imeta K) = 0) :
    protect K a = a := by
  induction a with
  | nil => rfl
  | cons c t ih =>
    by_cases hm : imeta K c = true
    · rw [List.countP_cons_of_pos _ _ hm] at h
      omega
    · rw [List.countP_cons_of_neg _ _ hm] at h
      simp [protect, hm, ih h]

theorem length_protect (K : ZshH) (a : List Nat) :
    (protect K a).length = a.length + a.countP (imeta K) := by
  induction a with
  | nil => rfl
  | cons c t ih =>
    by_cases hm : imeta K c = true
    · simp [protect, hm, ih, List.countP_cons]
      omega
    · simp [protect, hm, ih, List.countP_cons]
      omega

theorem take_succ_getD (l : List Nat) (p : Nat) (h : p < l.length) :
    l.take (p + 1) = l.take p ++ [l.getD p 0] := by
  rw [List.take_succ]
  simp [List.getD, List.getElem?_eq_getElem h]

theorem set_length_snoc (a : List Nat) (z c : Nat) (s : List Nat) :
    (a ++ [z] ++ s).set a.length c = a ++ c :: s := by
  rw [List.append_assoc]
  exact set_length_append a z c s

/-- The loop of `metafy` on an area `blk ++ suf`, where the read pointer stands
at `p` and the write pointer at the end of `blk`: the bytes below `p` are
encoded into `blk`, and `suf` is not touched. -/
theorem metafyLoop_spec (K : ZshH) :
    ∀ (p meta : Nat) (blk suf : List Nat), blk.length = p + meta →
      meta = (blk.take p).countP (imeta K) →
      metafyLoop K p (p + meta) meta (blk ++ suf) = protect K (blk.take p) ++ suf := by
  intro p
  induction p with
  | zero =>
    intro meta blk suf hl hc
    simp at hc
    subst hc
    simp at hl
    simp [metafyLoop, hl, protect]
  | succ p ih =>
    intro meta blk suf hl hc
    cases meta with
    | zero =>
      have ht : blk.take (p + 1) = blk := List.take_of_length_le (by omega)
      rw [ht] at hc ⊢
      simp [metafyLoop, protect_of_countP_zero K blk hc.symm]
    | succ m =>
      obtain ⟨b1, z, hb1⟩ := exists_snoc blk (by omega)
      have hl1 : b1.length = p + 1 + m := by
        have := congrArg List.length hb1
        simp at this
        omega
      obtain ⟨b2, z2, hb2⟩ := exists_snoc b1 (by omega)
      have hl2 : b2.length = p + m := by
        have := congrArg List.length hb2
        simp at this
        omega
      have hget : (blk ++ suf).getD p 0 = b1.getD p 0 := by
        rw [hb1, List.append_assoc, List.getD_append _ _ _ _ (by omega)]
      have htk : blk.take (p + 1) = b1.take p ++ [b1.getD p 0] := by
        rw [hb1, List.take_append_of_le_length (by omega)]
        exact take_succ_getD b1 p (by omega)
      have htk2 : b1.take p = b2.take p := by
        rw [hb2, List.take_append_of_le_length (by omega)]
      have e1 : p + 1 + (m + 1) - 1 = b1.length := by omega
      have e2 : p + 1 + (m + 1) - 2 = b2.length := by omega
      have hset : ∀ v, (blk ++ suf).set b1.length v = b1 ++ v :: suf := by
        intro v
        have := set_length_snoc b1 z v suf
        rwa [← hb1] at this
      have hset2 : ∀ v w, (b1 ++ w :: suf).set b1.length v = b1 ++ v :: suf :=
        fun v w => set_length_append b1 w v suf
      have hset3 : ∀ v w, (b1 ++ w).set b2.length v = b2 ++ v :: w := by
        intro v w
        have := set_length_snoc b2 z2 v w
        rwa [← hb2] at this
      rw [htk] at hc ⊢
      rw [htk2] at hc ⊢
      rw [metafyLoop]
      simp only [hget, e1, e2, hset, hset2, hset3]
      generalize b1.getD p 0 = c at hc ⊢
      rw [List.countP_append] at hc
      by_cases hm : imeta K c = true
      · rw [List.countP_cons_of_pos _ _ hm] at hc
        simp only [hm, if_true]
        have e3 : b2.length = p + m := hl2
        rw [e3, ih m b2 _ hl2 (by simpa using hc), protect_append]
        simp [protect, hm]
      · rw [List.countP_cons_of_neg _ _ hm] at hc
        simp only [hm]
        have e3 : b1.length = p + (m + 1) := by omega
        have hbt : b1.take p = b2.take p := htk2
        rw [if_neg (by simp), e3, ih (m + 1) b1 _ (by omega) (by rw [hbt]; simpa using hc),
          hbt, protect_append]
        simp [protect, hm]

/-- The loop and the final `*e = '\0'` on any area that is long enough. -/
theorem metafy_area (K : ZshH) (n meta : Nat) (A : List Nat) (hA : n + meta + 1 ≤ A.length)
    (hc : meta = (A.take n).countP (imeta K)) :
    (metafyLoop K n (n + meta) meta A).set (n + meta) 0
      = protect K (A.take n) ++ 0 :: A.drop (n + meta + 1) := by
  have hsplit : A = A.take (n + meta) ++ A.drop (n + meta) := (List.take_append_drop _ _).symm
  have hl : (A.take (n + meta)).length = n + meta := by
    rw [List.length_take]
    omega
  have htt : (A.take (n + meta)).take n = A.take n := by
    rw [List.take_take]
    congr 1
    omega
  obtain ⟨z, hz⟩ : ∃ z, A.drop (n + meta) = z :: A.drop (n + meta + 1) := by
    have hlt : n + meta < A.length := by omega
    exact ⟨A[n + meta], by rw [List.drop_eq_getElem_cons hlt]⟩
  have hloop := metafyLoop_spec K n meta (A.take (n + meta)) (A.drop (n + meta)) hl
    (by rw [htt]; exact hc)
  rw [← hsplit, htt, hz] at hloop
  rw [hloop]
  have hlp : (protect K (A.take n)).length = n + meta := by
    rw [length_protect, ← hc, List.length_take]
    omega
  rw [← hlp]
  exact set_length_append _ _ _ _

/-- What `metafy` returns: the protected form of `x`, the terminator, and
whatever follows in the area. -/
theorem metafy_eq (K : ZshH) (fresh : Nat → Nat) (x rest : List Nat) (heap : MetaHeap)
    (h : metafyRoom K x rest heap) :
    ∃ tail, metafy K fresh (x ++ rest) (x.length : Int) heap = protect K x ++ 0 :: tail := by
  have hne : ¬ ((x.length : Int) = -1) := by omega
  have htake : (x ++ rest).take x.length = x := List.take_left' rfl
  unfold metafy
  simp only [hne, if_false, Int.toNat_ofNat, htake]
  by_cases hc : x.countP (imeta K) ≠ 0 ∨ heap = MetaHeap.META_DUP ∨ heap = MetaHeap.META_HEAPDUP
  · rw [if_pos hc]
    have key : ∀ A : List Nat, A.take x.length = x →
        x.length + x.countP (imeta K) + 1 ≤ A.length →
        ∃ tail, (metafyLoop K x.length (x.length + x.countP (imeta K))
          (x.countP (imeta K)) A).set (x.length + x.countP (imeta K)) 0
            = protect K x ++ 0 :: tail := by
      intro A hA hlen
      refine ⟨A.drop (x.length + x.countP (imeta K) + 1), ?_⟩
      have := metafy_area K x.length (x.countP (imeta K)) A hlen (by rw [hA])
      rw [hA] at this
      exact this
    have hfresh : ∀ A : List Nat, A.take x.length = x → A.length = x.length →
        ∃ tail, (metafyLoop K x.length (x.length + x.countP (imeta K)) (x.countP (imeta K))
          (A ++ (List.range (x.countP (imeta K) + 1)).map fresh)).set
            (x.length + x.countP (imeta K)) 0 = protect K x ++ 0 :: tail := by
      intro A hA hlen
      apply key
      · rw [List.take_append_of_le_length (by omega), hA]
      · simp
        omega
    cases heap with
    | META_NOALLOC =>
      apply key _ htake
      have := h (Or.inl rfl)
      simp
      omega
    | META_REALLOC =>
      apply key
      · rw [List.take_take, List.append_assoc, Nat.min_eq_left (by omega)]
        exact List.take_left' rfl
      · simp
        omega
    | META_HREALLOC => exact hfresh x (List.take_of_length_le (le_refl _)) rfl
    | META_USEHEAP => exact hfresh x (List.take_of_length_le (le_refl _)) rfl
    | META_STATIC => exact hfresh x (List.take_of_length_le (le_refl _)) rfl
    | META_ALLOC => exact hfresh x (List.take_of_length_le (le_refl _)) rfl
    | META_DUP => exact hfresh x (List.take_of_length_le (le_refl _)) rfl
    | META_HEAPDUP => exact hfresh x (List.take_of_length_le (le_refl _)) rfl
  · rw [if_neg hc]
    have hc0 : x.countP (imeta K) = 0 ∧ heap ≠ MetaHeap.META_DUP ∧ heap ≠ MetaHeap.META_HEAPDUP := by
      simpa [not_or] using hc
    have hr := h (Or.inr hc0)
    cases rest with
    | nil => simp at hr
    | cons r0 rest1 =>
      exact ⟨rest1, by rw [set_length_append, protect_of_countP_zero K x hc0.1]⟩

theorem metafy_drop (K : ZshH) (fresh : Nat → Nat) (x rest : List Nat) (heap : MetaHeap)
    (h : metafyRoom K x rest heap) :
    metafy K fresh (x ++ rest) (x.length : Int) heap = protect K x ++
      0 :: (metafy K fresh (x ++ rest) (x.length : Int) heap).drop
        (x.length + x.countP (imeta K) + 1) := by
  obtain ⟨tail, ht⟩ := metafy_eq K fresh x rest heap h
  have hd : (protect K x ++ 0 :: tail).drop (x.length + x.countP (imeta K) + 1) = tail := by
    rw [← length_protect]
    have : (protect K x ++ 0 :: tail) = (protect K x ++ [0]) ++ tail := by simp
    rw [this]
    exact List.drop_left' (by simp)
  rw [ht, hd]

theorem protect_eq_flatMap (K : ZshH) (x : List Nat) :
    protect K x = x.flatMap (fun b => if imeta K b then [K.Meta, b ^^^ 32] else [b]) := by
  induction x with
  | nil => rfl
  | cons b t ih =>
    by_cases hm : imeta K b = true
    · simp [protect, hm, ih, List.flatMap]
    · simp [protect, hm, ih, List.flatMap]

/-! ### The constants of `zsh.h` -/

theorem imeta_band (K : ZshH) (hK : K.inBand) (b : Nat) (hb : imeta K b = true) :
    b = 0 ∨ (128 ≤ b ∧ b < 160) := by
  obtain ⟨h1, h2, h3⟩ := hK
  simp only [imeta, Bool.or_eq_true, Bool.and_eq_true, beq_iff_eq, decide_eq_true_eq] at hb
  omega

theorem xor32_band (b : Nat) (hb : b = 0 ∨ (128 ≤ b ∧ b < 160)) : b ^^^ 32 = b + 32 := by
  rcases hb with h | ⟨h1, h2⟩
  · subst h
    rfl
  · interval_cases b <;> rfl

theorem imeta_zero (K : ZshH) : imeta K 0 = true := by
  simp [imeta]

theorem imeta_Meta (K : ZshH) : imeta K K.Meta = true := by
  simp [imeta]

theorem Meta_ne_zero (K : ZshH) (hK : K.inBand) : K.Meta ≠ 0 := by
  obtain ⟨h1, _⟩ := hK
  omega

theorem payload_band (K : ZshH) (hK : K.inBand) (b : Nat) (hb : imeta K b = true) :
    b ^^^ 32 ≠ 0 ∧ b ^^^ 32 ≠ K.Meta := by
  have h := imeta_band K hK b hb
  rw [xor32_band b h]
  obtain ⟨h1, _⟩ := hK
  omega

theorem protect_ne_zero (K : ZshH) (hK : K.inBand) (x : List Nat) :
    ∀ c ∈ protect K x, c ≠ 0 := by
  induction x with
  | nil => simp [protect]
  | cons b t ih =>
    intro c hc
    by_cases hm : imeta K b = true
    · simp only [protect, hm, if_true, List.mem_cons] at hc
      rcases hc with h | h | h
      · rw [h]
        exact Meta_ne_zero K hK
      · rw [h]
        exact (payload_band K hK b hm).1
      · exact ih c h
    · simp only [protect, hm, List.mem_cons] at hc
      rw [if_neg (by simp)] at hc
      rcases List.mem_cons.1 hc with h | h
      · rw [h]
        intro h0
        rw [h0] at hm
        exact hm (imeta_zero K)
      · exact ih c h

theorem takeWhile_terminated (e tail : List Nat) (h : ∀ c ∈ e, c ≠ 0) :
    (e ++ 0 :: tail).takeWhile (fun c => c != 0) = e := by
  induction e with
  | nil => simp
  | cons a t ih =>
    have ha : a ≠ 0 := h a (List.mem_cons_self _ _)
    have ht : ∀ c ∈ t, c ≠ 0 := fun c hc => h c (List.mem_cons_of_mem _ hc)
    simp [ha, ih ht]

theorem pairedScan_protect (K : ZshH) (hK : K.inBand) (x : List Nat) :
    pairedScan K (protect K x) = true := by
  induction x with
  | nil => rfl
  | cons b t ih =>
    by_cases hm : imeta K b = true
    · have hp := payload_band K hK b hm
      simp [protect, hm, pairedScan, hp.1, hp.2, ih]
    · have hb : b ≠ K.Meta := by
        intro h
        rw [h] at hm
        exact hm (imeta_Meta K)
      have hm2 : imeta K b = false := by simpa using hm
      rw [protect, if_neg hm, pairedScan.eq_def]
      simp only [if_neg hb, ih, hm2]
      rfl

/-! ### Claims about `metafy` -/

/-- C2. Protection rule: what `metafy` returns is, byte for byte, the in-order
concatenation over the bytes `b` of `x` of the pair `(Meta, b XOR 0x20)` when
`imeta(b)` holds and of the single byte `b` otherwise, then the terminating NUL
at position `len + meta`. When the constants of `zsh.h` lie in 0x80..0x9f, that
NUL is the first one, so the C string returned is exactly that concatenation. -/
theorem metafy_protection_rule (K : ZshH) (fresh : Nat → Nat) (x rest : List Nat)
    (heap : MetaHeap) (h : metafyRoom K x rest heap) :
    metafy K fresh (x ++ rest) (x.length : Int) heap
        = x.flatMap (fun b => if imeta K b then [K.Meta, b ^^^ 32] else [b]) ++
          0 :: (metafy K fresh (x ++ rest) (x.length : Int) heap).drop
            (x.length + x.countP (imeta K) + 1) ∧
      (K.inBand →
        (metafy K fresh (x ++ rest) (x.length : Int) heap).takeWhile (fun c => c != 0)
          = x.flatMap (fun b => if imeta K b then [K.Meta, b ^^^ 32] else [b])) := by
  have hd := metafy_drop K fresh x rest heap h
  rw [protect_eq_flatMap] at hd
  refine ⟨hd, fun hK => ?_⟩
  rw [hd]
  apply takeWhile_terminated
  rw [← protect_eq_flatMap]
  exact protect_ne_zero K hK x

theorem metafy_protection_rule_witness :
    metafyRoom zsh_h [255, 0, 27] [] MetaHeap.META_DUP ∧
      (metafy zsh_h (fun _ => 170) ([255, 0, 27] ++ []) (([255, 0, 27] : List Nat).length : Int)
          MetaHeap.META_DUP
        = ([255, 0, 27] : List Nat).flatMap
            (fun b => if imeta zsh_h b then [zsh_h.Meta, b ^^^ 32] else [b]) ++
          0 :: (metafy zsh_h (fun _ => 170) ([255, 0, 27] ++ [])
            (([255, 0, 27] : List Nat).length : Int) MetaHeap.META_DUP).drop
            (([255, 0, 27] : List Nat).length + ([255, 0, 27] : List Nat).countP (imeta zsh_h) + 1) ∧
      (zsh_h.inBand →
        (metafy zsh_h (fun _ => 170) ([255, 0, 27] ++ []) (([255, 0, 27] : List Nat).length : Int)
          MetaHeap.META_DUP).takeWhile (fun c => c != 0)
          = ([255, 0, 27] : List Nat).flatMap
            (fun b => if imeta zsh_h b then [zsh_h.Meta, b ^^^ 32] else [b]))) :=
  ⟨by decide, metafy_protection_rule zsh_h (fun _ => 170) [255, 0, 27] [] MetaHeap.META_DUP
    (by decide)⟩

/-- C7. Length law: the length of the string `metafy` returns, not counting its
terminating NUL, is `len(x)` plus the number of bytes of `x` for which `imeta`
holds. -/
theorem metafy_length_law (K : ZshH) (hK : K.inBand) (fresh : Nat → Nat) (x rest : List Nat)
    (heap : MetaHeap) (h : metafyRoom K x rest heap) :
    strlen (metafy K fresh (x ++ rest) (x.length : Int) heap)
      = x.length + x.countP (imeta K) := by
  obtain ⟨tail, ht⟩ := metafy_eq K fresh x rest heap h
  rw [ht, strlen, takeWhile_terminated _ _ (protect_ne_zero K hK x), length_protect]

theorem metafy_length_law_witness :
    zsh_h.inBand ∧ metafyRoom zsh_h [0, 65, 132] [7, 7, 7] MetaHeap.META_NOALLOC ∧
      strlen (metafy zsh_h (fun _ => 170) ([0, 65, 132] ++ [7, 7, 7])
        (([0, 65, 132] : List Nat).length : Int) MetaHeap.META_NOALLOC)
        = ([0, 65, 132] : List Nat).length + ([0, 65, 132] : List Nat).countP (imeta zsh_h) :=
  ⟨by decide, by decide, metafy_length_law zsh_h (by decide) (fun _ => 170) [0, 65, 132]
    [7, 7, 7] MetaHeap.META_NOALLOC (by decide)⟩

/-- C8. No embedded NUL: in the buffer `metafy` returns, the byte at position
`len(x) + meta` is 0x00, no 0x00 occurs before it, and so the `len + meta + 1`
bytes of the result hold exactly one 0x00. -/
theorem metafy_no_embedded_nul (K : ZshH) (hK : K.inBand) (fresh : Nat → Nat)
    (x rest : List Nat) (heap : MetaHeap) (h : metafyRoom K x rest heap) :
    (metafy K fresh (x ++ rest) (x.length : Int) heap).getD (x.length + x.countP (imeta K)) 1 = 0 ∧
      0 ∉ (metafy K fresh (x ++ rest) (x.length : Int) heap).take
        (x.length + x.countP (imeta K)) ∧
      ((metafy K fresh (x ++ rest) (x.length : Int) heap).take
        (x.length + x.countP (imeta K) + 1)).count 0 = 1 := by
  obtain ⟨tail, ht⟩ := metafy_eq K fresh x rest heap h
  have hz : 0 ∉ protect K x := fun hmem => protect_ne_zero K hK x 0 hmem rfl
  rw [ht, ← length_protect]
  refine ⟨getD_length_append _ _ _ _, ?_, ?_⟩
  · rw [List.take_left' rfl]
    exact hz
  · have : protect K x ++ 0 :: tail = (protect K x ++ [0]) ++ tail := by simp
    rw [this, List.take_left' (by simp), List.count_append, List.count_eq_zero.2 hz]
    simp

theorem metafy_no_embedded_nul_witness :
    zsh_h.inBand ∧ metafyRoom zsh_h [0, 0, 97, 0] [] MetaHeap.META_ALLOC ∧
      ((metafy zsh_h (fun _ => 170) ([0, 0, 97, 0] ++ []) (([0, 0, 97, 0] : List Nat).length : Int)
          MetaHeap.META_ALLOC).getD
          (([0, 0, 97, 0] : List Nat).length + ([0, 0, 97, 0] : List Nat).countP (imeta zsh_h)) 1 = 0 ∧
        0 ∉ (metafy zsh_h (fun _ => 170) ([0, 0, 97, 0] ++ [])
          (([0, 0, 97, 0] : List Nat).length : Int) MetaHeap.META_ALLOC).take
          (([0, 0, 97, 0] : List Nat).length + ([0, 0, 97, 0] : List Nat).countP (imeta zsh_h)) ∧
        ((metafy zsh_h (fun _ => 170) ([0, 0, 97, 0] ++ [])
          (([0, 0, 97, 0] : List Nat).length : Int) MetaHeap.META_ALLOC).take
          (([0, 0, 97, 0] : List Nat).length + ([0, 0, 97, 0] : List Nat).countP (imeta zsh_h) + 1)).count
            0 = 1) :=
  ⟨by decide, by decide, metafy_no_embedded_nul zsh_h (by decide) (fun _ => 170) [0, 0, 97, 0] []
    MetaHeap.META_ALLOC (by decide)⟩

/-- C9. Paired escape: the bytes `metafy` returns before the terminating NUL at
position `len + meta` pass the left-to-right scan that steps over pairs
`(Meta, payload)` and single plain bytes: every `Meta` is followed by a payload
byte that is neither NUL nor `Meta`, no `Meta` stands directly before the
terminator, and every plain byte is not protected. -/
theorem metafy_paired_escape (K : ZshH) (hK : K.inBand) (fresh : Nat → Nat)
    (x rest : List Nat) (heap : MetaHeap) (h : metafyRoom K x rest heap) :
    pairedScan K ((metafy K fresh (x ++ rest) (x.length : Int) heap).take
        (x.length + x.countP (imeta K))) = true ∧
      (metafy K fresh (x ++ rest) (x.length : Int) heap).getD
        (x.length + x.countP (imeta K)) 1 = 0 := by
  obtain ⟨tail, ht⟩ := metafy_eq K fresh x rest heap h
  rw [ht, ← length_protect]
  refine ⟨?_, getD_length_append _ _ _ _⟩
  rw [List.take_left' rfl]
  exact pairedScan_protect K hK x

theorem metafy_paired_escape_witness :
    zsh_h.inBand ∧ metafyRoom zsh_h [131, 163, 0, 32] [9] MetaHeap.META_REALLOC ∧
      (pairedScan zsh_h ((metafy zsh_h (fun _ => 170) ([131, 163, 0, 32] ++ [9])
          (([131, 163, 0, 32] : List Nat).length : Int) MetaHeap.META_REALLOC).take
          (([131, 163, 0, 32] : List Nat).length +
            ([131, 163, 0, 32] : List Nat).countP (imeta zsh_h))) = true ∧
        (metafy zsh_h (fun _ => 170) ([131, 163, 0, 32] ++ [9])
          (([131, 163, 0, 32] : List Nat).length : Int) MetaHeap.META_REALLOC).getD
          (([131, 163, 0, 32] : List Nat).length +
            ([131, 163, 0, 32] : List Nat).countP (imeta zsh_h)) 1 = 0) :=
  ⟨by decide, by decide, metafy_paired_escape zsh_h (by decide) (fun _ => 170) [131, 163, 0, 32]
    [9] MetaHeap.META_REALLOC (by decide)⟩

/-! ### Decoding -/

/-- Induction over an encoded string token by token. -/
theorem token_induction (M : Nat) (P : List Nat → Prop) (hnil : P []) (hlast : P [M])
    (hpair : ∀ y s, P s → P (M :: y :: s)) (hplain : ∀ c s, c ≠ M → P s → P (c :: s)) :
    ∀ s, P s := by
  intro s
  generalize hn : s.length = n
  induction n using Nat.strong_induction_on generalizing s with
  | _ n ih =>
    cases s with
    | nil => exact hnil
    | cons c s1 =>
      by_cases hc : c = M
      · subst hc
        cases s1 with
        | nil => exact hlast
        | cons y s2 =>
          simp at hn
          exact hpair y s2 (ih s2.length (by omega) s2 rfl)
      · simp at hn
        exact hplain c s1 hc (ih s1.length (by omega) s1 rfl)

theorem wellFormed_plain (K : ZshH) (c : Nat) (s : List Nat) (hc : c ≠ K.Meta) :
    wellFormed K (c :: s) = (c != 0 && wellFormed K s) := by
  rw [wellFormed.eq_def]
  simp only [if_neg hc]

theorem wellFormed_pair (K : ZshH) (y : Nat) (s : List Nat) :
    wellFormed K (K.Meta :: y :: s) = (K.Meta != 0 && (y != 0 && wellFormed K s)) := by
  rw [wellFormed.eq_def]
  simp

theorem wellFormed_last (K : ZshH) : wellFormed K [K.Meta] = false := by
  rw [wellFormed.eq_def]
  simp

theorem decode_plain (K : ZshH) (c : Nat) (s : List Nat) (hc : c ≠ K.Meta) :
    decode K (c :: s) = c :: decode K s := by
  rw [decode.eq_def]
  simp only [if_neg hc]

theorem decode_pair (K : ZshH) (y : Nat) (s : List Nat) :
    decode K (K.Meta :: y :: s) = (y ^^^ 32) :: decode K s := by
  rw [decode.eq_def]
  simp

theorem wellFormed_ne_zero (K : ZshH) : ∀ s, wellFormed K s = true → ∀ c ∈ s, c ≠ 0 := by
  refine token_induction K.Meta (fun s => wellFormed K s = true → ∀ c ∈ s, c ≠ 0) ?_ ?_ ?_ ?_
  · intro _ c hc
    simp at hc
  · intro h
    rw [wellFormed_last] at h
    simp at h
  · intro y s ih h c hc
    rw [wellFormed_pair] at h
    simp only [Bool.and_eq_true, bne_iff_ne, ne_eq] at h
    simp only [List.mem_cons] at hc
    rcases hc with h1 | h1 | h1
    · rw [h1]
      exact h.1
    · rw [h1]
      exact h.2.1
    · exact ih h.2.2 c h1
  · intro c s hc ih h d hd
    rw [wellFormed_plain K c s hc] at h
    simp only [Bool.and_eq_true, bne_iff_ne, ne_eq] at h
    rcases List.mem_cons.1 hd with h1 | h1
    · rw [h1]
      exact h.1
    · exact ih h.2 d h1

/-- The first loop of `unmetafy` stops at the first `Meta` or at the terminator;
the bytes it steps over are plain, so they decode to themselves. -/
theorem unmetafyScan_spec (K : ZshH) (tail : List Nat) :
    ∀ (s pre : List Nat) (fuel : Nat), wellFormed K s = true → s.length ≤ fuel →
      ∃ a s2, s = a ++ s2 ∧ wellFormed K s2 = true ∧ decode K s = a ++ decode K s2 ∧
        unmetafyScan K (pre ++ s ++ 0 :: tail) fuel pre.length = pre.length + a.length := by
  intro s
  induction s with
  | nil =>
    intro pre fuel _ _
    refine ⟨[], [], rfl, rfl, rfl, ?_⟩
    cases fuel with
    | zero => rfl
    | succ f =>
      rw [unmetafyScan, List.append_nil, getD_length_append]
      simp
  | cons c s1 ih =>
    intro pre fuel hw hf
    by_cases hc : c = K.Meta
    · refine ⟨[], c :: s1, rfl, hw, rfl, ?_⟩
      cases fuel with
      | zero => rfl
      | succ f =>
        rw [unmetafyScan, List.append_assoc, List.cons_append, getD_length_append]
        simp [hc]
    · rw [wellFormed_plain K c s1 hc] at hw
      simp only [Bool.and_eq_true, bne_iff_ne, ne_eq] at hw
      cases fuel with
      | zero => simp at hf
      | succ f =>
        simp only [List.length_cons, Nat.add_le_add_iff_right] at hf
        obtain ⟨a, s2, h1, h2, h3, h4⟩ := ih (pre ++ [c]) f hw.2 hf
        refine ⟨c :: a, s2, by rw [h1]; rfl, h2, by rw [decode_plain K c s1 hc, h3]; rfl, ?_⟩
        have hshape : pre ++ c :: s1 ++ 0 :: tail = pre ++ [c] ++ s1 ++ 0 :: tail := by simp
        rw [unmetafyScan]
        have hg : (pre ++ c :: s1 ++ 0 :: tail).getD pre.length 0 = c := by
          rw [List.append_assoc, List.cons_append, getD_length_append]
        rw [hg, if_pos ⟨hw.1, hc⟩, hshape]
        have hl : pre.length + 1 = (pre ++ [c]).length := by simp
        rw [hl, h4]
        simp
        omega

theorem exists_shift (gap : List Nat) (c : Nat) :
    ∃ g G, gap ++ [c] = g :: G ∧ G.length = gap.length := by
  cases gap with
  | nil => exact ⟨c, [], rfl, rfl⟩
  | cons g gs => exact ⟨g, gs ++ [c], rfl, by simp⟩

/-- The second loop of `unmetafy`, started with the write pointer after `done`
and the read pointer `gap.length` bytes further on, in front of a well-formed
string `s` and its terminator: it writes the decoding of `s` after `done` and
terminates it. -/
theorem unmetafyCopy_spec (K : ZshH) (tail : List Nat) :
    ∀ s, wellFormed K s = true → ∀ (done gap : List Nat) (fuel : Nat), s.length + 1 ≤ fuel →
      ∃ tail1, (decode K s).length + tail1.length = gap.length + s.length + tail.length ∧
        unmetafyCopy K fuel done.length (done.length + gap.length) (done ++ gap ++ s ++ 0 :: tail)
          = (done ++ decode K s ++ 0 :: tail1, done.length + (decode K s).length) := by
  refine token_induction K.Meta (fun s => wellFormed K s = true →
    ∀ (done gap : List Nat) (fuel : Nat), s.length + 1 ≤ fuel →
      ∃ tail1, (decode K s).length + tail1.length = gap.length + s.length + tail.length ∧
        unmetafyCopy K fuel done.length (done.length + gap.length) (done ++ gap ++ s ++ 0 :: tail)
          = (done ++ decode K s ++ 0 :: tail1, done.length + (decode K s).length)) ?_ ?_ ?_ ?_
  · intro _ done gap fuel hf
    cases fuel with
    | zero => simp at hf
    | succ f =>
      obtain ⟨g, G, hg, hG⟩ := exists_shift gap 0
      refine ⟨G ++ tail, by simp [hG, decode], ?_⟩
      have hread : (done ++ gap ++ [] ++ 0 :: tail).getD (done.length + gap.length) 0 = 0 := by
        rw [List.append_nil, ← List.length_append, getD_length_append]
      have hshape : done ++ gap ++ [] ++ 0 :: tail = done ++ g :: (G ++ tail) := by
        have : done ++ gap ++ [] ++ 0 :: tail = done ++ ((gap ++ [0]) ++ tail) := by simp
        rw [this, hg]
        rfl
      rw [unmetafyCopy]
      simp only [hread, if_true]
      rw [hshape, set_length_append]
      simp [decode]
  · intro h
    rw [wellFormed_last] at h
    simp at h
  · intro y s ih hw done gap fuel hf
    rw [wellFormed_pair] at hw
    simp only [Bool.and_eq_true, bne_iff_ne, ne_eq] at hw
    cases fuel with
    | zero => simp at hf
    | succ f =>
      obtain ⟨g, G, hg, hG⟩ := exists_shift gap K.Meta
      have hread : (done ++ gap ++ K.Meta :: y :: s ++ 0 :: tail).getD
          (done.length + gap.length) 0 = K.Meta := by
        rw [← List.length_append, List.append_assoc (done ++ gap), List.cons_append,
          getD_length_append]
      have hshape : done ++ gap ++ K.Meta :: y :: s ++ 0 :: tail
          = done ++ g :: (G ++ y :: (s ++ 0 :: tail)) := by
        have : done ++ gap ++ K.Meta :: y :: s ++ 0 :: tail
            = done ++ ((gap ++ [K.Meta]) ++ y :: (s ++ 0 :: tail)) := by simp
        rw [this, hg]
        rfl
      have hread2 : (done ++ K.Meta :: (G ++ y :: (s ++ 0 :: tail))).getD
          (done.length + gap.length + 1) 0 = y := by
        have e : done ++ K.Meta :: (G ++ y :: (s ++ 0 :: tail))
            = (done ++ K.Meta :: G) ++ y :: (s ++ 0 :: tail) := by simp
        have l : done.length + gap.length + 1 = (done ++ K.Meta :: G).length := by
          simp [hG]
          omega
        rw [e, l, getD_length_append]
      have hnext : done ++ (y ^^^ 32) :: (G ++ y :: (s ++ 0 :: tail))
          = (done ++ [y ^^^ 32]) ++ (G ++ [y]) ++ s ++ 0 :: tail := by simp
      have hf1 : s.length + 1 ≤ f := by
        simp only [List.length_cons] at hf
        omega
      obtain ⟨tail1, ht1, hrec⟩ := ih hw.2.2 (done ++ [y ^^^ 32]) (G ++ [y]) f hf1
      refine ⟨tail1, by rw [decode_pair]; simp [hG] at ht1 ⊢; omega, ?_⟩
      rw [unmetafyCopy]
      simp only [hread, if_neg hw.1, if_true]
      rw [hshape, set_length_append, hread2, set_length_append, hnext]
      have l1 : done.length + 1 = (done ++ [y ^^^ 32]).length := by simp
      have l2 : done.length + gap.length + 2
          = (done ++ [y ^^^ 32]).length + (G ++ [y]).length := by
        simp [hG]
        omega
      rw [l1, l2, hrec, decode_pair]
      simp
      omega
  · intro c s hc ih hw done gap fuel hf
    rw [wellFormed_plain K c s hc] at hw
    simp only [Bool.and_eq_true, bne_iff_ne, ne_eq] at hw
    cases fuel with
    | zero => simp at hf
    | succ f =>
      obtain ⟨g, G, hg, hG⟩ := exists_shift gap c
      have hread : (done ++ gap ++ c :: s ++ 0 :: tail).getD (done.length + gap.length) 0 = c := by
        rw [← List.length_append, List.append_assoc (done ++ gap), List.cons_append,
          getD_length_append]
      have hshape : done ++ gap ++ c :: s ++ 0 :: tail = done ++ g :: (G ++ (s ++ 0 :: tail)) := by
        have : done ++ gap ++ c :: s ++ 0 :: tail
            = done ++ ((gap ++ [c]) ++ (s ++ 0 :: tail)) := by simp
        rw [this, hg]
        rfl
      have hnext : done ++ c :: (G ++ (s ++ 0 :: tail)) = (done ++ [c]) ++ G ++ s ++ 0 :: tail := by
        simp
      have hf1 : s.length + 1 ≤ f := by
        simp only [List.length_cons] at hf
        omega
      obtain ⟨tail1, ht1, hrec⟩ := ih hw.2 (done ++ [c]) G f hf1
      refine ⟨tail1, by rw [decode_plain K c s hc]; simp [hG] at ht1 ⊢; omega, ?_⟩
      rw [unmetafyCopy]
      simp only [hread, if_neg hw.1, if_neg hc]
      rw [hshape, set_length_append, hnext]
      have l1 : done.length + 1 = (done ++ [c]).length := by simp
      have l2 : done.length + gap.length + 1 = (done ++ [c]).length + G.length := by
        simp [hG]
        omega
      rw [l1, l2, hrec, decode_plain K c s hc]
      simp
      omega

/-- What `unmetafy` does to a well-formed string: the decoding, the terminator,
and the reported length. -/
theorem unmetafy_eq (K : ZshH) (s tail : List Nat) (hw : wellFormed K s = true) :
    ∃ tail1, (decode K s).length + tail1.length = s.length + tail.length ∧
      unmetafy K (s ++ 0 :: tail) = (decode K s ++ 0 :: tail1, (decode K s).length) := by
  obtain ⟨a, s2, h1, h2, h3, h4⟩ := unmetafyScan_spec K tail s [] (s ++ 0 :: tail).length hw
    (by simp only [List.length_append, List.length_cons]; omega)
  simp only [List.nil_append, List.length_nil, Nat.zero_add] at h4
  obtain ⟨tail1, ht1, hc⟩ := unmetafyCopy_spec K tail s2 h2 a [] ((s ++ 0 :: tail).length + 1)
    (by rw [h1]; simp only [List.length_append, List.length_cons]; omega)
  simp only [List.append_nil, List.length_nil, Nat.add_zero] at hc
  subst h1
  refine ⟨tail1, by rw [h3]; simp at ht1 ⊢; omega, ?_⟩
  unfold unmetafy
  simp only [h4]
  rw [hc, h3]
  simp

theorem wellFormed_protect (K : ZshH) (hK : K.inBand) (x : List Nat) :
    wellFormed K (protect K x) = true := by
  induction x with
  | nil => rfl
  | cons b t ih =>
    by_cases hm : imeta K b = true
    · have hp := payload_band K hK b hm
      rw [protect, if_pos hm, wellFormed_pair, ih]
      simp [hp.1, Meta_ne_zero K hK]
    · have hb : b ≠ K.Meta := by
        intro h
        rw [h] at hm
        exact hm (imeta_Meta K)
      have hb0 : b ≠ 0 := by
        intro h
        rw [h] at hm
        exact hm (imeta_zero K)
      rw [protect, if_neg hm, wellFormed_plain K b _ hb, ih]
      simp [hb0]

theorem decode_protect (K : ZshH) (x : List Nat) : decode K (protect K x) = x := by
  induction x with
  | nil => rfl
  | cons b t ih =>
    by_cases hm : imeta K b = true
    · rw [protect, if_pos hm, decode_pair, ih, Nat.xor_cancel_right]
    · have hb : b ≠ K.Meta := by
        intro h
        rw [h] at hm
        exact hm (imeta_Meta K)
      rw [protect, if_neg hm, decode_plain K b _ hb, ih]

theorem ztrlen_eq (K : ZshH) (tail : List Nat) :
    ∀ s, wellFormed K s = true → ztrlen K (s ++ 0 :: tail) = (decode K s).length := by
  refine token_induction K.Meta
    (fun s => wellFormed K s = true → ztrlen K (s ++ 0 :: tail) = (decode K s).length) ?_ ?_ ?_ ?_
  · intro _
    rw [List.nil_append, ztrlen.eq_def]
    simp [decode]
  · intro h
    rw [wellFormed_last] at h
    simp at h
  · intro y s ih hw
    rw [wellFormed_pair] at hw
    simp only [Bool.and_eq_true, bne_iff_ne, ne_eq] at hw
    rw [decode_pair, List.cons_append, List.cons_append, ztrlen.eq_def]
    simp only [if_neg hw.1, if_true, ih hw.2.2, List.length_cons]
  · intro c s hc ih hw
    rw [wellFormed_plain K c s hc] at hw
    simp only [Bool.and_eq_true, bne_iff_ne, ne_eq] at hw
    rw [decode_plain K c s hc, List.cons_append, ztrlen.eq_def]
    simp only [if_neg hw.1, if_neg hc, ih hw.2, List.length_cons]

theorem length_decode (K : ZshH) :
    ∀ s, wellFormed K s = true → (decode K s).length + pairs K s = s.length := by
  refine token_induction K.Meta
    (fun s => wellFormed K s = true → (decode K s).length + pairs K s = s.length) ?_ ?_ ?_ ?_
  · intro _
    rfl
  · intro h
    rw [wellFormed_last] at h
    simp at h
  · intro y s ih hw
    rw [wellFormed_pair] at hw
    simp only [Bool.and_eq_true, bne_iff_ne, ne_eq] at hw
    have := ih hw.2.2
    rw [decode_pair, pairs.eq_def]
    simp only [if_true, List.length_cons]
    omega
  · intro c s hc ih hw
    rw [wellFormed_plain K c s hc] at hw
    simp only [Bool.and_eq_true, bne_iff_ne, ne_eq] at hw
    have := ih hw.2
    rw [decode_plain K c s hc, pairs.eq_def]
    simp only [if_neg hc, List.length_cons]
    omega

/-! ### Claims about `unmetafy` -/

/-- C1. Round trip: for every byte sequence `x`, `unmetafy` applied to the buffer
`metafy(x, len(x), heap)` returns leaves exactly the bytes of `x` at the start
of the buffer, followed by a NUL, and reports the length `len(x)`. -/
theorem unmetafy_metafy_roundtrip (K : ZshH) (hK : K.inBand) (fresh : Nat → Nat)
    (x rest : List Nat) (heap : MetaHeap) (h : metafyRoom K x rest heap) :
    (unmetafy K (metafy K fresh (x ++ rest) (x.length : Int) heap)).1.take x.length = x ∧
      (unmetafy K (metafy K fresh (x ++ rest) (x.length : Int) heap)).2 = x.length ∧
      (unmetafy K (metafy K fresh (x ++ rest) (x.length : Int) heap)).1.getD x.length 1 = 0 := by
  obtain ⟨tail, ht⟩ := metafy_eq K fresh x rest heap h
  obtain ⟨tail1, _, hu⟩ := unmetafy_eq K (protect K x) tail (wellFormed_protect K hK x)
  rw [ht, hu, decode_protect]
  exact ⟨List.take_left' rfl, rfl, getD_length_append _ _ _ _⟩

theorem unmetafy_metafy_roundtrip_witness :
    zsh_h.inBand ∧ metafyRoom zsh_h [255, 0, 27, 131, 156, 132, 155] [] MetaHeap.META_HEAPDUP ∧
      ((unmetafy zsh_h (metafy zsh_h (fun _ => 170) ([255, 0, 27, 131, 156, 132, 155] ++ [])
          (([255, 0, 27, 131, 156, 132, 155] : List Nat).length : Int) MetaHeap.META_HEAPDUP)).1.take
          ([255, 0, 27, 131, 156, 132, 155] : List Nat).length = [255, 0, 27, 131, 156, 132, 155] ∧
        (unmetafy zsh_h (metafy zsh_h (fun _ => 170) ([255, 0, 27, 131, 156, 132, 155] ++ [])
          (([255, 0, 27, 131, 156, 132, 155] : List Nat).length : Int) MetaHeap.META_HEAPDUP)).2
          = ([255, 0, 27, 131, 156, 132, 155] : List Nat).length ∧
        (unmetafy zsh_h (metafy zsh_h (fun _ => 170) ([255, 0, 27, 131, 156, 132, 155] ++ [])
          (([255, 0, 27, 131, 156, 132, 155] : List Nat).length : Int) MetaHeap.META_HEAPDUP)).1.getD
          ([255, 0, 27, 131, 156, 132, 155] : List Nat).length 1 = 0) :=
  ⟨by decide, by decide, unmetafy_metafy_roundtrip zsh_h (by decide) (fun _ => 170)
    [255, 0, 27, 131, 156, 132, 155] [] MetaHeap.META_HEAPDUP (by decide)⟩

/-- C10. Decode rule: for a well-formed encoded string `s`, `unmetafy` rewrites
the buffer, in place, to the sequence in which each pair `(Meta, y)` is replaced
by the single byte `y XOR 0x20` and every other byte is unchanged, followed by a
NUL; the length it reports is `ztrlen(s)`, which is `strlen(s)` minus the number
of pairs. A decoded 0x00 is one of the reported bytes and does not end them. -/
theorem unmetafy_decode_rule (K : ZshH) (s tail : List Nat) (hw : wellFormed K s = true) :
    (unmetafy K (s ++ 0 :: tail)).1.take (unmetafy K (s ++ 0 :: tail)).2 = decode K s ∧
      (unmetafy K (s ++ 0 :: tail)).1.getD (unmetafy K (s ++ 0 :: tail)).2 1 = 0 ∧
      (unmetafy K (s ++ 0 :: tail)).1.length = (s ++ 0 :: tail).length ∧
      (unmetafy K (s ++ 0 :: tail)).2 = ztrlen K (s ++ 0 :: tail) ∧
      (unmetafy K (s ++ 0 :: tail)).2 = strlen (s ++ 0 :: tail) - pairs K s := by
  obtain ⟨tail1, hl, hu⟩ := unmetafy_eq K s tail hw
  have hp := length_decode K s hw
  rw [hu, ztrlen_eq K tail s hw, strlen, takeWhile_terminated s tail (wellFormed_ne_zero K s hw)]
  refine ⟨List.take_left' rfl, getD_length_append _ _ _ _, ?_, rfl, ?_⟩
  · simp only [List.length_append, List.length_cons]
    omega
  · simp only
    omega

theorem unmetafy_decode_rule_witness :
    wellFormed zsh_h [97, 131, 32, 131, 163, 98] = true ∧
      ((unmetafy zsh_h ([97, 131, 32, 131, 163, 98] ++ 0 :: [5, 6])).1.take
          (unmetafy zsh_h ([97, 131, 32, 131, 163, 98] ++ 0 :: [5, 6])).2
          = decode zsh_h [97, 131, 32, 131, 163, 98] ∧
        (unmetafy zsh_h ([97, 131, 32, 131, 163, 98] ++ 0 :: [5, 6])).1.getD
          (unmetafy zsh_h ([97, 131, 32, 131, 163, 98] ++ 0 :: [5, 6])).2 1 = 0 ∧
        (unmetafy zsh_h ([97, 131, 32, 131, 163, 98] ++ 0 :: [5, 6])).1.length
          = ([97, 131, 32, 131, 163, 98] ++ 0 :: [5, 6]).length ∧
        (unmetafy zsh_h ([97, 131, 32, 131, 163, 98] ++ 0 :: [5, 6])).2
          = ztrlen zsh_h ([97, 131, 32, 131, 163, 98] ++ 0 :: [5, 6]) ∧
        (unmetafy zsh_h ([97, 131, 32, 131, 163, 98] ++ 0 :: [5, 6])).2
          = strlen ([97, 131, 32, 131, 163, 98] ++ 0 :: [5, 6])
            - pairs zsh_h [97, 131, 32, 131, 163, 98]) ∧
      unmetafy zsh_h ([97, 131, 32, 131, 163, 98] ++ 0 :: [5, 6])
        = ([97, 0, 131, 98, 0, 98, 0, 5, 6], 4) :=
  ⟨by decide, unmetafy_decode_rule zsh_h [97, 131, 32, 131, 163, 98] [5, 6] (by decide),
    by decide⟩

/-! ### The reference ordering -/

theorem lexCmp_lt_iff : ∀ x y : List Nat,
    lexCmp x y = -1 ↔ List.Lex (fun a b : Nat => a < b) x y := by
  intro x
  induction x with
  | nil =>
    intro y
    cases y with
    | nil => simp [lexCmp, List.Lex.not_nil_right]
    | cons b y => simp [lexCmp, List.Lex.nil]
  | cons a x ih =>
    intro y
    cases y with
    | nil => simp [lexCmp, List.Lex.not_nil_right]
    | cons b y =>
      rw [lexCmp]
      by_cases h1 : a < b
      · simp [h1, List.Lex.rel h1]
      · by_cases h2 : b < a
        · simp only [h1, h2, if_true, if_false]
          constructor
          · intro h
            omega
          · intro h
            cases h with
            | cons h3 => omega
            | rel h3 => omega
        · have hab : a = b := by omega
          subst hab
          simp only [h1, if_false, ih y]
          exact List.Lex.cons_iff.symm

theorem lexCmp_eq_iff : ∀ x y : List Nat, lexCmp x y = 0 ↔ x = y := by
  intro x
  induction x with
  | nil =>
    intro y
    cases y <;> simp [lexCmp]
  | cons a x ih =>
    intro y
    cases y with
    | nil => simp [lexCmp]
    | cons b y =>
      rw [lexCmp]
      by_cases h1 : a < b
      · simp [h1]
        omega
      · by_cases h2 : b < a
        · simp [h1, h2]
          omega
        · have hab : a = b := by omega
          subst hab
          simp [ih y]

theorem lexCmp_swap : ∀ x y : List Nat, lexCmp y x = -lexCmp x y := by
  intro x
  induction x with
  | nil =>
    intro y
    cases y <;> simp [lexCmp]
  | cons a x ih =>
    intro y
    cases y with
    | nil => simp [lexCmp]
    | cons b y =>
      rw [lexCmp, lexCmp]
      by_cases h1 : a < b
      · have h2 : ¬ b < a := by omega
        simp [h1, h2]
      · by_cases h2 : b < a
        · simp [h1, h2]
        · simp [h1, h2, ih y]

theorem lexCmp_range (x y : List Nat) : lexCmp x y = -1 ∨ lexCmp x y = 0 ∨ lexCmp x y = 1 := by
  induction x generalizing y with
  | nil => cases y <;> simp [lexCmp]
  | cons a x ih =>
    cases y with
    | nil => simp [lexCmp]
    | cons b y =>
      rw [lexCmp]
      by_cases h1 : a < b
      · simp [h1]
      · by_cases h2 : b < a
        · simp [h1, h2]
        · simp only [h1, h2, if_false]
          exact ih y

theorem lexCmp_trans : ∀ x y z : List Nat,
    lexCmp x y = -1 → lexCmp y z = -1 → lexCmp x z = -1 := by
  intro x
  induction x with
  | nil =>
    intro y z h1 h2
    cases z with
    | nil => cases y <;> simp [lexCmp] at h1 h2
    | cons c z => simp [lexCmp]
  | cons a x ih =>
    intro y z h1 h2
    cases y with
    | nil => simp [lexCmp] at h1
    | cons b y =>
      cases z with
      | nil => simp [lexCmp] at h2
      | cons c z =>
        rw [lexCmp] at h1 h2 ⊢
        by_cases hab : a < b
        · by_cases hbc : b < c
          · have : a < c := by omega
            simp [this]
          · by_cases hcb : c < b
            · simp [hbc, hcb] at h2
            · have : a < c := by omega
              simp [this]
        · by_cases hba : b < a
          · simp [hab, hba] at h1
          · simp only [hab, hba, if_false] at h1
            have e : a = b := by omega
            subst e
            by_cases hac : a < c
            · simp [hac]
            · by_cases hca : c < a
              · simp [hac, hca] at h2
              · simp only [hac, hca, if_false] at h2 ⊢
                exact ih y z h1 h2

/-! ### Comparison of encoded strings -/

theorem ztrcmp_stop (K : ZshH) (s1 s2 : List Nat)
    (h : s1.headD 0 = 0 ∨ s1.headD 0 ≠ s2.headD 0) : ztrcmp K s1 s2 = ztrcmpTail K s1 s2 := by
  cases s1 with
  | nil => rw [ztrcmp]
  | cons c s =>
    rw [ztrcmp, if_neg]
    simp only [List.headD_cons] at h
    intro hc
    rcases h with h | h
    · exact hc.1 h
    · exact h hc.2

theorem ztrcmp_step (K : ZshH) (c : Nat) (s1 s2 : List Nat) (hc : c ≠ 0) :
    ztrcmp K (c :: s1) (c :: s2) = ztrcmp K s1 s2 := by
  rw [ztrcmp, if_pos ⟨hc, by simp⟩]
  rfl

theorem ztrcmpEnd_zero (K : ZshH) (t : List Nat) : ztrcmpEnd K (0 :: t) = -1 := by
  simp [ztrcmpEnd]

theorem ztrcmpEnd_plain (K : ZshH) (c : Nat) (t : List Nat) (h0 : c ≠ 0) (hM : c ≠ K.Meta) :
    ztrcmpEnd K (c :: t) = (c : Int) := by
  simp [ztrcmpEnd, h0, hM]

theorem ztrcmpEnd_pair (K : ZshH) (hM : K.Meta ≠ 0) (y : Nat) (t : List Nat) :
    ztrcmpEnd K (K.Meta :: y :: t) = ((y ^^^ 32 : Nat) : Int) := by
  simp [ztrcmpEnd, hM]

theorem imeta_false_ne (K : ZshH) (b : Nat) (hm : ¬ imeta K b = true) : b ≠ 0 ∧ b ≠ K.Meta := by
  constructor
  · intro h
    rw [h] at hm
    exact hm (imeta_zero K)
  · intro h
    rw [h] at hm
    exact hm (imeta_Meta K)

/-- After its loop `ztrcmp` sees, at the start of the encoding of `b :: y`, the
byte `b`. -/
theorem ztrcmpEnd_protect (K : ZshH) (hK : K.inBand) (b : Nat) (y t : List Nat) :
    ztrcmpEnd K (protect K (b :: y) ++ t) = (b : Int) := by
  by_cases hm : imeta K b = true
  · rw [protect, if_pos hm, List.cons_append, List.cons_append,
      ztrcmpEnd_pair K (Meta_ne_zero K hK), Nat.xor_cancel_right]
  · have hb := imeta_false_ne K b hm
    rw [protect, if_neg hm, List.cons_append, ztrcmpEnd_plain K b _ hb.1 hb.2]

theorem ztrcmpTail_of_ne (K : ZshH) (s1 s2 : List Nat) (a b : Nat)
    (h1 : ztrcmpEnd K s1 = (a : Int)) (h2 : ztrcmpEnd K s2 = (b : Int)) (hab : a ≠ b) :
    ztrcmpTail K s1 s2 = if a < b then -1 else 1 := by
  rw [ztrcmpTail, h1, h2]
  have hne : ¬ ((a : Int) = (b : Int)) := by omega
  rw [if_neg hne]
  by_cases hlt : a < b
  · rw [if_pos hlt, if_pos (by omega)]
  · rw [if_neg hlt, if_neg (by omega)]

theorem lexCmp_of_ne (a b : Nat) (x y : List Nat) (hab : a ≠ b) :
    lexCmp (a :: x) (b :: y) = if a < b then -1 else 1 := by
  rw [lexCmp]
  by_cases hlt : a < b
  · simp [hlt]
  · have : b < a := by omega
    simp [hlt, this]

/-- On two encoded strings `ztrcmp` computes the lexicographic comparison of the
byte sequences they encode. -/
theorem ztrcmp_protect (K : ZshH) (hK : K.inBand) (t1 t2 : List Nat) :
    ∀ x y : List Nat,
      ztrcmp K (protect K x ++ 0 :: t1) (protect K y ++ 0 :: t2) = lexCmp x y := by
  have hM := Meta_ne_zero K hK
  intro x
  induction x with
  | nil =>
    intro y
    rw [show protect K [] ++ 0 :: t1 = 0 :: t1 from rfl, ztrcmp_stop K (0 :: t1) _ (Or.inl rfl),
      ztrcmpTail, ztrcmpEnd_zero]
    cases y with
    | nil =>
      rw [show protect K [] ++ 0 :: t2 = 0 :: t2 from rfl, ztrcmpEnd_zero]
      simp [lexCmp]
    | cons b y =>
      rw [ztrcmpEnd_protect K hK]
      have h1 : ¬ ((-1 : Int) = (b : Int)) := by omega
      have h2 : (-1 : Int) < (b : Int) := by omega
      simp [lexCmp, h1, h2]
  | cons a x ih =>
    intro y
    cases y with
    | nil =>
      have hhead : (protect K (a :: x) ++ 0 :: t1).headD 0 ≠ 0 := by
        by_cases hm : imeta K a = true
        · simp [protect, hm, hM]
        · simp [protect, hm, (imeta_false_ne K a hm).1]
      rw [show protect K [] ++ 0 :: t2 = 0 :: t2 from rfl,
        ztrcmp_stop K _ _ (Or.inr (by simpa using hhead)), ztrcmpTail, ztrcmpEnd_zero,
        ztrcmpEnd_protect K hK]
      have h1 : ¬ ((a : Int) = -1) := by omega
      have h2 : ¬ ((a : Int) < -1) := by omega
      simp [lexCmp, h1, h2]
    | cons b y =>
      by_cases hab : a = b
      · subst hab
        have hl : lexCmp (a :: x) (a :: y) = lexCmp x y := by simp [lexCmp]
        rw [hl, ← ih y]
        by_cases hm : imeta K a = true
        · simp only [protect, hm, if_true, List.cons_append]
          rw [ztrcmp_step K _ _ _ hM, ztrcmp_step K _ _ _ (payload_band K hK a hm).1]
        · have hm2 : imeta K a = false := by simpa using hm
          simp only [protect, hm2, List.cons_append]
          exact ztrcmp_step K _ _ _ (imeta_false_ne K a hm).1
      · rw [lexCmp_of_ne a b x y hab]
        by_cases hma : imeta K a = true
        · by_cases hmb : imeta K b = true
          · have hpa := payload_band K hK a hma
            have hpb := payload_band K hK b hmb
            have hxa := xor32_band a (imeta_band K hK a hma)
            have hxb := xor32_band b (imeta_band K hK b hmb)
            simp only [protect, hma, hmb, if_true, List.cons_append]
            rw [ztrcmp_step K _ _ _ hM, ztrcmp_stop K _ _ (Or.inr (by simp; omega)),
              ztrcmpTail_of_ne K _ _ (a ^^^ 32) (b ^^^ 32)
                (ztrcmpEnd_plain K _ _ hpa.1 hpa.2) (ztrcmpEnd_plain K _ _ hpb.1 hpb.2) (by omega)]
            rw [hxa, hxb]
            by_cases hlt : a < b
            · rw [if_pos hlt, if_pos (by omega)]
            · rw [if_neg hlt, if_neg (by omega)]
          · have hb := imeta_false_ne K b hmb
            rw [ztrcmp_stop K _ _ (Or.inr ?_), ztrcmpTail_of_ne K _ _ a b
              (ztrcmpEnd_protect K hK a x _) (ztrcmpEnd_protect K hK b y _) hab]
            have hmb2 : imeta K b = false := by simpa using hmb
            simp only [protect, hma, hmb2, if_true, List.cons_append, List.headD_cons]
            exact fun h => hb.2 h.symm
        · have ha := imeta_false_ne K a hma
          have hma2 : imeta K a = false := by simpa using hma
          rw [ztrcmp_stop K _ _ (Or.inr ?_), ztrcmpTail_of_ne K _ _ a b
            (ztrcmpEnd_protect K hK a x _) (ztrcmpEnd_protect K hK b y _) hab]
          by_cases hmb : imeta K b = true
          · simp only [protect, hma2, hmb, if_true, List.cons_append, List.headD_cons]
            exact ha.2
          · have hmb2 : imeta K b = false := by simpa using hmb
            simp only [protect, hma2, hmb2, List.cons_append, List.headD_cons]
            simpa using hab

theorem lexCmp_append (x y : List Nat) (hy : y ≠ []) : lexCmp x (x ++ y) = -1 := by
  induction x with
  | nil =>
    cases y with
    | nil => exact absurd rfl hy
    | cons b y => rfl
  | cons a x ih => simp [lexCmp, ih]

/-- C3. `ztrcmp` agrees with the unsigned lexicographic order of the decoded
strings: on `metafy(x)` and `metafy(y)` it returns -1, 0 or 1; it returns -1
exactly when `x` is lexicographically smaller than `y` (a proper initial
segment being smaller than its extensions), 0 exactly when `x = y`, and 1
exactly when `y` is smaller than `x`; swapping the arguments negates the result
and the relation "returns -1" is transitive. -/
theorem ztrcmp_lexicographic (K : ZshH) (hK : K.inBand) (fresh : Nat → Nat)
    (x y z rx ry rz : List Nat) (px py pz : MetaHeap)
    (hx : metafyRoom K x rx px) (hy : metafyRoom K y ry py) (hz : metafyRoom K z rz pz)
    (X Y Z : List Nat) (hX : X = metafy K fresh (x ++ rx) (x.length : Int) px)
    (hY : Y = metafy K fresh (y ++ ry) (y.length : Int) py)
    (hZ : Z = metafy K fresh (z ++ rz) (z.length : Int) pz) :
    (ztrcmp K X Y = -1 ∨ ztrcmp K X Y = 0 ∨ ztrcmp K X Y = 1) ∧
      (ztrcmp K X Y = -1 ↔ List.Lex (fun a b : Nat => a < b) x y) ∧
      (ztrcmp K X Y = 0 ↔ x = y) ∧
      (ztrcmp K X Y = 1 ↔ List.Lex (fun a b : Nat => a < b) y x) ∧
      ztrcmp K Y X = -ztrcmp K X Y ∧
      (ztrcmp K X Y = -1 → ztrcmp K Y Z = -1 → ztrcmp K X Z = -1) := by
  obtain ⟨tx, htx⟩ := metafy_eq K fresh x rx px hx
  obtain ⟨ty, hty⟩ := metafy_eq K fresh y ry py hy
  obtain ⟨tz, htz⟩ := metafy_eq K fresh z rz pz hz
  rw [hX, hY, hZ, htx, hty, htz, ztrcmp_protect K hK, ztrcmp_protect K hK, ztrcmp_protect K hK,
    ztrcmp_protect K hK]
  refine ⟨lexCmp_range x y, lexCmp_lt_iff x y, lexCmp_eq_iff x y, ?_, lexCmp_swap x y,
    lexCmp_trans x y z⟩
  rw [← lexCmp_lt_iff y x, lexCmp_swap x y]
  omega

theorem ztrcmp_lexicographic_witness :
    zsh_h.inBand ∧ metafyRoom zsh_h [97, 132] [] MetaHeap.META_DUP ∧
      metafyRoom zsh_h [97, 156] [] MetaHeap.META_DUP ∧
      metafyRoom zsh_h [97, 156, 0] [] MetaHeap.META_DUP ∧
      [97, 131, 164, 0] = metafy zsh_h (fun _ => 170) ([97, 132] ++ [])
        (([97, 132] : List Nat).length : Int) MetaHeap.META_DUP ∧
      [97, 131, 188, 0] = metafy zsh_h (fun _ => 170) ([97, 156] ++ [])
        (([97, 156] : List Nat).length : Int) MetaHeap.META_DUP ∧
      [97, 131, 188, 131, 32, 0] = metafy zsh_h (fun _ => 170) ([97, 156, 0] ++ [])
        (([97, 156, 0] : List Nat).length : Int) MetaHeap.META_DUP ∧
      ((ztrcmp zsh_h [97, 131, 164, 0] [97, 131, 188, 0] = -1 ∨
          ztrcmp zsh_h [97, 131, 164, 0] [97, 131, 188, 0] = 0 ∨
          ztrcmp zsh_h [97, 131, 164, 0] [97, 131, 188, 0] = 1) ∧
        (ztrcmp zsh_h [97, 131, 164, 0] [97, 131, 188, 0] = -1 ↔
          List.Lex (fun a b : Nat => a < b) [97, 132] [97, 156]) ∧
        (ztrcmp zsh_h [97, 131, 164, 0] [97, 131, 188, 0] = 0 ↔ [97, 132] = [97, 156]) ∧
        (ztrcmp zsh_h [97, 131, 164, 0] [97, 131, 188, 0] = 1 ↔
          List.Lex (fun a b : Nat => a < b) [97, 156] [97, 132]) ∧
        ztrcmp zsh_h [97, 131, 188, 0] [97, 131, 164, 0]
          = -ztrcmp zsh_h [97, 131, 164, 0] [97, 131, 188, 0] ∧
        (ztrcmp zsh_h [97, 131, 164, 0] [97, 131, 188, 0] = -1 →
          ztrcmp zsh_h [97, 131, 188, 0] [97, 131, 188, 131, 32, 0] = -1 →
          ztrcmp zsh_h [97, 131, 164, 0] [97, 131, 188, 131, 32, 0] = -1)) ∧
      ztrcmp zsh_h [97, 131, 164, 0] [97, 131, 188, 0] = -1 :=
  ⟨by decide, by decide, by decide, by decide, by decide, by decide, by decide,
    ztrcmp_lexicographic zsh_h (by decide) (fun _ => 170) [97, 132] [97, 156] [97, 156, 0]
      [] [] [] MetaHeap.META_DUP MetaHeap.META_DUP MetaHeap.META_DUP (by decide) (by decide)
      (by decide) [97, 131, 164, 0] [97, 131, 188, 0] [97, 131, 188, 131, 32, 0]
      (by decide) (by decide) (by decide),
    by decide⟩

/-- C4. Ordering of an initial segment: for every byte sequence `x` and every
non-empty `y`, also one that begins with a NUL byte,
`ztrcmp(metafy(x), metafy(x ++ y))` is -1 and `ztrcmp(metafy(x ++ y), metafy(x))`
is 1. -/
theorem ztrcmp_initial_segment (K : ZshH) (hK : K.inBand) (fresh : Nat → Nat)
    (x y rx ry : List Nat) (px py : MetaHeap) (hy : y ≠ [])
    (hrx : metafyRoom K x rx px) (hry : metafyRoom K (x ++ y) ry py) :
    ztrcmp K (metafy K fresh (x ++ rx) (x.length : Int) px)
        (metafy K fresh (x ++ y ++ ry) ((x ++ y).length : Int) py) = -1 ∧
      ztrcmp K (metafy K fresh (x ++ y ++ ry) ((x ++ y).length : Int) py)
        (metafy K fresh (x ++ rx) (x.length : Int) px) = 1 := by
  obtain ⟨tx, htx⟩ := metafy_eq K fresh x rx px hrx
  obtain ⟨ty, hty⟩ := metafy_eq K fresh (x ++ y) ry py hry
  rw [htx, hty, ztrcmp_protect K hK, ztrcmp_protect K hK, lexCmp_swap x (x ++ y),
    lexCmp_append x y hy]
  exact ⟨rfl, rfl⟩

theorem ztrcmp_initial_segment_witness :
    zsh_h.inBand ∧ ([0] : List Nat) ≠ [] ∧ metafyRoom zsh_h [97] [1] MetaHeap.META_USEHEAP ∧
      metafyRoom zsh_h ([97] ++ [0]) [] MetaHeap.META_USEHEAP ∧
      (ztrcmp zsh_h (metafy zsh_h (fun _ => 170) ([97] ++ [1]) (([97] : List Nat).length : Int)
          MetaHeap.META_USEHEAP)
          (metafy zsh_h (fun _ => 170) ([97] ++ [0] ++ []) ((([97] : List Nat) ++ [0]).length : Int)
            MetaHeap.META_USEHEAP) = -1 ∧
        ztrcmp zsh_h
          (metafy zsh_h (fun _ => 170) ([97] ++ [0] ++ []) ((([97] : List Nat) ++ [0]).length : Int)
            MetaHeap.META_USEHEAP)
          (metafy zsh_h (fun _ => 170) ([97] ++ [1]) (([97] : List Nat).length : Int)
            MetaHeap.META_USEHEAP) = 1) ∧
      ztrcmp zsh_h [97, 98, 0] [97, 98, 131, 32, 0] = -1 :=
  ⟨by decide, by decide, by decide, by decide,
    ztrcmp_initial_segment zsh_h (by decide) (fun _ => 170) [97] [0] [1] []
      MetaHeap.META_USEHEAP MetaHeap.META_USEHEAP (by decide) (by decide) (by decide),
    by decide⟩

/-! ### Comparison of an encoded string with a raw one -/

/-- Promotion of a plain `char` keeps different bytes different. -/
theorem plainChar_inj (sg : Bool) (a b : Nat) : plainChar sg a = plainChar sg b ↔ a = b := by
  unfold plainChar
  constructor
  · intro h
    split_ifs at h <;> omega
  · intro h
    rw [h]

/-- Where plain `char` is unsigned, or for a byte below 0x80, the promoted
value is the byte. -/
theorem plainChar_low (sg : Bool) (b : Nat) (h : sg = false ∨ b < 128) :
    plainChar sg b = (b : Int) := by
  unfold plainChar
  rw [if_neg]
  rintro ⟨h1, h2, _⟩
  rcases h with h | h
  · rw [h] at h1
    exact Bool.noConfusion h1
  · omega

theorem metadiffer_eq_neg_one (K : ZshH) (sg : Bool) (s r : List Nat) (len : Int) :
    metadiffer K sg s r len = -1 ↔
      s.getD (metadifferLoop K sg (plainChar sg) s r (s.length + 1) 0 0 len).1 0 ≠ 0 ∧
        (metadifferLoop K sg (plainChar sg) s r (s.length + 1) 0 0 len).2.2 < 0 := by
  unfold metadiffer
  simp only
  split_ifs <;> simp_all

theorem metadiffer_eq_zero (K : ZshH) (sg : Bool) (s r : List Nat) (len : Int) :
    metadiffer K sg s r len = 0 ↔
      s.getD (metadifferLoop K sg (plainChar sg) s r (s.length + 1) 0 0 len).1 0 = 0 ∧
        (metadifferLoop K sg (plainChar sg) s r (s.length + 1) 0 0 len).2.2 < 0 := by
  unfold metadiffer
  simp only
  split_ifs <;> simp_all

theorem decode_eq_nil (K : ZshH) (s : List Nat) (hw : wellFormed K s = true)
    (h : decode K s = []) : s = [] := by
  cases s with
  | nil => rfl
  | cons c s1 =>
    by_cases hc : c = K.Meta
    · subst hc
      cases s1 with
      | nil =>
        rw [wellFormed_last] at hw
        simp at hw
      | cons y s2 =>
        rw [decode_pair] at h
        simp at h
    · rw [decode_plain K c s1 hc] at h
      simp at h

/-- The first loop of `metadiffer` on a well-formed string `e` and the `r0.length`
raw bytes `r0`: it ends with a negative counter exactly when all of `r0` has
been matched, and then stands at the terminator exactly when nothing of `e` is
left. -/
theorem metadifferLoop_exact (K : ZshH) (sg : Bool) (tail rrest : List Nat) :
    ∀ e, wellFormed K e = true → ∀ (pre r0 rpre : List Nat) (fuel : Nat), e.length + 1 ≤ fuel →
      ∀ st, st = metadifferLoop K sg (plainChar sg) (pre ++ e ++ 0 :: tail) (rpre ++ r0 ++ rrest) fuel
          pre.length rpre.length (r0.length : Int) →
        (((pre ++ e ++ 0 :: tail).getD st.1 0 ≠ 0 ∧ st.2.2 < 0) ↔
            (r0.length < (decode K e).length ∧ (decode K e).take r0.length = r0)) ∧
          (((pre ++ e ++ 0 :: tail).getD st.1 0 = 0 ∧ st.2.2 < 0) ↔ decode K e = r0) := by
  refine token_induction K.Meta (fun e => wellFormed K e = true →
    ∀ (pre r0 rpre : List Nat) (fuel : Nat), e.length + 1 ≤ fuel →
      ∀ st, st = metadifferLoop K sg (plainChar sg) (pre ++ e ++ 0 :: tail) (rpre ++ r0 ++ rrest) fuel
          pre.length rpre.length (r0.length : Int) →
        (((pre ++ e ++ 0 :: tail).getD st.1 0 ≠ 0 ∧ st.2.2 < 0) ↔
            (r0.length < (decode K e).length ∧ (decode K e).take r0.length = r0)) ∧
          (((pre ++ e ++ 0 :: tail).getD st.1 0 = 0 ∧ st.2.2 < 0) ↔ decode K e = r0))
    ?_ ?_ ?_ ?_
  · intro _ pre r0 rpre fuel hf st hst
    have hread : (pre ++ [] ++ 0 :: tail).getD pre.length 0 = 0 := by
      rw [List.append_nil, getD_length_append]
    cases fuel with
    | zero => simp at hf
    | succ f =>
      rw [metadifferLoop] at hst
      cases r0 with
      | nil =>
        simp only [List.length_nil, Nat.cast_zero, if_true] at hst
        subst hst
        dsimp only
        simp only [hread]
        simp [decode]
      | cons rc r1 =>
        have hl : ¬ (((rc :: r1).length : Int) = 0) := by
          simp only [List.length_cons, Nat.cast_add, Nat.cast_one]
          omega
        simp only [hl, if_false, hread, if_true] at hst
        subst hst
        simp only [decode, List.length_nil, List.length_cons, Nat.cast_add, Nat.cast_one]
        constructor
        · constructor
          · intro h
            omega
          · intro h
            omega
        · constructor
          · intro h
            omega
          · intro h
            simp at h
  · intro h
    rw [wellFormed_last] at h
    simp at h
  · intro y e ih hw pre r0 rpre fuel hf st hst
    rw [wellFormed_pair] at hw
    simp only [Bool.and_eq_true, bne_iff_ne, ne_eq] at hw
    have hshape : pre ++ K.Meta :: y :: e ++ 0 :: tail = (pre ++ [K.Meta, y]) ++ e ++ 0 :: tail := by
      simp
    have hread : (pre ++ K.Meta :: y :: e ++ 0 :: tail).getD pre.length 0 = K.Meta := by
      rw [List.append_assoc, List.cons_append, getD_length_append]
    have hread2 : (pre ++ K.Meta :: y :: e ++ 0 :: tail).getD (pre.length + 1) 0 = y := by
      have e1 : pre ++ K.Meta :: y :: e ++ 0 :: tail = (pre ++ [K.Meta]) ++ y :: (e ++ 0 :: tail) := by
        simp
      have l1 : pre.length + 1 = (pre ++ [K.Meta]).length := by simp
      rw [e1, l1, getD_length_append]
    cases fuel with
    | zero => simp at hf
    | succ f =>
      rw [metadifferLoop] at hst
      cases r0 with
      | nil =>
        simp only [List.length_nil, Nat.cast_zero, if_true] at hst
        subst hst
        dsimp only
        simp only [hread]
        simp [hw.1, decode_pair]
      | cons rc r1 =>
        have hl : ¬ (((rc :: r1).length : Int) = 0) := by
          simp only [List.length_cons, Nat.cast_add, Nat.cast_one]
          omega
        have hrr : (rpre ++ rc :: r1 ++ rrest).getD rpre.length 0 = rc := by
          rw [List.append_assoc, List.cons_append, getD_length_append]
        simp only [hl, if_false, hread, hw.1, if_true, hread2, hrr, plainChar_inj] at hst
        by_cases hm : rc = y ^^^ 32
        · rw [if_pos hm] at hst
          have hrshape : rpre ++ rc :: r1 ++ rrest = (rpre ++ [rc]) ++ r1 ++ rrest := by simp
          have hl1 : pre.length + 1 + 1 = (pre ++ [K.Meta, y]).length := by simp
          have hl2 : rpre.length + 1 = (rpre ++ [rc]).length := by simp
          have hl3 : (((rc :: r1).length : Int) - 1) = (r1.length : Int) := by
            simp only [List.length_cons, Nat.cast_add, Nat.cast_one]
            omega
          rw [hshape, hrshape, hl1, hl2, hl3] at hst
          have hf1 : e.length + 1 ≤ f := by
            simp only [List.length_cons] at hf
            omega
          have := ih hw.2.2 (pre ++ [K.Meta, y]) r1 (rpre ++ [rc]) f hf1 st hst
          rw [hshape, decode_pair, hm]
          simpa using this
        · rw [if_neg hm] at hst
          subst hst
          rw [decode_pair]
          have hne : ¬ (y ^^^ 32 = rc) := fun h => hm h.symm
          simp only [List.length_cons, Nat.cast_add, Nat.cast_one, hread2]
          constructor
          · constructor
            · intro h
              omega
            · intro h
              simp [hne] at h
          · constructor
            · intro h
              omega
            · intro h
              simp [hne] at h
  · intro c e hc ih hw pre r0 rpre fuel hf st hst
    rw [wellFormed_plain K c e hc] at hw
    simp only [Bool.and_eq_true, bne_iff_ne, ne_eq] at hw
    have hshape : pre ++ c :: e ++ 0 :: tail = (pre ++ [c]) ++ e ++ 0 :: tail := by simp
    have hread : (pre ++ c :: e ++ 0 :: tail).getD pre.length 0 = c := by
      rw [List.append_assoc, List.cons_append, getD_length_append]
    cases fuel with
    | zero => simp at hf
    | succ f =>
      rw [metadifferLoop] at hst
      cases r0 with
      | nil =>
        simp only [List.length_nil, Nat.cast_zero, if_true] at hst
        subst hst
        dsimp only
        simp only [hread]
        simp [hw.1, decode_plain K c e hc]
      | cons rc r1 =>
        have hl : ¬ (((rc :: r1).length : Int) = 0) := by
          simp only [List.length_cons, Nat.cast_add, Nat.cast_one]
          omega
        have hrr : (rpre ++ rc :: r1 ++ rrest).getD rpre.length 0 = rc := by
          rw [List.append_assoc, List.cons_append, getD_length_append]
        simp only [hl, if_false, hread, hw.1, hc, hrr, plainChar_inj] at hst
        by_cases hm : rc = c
        · rw [if_pos hm] at hst
          have hrshape : rpre ++ rc :: r1 ++ rrest = (rpre ++ [rc]) ++ r1 ++ rrest := by simp
          have hl1 : pre.length + 1 = (pre ++ [c]).length := by simp
          have hl2 : rpre.length + 1 = (rpre ++ [rc]).length := by simp
          have hl3 : (((rc :: r1).length : Int) - 1) = (r1.length : Int) := by
            simp only [List.length_cons, Nat.cast_add, Nat.cast_one]
            omega
          rw [hshape, hrshape, hl1, hl2, hl3] at hst
          have hf1 : e.length + 1 ≤ f := by
            simp only [List.length_cons] at hf
            omega
          have := ih hw.2 (pre ++ [c]) r1 (rpre ++ [rc]) f hf1 st hst
          rw [hshape, decode_plain K c e hc, hm]
          simpa using this
        · rw [if_neg hm] at hst
          subst hst
          rw [decode_plain K c e hc]
          have hne : ¬ (c = rc) := fun h => hm h.symm
          simp only [List.length_cons, Nat.cast_add, Nat.cast_one, hread]
          constructor
          · constructor
            · intro h
              omega
            · intro h
              simp [hne] at h
          · constructor
            · intro h
              omega
            · intro h
              simp [hne] at h

/-- C5. Exact-match outcomes of `metadiffer`: for a well-formed encoded string
`s` and a raw string `r` of length `len`, the result is 0 if and only if the
decoding of `s` is `r`, byte for byte and of the same length, and it is -1 if
and only if `r` is a proper initial segment of the decoding of `s`. -/
theorem metadiffer_exact (K : ZshH) (charSigned : Bool) (s tail r rrest : List Nat)
    (hw : wellFormed K s = true) :
    (metadiffer K charSigned (s ++ 0 :: tail) (r ++ rrest) (r.length : Int) = 0 ↔
        decode K s = r) ∧
      (metadiffer K charSigned (s ++ 0 :: tail) (r ++ rrest) (r.length : Int) = -1 ↔
        (r.length < (decode K s).length ∧ (decode K s).take r.length = r)) := by
  have h := metadifferLoop_exact K charSigned tail rrest s hw [] r [] ((s ++ 0 :: tail).length + 1)
    (by simp only [List.length_append, List.length_cons]; omega) _ rfl
  simp only [List.nil_append, List.length_nil] at h
  rw [metadiffer_eq_zero, metadiffer_eq_neg_one]
  exact ⟨h.2, h.1⟩

theorem metadiffer_exact_witness :
    wellFormed zsh_h [72, 131, 32, 108] = true ∧
      ((metadiffer zsh_h true ([72, 131, 32, 108] ++ 0 :: []) ([72, 0] ++ [9])
          (([72, 0] : List Nat).length : Int) = 0 ↔ decode zsh_h [72, 131, 32, 108] = [72, 0]) ∧
        (metadiffer zsh_h true ([72, 131, 32, 108] ++ 0 :: []) ([72, 0] ++ [9])
          (([72, 0] : List Nat).length : Int) = -1 ↔
          (([72, 0] : List Nat).length < (decode zsh_h [72, 131, 32, 108]).length ∧
            (decode zsh_h [72, 131, 32, 108]).take ([72, 0] : List Nat).length = [72, 0]))) ∧
      metadiffer zsh_h true [72, 131, 32, 108, 0] [72, 0, 9] 2 = -1 ∧
      metadiffer zsh_h true [72, 131, 32, 108, 0] [72, 0, 108] 3 = 0 ∧
      metadiffer zsh_h false [72, 131, 32, 108, 0] [72, 0, 9] 2 = -1 ∧
      metadiffer zsh_h false [72, 131, 32, 108, 0] [72, 0, 108] 3 = 0 :=
  ⟨by decide, metadiffer_exact zsh_h true [72, 131, 32, 108] [] [72, 0] [9] (by decide),
    by decide, by decide, by decide, by decide⟩

/-- C6, at the failing input. The string `"\0A"` is encoded as `Meta, 0x20, 'A'`
and its byte-wise lower-casing is the raw string `"\0a"` of length 2, so the
documented result is 1; `metadiffer` returns 3. After the first loop has
matched the pair and failed on `'A'`, `s -= len - l - 1` moves `s` back by one
byte for the one matched character, which leaves it on the payload byte of the
pair instead of the start of the string. This is so whether plain `char` is
signed or not. -/
theorem metadiffer_casefold_after_pair :
    metafy zsh_h (fun _ => 170) [0, 65] 2 MetaHeap.META_DUP = [131, 32, 65, 0] ∧
      wellFormed zsh_h [131, 32, 65] = true ∧
      (decode zsh_h [131, 32, 65]).map tulower = [0, 97] ∧
      decode zsh_h [131, 32, 65] ≠ [0, 97] ∧
      (∀ sg : Bool,
        metadifferLoop zsh_h sg (plainChar sg) [131, 32, 65, 0] [0, 97] 5 0 0 2 = (2, 2, 0) ∧
          metadiffer zsh_h sg [131, 32, 65, 0] [0, 97] 2 = 3) := by
  decide

/-! ### `metalen` -/

theorem metalenLoop_protect (K : ZshH) (tail : List Nat) :
    ∀ (x : List Nat) (k m : Nat), k ≤ x.length →
      metalenLoop K k (protect K x ++ tail) m = m + (x.take k).countP (imeta K) := by
  intro x
  induction x with
  | nil =>
    intro k m hk
    have : k = 0 := by simpa using hk
    subst this
    simp [metalenLoop]
  | cons b x ih =>
    intro k m hk
    cases k with
    | zero => simp [metalenLoop]
    | succ k =>
      have hk1 : k ≤ x.length := by simpa using hk
      rw [metalenLoop, List.take_succ_cons]
      by_cases hm : imeta K b = true
      · rw [protect, if_pos hm, List.countP_cons_of_pos _ _ hm]
        simp only [List.cons_append, List.headD_cons, if_true, List.tail_cons]
        rw [ih k (m + 1) hk1]
        omega
      · have hb := imeta_false_ne K b hm
        rw [protect, if_neg hm, List.countP_cons_of_neg _ _ hm]
        simp only [List.cons_append, List.headD_cons, if_neg hb.2, List.tail_cons]
        exact ih k m hk1

/-- C11. `metalen` turns a logical length into an encoded length: for every byte
sequence `x` and every `k` with `k <= len(x)`, `metalen(metafy(x), k)` is `k` plus
the number of protected bytes among the first `k` bytes of `x`; and when the
constants of `zsh.h` lie in 0x80..0x9f, `metalen(metafy(x), len(x))` is
`strlen(metafy(x))`. -/
theorem metalen_metafy (K : ZshH) (fresh : Nat → Nat) (x rest : List Nat) (heap : MetaHeap)
    (h : metafyRoom K x rest heap) (k : Nat) (hk : k ≤ x.length) :
    metalen K (metafy K fresh (x ++ rest) (x.length : Int) heap) k
        = k + (x.take k).countP (imeta K) ∧
      (K.inBand → metalen K (metafy K fresh (x ++ rest) (x.length : Int) heap) x.length
        = strlen (metafy K fresh (x ++ rest) (x.length : Int) heap)) := by
  obtain ⟨tail, ht⟩ := metafy_eq K fresh x rest heap h
  rw [ht]
  refine ⟨metalenLoop_protect K _ x k k hk, fun hK => ?_⟩
  rw [metalen, metalenLoop_protect K _ x x.length x.length (le_refl _), List.take_length, strlen,
    takeWhile_terminated _ _ (protect_ne_zero K hK x), length_protect]

theorem metalen_metafy_witness :
    metafyRoom zsh_h [97, 0, 98, 132, 99] [] MetaHeap.META_DUP ∧ 3 ≤ ([97, 0, 98, 132, 99] : List Nat).length ∧
      (metalen zsh_h (metafy zsh_h (fun _ => 170) ([97, 0, 98, 132, 99] ++ [])
          (([97, 0, 98, 132, 99] : List Nat).length : Int) MetaHeap.META_DUP) 3
          = 3 + (([97, 0, 98, 132, 99] : List Nat).take 3).countP (imeta zsh_h) ∧
        (zsh_h.inBand → metalen zsh_h (metafy zsh_h (fun _ => 170) ([97, 0, 98, 132, 99] ++ [])
            (([97, 0, 98, 132, 99] : List Nat).length : Int) MetaHeap.META_DUP)
            ([97, 0, 98, 132, 99] : List Nat).length
          = strlen (metafy zsh_h (fun _ => 170) ([97, 0, 98, 132, 99] ++ [])
            (([97, 0, 98, 132, 99] : List Nat).length : Int) MetaHeap.META_DUP))) ∧
      metalen zsh_h [97, 131, 32, 98, 131, 164, 99, 0] 3 = 4 :=
  ⟨by decide, by decide, metalen_metafy zsh_h (fun _ => 170) [97, 0, 98, 132, 99] []
    MetaHeap.META_DUP (by decide) 3 (by decide), by decide⟩

/-! ### `unmeta` -/

theorem set_set_length_append (a : List Nat) (z c d : Nat) (s : List Nat) :
    ((a ++ z :: s).set a.length c).set a.length d = a ++ d :: s := by
  rw [set_length_append, set_length_append]

/-- The loop of `unmeta` when the decoding fits below the bound: it consumes the
whole string and leaves the decoding in the static area. -/
theorem unmetaLoop_fit (K : ZshH) (PATH_MAX : Nat) (tail : List Nat) :
    ∀ e, wellFormed K e = true → ∀ (pre done junk : List Nat) (fuel : Nat), e.length ≤ fuel →
      done.length + (decode K e).length ≤ 4 * PATH_MAX - 1 →
      (decode K e).length ≤ junk.length →
      unmetaLoop K PATH_MAX (pre ++ e ++ 0 :: tail) fuel pre.length done.length (done ++ junk)
        = (pre.length + e.length, done.length + (decode K e).length,
            done ++ decode K e ++ junk.drop (decode K e).length) := by
  refine token_induction K.Meta (fun e => wellFormed K e = true →
    ∀ (pre done junk : List Nat) (fuel : Nat), e.length ≤ fuel →
      done.length + (decode K e).length ≤ 4 * PATH_MAX - 1 →
      (decode K e).length ≤ junk.length →
      unmetaLoop K PATH_MAX (pre ++ e ++ 0 :: tail) fuel pre.length done.length (done ++ junk)
        = (pre.length + e.length, done.length + (decode K e).length,
            done ++ decode K e ++ junk.drop (decode K e).length)) ?_ ?_ ?_ ?_
  · intro _ pre done junk fuel _ _ _
    cases fuel with
    | zero => simp [unmetaLoop, decode]
    | succ f =>
      rw [unmetaLoop, List.append_nil, getD_length_append]
      simp [decode]
  · intro h
    rw [wellFormed_last] at h
    simp at h
  · intro y e ih hw pre done junk fuel hf hb hj
    rw [wellFormed_pair] at hw
    simp only [Bool.and_eq_true, bne_iff_ne, ne_eq] at hw
    rw [decode_pair] at hb hj ⊢
    simp only [List.length_cons] at hf hb hj
    cases fuel with
    | zero => omega
    | succ f =>
      cases junk with
      | nil => simp at hj
      | cons j junk1 =>
        have hshape : pre ++ K.Meta :: y :: e ++ 0 :: tail
            = (pre ++ [K.Meta, y]) ++ e ++ 0 :: tail := by simp
        have hread : (pre ++ K.Meta :: y :: e ++ 0 :: tail).getD pre.length 0 = K.Meta := by
          rw [List.append_assoc, List.cons_append, getD_length_append]
        have hread2 : (pre ++ K.Meta :: y :: e ++ 0 :: tail).getD (pre.length + 1) 0 = y := by
          have e1 : pre ++ K.Meta :: y :: e ++ 0 :: tail
              = (pre ++ [K.Meta]) ++ y :: (e ++ 0 :: tail) := by simp
          have l1 : pre.length + 1 = (pre ++ [K.Meta]).length := by simp
          rw [e1, l1, getD_length_append]
        have hnext : done ++ (y ^^^ 32) :: junk1 = (done ++ [y ^^^ 32]) ++ junk1 := by simp
        have hl1 : pre.length + 2 = (pre ++ [K.Meta, y]).length := by simp
        have hl2 : done.length + 1 = (done ++ [y ^^^ 32]).length := by simp
        rw [unmetaLoop, hread, hread2, if_pos ⟨hw.1, by omega⟩, if_pos rfl, set_set_length_append,
          hshape, hnext, hl1, hl2, ih hw.2.2 _ _ _ f (by omega) (by simp; omega)
            (by simp at hj; omega)]
        simp
        omega
  · intro c e hc ih hw pre done junk fuel hf hb hj
    rw [wellFormed_plain K c e hc] at hw
    simp only [Bool.and_eq_true, bne_iff_ne, ne_eq] at hw
    rw [decode_plain K c e hc] at hb hj ⊢
    simp only [List.length_cons] at hf hb hj
    cases fuel with
    | zero => omega
    | succ f =>
      cases junk with
      | nil => simp at hj
      | cons j junk1 =>
        have hshape : pre ++ c :: e ++ 0 :: tail = (pre ++ [c]) ++ e ++ 0 :: tail := by simp
        have hread : (pre ++ c :: e ++ 0 :: tail).getD pre.length 0 = c := by
          rw [List.append_assoc, List.cons_append, getD_length_append]
        have hnext : done ++ c :: junk1 = (done ++ [c]) ++ junk1 := by simp
        have hl1 : pre.length + 1 = (pre ++ [c]).length := by simp
        have hl2 : done.length + 1 = (done ++ [c]).length := by simp
        rw [unmetaLoop, hread, if_pos ⟨hw.1, by omega⟩, if_neg hc, set_length_append,
          hshape, hnext, hl1, hl2, ih hw.2 _ _ _ f (by omega) (by simp; omega)
            (by simp at hj; omega)]
        simp
        omega

/-- The loop of `unmeta` when the decoding does not fit below the bound: it
stops in front of a byte of the string that is not the terminator. -/
theorem unmetaLoop_over (K : ZshH) (PATH_MAX : Nat) (tail : List Nat) :
    ∀ e, wellFormed K e = true → ∀ (pre : List Nat) (p : Nat) (fn : List Nat) (fuel : Nat),
      e.length ≤ fuel → p ≤ 4 * PATH_MAX - 1 → 4 * PATH_MAX - 1 < p + (decode K e).length →
      (pre ++ e ++ 0 :: tail).getD
        (unmetaLoop K PATH_MAX (pre ++ e ++ 0 :: tail) fuel pre.length p fn).1 0 ≠ 0 := by
  refine token_induction K.Meta (fun e => wellFormed K e = true →
    ∀ (pre : List Nat) (p : Nat) (fn : List Nat) (fuel : Nat),
      e.length ≤ fuel → p ≤ 4 * PATH_MAX - 1 → 4 * PATH_MAX - 1 < p + (decode K e).length →
      (pre ++ e ++ 0 :: tail).getD
        (unmetaLoop K PATH_MAX (pre ++ e ++ 0 :: tail) fuel pre.length p fn).1 0 ≠ 0) ?_ ?_ ?_ ?_
  · intro _ pre p fn fuel _ hp hd
    simp [decode] at hd
    omega
  · intro h
    rw [wellFormed_last] at h
    simp at h
  · intro y e ih hw pre p fn fuel hf hp hd
    rw [wellFormed_pair] at hw
    simp only [Bool.and_eq_true, bne_iff_ne, ne_eq] at hw
    rw [decode_pair] at hd
    simp only [List.length_cons] at hf hd
    have hshape : pre ++ K.Meta :: y :: e ++ 0 :: tail
        = (pre ++ [K.Meta, y]) ++ e ++ 0 :: tail := by simp
    have hread : (pre ++ K.Meta :: y :: e ++ 0 :: tail).getD pre.length 0 = K.Meta := by
      rw [List.append_assoc, List.cons_append, getD_length_append]
    cases fuel with
    | zero => omega
    | succ f =>
      rw [unmetaLoop, hread]
      by_cases hlt : p < 4 * PATH_MAX - 1
      · have hl1 : pre.length + 2 = (pre ++ [K.Meta, y]).length := by simp
        rw [if_pos ⟨hw.1, hlt⟩, if_pos rfl, hshape, hl1]
        exact ih hw.2.2 _ _ _ f (by omega) (by omega) (by omega)
      · rw [if_neg (fun h => hlt h.2)]
        dsimp only
        rw [hread]
        exact hw.1
  · intro c e hc ih hw pre p fn fuel hf hp hd
    rw [wellFormed_plain K c e hc] at hw
    simp only [Bool.and_eq_true, bne_iff_ne, ne_eq] at hw
    rw [decode_plain K c e hc] at hd
    simp only [List.length_cons] at hf hd
    have hshape : pre ++ c :: e ++ 0 :: tail = (pre ++ [c]) ++ e ++ 0 :: tail := by simp
    have hread : (pre ++ c :: e ++ 0 :: tail).getD pre.length 0 = c := by
      rw [List.append_assoc, List.cons_append, getD_length_append]
    cases fuel with
    | zero => omega
    | succ f =>
      rw [unmetaLoop, hread]
      by_cases hlt : p < 4 * PATH_MAX - 1
      · have hl1 : pre.length + 1 = (pre ++ [c]).length := by simp
        rw [if_pos ⟨hw.1, hlt⟩, if_neg hc, hshape, hl1]
        exact ih hw.2 _ _ _ f (by omega) (by omega) (by omega)
      · rw [if_neg (fun h => hlt h.2)]
        dsimp only
        rw [hread]
        exact hw.1
theorem wellFormed_of_plain (K : ZshH) (s : List Nat) (h : ∀ c ∈ s, c ≠ 0 ∧ c ≠ K.Meta) :
    wellFormed K s = true ∧ decode K s = s := by
  induction s with
  | nil => exact ⟨rfl, rfl⟩
  | cons c s ih =>
    have hc := h c (List.mem_cons_self _ _)
    have ht := ih (fun d hd => h d (List.mem_cons_of_mem _ hd))
    rw [wellFormed_plain K c s hc.2, decode_plain K c s hc.2, ht.1, ht.2]
    simp [hc.1]

theorem decode_of_pairs_zero (K : ZshH) :
    ∀ s, wellFormed K s = true → pairs K s = 0 → decode K s = s := by
  refine token_induction K.Meta
    (fun s => wellFormed K s = true → pairs K s = 0 → decode K s = s) ?_ ?_ ?_ ?_
  · intro _ _
    rfl
  · intro h
    rw [wellFormed_last] at h
    simp at h
  · intro y s _ _ hp
    rw [pairs.eq_def] at hp
    simp at hp
  · intro c s hc ih hw hp
    rw [wellFormed_plain K c s hc] at hw
    simp only [Bool.and_eq_true, bne_iff_ne, ne_eq] at hw
    rw [pairs.eq_def] at hp
    simp only [if_neg hc] at hp
    rw [decode_plain K c s hc, ih hw.2 hp]

/-- What `unmeta` does when the decoding, with its terminator, fits the static
area: it returns its argument when no pair was decoded and the static area
otherwise; in both cases the decoding has been written to the static area. -/
theorem unmeta_fit (K : ZshH) (PATH_MAX : Nat) (fn s tail : List Nat)
    (hw : wellFormed K s = true) (hfn : fn.length = 4 * PATH_MAX)
    (hlen : (decode K s).length < 4 * PATH_MAX) :
    unmeta K PATH_MAX fn (s ++ 0 :: tail)
      = if (decode K s).length = s.length then
          (UnmetaResult.file_name, decode K s ++ fn.drop (decode K s).length)
        else (UnmetaResult.fn, decode K s ++ 0 :: fn.drop ((decode K s).length + 1)) := by
  have hloop := unmetaLoop_fit K PATH_MAX tail s hw [] [] fn (s ++ 0 :: tail).length
    (by simp only [List.length_append, List.length_cons]; omega)
    (by simp only [List.length_nil]; omega) (by omega)
  simp only [List.nil_append, List.length_nil, Nat.zero_add] at hloop
  unfold unmeta
  simp only [hloop, getD_length_append, ne_eq, not_true_eq_false, if_false]
  by_cases hn : (decode K s).length = s.length
  · rw [if_pos hn, if_pos hn]
  · rw [if_neg hn, if_neg hn]
    have hd : fn.drop (decode K s).length
        = fn[(decode K s).length] :: fn.drop ((decode K s).length + 1) :=
      List.drop_eq_getElem_cons (by omega)
    rw [hd, set_length_append]

theorem unmeta_null_iff (K : ZshH) (PATH_MAX : Nat) (fn s tail : List Nat)
    (hw : wellFormed K s = true) (hPM : 0 < PATH_MAX) (hfn : fn.length = 4 * PATH_MAX) :
    (unmeta K PATH_MAX fn (s ++ 0 :: tail)).1 = UnmetaResult.NULL ↔
      4 * PATH_MAX ≤ (decode K s).length := by
  by_cases hlen : (decode K s).length < 4 * PATH_MAX
  · rw [unmeta_fit K PATH_MAX fn s tail hw hfn hlen]
    constructor
    · intro h
      split_ifs at h
    · intro h
      omega
  · have hover := unmetaLoop_over K PATH_MAX tail s hw [] 0 fn (s ++ 0 :: tail).length
      (by simp only [List.length_append, List.length_cons]; omega) (by omega) (by omega)
    simp only [List.nil_append, List.length_nil] at hover
    have hnull : (unmeta K PATH_MAX fn (s ++ 0 :: tail)).1 = UnmetaResult.NULL := by
      unfold unmeta
      simp only []
      rw [if_pos hover]
    exact ⟨fun _ => by omega, fun _ => hnull⟩

/-- C12, as amended. For a well-formed encoded string `s`, `unmeta(s)` returns
`NULL` if and only if the decoding of `s` has `4 * PATH_MAX` bytes or more, that
is, if and only if the decoding with its terminating NUL is longer than the
`4 * PATH_MAX` bytes of the static area. Otherwise it returns a string whose
bytes are the decoding of `s`, never a truncated one: either the static area,
which then holds the whole decoding and a NUL, or the argument itself, which is
then its own decoding. -/
theorem unmeta_null_iff_too_long (K : ZshH) (PATH_MAX : Nat) (fn s tail : List Nat)
    (hw : wellFormed K s = true) (hPM : 0 < PATH_MAX) (hfn : fn.length = 4 * PATH_MAX) :
    ((unmeta K PATH_MAX fn (s ++ 0 :: tail)).1 = UnmetaResult.NULL ↔
        4 * PATH_MAX ≤ (decode K s).length) ∧
      ((unmeta K PATH_MAX fn (s ++ 0 :: tail)).1 = UnmetaResult.fn →
        (unmeta K PATH_MAX fn (s ++ 0 :: tail)).2.take (decode K s).length = decode K s ∧
          (unmeta K PATH_MAX fn (s ++ 0 :: tail)).2.getD (decode K s).length 1 = 0) ∧
      ((unmeta K PATH_MAX fn (s ++ 0 :: tail)).1 = UnmetaResult.file_name → decode K s = s) := by
  refine ⟨unmeta_null_iff K PATH_MAX fn s tail hw hPM hfn, ?_, ?_⟩
  · intro h
    by_cases hlen : (decode K s).length < 4 * PATH_MAX
    · rw [unmeta_fit K PATH_MAX fn s tail hw hfn hlen] at h ⊢
      split_ifs at h ⊢
      exact ⟨List.take_left' rfl, getD_length_append _ _ _ _⟩
    · have := (unmeta_null_iff K PATH_MAX fn s tail hw hPM hfn).2 (by omega)
      rw [this] at h
      exact absurd h (by decide)
  · intro h
    by_cases hlen : (decode K s).length < 4 * PATH_MAX
    · rw [unmeta_fit K PATH_MAX fn s tail hw hfn hlen] at h
      split_ifs at h with hn
      have hp := length_decode K s hw
      exact decode_of_pairs_zero K s hw (by omega)
    · have := (unmeta_null_iff K PATH_MAX fn s tail hw hPM hfn).2 (by omega)
      rw [this] at h
      exact absurd h (by decide)

theorem unmeta_null_iff_too_long_witness :
    wellFormed zsh_h [97, 131, 32] = true ∧ 0 < 1 ∧ ([9, 9, 9, 9] : List Nat).length = 4 * 1 ∧
      (((unmeta zsh_h 1 [9, 9, 9, 9] ([97, 131, 32] ++ 0 :: [])).1 = UnmetaResult.NULL ↔
          4 * 1 ≤ (decode zsh_h [97, 131, 32]).length) ∧
        ((unmeta zsh_h 1 [9, 9, 9, 9] ([97, 131, 32] ++ 0 :: [])).1 = UnmetaResult.fn →
          (unmeta zsh_h 1 [9, 9, 9, 9] ([97, 131, 32] ++ 0 :: [])).2.take
              (decode zsh_h [97, 131, 32]).length = decode zsh_h [97, 131, 32] ∧
            (unmeta zsh_h 1 [9, 9, 9, 9] ([97, 131, 32] ++ 0 :: [])).2.getD
              (decode zsh_h [97, 131, 32]).length 1 = 0) ∧
        ((unmeta zsh_h 1 [9, 9, 9, 9] ([97, 131, 32] ++ 0 :: [])).1 = UnmetaResult.file_name →
          decode zsh_h [97, 131, 32] = [97, 131, 32])) ∧
      unmeta zsh_h 1 [9, 9, 9, 9] [97, 131, 32, 0] = (UnmetaResult.fn, [97, 0, 0, 9]) :=
  ⟨by decide, by decide, by decide,
    unmeta_null_iff_too_long zsh_h 1 [9, 9, 9, 9] [97, 131, 32] [] (by decide) (by decide)
      (by decide),
    by decide⟩

/-- C12 as stated fails at the bound. With `PATH_MAX` = 4096, the string of
16384 bytes `'a'` is well formed and is its own decoding, which is 16384 bytes
long and so not longer than `4 * PATH_MAX`; `unmeta` returns `NULL` for it. -/
theorem unmeta_null_at_bound :
    wellFormed zsh_h (List.replicate 16384 97) = true ∧
      decode zsh_h (List.replicate 16384 97) = List.replicate 16384 97 ∧
      ¬ (4 * 4096 < (decode zsh_h (List.replicate 16384 97)).length) ∧
      (unmeta zsh_h 4096 (List.replicate 16384 0) (List.replicate 16384 97 ++ 0 :: [])).1
        = UnmetaResult.NULL := by
  have hp : ∀ c ∈ List.replicate 16384 97, c ≠ 0 ∧ c ≠ zsh_h.Meta := by
    intro c hc
    rw [List.eq_of_mem_replicate hc]
    decide
  have hw := wellFormed_of_plain zsh_h _ hp
  refine ⟨hw.1, hw.2, ?_, ?_⟩
  · rw [hw.2, List.length_replicate]
    decide
  · rw [unmeta_null_iff zsh_h 4096 _ _ [] hw.1 (by decide) (by rw [List.length_replicate]),
      hw.2, List.length_replicate]

/-- C13, as amended. For a NUL-terminated string `s` that contains no `Meta`
byte and is shorter than `4 * PATH_MAX` bytes, `unmeta(s)` returns `s` itself,
the original pointer, and does not fail. The static area is written all the
same: after the call its first `strlen(s)` bytes are a copy of `s`. -/
theorem unmeta_plain (K : ZshH) (PATH_MAX : Nat) (fn s tail : List Nat)
    (h0 : 0 ∉ s) (hM : K.Meta ∉ s) (hlen : s.length < 4 * PATH_MAX)
    (hfn : fn.length = 4 * PATH_MAX) :
    unmeta K PATH_MAX fn (s ++ 0 :: tail) = (UnmetaResult.file_name, s ++ fn.drop s.length) := by
  have hp : ∀ c ∈ s, c ≠ 0 ∧ c ≠ K.Meta :=
    fun c hc => ⟨fun h => h0 (h ▸ hc), fun h => hM (h ▸ hc)⟩
  have hw := wellFormed_of_plain K s hp
  rw [unmeta_fit K PATH_MAX fn s tail hw.1 hfn (by rw [hw.2]; exact hlen), hw.2, if_pos rfl]

theorem unmeta_plain_witness :
    (0 : Nat) ∉ ([97, 98] : List Nat) ∧ zsh_h.Meta ∉ ([97, 98] : List Nat) ∧
      ([97, 98] : List Nat).length < 4 * 1 ∧ ([9, 9, 9, 9] : List Nat).length = 4 * 1 ∧
      unmeta zsh_h 1 [9, 9, 9, 9] ([97, 98] ++ 0 :: [7])
        = (UnmetaResult.file_name, [97, 98] ++ ([9, 9, 9, 9] : List Nat).drop ([97, 98] : List Nat).length) :=
  ⟨by decide, by decide, by decide, by decide,
    unmeta_plain zsh_h 1 [9, 9, 9, 9] [97, 98] [7] (by decide) (by decide) (by decide)
      (by decide)⟩

/-- C13 as stated fails twice. With `PATH_MAX` = 4096 the string of 16384 bytes
`'a'` contains no `Meta`, and `unmeta` returns `NULL` for it, not the string.
And for the string `"ab"` `unmeta` returns its argument but has overwritten the
first two bytes of the static area. -/
theorem unmeta_long_plain_string :
    zsh_h.Meta ∉ List.replicate 16384 97 ∧ (0 : Nat) ∉ List.replicate 16384 97 ∧
      (unmeta zsh_h 4096 (List.replicate 16384 0) (List.replicate 16384 97 ++ 0 :: [])).1
        = UnmetaResult.NULL ∧
      unmeta zsh_h 4096 (List.replicate 16384 0) ([97, 98] ++ 0 :: [])
        = (UnmetaResult.file_name, [97, 98] ++ List.replicate 16382 0) ∧
      [97, 98] ++ List.replicate 16382 0 ≠ List.replicate 16384 0 := by
  have hp : ∀ c ∈ List.replicate 16384 97, c ≠ 0 ∧ c ≠ zsh_h.Meta := by
    intro c hc
    rw [List.eq_of_mem_replicate hc]
    decide
  have hw := wellFormed_of_plain zsh_h _ hp
  refine ⟨fun h => (hp _ h).2 rfl, fun h => (hp _ h).1 rfl, ?_, ?_, ?_⟩
  · rw [unmeta_null_iff zsh_h 4096 _ _ [] hw.1 (by decide) (by rw [List.length_replicate]),
      hw.2, List.length_replicate]
  · have hw2 := wellFormed_of_plain zsh_h [97, 98] (by decide)
    rw [unmeta_fit zsh_h 4096 _ [97, 98] [] hw2.1 (by rw [List.length_replicate])
      (by rw [hw2.2]; decide), hw2.2, if_pos rfl, List.drop_replicate]
    rfl
  · intro h
    have e : List.replicate 16384 (0 : Nat) = 0 :: List.replicate 16383 0 := rfl
    rw [e] at h
    have h1 := (List.cons.inj h).1
    exact absurd h1 (by decide)

/-! ### `nicechar` -/

set_option maxRecDepth 20000 in
theorem land_0x80 : ∀ c, c < 256 → ((c &&& 0x80 ≠ 0) ↔ 128 ≤ c) := by decide

theorem land_0x7f (c : Nat) : c &&& 0x7f = c % 128 := Nat.and_pow_two_sub_one_eq_mod c 7

theorem byte_of_int (c : Nat) (hc : c < 256) : ((c : Int) % 256).toNat = c := by omega

/-- On a byte below 0x80 `nicechar` does not reach the `\M-` branch. -/
theorem nicechar_low (isprint : Nat → Bool) (p8 : Bool) (c : Nat) (hc : c < 128) :
    nicechar isprint p8 (c : Int) = if isprint c then [c, 0] else nicecharTail c := by
  have h1 : ¬ (c &&& 0x80 ≠ 0) := fun h => by
    have := (land_0x80 c (by omega)).1 h
    omega
  unfold nicechar
  simp only [byte_of_int c (by omega), if_neg h1]

/-- C14. `nicechar` equals its documented definition, with `isprint` the
predicate of the C locale (0x20..0x7E): a printable byte gives the one-byte
string of itself; a byte with bit 7 set gives itself when `PRINTEIGHTBIT` is set
and `\M-` followed by `nicechar(c & 0x7F)` otherwise; 0x7F gives `^?`, newline
gives backslash-n, tab gives backslash-t, and every other byte below 0x20 gives
`^` followed by the byte `c + 0x40`. Each string is followed by its NUL. -/
theorem nicechar_reference (p8 : Bool) (c : Nat) (hc : c < 256) :
    (isprintC c = true → nicechar isprintC p8 (c : Int) = [c, 0]) ∧
      (128 ≤ c → p8 = true → nicechar isprintC p8 (c : Int) = [c, 0]) ∧
      (128 ≤ c → p8 = false → nicechar isprintC p8 (c : Int)
        = [92, 77, 45] ++ nicechar isprintC p8 ((c &&& 0x7f : Nat) : Int)) ∧
      (c = 0x7f → nicechar isprintC p8 (c : Int) = [94, 63, 0]) ∧
      (c = 10 → nicechar isprintC p8 (c : Int) = [92, 110, 0]) ∧
      (c = 9 → nicechar isprintC p8 (c : Int) = [92, 116, 0]) ∧
      (c < 0x20 → c ≠ 10 → c ≠ 9 → nicechar isprintC p8 (c : Int) = [94, c + 0x40, 0]) := by
  have hhigh : 128 ≤ c → isprintC c = false := by
    intro h
    simp only [isprintC, Bool.and_eq_false_imp, decide_eq_true_eq, decide_eq_false_iff_not]
    omega
  have hbit : 128 ≤ c → c &&& 0x80 ≠ 0 := (land_0x80 c hc).2
  refine ⟨?_, ?_, ?_, ?_, ?_, ?_, ?_⟩
  · intro h
    unfold nicechar
    simp only [byte_of_int c hc, h, if_true]
  · intro h hp
    unfold nicechar
    simp only [byte_of_int c hc]
    rw [if_neg (by simp [hhigh h]), if_pos (hbit h), if_pos hp]
  · intro h hp
    have hlow : c &&& 0x7f < 128 := by
      rw [land_0x7f]
      omega
    rw [nicechar_low isprintC p8 _ hlow]
    unfold nicechar
    simp only [byte_of_int c hc]
    rw [if_neg (by simp [hhigh h]), if_pos (hbit h), if_neg (by simp [hp])]
    by_cases hpr : isprintC (c &&& 0x7f) = true
    · rw [if_pos hpr, if_pos hpr]
      rfl
    · rw [if_neg hpr, if_neg hpr]
  · intro h
    subst h
    rw [nicechar_low isprintC p8 _ (by decide)]
    rfl
  · intro h
    subst h
    rw [nicechar_low isprintC p8 _ (by decide)]
    rfl
  · intro h
    subst h
    rw [nicechar_low isprintC p8 _ (by decide)]
    rfl
  · intro h h10 h9
    have hnp : isprintC c = false := by
      simp only [isprintC, Bool.and_eq_false_imp, decide_eq_true_eq, decide_eq_false_iff_not]
      omega
    rw [nicechar_low isprintC p8 _ (by omega)]
    simp only [hnp, nicecharTail, h10, h9, h]
    have h7 : ¬ c = 0x7f := by omega
    simp [h7]

theorem nicechar_reference_witness :
    7 < 256 ∧
      ((isprintC 7 = true → nicechar isprintC false ((7 : Nat) : Int) = [7, 0]) ∧
        (128 ≤ 7 → false = true → nicechar isprintC false ((7 : Nat) : Int) = [7, 0]) ∧
        (128 ≤ 7 → false = false → nicechar isprintC false ((7 : Nat) : Int)
          = [92, 77, 45] ++ nicechar isprintC false ((7 &&& 0x7f : Nat) : Int)) ∧
        (7 = 0x7f → nicechar isprintC false ((7 : Nat) : Int) = [94, 63, 0]) ∧
        (7 = 10 → nicechar isprintC false ((7 : Nat) : Int) = [92, 110, 0]) ∧
        (7 = 9 → nicechar isprintC false ((7 : Nat) : Int) = [92, 116, 0]) ∧
        (7 < 0x20 → 7 ≠ 10 → 7 ≠ 9 → nicechar isprintC false ((7 : Nat) : Int)
          = [94, 7 + 0x40, 0])) ∧
      nicechar isprintC false 7 = [94, 71, 0] ∧ nicechar isprintC false 127 = [94, 63, 0] ∧
      nicechar isprintC false 10 = [92, 110, 0] ∧
      nicechar isprintC false 0x8a = [92, 77, 45, 92, 110, 0] ∧
      nicechar isprintC true 0x8a = [0x8a, 0] :=
  ⟨by decide, nicechar_reference false 7 (by decide), by decide, by decide, by decide, by decide,
    by decide⟩

/-- C15. The result of `nicechar` fits its buffer for every `int` argument,
either setting of `PRINTEIGHTBIT` and any `isprint`: it stores between one and
five bytes and then the terminating NUL, at most six bytes in all. When
`isprint` rejects NUL none of the stored bytes is NUL, so the visible form is as
long as the bytes stored. -/
theorem nicechar_fits_buffer (isprint : Nat → Bool) (p8 : Bool) (c : Int) :
    (nicechar isprint p8 c).length ≤ 6 ∧ 1 ≤ (nicechar isprint p8 c).dropLast.length ∧
      (nicechar isprint p8 c).dropLast.length ≤ 5 ∧
      (nicechar isprint p8 c).getLast? = some 0 ∧
      (isprint 0 = false →
        strlen (nicechar isprint p8 c) = (nicechar isprint p8 c).dropLast.length) := by
  have hne : ∀ a : Nat, isprint a = true → isprint 0 = false → a ≠ 0 := by
    intro a ha h0 h
    rw [h, h0] at ha
    exact absurd ha (by decide)
  have hbit : ∀ a : Nat, a &&& 0x80 ≠ 0 → a ≠ 0 := by
    intro a ha h
    rw [h] at ha
    exact ha rfl
  unfold nicechar nicecharTail strlen
  simp only []
  split_ifs with h1 h2 h3 h4 h5 h6 h7 h8 h9 h10 h11 h12 <;>
    refine ⟨by simp, by simp, by simp, by simp, fun h0 => ?_⟩
  · simp [hne _ h1 h0]
  · simp [hbit _ h2]
  · simp [hne _ h4 h0]
  · simp
  · simp
  · simp
  · simp
  · have : ¬ ((c % 256).toNat &&& 0x7f) = 0 := by omega
    simp [this]
  · simp
  · simp
  · simp
  · simp
  · have : ¬ (c % 256).toNat = 0 := by omega
    simp [this]

/-! ### The display of encoded strings -/

/-- The substitution made for a token is never taken for `Meta`. -/
theorem ztokens_ne_Meta (K : ZshH) (Comma : Nat) (ztokens : List Nat) (hz : K.Meta ∉ ztokens)
    (hlen : Comma - K.Pound < ztokens.length) (c : Nat) (hc : c ≤ Comma) :
    ztokens.getD (c - K.Pound) 0 ≠ K.Meta := by
  have hlt : c - K.Pound < ztokens.length := by omega
  rw [List.getD_eq_getElem _ _ hlt]
  intro h
  exact hz (h ▸ List.getElem_mem _)

theorem nicezputs_eq (K : ZshH) (Comma : Nat) (ztokens : List Nat) (isprint : Nat → Bool)
    (p8 : Bool) (tail : List Nat) (hMt : itok K K.Meta = false) (hz : K.Meta ∉ ztokens)
    (hlen : Comma - K.Pound < ztokens.length) :
    ∀ s, wellFormed K s = true →
      nicezputs K Comma ztokens isprint p8 (s ++ 0 :: tail)
        = displayRef K Comma ztokens (fun b => cstr (nicechar isprint p8 (b : Int))) s := by
  refine token_induction K.Meta (fun s => wellFormed K s = true →
      nicezputs K Comma ztokens isprint p8 (s ++ 0 :: tail)
        = displayRef K Comma ztokens (fun b => cstr (nicechar isprint p8 (b : Int))) s)
    ?_ ?_ ?_ ?_
  · intro _
    rw [List.nil_append, nicezputs.eq_def]
    simp [displayRef]
  · intro h
    rw [wellFormed_last] at h
    simp at h
  · intro y s ih hw
    rw [wellFormed_pair] at hw
    simp only [Bool.and_eq_true, bne_iff_ne, ne_eq] at hw
    rw [List.cons_append, List.cons_append, nicezputs.eq_def, displayRef.eq_def]
    simp only [if_neg hw.1, hMt, Bool.false_eq_true, false_and, if_false, if_true, ih hw.2.2]
  · intro c s hc ih hw
    rw [wellFormed_plain K c s hc] at hw
    simp only [Bool.and_eq_true, bne_iff_ne, ne_eq] at hw
    rw [List.cons_append, nicezputs.eq_def, displayRef.eq_def]
    simp only [if_neg hw.1, if_neg hc, ih hw.2]
    by_cases ht : itok K c = true
    · by_cases hle : c ≤ Comma
      · have hne := ztokens_ne_Meta K Comma ztokens hz hlen c hle
        simp only [ht, hle, not_true_eq_false, and_false, if_false, if_true, if_neg hne]
      · simp only [ht, hle, not_false_eq_true, and_self, if_true, if_false, List.nil_append]
    · simp only [ht, Bool.false_eq_true, false_and, if_false, if_neg hc]

theorem niceztrdupLoop_eq (K : ZshH) (Comma : Nat) (ztokens : List Nat) (isprint : Nat → Bool)
    (p8 : Bool) (tail : List Nat) (hMt : itok K K.Meta = false) (hz : K.Meta ∉ ztokens)
    (hlen : Comma - K.Pound < ztokens.length) :
    ∀ s, wellFormed K s = true →
      niceztrdupLoop K Comma ztokens isprint p8 (s ++ 0 :: tail)
        = displayRef K Comma ztokens (fun b => cstr (nicechar isprint p8 (b : Int))) s := by
  refine token_induction K.Meta (fun s => wellFormed K s = true →
      niceztrdupLoop K Comma ztokens isprint p8 (s ++ 0 :: tail)
        = displayRef K Comma ztokens (fun b => cstr (nicechar isprint p8 (b : Int))) s)
    ?_ ?_ ?_ ?_
  · intro _
    rw [List.nil_append, niceztrdupLoop.eq_def]
    simp [displayRef]
  · intro h
    rw [wellFormed_last] at h
    simp at h
  · intro y s ih hw
    rw [wellFormed_pair] at hw
    simp only [Bool.and_eq_true, bne_iff_ne, ne_eq] at hw
    rw [List.cons_append, List.cons_append, niceztrdupLoop.eq_def, displayRef.eq_def]
    simp only [if_neg hw.1, hMt, Bool.false_eq_true, false_and, if_false, if_true, ih hw.2.2]
  · intro c s hc ih hw
    rw [wellFormed_plain K c s hc] at hw
    simp only [Bool.and_eq_true, bne_iff_ne, ne_eq] at hw
    rw [List.cons_append, niceztrdupLoop.eq_def, displayRef.eq_def]
    simp only [if_neg hw.1, if_neg hc, ih hw.2]
    by_cases ht : itok K c = true
    · by_cases hle : c ≤ Comma
      · have hne := ztokens_ne_Meta K Comma ztokens hz hlen c hle
        simp only [ht, hle, not_true_eq_false, and_false, if_false, if_true, if_neg hne]
      · simp only [ht, hle, not_false_eq_true, and_self, if_true, if_false, List.nil_append]
    · simp only [ht, Bool.false_eq_true, false_and, if_false, if_neg hc]

theorem niceztrlen_eq (K : ZshH) (Comma : Nat) (ztokens : List Nat) (isprint : Nat → Bool)
    (p8 : Bool) (tail : List Nat) (hMt : itok K K.Meta = false) (hz : K.Meta ∉ ztokens)
    (hlen : Comma - K.Pound < ztokens.length) :
    ∀ s, wellFormed K s = true →
      niceztrlen K Comma ztokens isprint p8 (s ++ 0 :: tail)
        = (displayRef K Comma ztokens (fun b => cstr (nicechar isprint p8 (b : Int))) s).length := by
  refine token_induction K.Meta (fun s => wellFormed K s = true →
      niceztrlen K Comma ztokens isprint p8 (s ++ 0 :: tail)
        = (displayRef K Comma ztokens (fun b => cstr (nicechar isprint p8 (b : Int))) s).length)
    ?_ ?_ ?_ ?_
  · intro _
    rw [List.nil_append, niceztrlen.eq_def]
    simp [displayRef]
  · intro h
    rw [wellFormed_last] at h
    simp at h
  · intro y s ih hw
    rw [wellFormed_pair] at hw
    simp only [Bool.and_eq_true, bne_iff_ne, ne_eq] at hw
    rw [List.cons_append, List.cons_append, niceztrlen.eq_def, displayRef.eq_def]
    simp only [if_neg hw.1, hMt, Bool.false_eq_true, false_and, if_false, if_true, ih hw.2.2,
      List.length_append, strlen, cstr]
  · intro c s hc ih hw
    rw [wellFormed_plain K c s hc] at hw
    simp only [Bool.and_eq_true, bne_iff_ne, ne_eq] at hw
    rw [List.cons_append, niceztrlen.eq_def, displayRef.eq_def]
    simp only [if_neg hw.1, if_neg hc, ih hw.2]
    by_cases ht : itok K c = true
    · by_cases hle : c ≤ Comma
      · have hne := ztokens_ne_Meta K Comma ztokens hz hlen c hle
        simp only [ht, hle, not_true_eq_false, and_false, if_false, if_true, if_neg hne,
          List.length_append, strlen, cstr]
      · simp only [ht, hle, not_false_eq_true, and_self, if_true, if_false, List.nil_append]
    · simp only [ht, Bool.false_eq_true, false_and, if_false, if_neg hc, List.length_append,
        strlen, cstr]

/-- With `META_DUP`, `metafy` returns exactly the protected form and its
terminator. -/
theorem metafy_dup (K : ZshH) (fresh : Nat → Nat) (x rest : List Nat) :
    metafy K fresh (x ++ rest) (x.length : Int) MetaHeap.META_DUP = protect K x ++ [0] := by
  have hroom : metafyRoom K x rest MetaHeap.META_DUP := by
    intro h
    rcases h with h | ⟨_, h, _⟩
    · exact absurd h (by decide)
    · exact absurd rfl h
  obtain ⟨tail, ht⟩ := metafy_eq K fresh x rest MetaHeap.META_DUP hroom
  have hlen : (metafy K fresh (x ++ rest) (x.length : Int) MetaHeap.META_DUP).length
      = x.length + x.countP (imeta K) + 1 := by
    have hne : ¬ ((x.length : Int) = -1) := by omega
    have htake : (x ++ rest).take x.length = x := List.take_left' rfl
    unfold metafy
    simp only [hne, if_false, Int.toNat_ofNat, htake, or_true, true_or, if_true, List.length_set]
    have hmain : ∀ (p t m : Nat) (b : List Nat), (metafyLoop K p t m b).length = b.length := by
      intro p
      induction p with
      | zero =>
        intro t m b
        cases m <;> simp [metafyLoop]
      | succ p ih =>
        intro t m b
        cases m with
        | zero => simp [metafyLoop]
        | succ m =>
          rw [metafyLoop]
          split_ifs
          · rw [ih, List.length_set, List.length_set, List.length_set]
          · rw [ih, List.length_set]
    rw [hmain]
    simp only [List.length_append, List.length_map, List.length_range]
    omega
  rw [ht] at hlen ⊢
  have : tail.length = 0 := by
    simp only [List.length_append, List.length_cons, length_protect] at hlen
    omega
  rw [List.length_eq_zero.1 this]

/-- C16, as literally stated, fails for a string that ends in `Meta`: the
code takes the terminating NUL as the payload of a pair and goes on with the
bytes behind it. The two areas below hold the same string, `a` and `Meta`,
and differ only after its terminator, yet `nicezputs` writes `a`, blank, `b`
for the one and `a`, blank, `c` for the other; `niceztrlen` counts these three
bytes and `niceztrdup` returns them. -/
theorem nicezputs_meta_before_nul :
    cstr [97, 131, 0, 98, 0] = [97, 131] ∧ cstr [97, 131, 0, 99, 0] = [97, 131] ∧
      wellFormed zsh_h [97, 131] = false ∧
      nicezputs zsh_h zsh_Comma zsh_ztokens isprintC false [97, 131, 0, 98, 0] = [97, 32, 98] ∧
      nicezputs zsh_h zsh_Comma zsh_ztokens isprintC false [97, 131, 0, 99, 0] = [97, 32, 99] ∧
      niceztrlen zsh_h zsh_Comma zsh_ztokens isprintC false [97, 131, 0, 98, 0] = 3 ∧
      niceztrdup zsh_h zsh_Comma zsh_ztokens isprintC false (fun _ => 170) [97, 131, 0, 98, 0]
        = [97, 32, 98, 0] ∧
      niceztrdup zsh_h zsh_Comma zsh_ztokens isprintC false (fun _ => 170) [97, 131, 0, 99, 0]
        = [97, 32, 99, 0] := by
  decide

/-- C16 (amended). Token display: for a well-formed string `s`, `nicezputs` writes the
in-order concatenation of `nicechar(ztokens[c - Pound])` for each raw token byte
`c <= Comma`, of nothing for each raw token byte above `Comma`, and of
`nicechar(b)` for every other logical byte `b`, where a pair `(Meta, y)`
contributes the decoded byte `y XOR 0x20` and is not treated as a token.
`niceztrlen` returns the length of that text and `niceztrdup` returns it
encoded by `metafy`. -/
theorem nicezputs_token_display (K : ZshH) (Comma : Nat) (ztokens : List Nat)
    (isprint : Nat → Bool) (p8 : Bool) (fresh : Nat → Nat) (s tail : List Nat)
    (hw : wellFormed K s = true) (hMt : itok K K.Meta = false) (hz : K.Meta ∉ ztokens)
    (hlen : Comma - K.Pound < ztokens.length) :
    nicezputs K Comma ztokens isprint p8 (s ++ 0 :: tail)
        = displayRef K Comma ztokens (fun b => cstr (nicechar isprint p8 (b : Int))) s ∧
      niceztrlen K Comma ztokens isprint p8 (s ++ 0 :: tail)
        = (displayRef K Comma ztokens (fun b => cstr (nicechar isprint p8 (b : Int))) s).length ∧
      niceztrdup K Comma ztokens isprint p8 fresh (s ++ 0 :: tail)
        = protect K (displayRef K Comma ztokens
            (fun b => cstr (nicechar isprint p8 (b : Int))) s) ++ [0] := by
  refine ⟨nicezputs_eq K Comma ztokens isprint p8 tail hMt hz hlen s hw,
    niceztrlen_eq K Comma ztokens isprint p8 tail hMt hz hlen s hw, ?_⟩
  unfold niceztrdup
  simp only [niceztrdupLoop_eq K Comma ztokens isprint p8 tail hMt hz hlen s hw]
  exact metafy_dup K fresh _ _

theorem nicezputs_token_display_witness :
    wellFormed zsh_h [97, 132, 152, 131, 164, 7] = true ∧ itok zsh_h zsh_h.Meta = false ∧
      zsh_h.Meta ∉ zsh_ztokens ∧ zsh_Comma - zsh_h.Pound < zsh_ztokens.length ∧
      (nicezputs zsh_h zsh_Comma zsh_ztokens isprintC false ([97, 132, 152, 131, 164, 7] ++ 0 :: [])
          = displayRef zsh_h zsh_Comma zsh_ztokens
            (fun b => cstr (nicechar isprintC false (b : Int))) [97, 132, 152, 131, 164, 7] ∧
        niceztrlen zsh_h zsh_Comma zsh_ztokens isprintC false
            ([97, 132, 152, 131, 164, 7] ++ 0 :: [])
          = (displayRef zsh_h zsh_Comma zsh_ztokens
            (fun b => cstr (nicechar isprintC false (b : Int))) [97, 132, 152, 131, 164, 7]).length ∧
        niceztrdup zsh_h zsh_Comma zsh_ztokens isprintC false (fun _ => 170)
            ([97, 132, 152, 131, 164, 7] ++ 0 :: [])
          = protect zsh_h (displayRef zsh_h zsh_Comma zsh_ztokens
            (fun b => cstr (nicechar isprintC false (b : Int))) [97, 132, 152, 131, 164, 7])
              ++ [0]) ∧
      nicezputs zsh_h zsh_Comma zsh_ztokens isprintC false [97, 132, 152, 131, 164, 7, 0]
        = [97, 35, 92, 77, 45, 94, 68, 94, 71] :=
  ⟨by decide, by decide, by decide, by decide,
    nicezputs_token_display zsh_h zsh_Comma zsh_ztokens isprintC false (fun _ => 170)
      [97, 132, 152, 131, 164, 7] [] (by decide) (by decide) (by decide) (by decide),
    by decide⟩

/-! ### Quoting -/

theorem hasspecial_eq (K : ZshH) (ispecial : Nat → Bool) (tail : List Nat) :
    ∀ s, wellFormed K s = true →
      hasspecial K ispecial (s ++ 0 :: tail) = (decode K s).any ispecial := by
  refine token_induction K.Meta (fun s => wellFormed K s = true →
      hasspecial K ispecial (s ++ 0 :: tail) = (decode K s).any ispecial) ?_ ?_ ?_ ?_
  · intro _
    rw [List.nil_append, hasspecial.eq_def]
    simp [decode]
  · intro h
    rw [wellFormed_last] at h
    simp at h
  · intro y s ih hw
    rw [wellFormed_pair] at hw
    simp only [Bool.and_eq_true, bne_iff_ne, ne_eq] at hw
    rw [List.cons_append, List.cons_append, hasspecial.eq_def, decode_pair]
    simp only [if_neg hw.1, if_true, ih hw.2.2, List.any_cons]
  · intro c s hc ih hw
    rw [wellFormed_plain K c s hc] at hw
    simp only [Bool.and_eq_true, bne_iff_ne, ne_eq] at hw
    rw [List.cons_append, hasspecial.eq_def, decode_plain K c s hc]
    simp only [if_neg hw.1, if_neg hc, ih hw.2, List.any_cons]

theorem quotedzputsRc_eq (K : ZshH) (csh : Bool) (tail : List Nat) :
    ∀ s, wellFormed K s = true →
      quotedzputsRc K csh (s ++ 0 :: tail) = (decode K s).flatMap (quotedzputsRcChar csh) := by
  refine token_induction K.Meta (fun s => wellFormed K s = true →
      quotedzputsRc K csh (s ++ 0 :: tail) = (decode K s).flatMap (quotedzputsRcChar csh))
    ?_ ?_ ?_ ?_
  · intro _
    rw [List.nil_append, quotedzputsRc.eq_def]
    simp [decode]
  · intro h
    rw [wellFormed_last] at h
    simp at h
  · intro y s ih hw
    rw [wellFormed_pair] at hw
    simp only [Bool.and_eq_true, bne_iff_ne, ne_eq] at hw
    rw [List.cons_append, List.cons_append, quotedzputsRc.eq_def, decode_pair]
    simp only [if_neg hw.1, if_true, ih hw.2.2, List.flatMap_cons]
  · intro c s hc ih hw
    rw [wellFormed_plain K c s hc] at hw
    simp only [Bool.and_eq_true, bne_iff_ne, ne_eq] at hw
    rw [List.cons_append, quotedzputsRc.eq_def, decode_plain K c s hc]
    simp only [if_neg hw.1, if_neg hc, ih hw.2, List.flatMap_cons]

theorem quotedzputsRcChar_eq (csh : Bool) (c : Nat) :
    quotedzputsRcChar csh c
      = if c = 39 then [39, 39] else if c = 10 ∧ csh = true then [92, 10] else [c] := by
  unfold quotedzputsRcChar
  by_cases h1 : c = 39
  · simp [h1]
  · by_cases h2 : c = 10 ∧ csh = true
    · simp [h1, h2]
    · simp [h1, h2]

/-- A well-formed string whose decoding has a special byte is not empty, and
`quotedzputs` takes neither of its two early returns on it. -/
theorem quotedzputs_special (K : ZshH) (ispecial : Nat → Bool) (rc csh : Bool)
    (s tail : List Nat) (hw : wellFormed K s = true)
    (hsp : (decode K s).any ispecial = true) :
    quotedzputs K ispecial rc csh (s ++ 0 :: tail)
      = if rc = true then [39] ++ quotedzputsRc K csh (s ++ 0 :: tail) ++ [39]
        else quotedzputsBourne K csh false (s ++ 0 :: tail) := by
  have hhead : (s ++ 0 :: tail).headD 0 ≠ 0 := by
    cases s with
    | nil => simp [decode] at hsp
    | cons c s1 =>
      have := wellFormed_ne_zero K _ hw c (List.mem_cons_self _ _)
      simpa using this
  unfold quotedzputs
  rw [if_neg hhead, hasspecial_eq K ispecial tail s hw, hsp, if_neg (by decide)]

/-- C20. Empty input: on the empty encoded string `quotedzputs` writes the two
bytes `''` and nothing else, for every setting of `RCQUOTES` and
`CSHJUNKIEQUOTES`. -/
theorem quotedzputs_empty (K : ZshH) (ispecial : Nat → Bool) (rc csh : Bool) (tail : List Nat) :
    quotedzputs K ispecial rc csh ([] ++ 0 :: tail) = [39, 39] := by
  unfold quotedzputs
  simp

/-- C18. The rc style: with `RCQUOTES` set, for a well-formed `s` whose decoding
`x` contains a special byte, `quotedzputs` writes one opening quote, then `x`
with every single quote doubled and every other byte verbatim, then one closing
quote; with `CSHJUNKIEQUOTES` set the only difference is a backslash before
each newline. -/
theorem quotedzputs_rcquotes (K : ZshH) (ispecial : Nat → Bool) (csh : Bool)
    (s tail : List Nat) (hw : wellFormed K s = true)
    (hsp : (decode K s).any ispecial = true) :
    quotedzputs K ispecial true csh (s ++ 0 :: tail)
      = [39] ++ (decode K s).flatMap
          (fun c => if c = 39 then [39, 39] else if c = 10 ∧ csh = true then [92, 10] else [c])
        ++ [39] := by
  rw [quotedzputs_special K ispecial true csh s tail hw hsp, if_pos rfl,
    quotedzputsRc_eq K csh tail s hw]
  have : quotedzputsRcChar csh
      = fun c => if c = 39 then [39, 39] else if c = 10 ∧ csh = true then [92, 10] else [c] :=
    funext (quotedzputsRcChar_eq csh)
  rw [this]

theorem quotedzputs_rcquotes_witness :
    wellFormed zsh_h [105, 116, 39, 115, 10, 131, 32] = true ∧
      (decode zsh_h [105, 116, 39, 115, 10, 131, 32]).any (fun c => c == 39 || c == 32) = true ∧
      quotedzputs zsh_h (fun c => c == 39 || c == 32) true true
          ([105, 116, 39, 115, 10, 131, 32] ++ 0 :: [])
        = [39] ++ (decode zsh_h [105, 116, 39, 115, 10, 131, 32]).flatMap
            (fun c => if c = 39 then [39, 39] else if c = 10 ∧ true = true then [92, 10] else [c])
          ++ [39] ∧
      quotedzputs zsh_h (fun c => c == 39 || c == 32) true false [105, 116, 39, 115, 10, 0]
        = [39, 105, 116, 39, 39, 115, 10, 39] :=
  ⟨by decide, by decide,
    quotedzputs_rcquotes zsh_h (fun c => c == 39 || c == 32) true [105, 116, 39, 115, 10, 131, 32]
      [] (by decide) (by decide),
    by decide⟩
theorem quotedzputsBourne_nil (K : ZshH) (csh inq : Bool) (tail : List Nat) :
    quotedzputsBourne K csh inq (0 :: tail) = if inq = true then [39] else [] := by
  rw [quotedzputsBourne.eq_def]
  simp

theorem quotedzputsBourne_pair (K : ZshH) (csh inq : Bool) (y : Nat) (s : List Nat)
    (hM : K.Meta ≠ 0) :
    quotedzputsBourne K csh inq (K.Meta :: y :: s)
      = quotedzputsBourneChar csh inq (y ^^^ 32) ++
          quotedzputsBourne K csh (decide (y ^^^ 32 ≠ 39)) s := by
  rw [quotedzputsBourne.eq_def]
  simp [hM]

theorem quotedzputsBourne_plain (K : ZshH) (csh inq : Bool) (c : Nat) (s : List Nat)
    (h0 : c ≠ 0) (hc : c ≠ K.Meta) :
    quotedzputsBourne K csh inq (c :: s)
      = quotedzputsBourneChar csh inq c ++ quotedzputsBourne K csh (decide (c ≠ 39)) s := by
  rw [quotedzputsBourne.eq_def]
  simp [h0, hc]

/-- The Bourne-style loop in terms of the decoded bytes: what it writes for the
first byte, then what it writes for the rest with the new flag. -/
theorem quotedzputsBourne_decode (K : ZshH) (csh : Bool) (tail : List Nat)
    (P : Bool → List Nat → List Nat → Prop)
    (hnil : ∀ inq, P inq [] (if inq = true then [39] else []))
    (hcons : ∀ inq c d out, P (decide (c ≠ 39)) d out →
      P inq (c :: d) (quotedzputsBourneChar csh inq c ++ out)) :
    ∀ s, wellFormed K s = true →
      ∀ inq, P inq (decode K s) (quotedzputsBourne K csh inq (s ++ 0 :: tail)) := by
  refine token_induction K.Meta (fun s => wellFormed K s = true →
      ∀ inq, P inq (decode K s) (quotedzputsBourne K csh inq (s ++ 0 :: tail))) ?_ ?_ ?_ ?_
  · intro _ inq
    rw [List.nil_append, quotedzputsBourne_nil]
    exact hnil inq
  · intro h
    rw [wellFormed_last] at h
    simp at h
  · intro y s ih hw inq
    rw [wellFormed_pair] at hw
    simp only [Bool.and_eq_true, bne_iff_ne, ne_eq] at hw
    rw [List.cons_append, List.cons_append, quotedzputsBourne_pair K csh inq y _ hw.1,
      decode_pair]
    exact hcons inq _ _ _ (ih hw.2.2 _)
  · intro c s hc ih hw inq
    rw [wellFormed_plain K c s hc] at hw
    simp only [Bool.and_eq_true, bne_iff_ne, ne_eq] at hw
    rw [List.cons_append, quotedzputsBourne_plain K csh inq c _ hw.1 hc, decode_plain K c s hc]
    exact hcons inq _ _ _ (ih hw.2 _)

theorem bourne_reparse (K : ZshH) (tail : List Nat) (s : List Nat) (hw : wellFormed K s = true)
    (inq : Bool) :
    shParse false (if inq = true then ShState.inq else ShState.out)
      (quotedzputsBourne K false inq (s ++ 0 :: tail)) = some (decode K s) := by
  refine quotedzputsBourne_decode K false tail
    (fun inq d out => shParse false (if inq = true then ShState.inq else ShState.out) out = some d)
    ?_ ?_ s hw inq
  · intro inq
    cases inq <;> simp [shParse]
  · intro inq c d out ih
    by_cases hc : c = 39
    · subst hc
      simp only [ne_eq, not_true_eq_false, decide_False, Bool.false_eq_true, if_false] at ih
      cases inq <;> simp [quotedzputsBourneChar, shParse, ih]
    · simp only [ne_eq, hc, not_false_eq_true, decide_True, if_true] at ih
      cases inq <;> simp [quotedzputsBourneChar, shParse, ih, hc]

theorem bourne_shape (K : ZshH) (csh : Bool) (tail : List Nat) (s : List Nat)
    (hw : wellFormed K s = true) (inq : Bool) :
    bourneShape (if inq = true then 3 else 0) (quotedzputsBourne K csh inq (s ++ 0 :: tail))
      = true := by
  refine quotedzputsBourne_decode K csh tail
    (fun inq _ out => bourneShape (if inq = true then 3 else 0) out = true) ?_ ?_ s hw inq
  · intro inq
    cases inq <;> simp [bourneShape]
  · intro inq c d out ih
    by_cases hc : c = 39
    · subst hc
      simp only [ne_eq, not_true_eq_false, decide_False, Bool.false_eq_true, if_false] at ih
      cases inq <;> simp [quotedzputsBourneChar, bourneShape, ih]
    · simp only [ne_eq, hc, not_false_eq_true, decide_True, if_true] at ih
      by_cases hn : c = 10 ∧ csh = true
      · cases inq <;> simp [quotedzputsBourneChar, bourneShape, ih, hc, hn]
      · cases inq <;> simp [quotedzputsBourneChar, bourneShape, ih, hc, hn]

theorem bourne_runs (K : ZshH) (csh : Bool) (tail : List Nat) (s : List Nat)
    (hw : wellFormed K s = true) (inq : Bool) :
    ∃ r rs, quoteRuns (decode K s) = r :: rs ∧
      quotedzputsBourne K csh inq (s ++ 0 :: tail)
        = (if inq = true then
            r.flatMap (fun c => if c = 10 ∧ csh = true then [92, 10] else [c]) ++ [39]
          else bourneSegment csh r) ++
          rs.flatMap (fun r => [92, 39] ++ bourneSegment csh r) := by
  refine quotedzputsBourne_decode K csh tail
    (fun inq d out => ∃ r rs, quoteRuns d = r :: rs ∧
      out = (if inq = true then
            r.flatMap (fun c => if c = 10 ∧ csh = true then [92, 10] else [c]) ++ [39]
          else bourneSegment csh r) ++
          rs.flatMap (fun r => [92, 39] ++ bourneSegment csh r)) ?_ ?_ s hw inq
  · intro inq
    refine ⟨[], [], rfl, ?_⟩
    cases inq <;> simp [bourneSegment]
  · intro inq c d out ih
    obtain ⟨r, rs, hr, hout⟩ := ih
    by_cases hc : c = 39
    · subst hc
      simp only [ne_eq, not_true_eq_false, decide_False, Bool.false_eq_true, if_false] at hout
      refine ⟨[], r :: rs, by simp [quoteRuns, hr], ?_⟩
      rw [hout]
      cases inq <;> simp [quotedzputsBourneChar, bourneSegment]
    · simp only [ne_eq, hc, not_false_eq_true, decide_True, if_true] at hout
      refine ⟨c :: r, rs, by simp [quoteRuns, hr, hc], ?_⟩
      rw [hout]
      by_cases hn : c = 10 ∧ csh = true
      · cases inq <;> simp [quotedzputsBourneChar, bourneSegment, hc, hn]
      · cases inq <;> simp [quotedzputsBourneChar, bourneSegment, hc, hn]

theorem intercalate_cons_flatMap (S : List Nat) (a : List Nat) (l : List (List Nat)) :
    List.intercalate S (a :: l) = a ++ l.flatMap (fun r => S ++ r) := by
  induction l generalizing a with
  | nil => simp [List.intercalate]
  | cons b l ih =>
    have := ih b
    simp only [List.intercalate] at this ⊢
    simp [this]

theorem rc_reparse : ∀ x : List Nat,
    shParse true ShState.inq (x.flatMap (quotedzputsRcChar false) ++ [39]) = some x := by
  intro x
  induction x with
  | nil => simp [shParse]
  | cons c x ih =>
    rw [List.flatMap_cons, List.append_assoc]
    by_cases hc : c = 39
    · subst hc
      have h1 : quotedzputsRcChar false 39 = [39, 39] := by decide
      rw [h1]
      show shParse true ShState.inq (39 :: 39 :: (x.flatMap (quotedzputsRcChar false) ++ [39]))
        = some (39 :: x)
      simp only [shParse, if_true, ih, Option.map_some']
    · have h1 : quotedzputsRcChar false c = [c] := by simp [quotedzputsRcChar, hc]
      rw [h1]
      show shParse true ShState.inq (c :: (x.flatMap (quotedzputsRcChar false) ++ [39]))
        = some (c :: x)
      simp only [shParse, if_neg hc, ih, Option.map_some']

theorem flatMap_map_segment (S : List Nat) (f : List Nat → List Nat) (l : List (List Nat)) :
    (l.map f).flatMap (fun r => S ++ r) = l.flatMap (fun r => S ++ f r) := by
  induction l with
  | nil => rfl
  | cons a l ih => simp only [List.map_cons, List.flatMap_cons, ih]
/-- C17. Quoting round trip: for every byte sequence `x` with at least one
special byte, and `CSHJUNKIEQUOTES` unset, reading what `quotedzputs(metafy(x))`
writes by the shell's single-quote rules (inside quotes every byte is literal,
except that with `RCQUOTES` a doubled quote stands for one quote; outside quotes
a backslash makes the next byte literal) gives exactly `x`, for either setting
of `RCQUOTES`. -/
theorem quotedzputs_reparse (K : ZshH) (hK : K.inBand) (ispecial : Nat → Bool) (rc : Bool)
    (fresh : Nat → Nat) (x rest : List Nat) (heap : MetaHeap)
    (h : metafyRoom K x rest heap) (hsp : x.any ispecial = true) :
    shParse rc ShState.out
      (quotedzputs K ispecial rc false (metafy K fresh (x ++ rest) (x.length : Int) heap))
      = some x := by
  obtain ⟨tail, ht⟩ := metafy_eq K fresh x rest heap h
  have hw := wellFormed_protect K hK x
  have hd := decode_protect K x
  rw [ht, quotedzputs_special K ispecial rc false _ tail hw (by rw [hd]; exact hsp)]
  cases rc with
  | true =>
    rw [if_pos rfl, quotedzputsRc_eq K false tail _ hw, hd]
    show shParse true ShState.out (39 :: (x.flatMap (quotedzputsRcChar false) ++ [39])) = some x
    simp only [shParse, if_true]
    exact rc_reparse x
  | false =>
    rw [if_neg (by decide)]
    have := bourne_reparse K tail (protect K x) hw false
    rw [hd] at this
    exact this

theorem quotedzputs_reparse_witness :
    zsh_h.inBand ∧ metafyRoom zsh_h [105, 116, 39, 115, 32, 132, 92, 39] [] MetaHeap.META_DUP ∧
      ([105, 116, 39, 115, 32, 132, 92, 39] : List Nat).any (fun c => c == 39 || c == 32) = true ∧
      shParse true ShState.out
        (quotedzputs zsh_h (fun c => c == 39 || c == 32) true false
          (metafy zsh_h (fun _ => 170) ([105, 116, 39, 115, 32, 132, 92, 39] ++ [])
            (([105, 116, 39, 115, 32, 132, 92, 39] : List Nat).length : Int) MetaHeap.META_DUP))
        = some [105, 116, 39, 115, 32, 132, 92, 39] ∧
      shParse false ShState.out
        (quotedzputs zsh_h (fun c => c == 39 || c == 32) false false
          (metafy zsh_h (fun _ => 170) ([105, 116, 39, 115, 32, 132, 92, 39] ++ [])
            (([105, 116, 39, 115, 32, 132, 92, 39] : List Nat).length : Int) MetaHeap.META_DUP))
        = some [105, 116, 39, 115, 32, 132, 92, 39] :=
  ⟨by decide, by decide, by decide,
    quotedzputs_reparse zsh_h (by decide) (fun c => c == 39 || c == 32) true (fun _ => 170)
      [105, 116, 39, 115, 32, 132, 92, 39] [] MetaHeap.META_DUP (by decide) (by decide),
    quotedzputs_reparse zsh_h (by decide) (fun c => c == 39 || c == 32) false (fun _ => 170)
      [105, 116, 39, 115, 32, 132, 92, 39] [] MetaHeap.META_DUP (by decide) (by decide)⟩

/-- C19. The Bourne style: with `RCQUOTES` unset, for a well-formed `s` whose
decoding contains a special byte, `quotedzputs` writes each maximal run of bytes
other than the single quote as one quoted segment, writes nothing for an empty
run, and writes each single quote as backslash-quote between the segments. So
every opening quote is followed by at least one byte before its closing quote,
outside the segments there are only backslash-quote pairs, and the output ends
with all quotes closed. -/
theorem quotedzputs_bourne (K : ZshH) (ispecial : Nat → Bool) (csh : Bool) (s tail : List Nat)
    (hw : wellFormed K s = true) (hsp : (decode K s).any ispecial = true) :
    quotedzputs K ispecial false csh (s ++ 0 :: tail)
        = List.intercalate [92, 39] ((quoteRuns (decode K s)).map (bourneSegment csh)) ∧
      bourneShape 0 (quotedzputs K ispecial false csh (s ++ 0 :: tail)) = true := by
  rw [quotedzputs_special K ispecial false csh s tail hw hsp, if_neg (by decide)]
  refine ⟨?_, bourne_shape K csh tail s hw false⟩
  obtain ⟨r, rs, hr, hout⟩ := bourne_runs K csh tail s hw false
  rw [hout, hr, List.map_cons, intercalate_cons_flatMap, if_neg (by decide),
    flatMap_map_segment]

theorem quotedzputs_bourne_witness :
    wellFormed zsh_h [39, 97, 10, 98, 39, 39, 131, 32] = true ∧
      (decode zsh_h [39, 97, 10, 98, 39, 39, 131, 32]).any (fun c => c == 39 || c == 32) = true ∧
      (quotedzputs zsh_h (fun c => c == 39 || c == 32) false true
            ([39, 97, 10, 98, 39, 39, 131, 32] ++ 0 :: [])
          = List.intercalate [92, 39]
            ((quoteRuns (decode zsh_h [39, 97, 10, 98, 39, 39, 131, 32])).map (bourneSegment true)) ∧
        bourneShape 0 (quotedzputs zsh_h (fun c => c == 39 || c == 32) false true
          ([39, 97, 10, 98, 39, 39, 131, 32] ++ 0 :: [])) = true) ∧
      quotedzputs zsh_h (fun c => c == 39 || c == 32) false false [39, 97, 98, 39, 39, 99, 0]
        = [92, 39, 39, 97, 98, 39, 92, 39, 92, 39, 39, 99, 39] :=
  ⟨by decide, by decide,
    quotedzputs_bourne zsh_h (fun c => c == 39 || c == 32) true [39, 97, 10, 98, 39, 39, 131, 32]
      [] (by decide) (by decide),
    by decide⟩

theorem dquotedContig_nil (K : ZshH) (pending : Bool) (tail : List Nat) :
    dquotedContig K pending (0 :: tail) = (if pending = true then [92] else []) ++ [34] := by
  rw [dquotedContig.eq_def]
  simp

theorem dquotedContig_pair (K : ZshH) (pending : Bool) (y : Nat) (s : List Nat)
    (hM : K.Meta ≠ 0) :
    dquotedContig K pending (K.Meta :: y :: s)
      = dquotedContigChar pending (y ^^^ 32) ++ dquotedContig K (decide (y ^^^ 32 = 92)) s := by
  rw [dquotedContig.eq_def]
  simp [hM]

theorem dquotedContig_plain (K : ZshH) (pending : Bool) (c : Nat) (s : List Nat)
    (h0 : c ≠ 0) (hc : c ≠ K.Meta) :
    dquotedContig K pending (c :: s)
      = dquotedContigChar pending c ++ dquotedContig K (decide (c = 92)) s := by
  rw [dquotedContig.eq_def]
  simp [h0, hc]

/-- The contiguous loop of `dquotedztrdup` in terms of the decoded bytes. -/
theorem dquotedContig_decode (K : ZshH) (tail : List Nat)
    (P : Bool → List Nat → List Nat → Prop)
    (hnil : ∀ pending, P pending [] ((if pending = true then [92] else []) ++ [34]))
    (hcons : ∀ pending c d out, P (decide (c = 92)) d out →
      P pending (c :: d) (dquotedContigChar pending c ++ out)) :
    ∀ s, wellFormed K s = true →
      ∀ pending, P pending (decode K s) (dquotedContig K pending (s ++ 0 :: tail)) := by
  refine token_induction K.Meta (fun s => wellFormed K s = true →
      ∀ pending, P pending (decode K s) (dquotedContig K pending (s ++ 0 :: tail))) ?_ ?_ ?_ ?_
  · intro _ pending
    rw [List.nil_append, dquotedContig_nil]
    exact hnil pending
  · intro h
    rw [wellFormed_last] at h
    simp at h
  · intro y s ih hw pending
    rw [wellFormed_pair] at hw
    simp only [Bool.and_eq_true, bne_iff_ne, ne_eq] at hw
    rw [List.cons_append, List.cons_append, dquotedContig_pair K pending y _ hw.1,
      decode_pair]
    exact hcons pending _ _ _ (ih hw.2.2 _)
  · intro c s hc ih hw pending
    rw [wellFormed_plain K c s hc] at hw
    simp only [Bool.and_eq_true, bne_iff_ne, ne_eq] at hw
    rw [List.cons_append, dquotedContig_plain K pending c _ hw.1 hc, decode_plain K c s hc]
    exact hcons pending _ _ _ (ih hw.2 _)

/-- The contiguous loop writes the reference interior and the closing quote;
a backslash still pending is completed first when the next byte asks for it. -/
theorem dquotedContig_ref (K : ZshH) (tail : List Nat) (s : List Nat)
    (hw : wellFormed K s = true) (pending : Bool) :
    dquotedContig K pending (s ++ 0 :: tail)
      = (if pending = true then
          (match decode K s with
            | [] => [92]
            | d :: _ => if d = 92 ∨ d = 34 ∨ d = 36 ∨ d = 96 then [92] else [])
          else []) ++ dqRef (decode K s) ++ [34] := by
  refine dquotedContig_decode K tail
    (fun pending d out => out = (if pending = true then
          (match d with
            | [] => [92]
            | e :: _ => if e = 92 ∨ e = 34 ∨ e = 36 ∨ e = 96 then [92] else [])
          else []) ++ dqRef d ++ [34]) ?_ ?_ s hw pending
  · intro pending
    cases pending <;> simp [dqRef]
  · intro pending c d out ih
    subst ih
    by_cases h92 : c = 92
    · subst h92
      cases d with
      | nil => cases pending <;> simp [dquotedContigChar, dqRef]
      | cons e d1 =>
        by_cases he : e = 92 ∨ e = 34 ∨ e = 36 ∨ e = 96
        · cases pending <;> simp [dquotedContigChar, dqRef, he]
        · cases pending <;> simp [dquotedContigChar, dqRef, he]
    · by_cases hs : c = 34 ∨ c = 36 ∨ c = 96
      · have h4 : c = 92 ∨ c = 34 ∨ c = 36 ∨ c = 96 := Or.inr hs
        cases pending <;> simp [dquotedContigChar, dqRef, h92, hs, h4]
      · have h4 : ¬ (c = 92 ∨ c = 34 ∨ c = 36 ∨ c = 96) := by
          intro h
          rcases h with h | h
          · exact h92 h
          · exact hs h
        cases pending <;> simp [dquotedContigChar, dqRef, h92, hs, h4]

/-- Reading the reference interior gives the bytes back; after a backslash that
stands alone the reading continues with an ordinary byte. -/
theorem dqParse_dqRef (x : List Nat) :
    dqParse false (dqRef x) = some x ∧
      (match x with
        | [] => True
        | d :: _ => ¬ (d = 92 ∨ d = 34 ∨ d = 36 ∨ d = 96) →
            dqParse true (dqRef x) = some (92 :: x)) := by
  induction x with
  | nil => exact ⟨rfl, trivial⟩
  | cons c x ih =>
    constructor
    · by_cases h92 : c = 92
      · subst h92
        cases x with
        | nil => simp [dqRef, dqParse]
        | cons d x1 =>
          by_cases hd : d = 92 ∨ d = 34 ∨ d = 36 ∨ d = 96
          · have e : dqRef (92 :: d :: x1) = 92 :: 92 :: dqRef (d :: x1) := by
              rw [dqRef]
              simp [hd]
            rw [e]
            simp only [dqParse, if_true, true_or, ih.1, Option.map_some']
          · have e : dqRef (92 :: d :: x1) = 92 :: dqRef (d :: x1) := by
              rw [dqRef]
              simp [hd]
            rw [e]
            simp only [dqParse, if_true]
            exact ih.2 hd
      · by_cases hs : c = 34 ∨ c = 36 ∨ c = 96
        · have e : dqRef (c :: x) = 92 :: c :: dqRef x := by
            simp [dqRef, h92, hs]
          rw [e]
          simp only [dqParse, if_true, if_pos (Or.inr hs : c = 92 ∨ c = 34 ∨ c = 36 ∨ c = 96),
            ih.1, Option.map_some']
        · have e : dqRef (c :: x) = c :: dqRef x := by
            simp [dqRef, h92, hs]
          have h34 : c ≠ 34 := fun h => hs (Or.inl h)
          rw [e]
          simp only [dqParse, if_neg h92, if_neg h34, ih.1, Option.map_some']
    · intro h4
      have h92 : c ≠ 92 := fun h => h4 (Or.inl h)
      have hs : ¬ (c = 34 ∨ c = 36 ∨ c = 96) := fun h => h4 (Or.inr h)
      have e : dqRef (c :: x) = c :: dqRef x := by
        simp [dqRef, h92, hs]
      rw [e]
      simp only [dqParse, if_neg h4, ih.1, Option.map_some']

/-- The result of `dquotedztrdup` is the encoding of what it stored in `buf`. -/
theorem dquotedztrdup_eq (K : ZshH) (csh : Bool) (fresh : Nat → Nat) (s : List Nat) :
    dquotedztrdup K csh fresh s = protect K (dquotedztrdupBuf K csh s) ++ [0] := by
  unfold dquotedztrdup
  exact metafy_dup K fresh _ _

/-- C21. Contiguous double-quote mode: with `CSHJUNKIEQUOTES` unset, for every
byte sequence `x`, `dquotedztrdup(metafy(x))` is the encoding of a text that
begins and ends with one double quote; its interior has a backslash before each
double quote, dollar and backquote of `x`, a doubled backslash for each backslash
of `x` that is followed by one of those three or by a backslash or is the last
byte, a single backslash for each other backslash, and every other byte as it
is; reading that interior by the rule that a backslash followed by a backslash,
double quote, dollar or backquote stands for that byte and any other backslash
is literal meets no double quote without a backslash and gives exactly `x`. -/
theorem dquotedztrdup_contiguous (K : ZshH) (hK : K.inBand) (fresh fresh2 : Nat → Nat)
    (x rest : List Nat) (heap : MetaHeap) (h : metafyRoom K x rest heap) :
    dquotedztrdup K false fresh2 (metafy K fresh (x ++ rest) (x.length : Int) heap)
        = protect K ([34] ++ dqRef x ++ [34]) ++ [0] ∧
      decode K (dquotedztrdup K false fresh2
          (metafy K fresh (x ++ rest) (x.length : Int) heap)).dropLast
        = [34] ++ dqRef x ++ [34] ∧
      dqParse false (dqRef x) = some x := by
  obtain ⟨tail, ht⟩ := metafy_eq K fresh x rest heap h
  have hw := wellFormed_protect K hK x
  have hd := decode_protect K x
  have e : dquotedztrdup K false fresh2 (metafy K fresh (x ++ rest) (x.length : Int) heap)
      = protect K ([34] ++ dqRef x ++ [34]) ++ [0] := by
    rw [dquotedztrdup_eq, ht]
    unfold dquotedztrdupBuf
    rw [if_neg (by decide), dquotedContig_ref K tail _ hw false, hd]
    simp
  refine ⟨e, ?_, (dqParse_dqRef x).1⟩
  rw [e, List.dropLast_concat, decode_protect]

theorem dquotedztrdup_contiguous_witness :
    zsh_h.inBand ∧ metafyRoom zsh_h [97, 92, 98, 92, 92, 34, 36, 0, 92] [] MetaHeap.META_DUP ∧
      (dquotedztrdup zsh_h false (fun _ => 170)
          (metafy zsh_h (fun _ => 170) ([97, 92, 98, 92, 92, 34, 36, 0, 92] ++ [])
            (([97, 92, 98, 92, 92, 34, 36, 0, 92] : List Nat).length : Int) MetaHeap.META_DUP)
        = protect zsh_h ([34] ++ dqRef [97, 92, 98, 92, 92, 34, 36, 0, 92] ++ [34]) ++ [0] ∧
      decode zsh_h (dquotedztrdup zsh_h false (fun _ => 170)
          (metafy zsh_h (fun _ => 170) ([97, 92, 98, 92, 92, 34, 36, 0, 92] ++ [])
            (([97, 92, 98, 92, 92, 34, 36, 0, 92] : List Nat).length : Int)
            MetaHeap.META_DUP)).dropLast
        = [34] ++ dqRef [97, 92, 98, 92, 92, 34, 36, 0, 92] ++ [34] ∧
      dqParse false (dqRef [97, 92, 98, 92, 92, 34, 36, 0, 92])
        = some [97, 92, 98, 92, 92, 34, 36, 0, 92]) ∧
      dqRef [97, 92, 98, 92, 92, 34, 36, 0, 92]
        = [97, 92, 98, 92, 92, 92, 92, 92, 34, 92, 36, 0, 92, 92] :=
  ⟨by decide, by decide,
    dquotedztrdup_contiguous zsh_h (by decide) (fun _ => 170) (fun _ => 170)
      [97, 92, 98, 92, 92, 34, 36, 0, 92] [] MetaHeap.META_DUP (by decide),
    by decide⟩

theorem dquotedToggle_nil (K : ZshH) (inq : Bool) (tail : List Nat) :
    dquotedToggle K inq (0 :: tail) = if inq = true then [34] else [] := by
  rw [dquotedToggle.eq_def]
  simp

theorem dquotedToggle_pair (K : ZshH) (inq : Bool) (y : Nat) (s : List Nat)
    (hM : K.Meta ≠ 0) :
    dquotedToggle K inq (K.Meta :: y :: s)
      = dquotedToggleChar inq (y ^^^ 32) ++
          dquotedToggle K (decide (¬ (y ^^^ 32 = 34 ∨ y ^^^ 32 = 36 ∨ y ^^^ 32 = 96))) s := by
  rw [dquotedToggle.eq_def]
  simp [hM]

theorem dquotedToggle_plain (K : ZshH) (inq : Bool) (c : Nat) (s : List Nat)
    (h0 : c ≠ 0) (hc : c ≠ K.Meta) :
    dquotedToggle K inq (c :: s)
      = dquotedToggleChar inq c ++
          dquotedToggle K (decide (¬ (c = 34 ∨ c = 36 ∨ c = 96))) s := by
  rw [dquotedToggle.eq_def]
  simp [h0, hc]

/-- The toggle loop of `dquotedztrdup` in terms of the decoded bytes. -/
theorem dquotedToggle_decode (K : ZshH) (tail : List Nat)
    (P : Bool → List Nat → List Nat → Prop)
    (hnil : ∀ inq, P inq [] (if inq = true then [34] else []))
    (hcons : ∀ inq c d out, P (decide (¬ (c = 34 ∨ c = 36 ∨ c = 96))) d out →
      P inq (c :: d) (dquotedToggleChar inq c ++ out)) :
    ∀ s, wellFormed K s = true →
      ∀ inq, P inq (decode K s) (dquotedToggle K inq (s ++ 0 :: tail)) := by
  refine token_induction K.Meta (fun s => wellFormed K s = true →
      ∀ inq, P inq (decode K s) (dquotedToggle K inq (s ++ 0 :: tail))) ?_ ?_ ?_ ?_
  · intro _ inq
    rw [List.nil_append, dquotedToggle_nil]
    exact hnil inq
  · intro h
    rw [wellFormed_last] at h
    simp at h
  · intro y s ih hw inq
    rw [wellFormed_pair] at hw
    simp only [Bool.and_eq_true, bne_iff_ne, ne_eq] at hw
    rw [List.cons_append, List.cons_append, dquotedToggle_pair K inq y _ hw.1,
      decode_pair]
    exact hcons inq _ _ _ (ih hw.2.2 _)
  · intro c s hc ih hw inq
    rw [wellFormed_plain K c s hc] at hw
    simp only [Bool.and_eq_true, bne_iff_ne, ne_eq] at hw
    rw [List.cons_append, dquotedToggle_plain K inq c _ hw.1 hc, decode_plain K c s hc]
    exact hcons inq _ _ _ (ih hw.2 _)

theorem toggle_shape (K : ZshH) (tail : List Nat) (s : List Nat)
    (hw : wellFormed K s = true) (inq : Bool) :
    dqShape (if inq = true then 3 else 0) (dquotedToggle K inq (s ++ 0 :: tail)) = true := by
  refine dquotedToggle_decode K tail
    (fun inq _ out => dqShape (if inq = true then 3 else 0) out = true) ?_ ?_ s hw inq
  · intro inq
    cases inq <;> simp [dqShape]
  · intro inq c d out ih
    by_cases hs : c = 34 ∨ c = 36 ∨ c = 96
    · simp only [hs, not_true_eq_false, decide_False, Bool.false_eq_true, if_false] at ih
      rcases hs with h | h | h <;> subst h <;>
        cases inq <;> simp [dquotedToggleChar, dqShape, ih]
    · simp only [hs, not_false_eq_true, decide_True, if_true] at ih
      have h34 : c ≠ 34 := fun h => hs (Or.inl h)
      have h36 : c ≠ 36 := fun h => hs (Or.inr (Or.inl h))
      have h96 : c ≠ 96 := fun h => hs (Or.inr (Or.inr h))
      by_cases h10 : c = 10
      · subst h10
        cases inq <;> simp [dquotedToggleChar, dqShape, ih]
      · cases inq <;> simp [dquotedToggleChar, dqShape, h34, h36, h96, h10, ih]

theorem toggle_runs (K : ZshH) (tail : List Nat) (s : List Nat)
    (hw : wellFormed K s = true) (inq : Bool) :
    dquotedToggle K inq (s ++ 0 :: tail)
      = (if inq = true then
          (dqRuns (decode K s)).1.flatMap (fun c => if c = 10 then [92, 10] else [c]) ++ [34]
        else dqSegment (dqRuns (decode K s)).1) ++
        (dqRuns (decode K s)).2.flatMap (fun p => [92, p.1] ++ dqSegment p.2) := by
  refine dquotedToggle_decode K tail
    (fun inq d out => out = (if inq = true then
          (dqRuns d).1.flatMap (fun c => if c = 10 then [92, 10] else [c]) ++ [34]
        else dqSegment (dqRuns d).1) ++
        (dqRuns d).2.flatMap (fun p => [92, p.1] ++ dqSegment p.2)) ?_ ?_ s hw inq
  · intro inq
    cases inq <;> simp [dqRuns, dqSegment]
  · intro inq c d out ih
    subst ih
    by_cases hs : c = 34 ∨ c = 36 ∨ c = 96
    · cases inq <;>
        simp [dquotedToggleChar, dqRuns, dqSegment, hs, List.flatMap_cons]
    · by_cases h10 : c = 10
      · subst h10
        cases inq <;>
          simp [dquotedToggleChar, dqRuns, dqSegment, List.flatMap_cons]
      · cases inq <;>
          simp [dquotedToggleChar, dqRuns, dqSegment, hs, h10, List.flatMap_cons]

/-- The pieces of `dqRuns` make up the sequence, each separating byte is one of
the three and no run contains one of them. -/
theorem dqRuns_spec (d : List Nat) :
    d = (dqRuns d).1 ++ (dqRuns d).2.flatMap (fun p => p.1 :: p.2) ∧
      (∀ c ∈ (dqRuns d).1, ¬ (c = 34 ∨ c = 36 ∨ c = 96)) ∧
      (∀ p ∈ (dqRuns d).2, (p.1 = 34 ∨ p.1 = 36 ∨ p.1 = 96) ∧
        ∀ c ∈ p.2, ¬ (c = 34 ∨ c = 36 ∨ c = 96)) := by
  induction d with
  | nil => simp [dqRuns]
  | cons c d ih =>
    obtain ⟨h1, h2, h3⟩ := ih
    by_cases hs : c = 34 ∨ c = 36 ∨ c = 96
    · simp only [dqRuns, if_pos hs, List.nil_append, List.flatMap_cons, List.cons_append]
      refine ⟨by rw [← h1], by simp, ?_⟩
      intro p hp
      rcases List.mem_cons.1 hp with hp | hp
      · subst hp
        exact ⟨hs, h2⟩
      · exact h3 p hp
    · simp only [dqRuns, if_neg hs, List.cons_append]
      refine ⟨by rw [← h1], ?_, h3⟩
      intro e he
      rcases List.mem_cons.1 he with he | he
      · subst he
        exact hs
      · exact h2 e he

/-- C22. Toggle mode: with `CSHJUNKIEQUOTES` set, for every well-formed `s`,
`dquotedztrdup` stores each double quote, dollar and backquote of the decoding as
a backslash and that byte, and each maximal run of other bytes between them as
one double-quoted segment with a backslash before each newline, nothing for an
empty run; so outside the segments there are only those backslash pairs, every
opening quote has at least one byte before its closing quote, and the text ends
with no quote open. The result is the encoding of that text. -/
theorem dquotedztrdup_toggle (K : ZshH) (fresh : Nat → Nat) (s tail : List Nat)
    (hw : wellFormed K s = true) :
    dquotedztrdupBuf K true (s ++ 0 :: tail)
        = dqSegment (dqRuns (decode K s)).1 ++
          (dqRuns (decode K s)).2.flatMap (fun p => [92, p.1] ++ dqSegment p.2) ∧
      dqShape 0 (dquotedztrdupBuf K true (s ++ 0 :: tail)) = true ∧
      dquotedztrdup K true fresh (s ++ 0 :: tail)
        = protect K (dquotedztrdupBuf K true (s ++ 0 :: tail)) ++ [0] ∧
      (decode K s = (dqRuns (decode K s)).1 ++
          (dqRuns (decode K s)).2.flatMap (fun p => p.1 :: p.2) ∧
        (∀ c ∈ (dqRuns (decode K s)).1, ¬ (c = 34 ∨ c = 36 ∨ c = 96)) ∧
        (∀ p ∈ (dqRuns (decode K s)).2, (p.1 = 34 ∨ p.1 = 36 ∨ p.1 = 96) ∧
          ∀ c ∈ p.2, ¬ (c = 34 ∨ c = 36 ∨ c = 96))) := by
  have e : dquotedztrdupBuf K true (s ++ 0 :: tail) = dquotedToggle K false (s ++ 0 :: tail) := by
    unfold dquotedztrdupBuf
    rw [if_pos rfl]
  refine ⟨?_, ?_, dquotedztrdup_eq K true fresh _, dqRuns_spec _⟩
  · rw [e, toggle_runs K tail s hw false, if_neg (by decide)]
  · rw [e]
    exact toggle_shape K tail s hw false

theorem dquotedztrdup_toggle_witness :
    wellFormed zsh_h [97, 10, 98, 34, 36, 131, 32, 96] = true ∧
      (dquotedztrdupBuf zsh_h true ([97, 10, 98, 34, 36, 131, 32, 96] ++ 0 :: [])
        = dqSegment (dqRuns (decode zsh_h [97, 10, 98, 34, 36, 131, 32, 96])).1 ++
          (dqRuns (decode zsh_h [97, 10, 98, 34, 36, 131, 32, 96])).2.flatMap
            (fun p => [92, p.1] ++ dqSegment p.2) ∧
      dqShape 0 (dquotedztrdupBuf zsh_h true ([97, 10, 98, 34, 36, 131, 32, 96] ++ 0 :: []))
        = true ∧
      dquotedztrdup zsh_h true (fun _ => 170) ([97, 10, 98, 34, 36, 131, 32, 96] ++ 0 :: [])
        = protect zsh_h (dquotedztrdupBuf zsh_h true
            ([97, 10, 98, 34, 36, 131, 32, 96] ++ 0 :: [])) ++ [0] ∧
      (decode zsh_h [97, 10, 98, 34, 36, 131, 32, 96]
          = (dqRuns (decode zsh_h [97, 10, 98, 34, 36, 131, 32, 96])).1 ++
            (dqRuns (decode zsh_h [97, 10, 98, 34, 36, 131, 32, 96])).2.flatMap
              (fun p => p.1 :: p.2) ∧
        (∀ c ∈ (dqRuns (decode zsh_h [97, 10, 98, 34, 36, 131, 32, 96])).1,
          ¬ (c = 34 ∨ c = 36 ∨ c = 96)) ∧
        (∀ p ∈ (dqRuns (decode zsh_h [97, 10, 98, 34, 36, 131, 32, 96])).2,
          (p.1 = 34 ∨ p.1 = 36 ∨ p.1 = 96) ∧ ∀ c ∈ p.2, ¬ (c = 34 ∨ c = 36 ∨ c = 96)))) ∧
      dquotedztrdupBuf zsh_h true [97, 10, 98, 34, 36, 131, 32, 96, 0]
        = [34, 97, 92, 10, 98, 34, 92, 34, 92, 36, 34, 0, 34, 92, 96] :=
  ⟨by decide,
    dquotedztrdup_toggle zsh_h (fun _ => 170) [97, 10, 98, 34, 36, 131, 32, 96] [] (by decide),
    by decide⟩

theorem gksModLast_snoc (f : Nat → Nat) (o : List Nat) (b : Nat) :
    gksModLast f (o ++ [b]) = o ++ [f b] := by
  simp [gksModLast]

theorem gksLoop_skip (K : ZshH) (Snull fw : Nat) (c : Nat) (w : List Nat) (skip lead : Nat)
    (st : GksState) :
    gksLoop K Snull fw (c :: w) (skip + 1) lead st = gksLoop K Snull fw w skip lead st := by
  rw [gksLoop]

/-- Bytes read by an earlier iteration are stepped over. -/
theorem gksLoop_pre (K : ZshH) (Snull fw : Nat) (pre w : List Nat) (lead : Nat)
    (st : GksState) :
    gksLoop K Snull fw (pre ++ w) pre.length lead st = gksLoop K Snull fw w 0 lead st := by
  induction pre with
  | nil => rfl
  | cons c pre ih => rw [List.cons_append, List.length_cons, gksLoop_skip, ih]

/-- One iteration of the loop when `fromwhere` is not 4. -/
theorem gksLoop_cons (K : ZshH) (Snull fw : Nat) (c : Nat) (w : List Nat) (lead k : Nat)
    (st st1 : GksState) (hfw : fw ≠ 4) (hc : c ≠ 0)
    (h : gksFinish K fw (gksStep K Snull fw (c :: w) st) = some (k, st1)) :
    gksLoop K Snull fw (c :: w) 0 lead st = gksLoop K Snull fw w k lead st1 := by
  rw [gksLoop, if_neg hc, h]
  simp only [if_neg hfw]

/-- One iteration of the loop when `fromwhere` is 4 and `t` does not pass `s`. -/
theorem gksLoop_cons4 (K : ZshH) (Snull : Nat) (c : Nat) (w : List Nat) (lead k : Nat)
    (st st1 : GksState) (hc : c ≠ 0)
    (h : gksFinish K 4 (gksStep K Snull 4 (c :: w) st) = some (k, st1))
    (hl : st1.out.length - st.out.length ≤ lead + (k + 1)) :
    gksLoop K Snull 4 (c :: w) 0 lead st
      = gksLoop K Snull 4 w k (lead + (k + 1) - (st1.out.length - st.out.length)) st1 := by
  rw [gksLoop, if_neg hc, h]
  simp only [if_true, if_neg (Nat.not_lt.2 hl)]

/-- The `^` of the key binding context. -/
theorem gksLoop_caret (K : ZshH) (Snull : Nat) (w : List Nat) (lead : Nat) (st : GksState) :
    gksLoop K Snull 2 (94 :: w) 0 lead st
      = gksLoop K Snull 2 w 0 lead { st with control := 1 } := by
  rw [gksLoop_cons K Snull 2 94 w lead 0 st { st with control := 1 } (by decide) (by decide)]
  simp [gksStep, gksFinish]

/-- The escape `\C-` in a context other than 0 and 4. -/
theorem gksLoop_control (K : ZshH) (Snull fw : Nat) (h0 : fw ≠ 0)
    (h4 : fw ≠ 4) (w : List Nat) (lead : Nat) (st : GksState) :
    gksLoop K Snull fw (92 :: 67 :: 45 :: w) 0 lead st
      = gksLoop K Snull fw w 0 lead { st with control := 1 } := by
  rw [gksLoop_cons K Snull fw 92 _ lead 2 st { st with control := 1 } h4 (by decide)]
  · exact gksLoop_pre K Snull fw [67, 45] w lead _
  · simp [gksStep, gksEscape, gksFinish, h0]

/-- The escape `\M-` in a context other than 0 and 4. -/
theorem gksLoop_meta (K : ZshH) (Snull fw : Nat) (h0 : fw ≠ 0)
    (h4 : fw ≠ 4) (w : List Nat) (lead : Nat) (st : GksState) :
    gksLoop K Snull fw (92 :: 77 :: 45 :: w) 0 lead st
      = gksLoop K Snull fw w 0 lead { st with meta := 1 + st.control } := by
  rw [gksLoop_cons K Snull fw 92 _ lead 2 st { st with meta := 1 + st.control } h4 (by decide)]
  · exact gksLoop_pre K Snull fw [77, 45] w lead _
  · simp [gksStep, gksEscape, gksFinish, h0]

/-- A byte that is copied as it is, in the key binding context, with the
pending prefixes applied to it. -/
theorem gksLoop_literal (K : ZshH) (Snull fw : Nat) (h4 : fw ≠ 4) (X : Nat) (hX0 : X ≠ 0)
    (hX1 : X ≠ 92) (hX2 : X ≠ 94 ∨ fw ≠ 2) (hX3 : X ≠ K.Meta) (w : List Nat) (lead : Nat)
    (st : GksState) :
    gksLoop K Snull fw (X :: w) 0 lead st
      = gksLoop K Snull fw w 0 lead (gksPost K fw { st with out := st.out ++ [X] }) := by
  rw [gksLoop_cons K Snull fw X _ lead 0 st (gksPost K fw { st with out := st.out ++ [X] })
    h4 hX0]
  have h2 : ¬ (X = 94 ∧ fw = 2) := by
    intro h
    rcases hX2 with h' | h'
    · exact h' h.1
    · exact h' h.2
  simp [gksStep, gksFinish, hX1, h4, h2, hX3]

theorem gksLoop_nul (K : ZshH) (Snull fw : Nat) (w : List Nat) (lead : Nat) (st : GksState) :
    gksLoop K Snull fw (0 :: w) 0 lead st
      = GksResult.returned (st.out ++ [0]) st.out.length st.misc := by
  rw [gksLoop, if_pos rfl]

/-- C27. The caret shorthand: in the key binding context (`fromwhere` 2), for
every string `rest`, `getkeystring` on `^` followed by `rest` gives the same
result, bytes and length, as on `\C-` followed by `rest`; the string `^A` gives
the single byte 0x01. -/
theorem getkeystring_caret (K : ZshH) (Snull : Nat) (rest : List Nat) (misc : Nat) :
    getkeystring K Snull (94 :: rest) 2 misc
        = getkeystring K Snull (92 :: 67 :: 45 :: rest) 2 misc ∧
      getkeystring zsh_h zsh_Snull [94, 65, 0] 2 misc = GksResult.returned [1, 0] 1 misc := by
  constructor
  · unfold getkeystring
    rw [if_pos (by decide), if_pos (by decide), gksLoop_caret,
      gksLoop_control K Snull 2 (by decide) (by decide)]
  · unfold getkeystring
    rw [if_pos (by decide), gksLoop_caret,
      gksLoop_literal zsh_h zsh_Snull 2 (by decide) 65 (by decide) (by decide)
        (Or.inl (by decide)) (by decide), gksLoop_nul]
    simp [gksPost, gksModLast]
    rfl

theorem or_and_0x9f (X : Nat) : (X ||| 128) &&& 159 = (X &&& 159) ||| 128 := by
  rw [Nat.and_comm, Nat.and_or_distrib_left, Nat.and_comm 159 X]
  rfl

theorem or_0x80_ne (X : Nat) : (X ||| 128) ≠ 63 := by
  intro h
  have h7 : (X ||| 128).testBit 7 = Nat.testBit 63 7 := by rw [h]
  rw [Nat.testBit_lor] at h7
  have e1 : Nat.testBit 128 7 = true := by decide
  have e2 : Nat.testBit 63 7 = false := by decide
  rw [e1, e2, Bool.or_true] at h7
  exact Bool.noConfusion h7

theorem land_0x9f_low : ∀ X, X < 128 → X ≠ 63 → X &&& 159 < 32 := by decide

/-- The escape `\M` without a dash after it, in a context other than 0 and 4. -/
theorem gksLoop_meta_bare (K : ZshH) (Snull fw : Nat) (h0 : fw ≠ 0) (h4 : fw ≠ 4) (X : Nat)
    (hX : X ≠ 45) (w : List Nat) (lead : Nat) (st : GksState) :
    gksLoop K Snull fw (92 :: 77 :: X :: w) 0 lead st
      = gksLoop K Snull fw (X :: w) 0 lead { st with meta := 1 + st.control } := by
  rw [gksLoop_cons K Snull fw 92 _ lead 1 st { st with meta := 1 + st.control } h4 (by decide)]
  · exact gksLoop_pre K Snull fw [77] (X :: w) lead _
  · simp [gksStep, gksEscape, gksFinish, h0, hX]

/-- The pending prefixes applied to the byte just stored, when `fromwhere` is
not 4. -/
theorem gksPost_snoc (K : ZshH) (fw : Nat) (h4 : fw ≠ 4) (o : List Nat) (b m c misc : Nat) :
    gksPost K fw ⟨o ++ [b], m, c, misc⟩
      = ⟨o ++ [if m = 2 then
            (if c ≠ 0 then (if b ||| 128 = 63 then 127 else (b ||| 128) &&& 159) else b ||| 128)
          else if m ≠ 0 then
            (if c ≠ 0 then (if b = 63 then 127 else b &&& 159) else b) ||| 128
          else if c ≠ 0 then (if b = 63 then 127 else b &&& 159) else b], 0, 0, misc⟩ := by
  unfold gksPost
  by_cases hm2 : m = 2
  · subst hm2
    by_cases hc : c = 0
    · simp [gksModLast_snoc, h4, hc]
    · simp [gksModLast_snoc, h4, hc]
  · by_cases hm : m = 0
    · by_cases hc : c = 0
      · simp [gksModLast_snoc, h4, hc, hm]
      · simp [gksModLast_snoc, h4, hc, hm]
    · by_cases hc : c = 0
      · simp [gksModLast_snoc, h4, hc, hm, hm2]
      · simp [gksModLast_snoc, h4, hc, hm, hm2]

/-- C28. The control prefix: in the key binding context, for every byte `X`
that is copied as it is (not NUL, backslash, `^` or `Meta`), `\C-X` stores
exactly one byte, 0x7F when `X` is `?` and `X AND 0x9F` otherwise, wherever it
stands with no prefix pending; as a whole string it gives that byte with length
1; for every `X` below 0x80 other than `?` the byte lies in 0x00..0x1F. -/
theorem getkeystring_control (K : ZshH) (Snull : Nat) (X : Nat) (hX0 : X ≠ 0) (hX1 : X ≠ 92)
    (hX2 : X ≠ 94) (hX3 : X ≠ K.Meta) (w after : List Nat) (lead misc : Nat) (st : GksState)
    (hm : st.meta = 0) (hc : st.control = 0) :
    gksLoop K Snull 2 (92 :: 67 :: 45 :: X :: w) 0 lead st
        = gksLoop K Snull 2 w 0 lead
            { st with out := st.out ++ [if X = 63 then 127 else X &&& 159] } ∧
      getkeystring K Snull (92 :: 67 :: 45 :: X :: 0 :: after) 2 misc
        = GksResult.returned [if X = 63 then 127 else X &&& 159, 0] 1 misc ∧
      (X < 128 → X ≠ 63 → X &&& 159 < 32) := by
  have key : ∀ (w : List Nat) (lead : Nat) (st : GksState), st.meta = 0 → st.control = 0 →
      gksLoop K Snull 2 (92 :: 67 :: 45 :: X :: w) 0 lead st
        = gksLoop K Snull 2 w 0 lead
            { st with out := st.out ++ [if X = 63 then 127 else X &&& 159] } := by
    intro w lead st hm hc
    obtain ⟨o, m, c, mi⟩ := st
    simp only at hm hc
    subst hm hc
    rw [gksLoop_control K Snull 2 (by decide) (by decide),
      gksLoop_literal K Snull 2 (by decide) X hX0 hX1 (Or.inl hX2) hX3]
    simp only [gksPost_snoc K 2 (by decide)]
    simp
  refine ⟨key w lead st hm hc, ?_, ?_⟩
  · unfold getkeystring
    rw [if_pos (by decide), key _ _ _ rfl rfl, gksLoop_nul]
    simp
  · exact land_0x9f_low X

theorem getkeystring_control_witness :
    (88 : Nat) ≠ 0 ∧ (88 : Nat) ≠ 92 ∧ (88 : Nat) ≠ 94 ∧ (88 : Nat) ≠ zsh_h.Meta ∧
      (⟨[7], 0, 0, 0⟩ : GksState).meta = 0 ∧ (⟨[7], 0, 0, 0⟩ : GksState).control = 0 ∧
      (gksLoop zsh_h zsh_Snull 2 (92 :: 67 :: 45 :: 88 :: [97, 0]) 0 0 ⟨[7], 0, 0, 0⟩
        = gksLoop zsh_h zsh_Snull 2 [97, 0] 0 0
            { (⟨[7], 0, 0, 0⟩ : GksState) with
              out := [7] ++ [if (88 : Nat) = 63 then 127 else 88 &&& 159] } ∧
      getkeystring zsh_h zsh_Snull (92 :: 67 :: 45 :: 88 :: 0 :: []) 2 0
        = GksResult.returned [if (88 : Nat) = 63 then 127 else 88 &&& 159, 0] 1 0 ∧
      ((88 : Nat) < 128 → (88 : Nat) ≠ 63 → 88 &&& 159 < 32)) ∧
      getkeystring zsh_h zsh_Snull [92, 67, 45, 88, 0] 2 0 = GksResult.returned [24, 0] 1 0 ∧
      getkeystring zsh_h zsh_Snull [92, 67, 45, 63, 0] 2 0 = GksResult.returned [127, 0] 1 0 :=
  ⟨by decide, by decide, by decide, by decide, rfl, rfl,
    getkeystring_control zsh_h zsh_Snull 88 (by decide) (by decide) (by decide) (by decide)
      [97, 0] [] 0 0 ⟨[7], 0, 0, 0⟩ rfl rfl,
    by decide, by decide⟩

theorem gksPost_single (K : ZshH) (fw : Nat) (h4 : fw ≠ 4) (b m c misc : Nat) :
    gksPost K fw ⟨[b], m, c, misc⟩
      = ⟨[if m = 2 then
            (if c ≠ 0 then (if b ||| 128 = 63 then 127 else (b ||| 128) &&& 159) else b ||| 128)
          else if m ≠ 0 then
            (if c ≠ 0 then (if b = 63 then 127 else b &&& 159) else b) ||| 128
          else if c ≠ 0 then (if b = 63 then 127 else b &&& 159) else b], 0, 0, misc⟩ :=
  gksPost_snoc K fw h4 [] b m c misc

/-- C29. The meta prefix: in the key binding context, for every byte `X` that
is copied as it is (not NUL, backslash, `^` or `Meta`), `\M-X`, and `\MX` when
`X` is not the dash, stores exactly one byte, `X OR 0x80`, wherever it stands
with no prefix pending, and leaves no prefix pending, so that a byte `Y` after
it is stored unchanged; the string `\M-A` gives the single byte 0xC1. -/
theorem getkeystring_meta_escape (K : ZshH) (Snull : Nat) (X Y : Nat) (hX0 : X ≠ 0)
    (hX1 : X ≠ 92) (hX2 : X ≠ 94) (hX3 : X ≠ K.Meta) (hY0 : Y ≠ 0) (hY1 : Y ≠ 92)
    (hY2 : Y ≠ 94) (hY3 : Y ≠ K.Meta) (w after : List Nat) (lead misc : Nat) (st : GksState)
    (hm : st.meta = 0) (hc : st.control = 0) :
    gksLoop K Snull 2 (92 :: 77 :: 45 :: X :: w) 0 lead st
        = gksLoop K Snull 2 w 0 lead { st with out := st.out ++ [X ||| 128] } ∧
      (X ≠ 45 → gksLoop K Snull 2 (92 :: 77 :: X :: w) 0 lead st
        = gksLoop K Snull 2 w 0 lead { st with out := st.out ++ [X ||| 128] }) ∧
      getkeystring K Snull (92 :: 77 :: 45 :: X :: 0 :: after) 2 misc
        = GksResult.returned [X ||| 128, 0] 1 misc ∧
      getkeystring K Snull (92 :: 77 :: 45 :: X :: Y :: 0 :: after) 2 misc
        = GksResult.returned [X ||| 128, Y, 0] 2 misc ∧
      getkeystring zsh_h zsh_Snull [92, 77, 45, 65, 0] 2 misc
        = GksResult.returned [0xC1, 0] 1 misc := by
  have key : ∀ (w : List Nat) (lead : Nat) (st : GksState), st.meta = 0 → st.control = 0 →
      gksLoop K Snull 2 (92 :: 77 :: 45 :: X :: w) 0 lead st
        = gksLoop K Snull 2 w 0 lead { st with out := st.out ++ [X ||| 128] } := by
    intro w lead st hm hc
    obtain ⟨o, m, c, mi⟩ := st
    simp only at hm hc
    subst hm hc
    rw [gksLoop_meta K Snull 2 (by decide) (by decide),
      gksLoop_literal K Snull 2 (by decide) X hX0 hX1 (Or.inl hX2) hX3]
    simp only [gksPost_snoc K 2 (by decide)]
    simp
  refine ⟨key w lead st hm hc, ?_, ?_, ?_, ?_⟩
  · intro h45
    obtain ⟨o, m, c, mi⟩ := st
    simp only at hm hc
    subst hm hc
    rw [gksLoop_meta_bare K Snull 2 (by decide) (by decide) X h45,
      gksLoop_literal K Snull 2 (by decide) X hX0 hX1 (Or.inl hX2) hX3]
    simp only [gksPost_snoc K 2 (by decide)]
    simp
  · unfold getkeystring
    rw [if_pos (by decide), key _ _ _ rfl rfl, gksLoop_nul]
    simp
  · unfold getkeystring
    rw [if_pos (by decide), key _ _ _ rfl rfl,
      gksLoop_literal K Snull 2 (by decide) Y hY0 hY1 (Or.inl hY2) hY3, gksLoop_nul]
    simp only [List.nil_append, gksPost_snoc K 2 (by decide)]
    simp
  · unfold getkeystring
    rw [if_pos (by decide), gksLoop_meta zsh_h zsh_Snull 2 (by decide) (by decide),
      gksLoop_literal zsh_h zsh_Snull 2 (by decide) 65 (by decide) (by decide)
        (Or.inl (by decide)) (by decide), gksLoop_nul]
    simp only [List.nil_append, gksPost_single zsh_h 2 (by decide)]
    simp

theorem getkeystring_meta_escape_witness :
    (97 : Nat) ≠ 0 ∧ (97 : Nat) ≠ 92 ∧ (97 : Nat) ≠ 94 ∧ (97 : Nat) ≠ zsh_h.Meta ∧
      (98 : Nat) ≠ 0 ∧ (98 : Nat) ≠ 92 ∧ (98 : Nat) ≠ 94 ∧ (98 : Nat) ≠ zsh_h.Meta ∧
      (⟨[7], 0, 0, 0⟩ : GksState).meta = 0 ∧ (⟨[7], 0, 0, 0⟩ : GksState).control = 0 ∧
      (gksLoop zsh_h zsh_Snull 2 (92 :: 77 :: 45 :: 97 :: [98, 0]) 0 0 ⟨[7], 0, 0, 0⟩
        = gksLoop zsh_h zsh_Snull 2 [98, 0] 0 0
            { (⟨[7], 0, 0, 0⟩ : GksState) with out := [7] ++ [97 ||| 128] } ∧
      ((97 : Nat) ≠ 45 →
        gksLoop zsh_h zsh_Snull 2 (92 :: 77 :: 97 :: [98, 0]) 0 0 ⟨[7], 0, 0, 0⟩
        = gksLoop zsh_h zsh_Snull 2 [98, 0] 0 0
            { (⟨[7], 0, 0, 0⟩ : GksState) with out := [7] ++ [97 ||| 128] }) ∧
      getkeystring zsh_h zsh_Snull (92 :: 77 :: 45 :: 97 :: 0 :: []) 2 0
        = GksResult.returned [97 ||| 128, 0] 1 0 ∧
      getkeystring zsh_h zsh_Snull (92 :: 77 :: 45 :: 97 :: 98 :: 0 :: []) 2 0
        = GksResult.returned [97 ||| 128, 98, 0] 2 0 ∧
      getkeystring zsh_h zsh_Snull [92, 77, 45, 65, 0] 2 0
        = GksResult.returned [0xC1, 0] 1 0) ∧
      getkeystring zsh_h zsh_Snull [92, 77, 97, 98, 0] 2 0
        = GksResult.returned [225, 98, 0] 2 0 :=
  ⟨by decide, by decide, by decide, by decide, by decide, by decide, by decide, by decide,
    rfl, rfl,
    getkeystring_meta_escape zsh_h zsh_Snull 97 98 (by decide) (by decide) (by decide)
      (by decide) (by decide) (by decide) (by decide) (by decide) [98, 0] [] 0 0
      ⟨[7], 0, 0, 0⟩ rfl rfl,
    by decide⟩

/-- C30, as the code has it. In the key binding context, for every byte `X`
that is copied as it is (not NUL, backslash, `^` or `Meta`): `\M-\C-X` gives the
control-mapped value of `X` (0x7F for `?`, `X AND 0x9F` otherwise) with 0x80
ORed in afterwards; `\C-\M-X` gives `X OR 0x80` masked with 0x9F. For `X` other
than `?` the two are the same byte; for `?` the first is 0xFF and the second
0x9F. -/
theorem getkeystring_meta_control (K : ZshH) (Snull : Nat) (X : Nat) (hX0 : X ≠ 0)
    (hX1 : X ≠ 92) (hX2 : X ≠ 94) (hX3 : X ≠ K.Meta) (after : List Nat) (misc : Nat) :
    getkeystring K Snull (92 :: 77 :: 45 :: 92 :: 67 :: 45 :: X :: 0 :: after) 2 misc
        = GksResult.returned [(if X = 63 then 127 else X &&& 159) ||| 128, 0] 1 misc ∧
      getkeystring K Snull (92 :: 67 :: 45 :: 92 :: 77 :: 45 :: X :: 0 :: after) 2 misc
        = GksResult.returned [(X ||| 128) &&& 159, 0] 1 misc ∧
      (X ≠ 63 →
        getkeystring K Snull (92 :: 67 :: 45 :: 92 :: 77 :: 45 :: X :: 0 :: after) 2 misc
          = getkeystring K Snull (92 :: 77 :: 45 :: 92 :: 67 :: 45 :: X :: 0 :: after) 2 misc) ∧
      (X = 63 →
        getkeystring K Snull (92 :: 77 :: 45 :: 92 :: 67 :: 45 :: X :: 0 :: after) 2 misc
            = GksResult.returned [255, 0] 1 misc ∧
          getkeystring K Snull (92 :: 67 :: 45 :: 92 :: 77 :: 45 :: X :: 0 :: after) 2 misc
            = GksResult.returned [159, 0] 1 misc) := by
  have h1 : getkeystring K Snull (92 :: 77 :: 45 :: 92 :: 67 :: 45 :: X :: 0 :: after) 2 misc
      = GksResult.returned [(if X = 63 then 127 else X &&& 159) ||| 128, 0] 1 misc := by
    unfold getkeystring
    rw [if_pos (by decide), gksLoop_meta K Snull 2 (by decide) (by decide),
      gksLoop_control K Snull 2 (by decide) (by decide),
      gksLoop_literal K Snull 2 (by decide) X hX0 hX1 (Or.inl hX2) hX3, gksLoop_nul]
    simp only [List.nil_append, gksPost_single K 2 (by decide)]
    simp
  have h2 : getkeystring K Snull (92 :: 67 :: 45 :: 92 :: 77 :: 45 :: X :: 0 :: after) 2 misc
      = GksResult.returned [(X ||| 128) &&& 159, 0] 1 misc := by
    unfold getkeystring
    rw [if_pos (by decide), gksLoop_control K Snull 2 (by decide) (by decide),
      gksLoop_meta K Snull 2 (by decide) (by decide),
      gksLoop_literal K Snull 2 (by decide) X hX0 hX1 (Or.inl hX2) hX3, gksLoop_nul]
    simp only [List.nil_append, gksPost_single K 2 (by decide)]
    simp [or_0x80_ne]
  refine ⟨h1, h2, ?_, ?_⟩
  · intro h63
    rw [h1, h2, if_neg h63, or_and_0x9f]
  · intro h63
    subst h63
    rw [h1, h2]
    exact ⟨rfl, rfl⟩

theorem getkeystring_meta_control_witness :
    (97 : Nat) ≠ 0 ∧ (97 : Nat) ≠ 92 ∧ (97 : Nat) ≠ 94 ∧ (97 : Nat) ≠ zsh_h.Meta ∧
      (getkeystring zsh_h zsh_Snull (92 :: 77 :: 45 :: 92 :: 67 :: 45 :: 97 :: 0 :: []) 2 0
        = GksResult.returned [(if (97 : Nat) = 63 then 127 else 97 &&& 159) ||| 128, 0] 1 0 ∧
      getkeystring zsh_h zsh_Snull (92 :: 67 :: 45 :: 92 :: 77 :: 45 :: 97 :: 0 :: []) 2 0
        = GksResult.returned [(97 ||| 128) &&& 159, 0] 1 0 ∧
      ((97 : Nat) ≠ 63 →
        getkeystring zsh_h zsh_Snull (92 :: 67 :: 45 :: 92 :: 77 :: 45 :: 97 :: 0 :: []) 2 0
          = getkeystring zsh_h zsh_Snull
              (92 :: 77 :: 45 :: 92 :: 67 :: 45 :: 97 :: 0 :: []) 2 0) ∧
      ((97 : Nat) = 63 →
        getkeystring zsh_h zsh_Snull (92 :: 77 :: 45 :: 92 :: 67 :: 45 :: 97 :: 0 :: []) 2 0
            = GksResult.returned [255, 0] 1 0 ∧
          getkeystring zsh_h zsh_Snull (92 :: 67 :: 45 :: 92 :: 77 :: 45 :: 97 :: 0 :: []) 2 0
            = GksResult.returned [159, 0] 1 0)) ∧
      getkeystring zsh_h zsh_Snull [92, 77, 45, 92, 67, 45, 97, 0] 2 0
        = GksResult.returned [129, 0] 1 0 :=
  ⟨by decide, by decide, by decide, by decide,
    getkeystring_meta_control zsh_h zsh_Snull 97 (by decide) (by decide) (by decide)
      (by decide) [] 0,
    by decide⟩

/-- The two orders of the prefixes before `?` give different bytes: `\M-\C-?`
gives 0xFF and `\C-\M-?` gives 0x9F. -/
theorem getkeystring_order_question :
    getkeystring zsh_h zsh_Snull [92, 77, 45, 92, 67, 45, 63, 0] 2 0
        = GksResult.returned [255, 0] 1 0 ∧
      getkeystring zsh_h zsh_Snull [92, 67, 45, 92, 77, 45, 63, 0] 2 0
        = GksResult.returned [159, 0] 1 0 ∧
      getkeystring zsh_h zsh_Snull [92, 77, 45, 92, 67, 45, 63, 0] 2 0
        ≠ getkeystring zsh_h zsh_Snull [92, 67, 45, 92, 77, 45, 63, 0] 2 0 := by
  decide

/-- With no prefix pending and `fromwhere` other than 4 the statements after the
`if` chain change nothing. -/
theorem gksPost_idle (K : ZshH) (fw : Nat) (h4 : fw ≠ 4) (st : GksState) (hm : st.meta = 0)
    (hc : st.control = 0) : gksPost K fw st = st := by
  obtain ⟨o, m, c, mi⟩ := st
  simp only at hm hc
  subst hm hc
  simp [gksPost, h4]

/-- With no prefix pending and a last byte that needs no escape the statements
after the `if` chain change nothing, whatever `fromwhere` is. -/
theorem gksPost_idle_byte (K : ZshH) (fw : Nat) (o : List Nat) (b mi : Nat)
    (hb : imeta K b = false) :
    gksPost K fw ⟨o ++ [b], 0, 0, mi⟩ = ⟨o ++ [b], 0, 0, mi⟩ := by
  simp [gksPost, hb]

theorem imeta_low (K : ZshH) (hK : K.inBand) (b : Nat) (h0 : b ≠ 0) (hb : b < 128) :
    imeta K b = false := by
  cases h : imeta K b with
  | false => rfl
  | true =>
    rcases imeta_band K hK b h with h1 | h1
    · exact absurd h1 h0
    · omega

/-- One named escape, in any context, with no prefix pending. -/
theorem gksLoop_named (K : ZshH) (hK : K.inBand) (Snull fw : Nat) (p : Nat × Nat)
    (hp : p ∈ namedEscapes) (w : List Nat) (lead : Nat) (st : GksState)
    (hm : st.meta = 0) (hc : st.control = 0) :
    gksLoop K Snull fw (92 :: p.1 :: w) 0 lead st
      = gksLoop K Snull fw w 0 (if fw = 4 then lead + 1 else lead)
          { st with out := st.out ++ [p.2] } := by
  obtain ⟨o, m, c, mi⟩ := st
  simp only at hm hc
  subst hm hc
  have hp0 : p.1 ≠ 0 := by
    simp only [namedEscapes, List.mem_cons, List.mem_singleton, List.not_mem_nil, or_false] at hp
    rcases hp with h | h | h | h | h | h | h | h <;> subst h <;> decide
  have hstep : gksFinish K fw (gksStep K Snull fw (92 :: p.1 :: w) ⟨o, 0, 0, mi⟩)
      = some (1, ⟨o ++ [p.2], 0, 0, mi⟩) := by
    have hpost : ∀ b, b ≠ 0 → b < 128 →
        gksPost K fw ⟨o ++ [b], 0, 0, mi⟩ = ⟨o ++ [b], 0, 0, mi⟩ :=
      fun b h0 hb => gksPost_idle_byte K fw o b mi (imeta_low K hK b h0 hb)
    simp only [namedEscapes, List.mem_cons, List.mem_singleton, List.not_mem_nil, or_false] at hp
    rcases hp with h | h | h | h | h | h | h | h <;> subst h <;>
      simp [gksStep, gksEscape, gksFinish, hpost]
  by_cases h4 : fw = 4
  · subst h4
    rw [gksLoop_cons4 K Snull 92 _ lead 1 _ _ (by decide) hstep (by simp), gksLoop_skip]
    simp
  · rw [gksLoop_cons K Snull fw 92 _ lead 1 _ _ h4 (by decide) hstep, gksLoop_skip, if_neg h4]

/-- A run of named escapes, in any context, with no prefix pending. -/
theorem gksLoop_named_run (K : ZshH) (hK : K.inBand) (Snull fw : Nat) (w : List Nat) :
    ∀ (es : List (Nat × Nat)), (∀ p ∈ es, p ∈ namedEscapes) →
      ∀ (lead : Nat) (st : GksState), st.meta = 0 → st.control = 0 →
      gksLoop K Snull fw (es.flatMap (fun p => [92, p.1]) ++ w) 0 lead st
        = gksLoop K Snull fw w 0 (if fw = 4 then lead + es.length else lead)
            { st with out := st.out ++ es.map (fun p => p.2) } := by
  intro es
  induction es with
  | nil =>
    intro _ lead st _ _
    simp
  | cons p es ih =>
    intro hes lead st hm hc
    rw [List.flatMap_cons, List.append_assoc]
    show gksLoop K Snull fw (92 :: p.1 :: (es.flatMap (fun p => [92, p.1]) ++ w)) 0 lead st = _
    rw [gksLoop_named K hK Snull fw p (hes p (List.mem_cons_self _ _)) _ lead st hm hc,
      ih (fun q hq => hes q (List.mem_cons_of_mem _ hq)) _
        { st with out := st.out ++ [p.2] } hm hc]
    by_cases h4 : fw = 4
    · simp [h4, Nat.add_assoc, Nat.add_comm 1]
    · simp [h4]

/-- C23. Named escapes: in every context, with no prefix pending, each of
`\a \b \f \n \r \t \v \e` stores exactly one byte, 0x07 0x08 0x0C 0x0A 0x0D 0x09
0x0B 0x1B in this order. A string of such escapes gives these bytes and, where
a length is reported, the number of escapes as length: with `fromwhere` other
than 4, and with `fromwhere` 4 when the string after the two bytes skipped ends
at the NUL; when it ends at `Snull` the bytes are the same and the text after
`Snull` is handed back. In the generic context `\n\t\101` gives 0x0A 0x09
0x41. -/
theorem getkeystring_named (K : ZshH) (hK : K.inBand) (Snull : Nat) (hS0 : Snull ≠ 0)
    (hS1 : Snull ≠ 92) (fw : Nat) (es : List (Nat × Nat)) (hes : ∀ p ∈ es, p ∈ namedEscapes)
    (w after rest : List Nat) (a b lead misc : Nat) (st : GksState)
    (hm : st.meta = 0) (hc : st.control = 0) :
    gksLoop K Snull fw (es.flatMap (fun p => [92, p.1]) ++ w) 0 lead st
        = gksLoop K Snull fw w 0 (if fw = 4 then lead + es.length else lead)
            { st with out := st.out ++ es.map (fun p => p.2) } ∧
      (fw ≠ 4 →
        getkeystring K Snull (es.flatMap (fun p => [92, p.1]) ++ 0 :: after) fw misc
          = GksResult.returned (es.map (fun p => p.2) ++ [0]) es.length misc) ∧
      getkeystring K Snull (a :: b :: (es.flatMap (fun p => [92, p.1]) ++ 0 :: after)) 4 misc
        = GksResult.returned (es.map (fun p => p.2) ++ [0]) es.length misc ∧
      getkeystring K Snull (a :: b :: (es.flatMap (fun p => [92, p.1]) ++ Snull :: rest)) 4 misc
        = GksResult.sentinel (es.map (fun p => p.2)) (cstr rest) misc ∧
      getkeystring zsh_h zsh_Snull [92, 110, 92, 116, 92, 49, 48, 49, 0] 1 0
        = GksResult.returned [0x0A, 0x09, 0x41, 0] 3 0 := by
  refine ⟨gksLoop_named_run K hK Snull fw w es hes lead st hm hc, ?_, ?_, ?_, by decide⟩
  · intro h4
    unfold getkeystring
    rw [if_pos h4, gksLoop_named_run K hK Snull fw _ es hes 0 _ rfl rfl, gksLoop_nul]
    simp
  · unfold getkeystring
    rw [if_neg (by simp)]
    show gksLoop K Snull 4 (es.flatMap (fun p => [92, p.1]) ++ 0 :: after) 0 2 _ = _
    rw [gksLoop_named_run K hK Snull 4 _ es hes 2 _ rfl rfl, gksLoop_nul]
    simp
  · unfold getkeystring
    rw [if_neg (by simp)]
    show gksLoop K Snull 4 (es.flatMap (fun p => [92, p.1]) ++ Snull :: rest) 0 2 _ = _
    rw [gksLoop_named_run K hK Snull 4 _ es hes 2 _ rfl rfl, gksLoop, if_neg hS0]
    simp [gksStep, gksFinish, hS1]

theorem getkeystring_named_witness :
    zsh_h.inBand ∧ zsh_Snull ≠ 0 ∧ zsh_Snull ≠ 92 ∧
      (∀ p ∈ [((110 : Nat), (10 : Nat)), (116, 9), (101, 27)], p ∈ namedEscapes) ∧
      (⟨[1], 0, 0, 0⟩ : GksState).meta = 0 ∧ (⟨[1], 0, 0, 0⟩ : GksState).control = 0 ∧
      (gksLoop zsh_h zsh_Snull 3
          (([((110 : Nat), (10 : Nat)), (116, 9), (101, 27)].flatMap (fun p => [92, p.1]))
            ++ [65, 0]) 0 0 ⟨[1], 0, 0, 0⟩
        = gksLoop zsh_h zsh_Snull 3 [65, 0] 0
            (if 3 = 4 then 0 + [((110 : Nat), (10 : Nat)), (116, 9), (101, 27)].length else 0)
            { (⟨[1], 0, 0, 0⟩ : GksState) with
              out := [1] ++ [((110 : Nat), (10 : Nat)), (116, 9), (101, 27)].map (fun p => p.2) } ∧
      (3 ≠ 4 →
        getkeystring zsh_h zsh_Snull
            (([((110 : Nat), (10 : Nat)), (116, 9), (101, 27)].flatMap (fun p => [92, p.1]))
              ++ 0 :: [5]) 3 0
          = GksResult.returned
              ([((110 : Nat), (10 : Nat)), (116, 9), (101, 27)].map (fun p => p.2) ++ [0])
              [((110 : Nat), (10 : Nat)), (116, 9), (101, 27)].length 0) ∧
      getkeystring zsh_h zsh_Snull
          (36 :: 39 :: (([((110 : Nat), (10 : Nat)), (116, 9), (101, 27)].flatMap
            (fun p => [92, p.1])) ++ 0 :: [5])) 4 0
        = GksResult.returned
            ([((110 : Nat), (10 : Nat)), (116, 9), (101, 27)].map (fun p => p.2) ++ [0])
            [((110 : Nat), (10 : Nat)), (116, 9), (101, 27)].length 0 ∧
      getkeystring zsh_h zsh_Snull
          (36 :: 39 :: (([((110 : Nat), (10 : Nat)), (116, 9), (101, 27)].flatMap
            (fun p => [92, p.1])) ++ zsh_Snull :: [120, 0, 7])) 4 0
        = GksResult.sentinel
            ([((110 : Nat), (10 : Nat)), (116, 9), (101, 27)].map (fun p => p.2))
            (cstr [120, 0, 7]) 0 ∧
      getkeystring zsh_h zsh_Snull [92, 110, 92, 116, 92, 49, 48, 49, 0] 1 0
        = GksResult.returned [0x0A, 0x09, 0x41, 0] 3 0) ∧
      getkeystring zsh_h zsh_Snull [36, 39, 92, 110, 92, 116, 92, 101, 0x98, 120, 0, 7] 4 0
        = GksResult.sentinel [10, 9, 27] [120] 0 :=
  ⟨by decide, by decide, by decide, by decide, rfl, rfl,
    getkeystring_named zsh_h (by decide) zsh_Snull (by decide) (by decide) 3
      [(110, 10), (116, 9), (101, 27)] (by decide) [65, 0] [5] [120, 0, 7] 36 39 0 0
      ⟨[1], 0, 0, 0⟩ rfl rfl,
    by decide⟩

/-- The octal digit loop of `zstrtol` on a run of octal digits that ends before
a byte which is no octal digit. -/
theorem zstrtolDigits_octal (r : List Nat) (hr : ¬ (48 ≤ r.headD 0 ∧ r.headD 0 < 56)) :
    ∀ (ds : List Nat) (a : Nat), (∀ d ∈ ds, 48 ≤ d ∧ d < 56) →
      zstrtolDigits 8 (ds ++ r) (a : Int)
        = (((ds.foldl (fun v d => v * 8 + (d - 48)) a : Nat) : Int), ds.length) := by
  intro ds
  induction ds with
  | nil =>
    intro a _
    cases r with
    | nil => rfl
    | cons c r =>
      have hc : ¬ (48 ≤ c ∧ c < 48 + 8) := by
        simpa using hr
      rw [List.nil_append, zstrtolDigits, if_pos (by decide), if_neg hc]
      rfl
  | cons d ds ih =>
    intro a hds
    have hd := hds d (List.mem_cons_self _ _)
    have hd' : 48 ≤ d ∧ d < 48 + 8 := by omega
    have e : (a : Int) * ((8 : Nat) : Int) + (d : Int) - 48 = ((a * 8 + (d - 48) : Nat) : Int) := by
      push_cast
      omega
    rw [List.cons_append, zstrtolDigits, if_pos (by decide), if_pos hd', e,
      ih _ (fun x hx => hds x (List.mem_cons_of_mem _ hx))]
    rfl

/-- The function `zstrtol` with base 8 on a run of octal digits. -/
theorem zstrtol_octal (r : List Nat) (hr : ¬ (48 ≤ r.headD 0 ∧ r.headD 0 < 56))
    (d : Nat) (ds : List Nat) (hds : ∀ x ∈ d :: ds, 48 ≤ x ∧ x < 56) :
    zstrtol (d :: ds ++ r) 8 = (((octalValue (d :: ds) : Nat) : Int), (d :: ds).length) := by
  have hd := hds d (List.mem_cons_self _ _)
  have hb : inblank d = false := by
    simp only [inblank, Bool.or_eq_false_iff, beq_eq_false_iff_ne, ne_eq]
    omega
  have h1 : d ≠ 45 := by omega
  have h2 : d ≠ 43 := by omega
  have hz := zstrtolDigits_octal r hr (d :: ds) 0 hds
  unfold zstrtol
  simp only [List.cons_append, List.takeWhile_cons, hb, List.length_nil, List.drop_zero,
    List.headD_cons, h1, h2, or_self, if_false, decide_False, Bool.false_eq_true]
  simp only [show ((8 : Nat) = 0) = False from by simp, if_false, List.drop_zero, Nat.zero_add]
  have hz' : zstrtolDigits 8 (d :: (ds ++ r)) 0
      = (((octalValue (d :: ds) : Nat) : Int), (d :: ds).length) := hz
  rw [hz']

/-- What a numeric escape hands to `zstrtol` begins with the run of octal
digits and goes on with a byte that is no octal digit. -/
theorem gks_numeric_cut (ds w : List Nat) (h1 : ds ≠ []) (h3 : ds.length ≤ 3)
    (hds : ∀ x ∈ ds, 48 ≤ x ∧ x < 56)
    (hmax : ds.length = 3 ∨ ¬ (48 ≤ w.headD 0 ∧ w.headD 0 < 56)) :
    ∃ r, (if (ds ++ w).getD 1 0 ≠ 0 ∧ (ds ++ w).getD 2 0 ≠ 0 ∧ (ds ++ w).getD 3 0 ≠ 0
          then (ds ++ w).take 3 else ds ++ w) = ds ++ r ∧
      ¬ (48 ≤ r.headD 0 ∧ r.headD 0 < 56) := by
  match ds, h1, h3, hds, hmax with
  | [a], _, _, _, hmax =>
    have hw : ¬ (48 ≤ w.headD 0 ∧ w.headD 0 < 56) := by
      rcases hmax with h | h
      · simp at h
      · exact h
    by_cases hcond : ([a] ++ w).getD 1 0 ≠ 0 ∧ ([a] ++ w).getD 2 0 ≠ 0 ∧ ([a] ++ w).getD 3 0 ≠ 0
    · rw [if_pos hcond]
      refine ⟨w.take 2, by simp, ?_⟩
      cases w with
      | nil => simp
      | cons c w => simpa using hw
    · rw [if_neg hcond]
      exact ⟨w, rfl, hw⟩
  | [a, b], _, _, _, hmax =>
    have hw : ¬ (48 ≤ w.headD 0 ∧ w.headD 0 < 56) := by
      rcases hmax with h | h
      · simp at h
      · exact h
    by_cases hcond : ([a, b] ++ w).getD 1 0 ≠ 0 ∧ ([a, b] ++ w).getD 2 0 ≠ 0 ∧
        ([a, b] ++ w).getD 3 0 ≠ 0
    · rw [if_pos hcond]
      refine ⟨w.take 1, by simp, ?_⟩
      cases w with
      | nil => simp
      | cons c w => simpa using hw
    · rw [if_neg hcond]
      exact ⟨w, rfl, hw⟩
  | [a, b, c], _, _, hds, _ =>
    by_cases hcond : ([a, b, c] ++ w).getD 1 0 ≠ 0 ∧ ([a, b, c] ++ w).getD 2 0 ≠ 0 ∧
        ([a, b, c] ++ w).getD 3 0 ≠ 0
    · rw [if_pos hcond]
      exact ⟨[], by simp, by simp⟩
    · rw [if_neg hcond]
      refine ⟨w, rfl, ?_⟩
      have hb := hds b (by simp)
      have hc := hds c (by simp)
      have h0 : w.headD 0 = 0 := by
        cases w with
        | nil => rfl
        | cons x w =>
          simp only [List.cons_append, List.nil_append, List.getD_cons_succ, List.getD_cons_zero,
            ne_eq, not_and, not_not] at hcond
          simp only [List.headD_cons]
          exact hcond (by omega) (by omega)
      rw [h0]
      omega
  | _ :: _ :: _ :: _ :: _, _, h3, _, _ => simp at h3

/-- A byte after the backslash that is none of the labels of the `switch` goes
to `default:`. -/
theorem gksEscape_default (K : ZshH) (fw : Nat) (r : List Nat) (st : GksState)
    (h : r.headD 0 ∉ [97, 110, 98, 116, 118, 102, 114, 69, 101, 77, 67])
    (hM : r.headD 0 ≠ K.Meta) (hc : ¬ (r.headD 0 = 99 ∧ fw < 2)) :
    gksEscape K fw r st = gksDefault fw r st := by
  simp only [List.mem_cons, List.mem_singleton, List.not_mem_nil, or_false, not_or] at h
  obtain ⟨a1, a2, a3, a4, a5, a6, a7, a8, a9, a10, a11⟩ := h
  unfold gksEscape
  dsimp only
  rw [if_neg a1, if_neg a2, if_neg a3, if_neg a4, if_neg a5, if_neg a6, if_neg a7,
    if_neg (fun h8 => a8 h8.1), if_neg (not_or.2 ⟨a8, a9⟩), if_neg a10, if_neg a11, if_neg hM,
    if_neg hc]

/-- The label `Meta` of the `switch`. -/
theorem gksEscape_Meta (K : ZshH) (hK : K.inBand) (fw : Nat) (r : List Nat) (st : GksState)
    (hM : r.headD 0 = K.Meta) :
    gksEscape K fw r st = GksStep.brk 0 { st with out := st.out ++ [92] } := by
  have hl : 128 ≤ r.headD 0 := by
    rw [hM]
    exact hK.1.1
  unfold gksEscape
  dsimp only
  have a1 : r.headD 0 ≠ 97 := by omega
  have a2 : r.headD 0 ≠ 110 := by omega
  have a3 : r.headD 0 ≠ 98 := by omega
  have a4 : r.headD 0 ≠ 116 := by omega
  have a5 : r.headD 0 ≠ 118 := by omega
  have a6 : r.headD 0 ≠ 102 := by omega
  have a7 : r.headD 0 ≠ 114 := by omega
  have a8 : ¬ (r.headD 0 = 69 ∧ fw = 0) := by omega
  have a9 : ¬ (r.headD 0 = 69 ∨ r.headD 0 = 101) := by omega
  have a10 : r.headD 0 ≠ 77 := by omega
  have a11 : r.headD 0 ≠ 67 := by omega
  rw [if_neg a1, if_neg a2, if_neg a3, if_neg a4, if_neg a5, if_neg a6, if_neg a7, if_neg a8,
    if_neg a9, if_neg a10, if_neg a11, if_pos hM]

/-- An octal escape in a context other than 0 and 4, with no prefix pending. -/
theorem gksLoop_octal (K : ZshH) (hK : K.inBand) (Snull fw : Nat) (h0 : fw ≠ 0) (h4 : fw ≠ 4)
    (ds w : List Nat) (h1 : ds ≠ []) (h3 : ds.length ≤ 3) (hds : ∀ x ∈ ds, 48 ≤ x ∧ x < 56)
    (hmax : ds.length = 3 ∨ ¬ (48 ≤ w.headD 0 ∧ w.headD 0 < 56)) (lead : Nat) (st : GksState)
    (hm : st.meta = 0) (hc : st.control = 0) :
    gksLoop K Snull fw (92 :: (ds ++ w)) 0 lead st
      = gksLoop K Snull fw w 0 lead { st with out := st.out ++ [octalValue ds % 256] } := by
  obtain ⟨r, hnum, hr⟩ := gks_numeric_cut ds w h1 h3 hds hmax
  cases ds with
  | nil => exact absurd rfl h1
  | cons d ds =>
    have hd := hds d (List.mem_cons_self _ _)
    have hM : d ≠ K.Meta := by
      obtain ⟨hK1, _⟩ := hK
      omega
    have hz := zstrtol_octal r hr d ds hds
    have hdig : idigit d = true := by
      simp only [idigit, Bool.and_eq_true, decide_eq_true_eq]
      omega
    have hstep : gksFinish K fw (gksStep K Snull fw (92 :: (d :: ds ++ w)) st)
        = some ((d :: ds).length, { st with out := st.out ++ [octalValue (d :: ds) % 256] }) := by
      have e1 : gksStep K Snull fw (92 :: (d :: ds ++ w)) st
          = GksStep.brk ((d :: ds).length)
              { st with out := st.out ++ [octalValue (d :: ds) % 256] } := by
        have hl : (d :: (ds ++ w)).headD 0 ∉ [97, 110, 98, 116, 118, 102, 114, 69, 101, 77, 67] := by
          simp only [List.headD_cons, List.mem_cons, List.mem_singleton, List.not_mem_nil,
            or_false, not_or]
          omega
        unfold gksStep
        simp only [List.headD_cons, List.getD_cons_succ, List.getD_cons_zero, List.cons_append,
          List.drop_succ_cons, List.drop_zero, true_and]
        rw [if_pos (by omega), gksEscape_default K fw _ st hl hM (by simp only [List.headD_cons]; omega)]
        unfold gksDefault
        simp only [List.headD_cons]
        rw [if_pos (Or.inl ⟨hdig, hd.2⟩), if_neg (fun h => h0 h.1)]
        have hnum' : (if (d :: (ds ++ w)).getD 1 0 ≠ 0 ∧ (d :: (ds ++ w)).getD 2 0 ≠ 0 ∧
            (d :: (ds ++ w)).getD 3 0 ≠ 0 then (d :: (ds ++ w)).take 3 else d :: (ds ++ w))
            = d :: ds ++ r := hnum
        have hv : (((octalValue (d :: ds) : Nat) : Int) % 256).toNat = octalValue (d :: ds) % 256 := by
          omega
        simp only [show ¬ (fw = 0 ∧ d = 48) from fun h => h0 h.1, if_false, List.drop_zero,
          List.headD_cons, show ¬ (d = 120) from by omega, Nat.zero_add]
        rw [hnum', hz, hv]
      rw [e1, gksFinish,
        gksPost_idle K fw h4 { st with out := st.out ++ [octalValue (d :: ds) % 256] } hm hc]
    rw [gksLoop_cons K Snull fw 92 _ lead _ st _ h4 (by decide) hstep]
    exact gksLoop_pre K Snull fw (d :: ds) w lead _

/-- C24, as literally stated, fails when a modifier is pending: the byte stored
for the octal escape is then changed by the statements after the `switch`. In
the generic context `\M-\101` gives 0xC1 and `\C-\101` gives 0x01, in the key
binding context `^\101` gives 0x01; the octal number is 0x41. -/
theorem getkeystring_meta_then_octal :
    octalValue [49, 48, 49] % 256 = 0x41 ∧
      getkeystring zsh_h zsh_Snull [92, 77, 45, 92, 49, 48, 49, 0] 1 0
        = GksResult.returned [0xC1, 0] 1 0 ∧
      getkeystring zsh_h zsh_Snull [92, 67, 45, 92, 49, 48, 49, 0] 1 0
        = GksResult.returned [0x01, 0] 1 0 ∧
      getkeystring zsh_h zsh_Snull [94, 92, 49, 48, 49, 0] 2 0
        = GksResult.returned [0x01, 0] 1 0 := by
  decide

/-- C24 (amended). Octal escapes: in the generic and the key binding context
(`fromwhere` 1 and 2), with no `\M-`, `\C-` or `^` pending, a backslash followed
by a maximal run of one
to three octal digits stores the single byte whose value is that octal number
modulo 256 and goes on with the first byte after these digits; at most three
digits are taken, so a fourth digit is stored as it is. As whole strings,
`\101` gives 0x41, `\1234` gives 0x53 and `4`, `\777` gives 0xFF. -/
theorem getkeystring_octal (K : ZshH) (hK : K.inBand) (Snull fw : Nat) (hfw : fw = 1 ∨ fw = 2)
    (ds w : List Nat) (h1 : ds ≠ []) (h3 : ds.length ≤ 3) (hds : ∀ x ∈ ds, 48 ≤ x ∧ x < 56)
    (hmax : ds.length = 3 ∨ ¬ (48 ≤ w.headD 0 ∧ w.headD 0 < 56)) (d4 : Nat) (w4 after : List Nat)
    (lead misc : Nat) (st : GksState) (hm : st.meta = 0) (hc : st.control = 0) :
    gksLoop K Snull fw (92 :: (ds ++ w)) 0 lead st
        = gksLoop K Snull fw w 0 lead { st with out := st.out ++ [octalValue ds % 256] } ∧
      (ds.length = 3 → 48 ≤ d4 ∧ d4 ≤ 57 →
        gksLoop K Snull fw (92 :: (ds ++ d4 :: w4)) 0 lead st
          = gksLoop K Snull fw w4 0 lead
              { st with out := st.out ++ [octalValue ds % 256, d4] }) ∧
      getkeystring K Snull (92 :: (ds ++ 0 :: after)) fw misc
        = GksResult.returned [octalValue ds % 256, 0] 1 misc ∧
      (getkeystring zsh_h zsh_Snull [92, 49, 48, 49, 0] 1 0 = GksResult.returned [0x41, 0] 1 0 ∧
        getkeystring zsh_h zsh_Snull [92, 49, 50, 51, 52, 0] 2 0
          = GksResult.returned [0x53, 52, 0] 2 0 ∧
        getkeystring zsh_h zsh_Snull [92, 55, 55, 55, 0] 1 0
          = GksResult.returned [0xFF, 0] 1 0) := by
  have h0 : fw ≠ 0 := by omega
  have h4 : fw ≠ 4 := by omega
  refine ⟨gksLoop_octal K hK Snull fw h0 h4 ds w h1 h3 hds hmax lead st hm hc, ?_, ?_,
    by decide⟩
  · intro hl hd4
    have hM : d4 ≠ K.Meta := by
      obtain ⟨hK1, _⟩ := hK
      omega
    rw [gksLoop_octal K hK Snull fw h0 h4 ds (d4 :: w4) h1 h3 hds (Or.inl hl) lead st hm hc,
      gksLoop_literal K Snull fw h4 d4 (by omega) (by omega) (Or.inl (by omega)) hM]
    dsimp only
    rw [gksPost_idle K fw h4
      ⟨st.out ++ [octalValue ds % 256] ++ [d4], st.meta, st.control, st.misc⟩ hm hc]
    simp
  · unfold getkeystring
    rw [if_pos h4,
      gksLoop_octal K hK Snull fw h0 h4 ds (0 :: after) h1 h3 hds (Or.inr (by simp)) 0 _ rfl rfl,
      gksLoop_nul]
    simp

theorem getkeystring_octal_witness :
    zsh_h.inBand ∧ ((2 : Nat) = 1 ∨ (2 : Nat) = 2) ∧ ([49, 50, 51] : List Nat) ≠ [] ∧
      ([49, 50, 51] : List Nat).length ≤ 3 ∧ (∀ x ∈ ([49, 50, 51] : List Nat), 48 ≤ x ∧ x < 56) ∧
      (([49, 50, 51] : List Nat).length = 3 ∨
        ¬ (48 ≤ ([52, 0] : List Nat).headD 0 ∧ ([52, 0] : List Nat).headD 0 < 56)) ∧
      (⟨[7], 0, 0, 0⟩ : GksState).meta = 0 ∧ (⟨[7], 0, 0, 0⟩ : GksState).control = 0 ∧
      (gksLoop zsh_h zsh_Snull 2 (92 :: ([49, 50, 51] ++ [52, 0])) 0 0 ⟨[7], 0, 0, 0⟩
          = gksLoop zsh_h zsh_Snull 2 [52, 0] 0 0
              { (⟨[7], 0, 0, 0⟩ : GksState) with out := [7] ++ [octalValue [49, 50, 51] % 256] } ∧
        (([49, 50, 51] : List Nat).length = 3 → 48 ≤ 52 ∧ 52 ≤ 57 →
          gksLoop zsh_h zsh_Snull 2 (92 :: ([49, 50, 51] ++ 52 :: [0])) 0 0 ⟨[7], 0, 0, 0⟩
            = gksLoop zsh_h zsh_Snull 2 [0] 0 0
                { (⟨[7], 0, 0, 0⟩ : GksState) with
                  out := [7] ++ [octalValue [49, 50, 51] % 256, 52] }) ∧
        getkeystring zsh_h zsh_Snull (92 :: ([49, 50, 51] ++ 0 :: [9])) 2 0
          = GksResult.returned [octalValue [49, 50, 51] % 256, 0] 1 0 ∧
        (getkeystring zsh_h zsh_Snull [92, 49, 48, 49, 0] 1 0
            = GksResult.returned [0x41, 0] 1 0 ∧
          getkeystring zsh_h zsh_Snull [92, 49, 50, 51, 52, 0] 2 0
            = GksResult.returned [0x53, 52, 0] 2 0 ∧
          getkeystring zsh_h zsh_Snull [92, 55, 55, 55, 0] 1 0
            = GksResult.returned [0xFF, 0] 1 0)) ∧
      octalValue [49, 50, 51] % 256 = 83 :=
  ⟨by decide, by decide, by decide, by decide, by decide, by decide, rfl, rfl,
    getkeystring_octal zsh_h (by decide) zsh_Snull 2 (by decide) [49, 50, 51] [52, 0]
      (by decide) (by decide) (by decide) (by decide) 52 [0] [9] 0 0 ⟨[7], 0, 0, 0⟩ rfl rfl,
    by decide⟩

/-- An encoded pair, with `fromwhere` other than 4. -/
theorem gksLoop_pair (K : ZshH) (hK : K.inBand) (Snull fw : Nat) (h4 : fw ≠ 4) (y : Nat)
    (w : List Nat) (lead : Nat) (st : GksState) :
    gksLoop K Snull fw (K.Meta :: y :: w) 0 lead st
      = gksLoop K Snull fw w 0 lead (gksPost K fw { st with out := st.out ++ [y ^^^ 32] }) := by
  obtain ⟨⟨hK1, hK2⟩, _⟩ := hK
  rw [gksLoop_cons K Snull fw K.Meta _ lead 1 st
    (gksPost K fw { st with out := st.out ++ [y ^^^ 32] }) h4 (by omega)]
  · exact gksLoop_skip K Snull fw y w 0 lead _
  · have h92 : K.Meta ≠ 92 := by omega
    have h94 : K.Meta ≠ 94 := by omega
    simp [gksStep, gksFinish, h92, h94, h4]

/-- C25, as the code has it. In the echo context (`fromwhere` 0), with no prefix
pending, for every byte `c` other than `a b f n r t v e`, `c`, `x`, `0` and the
backslash, and other than NUL and `Meta`, the backslash followed by `c` is
stored unchanged as these two bytes; so is a backslash followed by an encoded
pair, the pair being decoded. As a whole string it gives the two bytes with
length 2. -/
theorem getkeystring_echo_kept (K : ZshH) (hK : K.inBand) (Snull : Nat) (c y : Nat)
    (hc0 : c ≠ 0) (hcM : c ≠ K.Meta)
    (hc : c ∉ [97, 98, 102, 110, 114, 116, 118, 101, 99, 120, 48, 92])
    (w after : List Nat) (lead misc : Nat) (st : GksState)
    (hm : st.meta = 0) (hn : st.control = 0) :
    gksLoop K Snull 0 (92 :: c :: w) 0 lead st
        = gksLoop K Snull 0 w 0 lead { st with out := st.out ++ [92, c] } ∧
      gksLoop K Snull 0 (92 :: K.Meta :: y :: w) 0 lead st
        = gksLoop K Snull 0 w 0 lead { st with out := st.out ++ [92, y ^^^ 32] } ∧
      getkeystring K Snull (92 :: c :: 0 :: after) 0 misc
        = GksResult.returned [92, c, 0] 2 misc := by
  simp only [List.mem_cons, List.mem_singleton, List.not_mem_nil, or_false, not_or] at hc
  obtain ⟨c1, c2, c3, c4, c5, c6, c7, c8, c9, c10, c11, c12⟩ := hc
  have key : ∀ (w : List Nat) (lead : Nat) (st : GksState), st.meta = 0 → st.control = 0 →
      gksLoop K Snull 0 (92 :: c :: w) 0 lead st
        = gksLoop K Snull 0 w 0 lead { st with out := st.out ++ [92, c] } := by
    intro w lead st hm hn
    by_cases hA : c = 69 ∨ c = 77 ∨ c = 67 ∨ (49 ≤ c ∧ c ≤ 55)
    · have hstep : gksFinish K 0 (gksStep K Snull 0 (92 :: c :: w) st)
          = some (0, { st with out := st.out ++ [92] }) := by
        have hdig : 49 ≤ c ∧ c ≤ 55 → idigit c = true := by
          intro h
          simp only [idigit, Bool.and_eq_true, decide_eq_true_eq]
          omega
        rcases hA with h | h | h | h
        · subst h
          simp [gksStep, gksEscape, gksFinish]
        · subst h
          simp [gksStep, gksEscape, gksFinish]
        · subst h
          simp [gksStep, gksEscape, gksFinish]
        · have e1 : gksStep K Snull 0 (92 :: c :: w) st
              = GksStep.cont 0 { st with out := st.out ++ [92] } := by
            have hl : (c :: w).headD 0 ∉ [97, 110, 98, 116, 118, 102, 114, 69, 101, 77, 67] := by
              simp only [List.headD_cons, List.mem_cons, List.mem_singleton, List.not_mem_nil,
                or_false, not_or]
              omega
            unfold gksStep
            simp only [List.headD_cons, List.getD_cons_succ, List.getD_cons_zero,
              List.drop_succ_cons, List.drop_zero, true_and]
            rw [if_pos hc0, gksEscape_default K 0 _ st hl hcM (fun h9 => c9 h9.1)]
            unfold gksDefault
            simp only [List.headD_cons]
            rw [if_pos (Or.inl ⟨hdig h, by omega⟩), if_pos ⟨trivial, c11, c10⟩]
          rw [e1, gksFinish]
      rw [gksLoop_cons K Snull 0 92 _ lead 0 st _ (by decide) (by decide) hstep,
        gksLoop_literal K Snull 0 (by decide) c hc0 c12 (Or.inr (by decide)) hcM]
      dsimp only
      rw [gksPost_idle K 0 (by decide) ⟨st.out ++ [92] ++ [c], st.meta, st.control, st.misc⟩
        hm hn]
      simp
    · have hstep : gksFinish K 0 (gksStep K Snull 0 (92 :: c :: w) st)
          = some (1, { st with out := st.out ++ [92, c] }) := by
        have e1 : gksStep K Snull 0 (92 :: c :: w) st
            = GksStep.brk 1 { st with out := st.out ++ [92, c] } := by
          have hnd : ¬ ((idigit c = true ∧ c < 56) ∨ c = 120) := by
            simp only [idigit, Bool.and_eq_true, decide_eq_true_eq]
            omega
          have hl : (c :: w).headD 0 ∉ [97, 110, 98, 116, 118, 102, 114, 69, 101, 77, 67] := by
            simp only [List.headD_cons, List.mem_cons, List.mem_singleton, List.not_mem_nil,
              or_false, not_or]
            omega
          unfold gksStep
          simp only [List.headD_cons, List.getD_cons_succ, List.getD_cons_zero,
            List.drop_succ_cons, List.drop_zero, true_and]
          rw [if_pos hc0, gksEscape_default K 0 _ st hl hcM (fun h9 => c9 h9.1)]
          unfold gksDefault
          simp only [List.headD_cons]
          rw [if_neg hnd, if_pos ⟨trivial, c12⟩]
        rw [e1, gksFinish,
          gksPost_idle K 0 (by decide) { st with out := st.out ++ [92, c] } hm hn]
      rw [gksLoop_cons K Snull 0 92 _ lead 1 st _ (by decide) (by decide) hstep, gksLoop_skip]
  refine ⟨key w lead st hm hn, ?_, ?_⟩
  · have hM0 : K.Meta ≠ 0 := Meta_ne_zero K hK
    have hMl : 128 ≤ K.Meta := hK.1.1
    have hstep : gksFinish K 0 (gksStep K Snull 0 (92 :: K.Meta :: y :: w) st)
        = some (0, { st with out := st.out ++ [92] }) := by
      have e1 : gksStep K Snull 0 (92 :: K.Meta :: y :: w) st
          = GksStep.brk 0 { st with out := st.out ++ [92] } := by
        unfold gksStep
        simp only [List.headD_cons, List.getD_cons_succ, List.getD_cons_zero,
          List.drop_succ_cons, List.drop_zero, true_and]
        rw [if_pos hM0, gksEscape_Meta K hK 0 (K.Meta :: y :: w) st rfl]
      rw [e1, gksFinish,
        gksPost_idle K 0 (by decide) { st with out := st.out ++ [92] } hm hn]
    rw [gksLoop_cons K Snull 0 92 _ lead 0 st _ (by decide) (by decide) hstep,
      gksLoop_pair K hK Snull 0 (by decide)]
    dsimp only
    rw [gksPost_idle K 0 (by decide)
      ⟨st.out ++ [92] ++ [y ^^^ 32], st.meta, st.control, st.misc⟩ hm hn]
    simp
  · unfold getkeystring
    rw [if_pos (by decide), key _ _ _ rfl rfl, gksLoop_nul]
    simp

theorem getkeystring_echo_kept_witness :
    zsh_h.inBand ∧ (113 : Nat) ≠ 0 ∧ (113 : Nat) ≠ zsh_h.Meta ∧
      (113 : Nat) ∉ [97, 98, 102, 110, 114, 116, 118, 101, 99, 120, 48, 92] ∧
      (⟨[7], 0, 0, 0⟩ : GksState).meta = 0 ∧ (⟨[7], 0, 0, 0⟩ : GksState).control = 0 ∧
      (gksLoop zsh_h zsh_Snull 0 (92 :: 113 :: [97, 0]) 0 0 ⟨[7], 0, 0, 0⟩
          = gksLoop zsh_h zsh_Snull 0 [97, 0] 0 0
              { (⟨[7], 0, 0, 0⟩ : GksState) with out := [7] ++ [92, 113] } ∧
        gksLoop zsh_h zsh_Snull 0 (92 :: zsh_h.Meta :: 163 :: [97, 0]) 0 0 ⟨[7], 0, 0, 0⟩
          = gksLoop zsh_h zsh_Snull 0 [97, 0] 0 0
              { (⟨[7], 0, 0, 0⟩ : GksState) with out := [7] ++ [92, 163 ^^^ 32] } ∧
        getkeystring zsh_h zsh_Snull (92 :: 113 :: 0 :: []) 0 0
          = GksResult.returned [92, 113, 0] 2 0) ∧
      getkeystring zsh_h zsh_Snull [92, 69, 92, 55, 92, 57, 0] 0 0
        = GksResult.returned [92, 69, 92, 55, 92, 57, 0] 6 0 :=
  ⟨by decide, by decide, by decide, by decide, rfl, rfl,
    getkeystring_echo_kept zsh_h (by decide) zsh_Snull 113 163 (by decide) (by decide)
      (by decide) [97, 0] [] 0 0 ⟨[7], 0, 0, 0⟩ rfl rfl,
    by decide⟩

/-- In the echo context the escapes `\c`, `\x` and the doubled backslash are not
copied as they are: `\c` stores nothing and sets `*misc`, `\x` stores the byte
of the hexadecimal number after it (0 when there is none), and the doubled
backslash stores one backslash. -/
theorem getkeystring_echo_c_x_backslash :
    getkeystring zsh_h zsh_Snull [92, 99, 0] 0 0 = GksResult.returned [0] 0 1 ∧
      getkeystring zsh_h zsh_Snull [92, 120, 0] 0 0 = GksResult.returned [0, 0] 1 0 ∧
      getkeystring zsh_h zsh_Snull [92, 120, 52, 49, 0] 0 0 = GksResult.returned [65, 0] 1 0 ∧
      getkeystring zsh_h zsh_Snull [92, 92, 0] 0 0 = GksResult.returned [92, 0] 1 0 := by
  decide

theorem gksPost_setMisc (K : ZshH) (fw m : Nat) (st : GksState) :
    gksPost K fw (st.setMisc m) = (gksPost K fw st).setMisc m := rfl

/-- The `default:` label started with `*misc` set to 1 does what it does
otherwise and leaves `*misc` at 1. -/
theorem gksDefault_setMisc (K : ZshH) (fw : Nat) (r : List Nat) (st : GksState) :
    gksFinish K fw (gksDefault fw r (st.setMisc 1))
      = (gksFinish K fw (gksDefault fw r st)).map (fun p => (p.1, p.2.setMisc 1)) := by
  unfold gksDefault
  dsimp only
  by_cases h : (idigit (r.headD 0) = true ∧ r.headD 0 < 56) ∨ r.headD 0 = 120
  · rw [if_pos h, if_pos h]
    by_cases h0 : fw = 0 ∧ r.headD 0 ≠ 48 ∧ r.headD 0 ≠ 120
    · rw [if_pos h0, if_pos h0]
      rfl
    · rw [if_neg h0, if_neg h0]
      rfl
  rw [if_neg h, if_neg h]
  clear h
  by_cases h : fw = 0 ∧ r.headD 0 ≠ 92
  · rw [if_pos h, if_pos h]
    rfl
  · rw [if_neg h, if_neg h]
    rfl

/-- The `switch` started with `*misc` set to 1 does what it does otherwise and
leaves `*misc` at 1. -/
theorem gksEscape_setMisc (K : ZshH) (fw : Nat) (r : List Nat) (st : GksState) :
    gksFinish K fw (gksEscape K fw r (st.setMisc 1))
      = (gksFinish K fw (gksEscape K fw r st)).map (fun p => (p.1, p.2.setMisc 1)) := by
  unfold gksEscape
  dsimp only
  by_cases h : r.headD 0 = 97
  · rw [if_pos h, if_pos h]
    rfl
  rw [if_neg h, if_neg h]
  clear h
  by_cases h : r.headD 0 = 110
  · rw [if_pos h, if_pos h]
    rfl
  rw [if_neg h, if_neg h]
  clear h
  by_cases h : r.headD 0 = 98
  · rw [if_pos h, if_pos h]
    rfl
  rw [if_neg h, if_neg h]
  clear h
  by_cases h : r.headD 0 = 116
  · rw [if_pos h, if_pos h]
    rfl
  rw [if_neg h, if_neg h]
  clear h
  by_cases h : r.headD 0 = 118
  · rw [if_pos h, if_pos h]
    rfl
  rw [if_neg h, if_neg h]
  clear h
  by_cases h : r.headD 0 = 102
  · rw [if_pos h, if_pos h]
    rfl
  rw [if_neg h, if_neg h]
  clear h
  by_cases h : r.headD 0 = 114
  · rw [if_pos h, if_pos h]
    rfl
  rw [if_neg h, if_neg h]
  clear h
  by_cases h : r.headD 0 = 69 ∧ fw = 0
  · rw [if_pos h, if_pos h]
    rfl
  rw [if_neg h, if_neg h]
  clear h
  by_cases h : r.headD 0 = 69 ∨ r.headD 0 = 101
  · rw [if_pos h, if_pos h]
    rfl
  rw [if_neg h, if_neg h]
  clear h
  by_cases h : r.headD 0 = 77
  · rw [if_pos h, if_pos h]
    by_cases h0 : fw ≠ 0
    · rw [if_pos h0, if_pos h0]
      rfl
    · rw [if_neg h0, if_neg h0]
      rfl
  rw [if_neg h, if_neg h]
  clear h
  by_cases h : r.headD 0 = 67
  · rw [if_pos h, if_pos h]
    by_cases h0 : fw ≠ 0
    · rw [if_pos h0, if_pos h0]
      rfl
    · rw [if_neg h0, if_neg h0]
      rfl
  rw [if_neg h, if_neg h]
  clear h
  by_cases h : r.headD 0 = K.Meta
  · rw [if_pos h, if_pos h]
    rfl
  rw [if_neg h, if_neg h]
  clear h
  by_cases h : r.headD 0 = 99 ∧ fw < 2
  · rw [if_pos h, if_pos h]
    rfl
  · rw [if_neg h, if_neg h]
    exact gksDefault_setMisc K fw r st

/-- One iteration started with `*misc` set to 1 does what it does otherwise and
leaves `*misc` at 1. -/
theorem gksFinish_setMisc (K : ZshH) (Snull fw : Nat) (w : List Nat) (st : GksState) :
    gksFinish K fw (gksStep K Snull fw w (st.setMisc 1))
      = (gksFinish K fw (gksStep K Snull fw w st)).map (fun p => (p.1, p.2.setMisc 1)) := by
  unfold gksStep
  dsimp only
  by_cases h : w.headD 0 = 92 ∧ w.getD 1 0 ≠ 0
  · rw [if_pos h, if_pos h]
    exact gksEscape_setMisc K fw _ st
  rw [if_neg h, if_neg h]
  clear h
  by_cases h : fw = 4 ∧ w.headD 0 = Snull
  · rw [if_pos h, if_pos h]
    rfl
  rw [if_neg h, if_neg h]
  clear h
  by_cases h : w.headD 0 = 94 ∧ fw = 2
  · rw [if_pos h, if_pos h]
    rfl
  rw [if_neg h, if_neg h]
  clear h
  by_cases h : w.headD 0 = K.Meta
  · rw [if_pos h, if_pos h]
    rfl
  · rw [if_neg h, if_neg h]
    rfl

/-- The loop started with `*misc` set to 1 gives what it gives otherwise, with
`*misc` at 1. -/
theorem gksLoop_setMisc (K : ZshH) (Snull fw : Nat) :
    ∀ (w : List Nat) (skip lead : Nat) (st : GksState),
      gksLoop K Snull fw w skip lead (st.setMisc 1)
        = (gksLoop K Snull fw w skip lead st).setMisc 1 := by
  intro w
  induction w with
  | nil =>
    intro skip lead st
    rw [gksLoop, gksLoop]
    rfl
  | cons c w ih =>
    intro skip lead st
    cases skip with
    | succ n => rw [gksLoop_skip, gksLoop_skip, ih]
    | zero =>
      rw [gksLoop, gksLoop]
      by_cases hc : c = 0
      · rw [if_pos hc, if_pos hc]
        rfl
      · rw [if_neg hc, if_neg hc, gksFinish_setMisc]
        cases h : gksFinish K fw (gksStep K Snull fw (c :: w) st) with
        | none => rfl
        | some p =>
          obtain ⟨k, st1⟩ := p
          simp only [Option.map_some']
          by_cases h4 : fw = 4
          · simp only [if_pos h4]
            have e : (st1.setMisc 1).out = st1.out := rfl
            have e' : (st.setMisc 1).out = st.out := rfl
            rw [e, e']
            by_cases hl : lead + (k + 1) < st1.out.length - st.out.length
            · rw [if_pos hl, if_pos hl]
              rfl
            · rw [if_neg hl, if_neg hl, ih]
          · simp only [if_neg h4]
            rw [ih]

/-- A run of bytes that are copied as they are, with `fromwhere` other than 2
and 4 and no prefix pending. -/
theorem gksLoop_plain_run (K : ZshH) (Snull fw : Nat) (h2 : fw ≠ 2) (h4 : fw ≠ 4)
    (w : List Nat) :
    ∀ (u : List Nat), (∀ b ∈ u, b ≠ 0 ∧ b ≠ 92 ∧ b ≠ K.Meta) →
      ∀ (lead : Nat) (st : GksState), st.meta = 0 → st.control = 0 →
      gksLoop K Snull fw (u ++ w) 0 lead st
        = gksLoop K Snull fw w 0 lead { st with out := st.out ++ u } := by
  intro u
  induction u with
  | nil =>
    intro _ lead st _ _
    simp
  | cons b u ih =>
    intro hu lead st hm hc
    obtain ⟨hb0, hb1, hb2⟩ := hu b (List.mem_cons_self _ _)
    rw [List.cons_append, gksLoop_literal K Snull fw h4 b hb0 hb1 (Or.inr h2) hb2,
      gksPost_idle K fw h4 { st with out := st.out ++ [b] } hm hc,
      ih (fun x hx => hu x (List.mem_cons_of_mem _ hx)) lead
        { st with out := st.out ++ [b] } hm hc]
    simp

/-- The escape `\c` in the contexts 0 and 1, with no prefix pending. -/
theorem gksLoop_backslash_c (K : ZshH) (hK : K.inBand) (Snull fw : Nat) (hfw : fw < 2)
    (v : List Nat) (lead : Nat) (st : GksState) (hm : st.meta = 0) (hc : st.control = 0) :
    gksLoop K Snull fw (92 :: 99 :: v) 0 lead st
      = gksLoop K Snull fw v 0 lead (st.setMisc 1) := by
  have h4 : fw ≠ 4 := by omega
  have hM : (99 : Nat) ≠ K.Meta := by
    obtain ⟨hK1, _⟩ := hK
    omega
  have hstep : gksFinish K fw (gksStep K Snull fw (92 :: 99 :: v) st)
      = some (1, st.setMisc 1) := by
    have e1 : gksStep K Snull fw (92 :: 99 :: v) st = GksStep.brk 1 (st.setMisc 1) := by
      simp [gksStep, gksEscape, hM, hfw, GksState.setMisc]
    rw [e1, gksFinish, gksPost_idle K fw h4 (st.setMisc 1) hm hc]
  rw [gksLoop_cons K Snull fw 92 _ lead 1 st _ h4 (by decide) hstep, gksLoop_skip]

/-- C26, as the code has it. In the generic context (`fromwhere` 1), wherever
`\c` is met with no prefix pending, what follows is read as it would be without
the `\c`, and `*misc` is 1 at the end; so for every `v` and every `u` made of
bytes that are copied as they are (no NUL, backslash or `Meta`),
`getkeystring` on `u`, `\c`, `v` gives the bytes and the length that it gives on
`u`, `v`, with `*misc` set to 1. -/
theorem getkeystring_backslash_c (K : ZshH) (hK : K.inBand) (Snull : Nat) (u v : List Nat)
    (hu : ∀ b ∈ u, b ≠ 0 ∧ b ≠ 92 ∧ b ≠ K.Meta) (lead misc : Nat) (st : GksState)
    (hm : st.meta = 0) (hc : st.control = 0) :
    getkeystring K Snull (u ++ 92 :: 99 :: v) 1 misc
        = (getkeystring K Snull (u ++ v) 1 misc).setMisc 1 ∧
      gksLoop K Snull 1 (92 :: 99 :: v) 0 lead st
        = (gksLoop K Snull 1 v 0 lead st).setMisc 1 := by
  constructor
  · unfold getkeystring
    rw [if_pos (by decide), if_pos (by decide),
      gksLoop_plain_run K Snull 1 (by decide) (by decide) _ u hu 0 _ rfl rfl,
      gksLoop_plain_run K Snull 1 (by decide) (by decide) _ u hu 0 _ rfl rfl,
      gksLoop_backslash_c K hK Snull 1 (by decide) v 0 _ rfl rfl, gksLoop_setMisc]
  · rw [gksLoop_backslash_c K hK Snull 1 (by decide) v lead st hm hc, gksLoop_setMisc]

theorem getkeystring_backslash_c_witness :
    zsh_h.inBand ∧ (∀ b ∈ ([97, 98] : List Nat), b ≠ 0 ∧ b ≠ 92 ∧ b ≠ zsh_h.Meta) ∧
      (⟨[7], 0, 0, 0⟩ : GksState).meta = 0 ∧ (⟨[7], 0, 0, 0⟩ : GksState).control = 0 ∧
      (getkeystring zsh_h zsh_Snull ([97, 98] ++ 92 :: 99 :: [100, 92, 110, 0]) 1 0
          = (getkeystring zsh_h zsh_Snull ([97, 98] ++ [100, 92, 110, 0]) 1 0).setMisc 1 ∧
        gksLoop zsh_h zsh_Snull 1 (92 :: 99 :: [100, 92, 110, 0]) 0 0 ⟨[7], 0, 0, 0⟩
          = (gksLoop zsh_h zsh_Snull 1 [100, 92, 110, 0] 0 0 ⟨[7], 0, 0, 0⟩).setMisc 1) ∧
      getkeystring zsh_h zsh_Snull [97, 98, 92, 99, 100, 92, 110, 0] 1 0
        = GksResult.returned [97, 98, 100, 10, 0] 4 1 ∧
      getkeystring zsh_h zsh_Snull [97, 98, 100, 92, 110, 0] 1 0
        = GksResult.returned [97, 98, 100, 10, 0] 4 0 :=
  ⟨by decide, by decide, rfl, rfl,
    getkeystring_backslash_c zsh_h (by decide) zsh_Snull [97, 98] [100, 92, 110, 0] (by decide)
      0 0 ⟨[7], 0, 0, 0⟩ rfl rfl,
    by decide, by decide⟩

/-- After a backslash the two bytes `\c` are not the escape: in the generic
context the string of two backslashes and `c` gives a backslash and `c` and
leaves `*misc` as it was, while a single backslash gives a backslash. -/
theorem getkeystring_escaped_backslash_then_c :
    getkeystring zsh_h zsh_Snull ([92] ++ [92, 99] ++ [0]) 1 0
        = GksResult.returned [92, 99, 0] 2 0 ∧
      getkeystring zsh_h zsh_Snull ([92] ++ [0]) 1 0 = GksResult.returned [92, 0] 1 0 := by
  decide

/-- The bytes the contiguous loop of `dquotedztrdup` stores, the closing quote
included, are at most three for each decoded byte and one more, or two more
when a backslash is pending. -/
theorem dquotedContig_length (K : ZshH) (tail : List Nat) (s : List Nat)
    (hw : wellFormed K s = true) (pending : Bool) :
    (dquotedContig K pending (s ++ 0 :: tail)).length
      ≤ 3 * (decode K s).length + (if pending = true then 2 else 1) := by
  refine dquotedContig_decode K tail
    (fun pending d out => out.length ≤ 3 * d.length + (if pending = true then 2 else 1))
    ?_ ?_ s hw pending
  · intro pending
    cases pending <;> simp
  · intro pending c d out ih
    by_cases h92 : c = 92
    · subst h92
      simp only [decide_True, if_true] at ih
      cases pending <;> simp [dquotedContigChar] <;> omega
    · simp only [h92, decide_False, Bool.false_eq_true, if_false] at ih
      by_cases hs : c = 34 ∨ c = 36 ∨ c = 96
      · cases pending <;> simp [dquotedContigChar, h92, hs] <;> omega
      · cases pending <;> simp [dquotedContigChar, h92, hs] <;> omega

/-- The bytes the toggle loop of `dquotedztrdup` stores, a closing quote
included, are at most three for each decoded byte and one more. -/
theorem dquotedToggle_length (K : ZshH) (tail : List Nat) (s : List Nat)
    (hw : wellFormed K s = true) (inq : Bool) :
    (dquotedToggle K inq (s ++ 0 :: tail)).length ≤ 3 * (decode K s).length + 1 := by
  refine dquotedToggle_decode K tail (fun _ d out => out.length ≤ 3 * d.length + 1)
    ?_ ?_ s hw inq
  · intro inq
    cases inq <;> simp
  · intro inq c d out ih
    by_cases hs : c = 34 ∨ c = 36 ∨ c = 96
    · cases inq <;> simp [dquotedToggleChar, hs] <;> omega
    · by_cases h10 : c = 10
      · subst h10
        cases inq <;> simp [dquotedToggleChar] <;> omega
      · cases inq <;> simp [dquotedToggleChar, hs, h10] <;> omega

theorem strlen_wellFormed (K : ZshH) (s tail : List Nat) (hw : wellFormed K s = true) :
    strlen (s ++ 0 :: tail) = s.length := by
  unfold strlen
  rw [takeWhile_terminated s tail (wellFormed_ne_zero K s hw)]

/-- C40. The scratch buffer of `dquotedztrdup` is large enough: for every
well-formed `s` and either setting of `CSHJUNKIEQUOTES` the number of bytes
stored in `buf` is at most `4 * strlen(s) + 2`, the size allocated, and at most
three for each decoded byte and two more; for the empty string two bytes are
stored without `CSHJUNKIEQUOTES` and none with it. -/
theorem dquotedztrdup_fits (K : ZshH) (csh : Bool) (s tail : List Nat)
    (hw : wellFormed K s = true) :
    (dquotedztrdupBuf K csh (s ++ 0 :: tail)).length ≤ 4 * strlen (s ++ 0 :: tail) + 2 ∧
      (dquotedztrdupBuf K csh (s ++ 0 :: tail)).length ≤ 3 * (decode K s).length + 2 ∧
      dquotedztrdupBuf K false (0 :: tail) = [34, 34] ∧
      dquotedztrdupBuf K true (0 :: tail) = [] := by
  have hl := length_decode K s hw
  have key : (dquotedztrdupBuf K csh (s ++ 0 :: tail)).length ≤ 3 * (decode K s).length + 2 := by
    unfold dquotedztrdupBuf
    cases csh with
    | true =>
      rw [if_pos rfl]
      have := dquotedToggle_length K tail s hw false
      omega
    | false =>
      rw [if_neg (by decide)]
      have := dquotedContig_length K tail s hw false
      simp only [Bool.false_eq_true, if_false] at this
      simp only [List.length_append, List.length_singleton]
      omega
  refine ⟨?_, key, ?_, ?_⟩
  · rw [strlen_wellFormed K s tail hw]
    omega
  · unfold dquotedztrdupBuf
    rw [if_neg (by decide), dquotedContig_nil]
    rfl
  · unfold dquotedztrdupBuf
    rw [if_pos rfl, dquotedToggle_nil]
    rfl

theorem dquotedztrdup_fits_witness :
    wellFormed zsh_h [92, 34, 92, 36, 131, 32, 10] = true ∧
      ((dquotedztrdupBuf zsh_h false ([92, 34, 92, 36, 131, 32, 10] ++ 0 :: [])).length
          ≤ 4 * strlen ([92, 34, 92, 36, 131, 32, 10] ++ 0 :: []) + 2 ∧
        (dquotedztrdupBuf zsh_h false ([92, 34, 92, 36, 131, 32, 10] ++ 0 :: [])).length
          ≤ 3 * (decode zsh_h [92, 34, 92, 36, 131, 32, 10]).length + 2 ∧
        dquotedztrdupBuf zsh_h false (0 :: []) = [34, 34] ∧
        dquotedztrdupBuf zsh_h true (0 :: []) = []) ∧
      (dquotedztrdupBuf zsh_h false [92, 34, 92, 36, 131, 32, 10, 0]).length = 12 ∧
      (dquotedztrdupBuf zsh_h true [92, 34, 92, 36, 131, 32, 10, 0]).length = 15 :=
  ⟨by decide,
    dquotedztrdup_fits zsh_h false [92, 34, 92, 36, 131, 32, 10] [] (by decide),
    by decide, by decide⟩

theorem commonLen_le (f : Nat → Nat) :
    ∀ (x r : List Nat), commonLen f x r ≤ x.length ∧ commonLen f x r ≤ r.length := by
  intro x
  induction x with
  | nil =>
    intro r
    simp [commonLen]
  | cons a x ih =>
    intro r
    cases r with
    | nil => simp [commonLen]
    | cons c r =>
      have := ih r
      by_cases h : c = f a
      · simp only [commonLen, if_pos h, List.length_cons]
        omega
      · simp [commonLen, if_neg h]

/-- All of `r` is matched exactly when `r` is an initial segment of the bytes
of `x` after `f`. -/
theorem commonLen_eq_length (f : Nat → Nat) :
    ∀ (x r : List Nat), commonLen f x r = r.length ↔
      (r.length ≤ x.length ∧ (x.map f).take r.length = r) := by
  intro x
  induction x with
  | nil =>
    intro r
    cases r with
    | nil => simp [commonLen]
    | cons c r => simp [commonLen]
  | cons a x ih =>
    intro r
    cases r with
    | nil => simp [commonLen]
    | cons c r =>
      by_cases h : c = f a
      · simp only [commonLen, if_pos h, List.length_cons, List.map_cons, List.take_succ_cons,
          List.cons.injEq, Nat.add_right_cancel_iff, Nat.add_le_add_iff_right]
        rw [ih r]
        constructor
        · rintro ⟨h1, h2⟩
          exact ⟨h1, h.symm, h2⟩
        · rintro ⟨h1, _, h2⟩
          exact ⟨h1, h2⟩
      · simp only [commonLen, if_neg h, List.length_cons, List.map_cons, List.take_succ_cons,
          List.cons.injEq]
        constructor
        · intro h0
          omega
        · rintro ⟨_, h1, _⟩
          exact absurd h1.symm h

theorem getD_plain_terminated (x tail : List Nat) (hx : ∀ b ∈ x, b ≠ 0) (k : Nat)
    (hk : k ≤ x.length) : ((x ++ 0 :: tail).getD k 0 = 0 ↔ k = x.length) := by
  constructor
  · intro h
    by_contra hne
    have hlt : k < x.length := by omega
    rw [List.getD_eq_getElem?_getD, List.getElem?_append_left hlt,
      List.getElem?_eq_getElem hlt] at h
    exact hx _ (List.getElem_mem hlt) h
  · intro h
    subst h
    exact getD_length_append x 0 0 tail

/-- One loop of `metadiffer` on a string without `Meta`: it stops after the
bytes that agree; the index of `r` is one further when it stopped on a byte
that differs, and the counter has been decremented once more. -/
theorem metadifferLoop_plain (K : ZshH) (sg : Bool) (g : Nat → Int) (f : Nat → Nat)
    (tail rrest : List Nat) :
    ∀ (x : List Nat), (∀ b ∈ x, b ≠ 0 ∧ b ≠ K.Meta) →
      ∀ (pre r0 rpre : List Nat) (fuel : Nat), x.length + 1 ≤ fuel →
        (∀ rb ∈ r0, ∀ c, plainChar sg rb = g c ↔ rb = f c) →
        metadifferLoop K sg g (pre ++ x ++ 0 :: tail) (rpre ++ r0 ++ rrest) fuel
            pre.length rpre.length (r0.length : Int)
          = (pre.length + commonLen f x r0,
              rpre.length + commonLen f x r0 +
                (if commonLen f x r0 < x.length ∧ commonLen f x r0 < r0.length then 1 else 0),
              (r0.length : Int) - (commonLen f x r0 : Int) - 1) := by
  intro x
  induction x with
  | nil =>
    intro _ pre r0 rpre fuel hf _
    have hread : (pre ++ [] ++ 0 :: tail).getD pre.length 0 = 0 := by
      rw [List.append_nil, getD_length_append]
    cases fuel with
    | zero => simp at hf
    | succ fu =>
      rw [metadifferLoop]
      cases r0 with
      | nil => simp [commonLen]
      | cons c r =>
        have hl : ¬ (((c :: r).length : Int) = 0) := by
          simp only [List.length_cons]
          omega
        rw [if_neg hl, if_pos hread]
        simp [commonLen]
  | cons a x ih =>
    intro hx pre r0 rpre fuel hf hg
    obtain ⟨ha0, haM⟩ := hx a (List.mem_cons_self _ _)
    have hx' : ∀ b ∈ x, b ≠ 0 ∧ b ≠ K.Meta := fun b hb => hx b (List.mem_cons_of_mem _ hb)
    have hread : (pre ++ a :: x ++ 0 :: tail).getD pre.length 0 = a := by
      rw [List.append_assoc, List.cons_append, getD_length_append]
    cases fuel with
    | zero => simp at hf
    | succ fu =>
      rw [metadifferLoop]
      cases r0 with
      | nil => simp [commonLen]
      | cons c r =>
        have hl : ¬ (((c :: r).length : Int) = 0) := by
          simp only [List.length_cons]
          omega
        have hr : (rpre ++ c :: r ++ rrest).getD rpre.length 0 = c := by
          rw [List.append_assoc, List.cons_append, getD_length_append]
        rw [if_neg hl, hread, if_neg ha0]
        simp only [if_neg haM, hr]
        have hcond := hg c (List.mem_cons_self _ _) a
        by_cases hc : c = f a
        · rw [if_pos (hcond.2 hc)]
          have e1 : pre ++ a :: x ++ 0 :: tail = (pre ++ [a]) ++ x ++ 0 :: tail := by simp
          have e2 : rpre ++ c :: r ++ rrest = (rpre ++ [c]) ++ r ++ rrest := by simp
          have e3 : ((c :: r).length : Int) - 1 = (r.length : Int) := by
            simp only [List.length_cons]
            omega
          have h := ih hx' (pre ++ [a]) r (rpre ++ [c]) fu
            (by simp only [List.length_cons] at hf; omega)
            (fun rb hrb => hg rb (List.mem_cons_of_mem _ hrb))
          simp only [List.length_append, List.length_singleton] at h
          rw [e1, e2, e3, h]
          simp only [commonLen, if_pos hc, List.length_cons, Nat.add_lt_add_iff_right]
          refine Prod.ext ?_ (Prod.ext ?_ ?_)
          · simp only
            omega
          · simp only
            omega
          · simp only
            omega
        · rw [if_neg (fun h => hc (hcond.1 h))]
          simp [commonLen, if_neg hc]

/-- On strings without escape pairs `metadiffer` is fully characterised where
plain `char` is unsigned, and for a raw string whose bytes are below 0x80: for
a NUL-terminated `s` whose bytes `x` before the NUL contain no `Meta`, and a
raw `r` of length `len`, `metadiffer(s, r, len)` is 0 when `x = r`; -1 when `r`
is a proper initial segment of `x`; otherwise 1 when `map tulower x = r`; 2 when
`r` is a proper initial segment of `map tulower x`; and 3 in every other case.
The second loop starts at the first byte of both strings. -/
theorem metadiffer_plain (K : ZshH) (sg : Bool) (x tail r rrest : List Nat)
    (hx : ∀ b ∈ x, b ≠ 0 ∧ b ≠ K.Meta) (hr : sg = false ∨ ∀ b ∈ r, b < 128) :
    metadiffer K sg (x ++ 0 :: tail) (r ++ rrest) (r.length : Int)
      = if x = r then 0
        else if r.length < x.length ∧ x.take r.length = r then -1
        else if x.map tulower = r then 1
        else if r.length < x.length ∧ (x.map tulower).take r.length = r then 2
        else 3 := by
  have hx0 : ∀ b ∈ x, b ≠ 0 := fun b hb => (hx b hb).1
  have hfuel : x.length + 1 ≤ (x ++ 0 :: tail).length + 1 := by
    simp only [List.length_append, List.length_cons]
    omega
  have h1 := metadifferLoop_plain K sg (plainChar sg) id tail rrest x hx [] r [] _ hfuel
    (fun rb _ c => plainChar_inj sg rb c)
  have h2 := metadifferLoop_plain K sg (fun c => (tulower c : Int)) tulower tail rrest x hx []
    r [] _ hfuel (fun rb hrb c => by
      rw [plainChar_low sg rb (hr.imp id (fun h => h rb hrb))]
      exact Int.ofNat_inj)
  simp only [List.nil_append, List.length_nil, Nat.zero_add] at h1 h2
  have hk := commonLen_le id x r
  have hk2 := commonLen_le tulower x r
  have hb := commonLen_eq_length id x r
  have hb2 := commonLen_eq_length tulower x r
  rw [List.map_id] at hb
  have hg := getD_plain_terminated x tail hx0 (commonLen id x r) hk.1
  have hg2 := getD_plain_terminated x tail hx0 (commonLen tulower x r) hk2.1
  have eqlen : ∀ (y : List Nat), y.length = x.length → (y = r ↔ (r.length = x.length ∧
      y.take r.length = r)) := by
    intro y hy
    constructor
    · intro h
      subst h
      exact ⟨hy, List.take_length _⟩
    · rintro ⟨h, ht⟩
      rw [h, ← hy, List.take_length] at ht
      exact ht
  have e1 := eqlen x rfl
  have e2 := eqlen (x.map tulower) (List.length_map _ _)
  unfold metadiffer
  simp only [h1]
  by_cases hA : commonLen id x r = r.length
  · have hA' := hb.1 hA
    by_cases hB : commonLen id x r = x.length
    · have hxr : x = r := e1.2 ⟨by omega, hA'.2⟩
      rw [if_neg (fun h => h.1 (hg.2 hB)), if_pos (by omega), if_pos hxr]
    · have hxr : ¬ x = r := by
        intro h
        have := e1.1 h
        omega
      rw [if_pos ⟨by rw [ne_eq, hg]; exact hB, by omega⟩, if_neg hxr,
        if_pos ⟨by omega, hA'.2⟩]
  · have hnA : ¬ (r.length ≤ x.length ∧ x.take r.length = r) := fun h => hA (hb.2 h)
    have hxr : ¬ x = r := by
      intro h
      have := e1.1 h
      exact hnA ⟨by omega, this.2⟩
    have hpre : ¬ (r.length < x.length ∧ x.take r.length = r) := by
      intro h
      exact hnA ⟨by omega, h.2⟩
    rw [if_neg (by omega), if_neg (by omega), if_neg hxr, if_neg hpre]
    by_cases hB : commonLen id x r = x.length
    · rw [if_pos (hg.2 hB)]
      have h3 : ¬ x.map tulower = r := by
        intro h
        have := e2.1 h
        omega
      have h4 : ¬ (r.length < x.length ∧ (x.map tulower).take r.length = r) := by
        intro h
        omega
      rw [if_neg h3, if_neg h4]
    · rw [if_neg (by rw [hg]; exact hB)]
      have hsi : ((commonLen id x r : Int) - ((r.length : Int) -
          ((r.length : Int) - (commonLen id x r : Int) - 1) - 1)).toNat = 0 := by omega
      have hind : (if commonLen id x r < x.length ∧ commonLen id x r < r.length then 1 else 0)
          = 1 := by
        rw [if_pos ⟨by omega, by omega⟩]
      have hri : (((commonLen id x r + (if commonLen id x r < x.length ∧
          commonLen id x r < r.length then 1 else 0) : Nat) : Int) - ((r.length : Int) -
          ((r.length : Int) - (commonLen id x r : Int) - 1))).toNat = 0 := by
        rw [hind]
        omega
      simp only [hsi, hri, h2]
      by_cases hC : commonLen tulower x r = r.length
      · have hC' := hb2.1 hC
        by_cases hD : commonLen tulower x r = x.length
        · have h3 : x.map tulower = r := e2.2 ⟨by omega, hC'.2⟩
          rw [if_neg (fun h => h.1 (hg2.2 hD)), if_pos (by omega), if_pos h3]
        · have h3 : ¬ x.map tulower = r := by
            intro h
            have := e2.1 h
            omega
          rw [if_pos ⟨by rw [ne_eq, hg2]; exact hD, by omega⟩, if_neg h3,
            if_pos ⟨by omega, hC'.2⟩]
      · have hnC : ¬ (r.length ≤ x.length ∧ (x.map tulower).take r.length = r) :=
          fun h => hC (hb2.2 h)
        have h3 : ¬ x.map tulower = r := by
          intro h
          have := e2.1 h
          exact hnC ⟨by omega, this.2⟩
        have h4 : ¬ (r.length < x.length ∧ (x.map tulower).take r.length = r) := by
          intro h
          exact hnC ⟨by omega, h.2⟩
        rw [if_neg (by omega), if_neg (by omega), if_neg h3, if_neg h4]

/-- Examples for the five results, where plain `char` is signed. -/
theorem metadiffer_plain_sample :
    metadiffer zsh_h true [72, 69, 108, 76, 79, 0] [104, 101, 108] 3 = 2 ∧
      metadiffer zsh_h true [72, 69, 108, 76, 79, 0] [104, 101, 108, 108, 111] 5 = 1 ∧
      metadiffer zsh_h true [72, 69, 108, 76, 79, 0] [72, 69, 108, 76, 79] 5 = 0 ∧
      metadiffer zsh_h true [72, 69, 108, 76, 79, 0] [72, 69] 2 = -1 ∧
      metadiffer zsh_h true [72, 69, 0] [72, 69, 108] 3 = 3 ∧
      metadiffer zsh_h true [72, 69, 108, 76, 79, 0] [104, 101, 120] 3 = 3 := by
  decide

/-- C37 fails where plain `char` is signed, for the input `s` = `A`, 0xE9, NUL
and `r` = `a`, 0xE9 with `len` 2. The string has no `Meta`, `r` is
`map tulower` of it and differs from it, so the result should be 1; the
second loop compares `*r++`, which is negative for 0xE9, with the result of
`tulower`, which is 233, stops there and `metadiffer` returns 3. The first
loop, whose operands are both plain `char`, matches the same byte: `s` = `r`
gives 0. Where plain `char` is unsigned the result is 1. -/
theorem metadiffer_casefold_high_byte :
    (∀ b ∈ ([65, 233] : List Nat), b ≠ 0 ∧ b ≠ zsh_h.Meta) ∧
      ([65, 233] : List Nat).map tulower = [97, 233] ∧
      ([65, 233] : List Nat) ≠ [97, 233] ∧
      metadiffer zsh_h true [65, 233, 0] [97, 233] 2 = 3 ∧
      metadifferLoop zsh_h true (fun c => (tulower c : Int)) [65, 233, 0] [97, 233] 4 0 0 2
        = (1, 2, 0) ∧
      plainChar true 233 = -23 ∧ tulower 233 = 233 ∧
      metadiffer zsh_h true [97, 233, 0] [97, 233] 2 = 0 ∧
      metadiffer zsh_h false [65, 233, 0] [97, 233] 2 = 1 := by
  decide

/-- The invariant of the loop of `metafy` on an area `blk ++ suf`, where the
read pointer stands at `p` and the write pointer at the end of `blk`: at every
test `t` is `meta` above `p`, `meta` counts the protected bytes below `p`, and
the bytes below `p` are still those of the source. -/
theorem metafyStates_spec (K : ZshH) :
    ∀ (p meta : Nat) (blk suf : List Nat), blk.length = p + meta →
      meta = (blk.take p).countP (imeta K) →
      ∀ st ∈ metafyStates K p (p + meta) meta (blk ++ suf),
        st.p ≤ p ∧ st.t = st.p + st.meta ∧ st.meta = (blk.take st.p).countP (imeta K) ∧
          st.buf.take st.p = blk.take st.p := by
  intro p
  induction p with
  | zero =>
    intro meta blk suf hl hc st hst
    simp at hc
    subst hc
    simp only [metafyStates, List.mem_singleton] at hst
    subst hst
    simp
  | succ p ih =>
    intro meta blk suf hl hc st hst
    cases meta with
    | zero =>
      simp only [metafyStates, List.mem_singleton] at hst
      subst hst
      refine ⟨le_refl _, rfl, hc, ?_⟩
      simp only
      rw [List.take_append_of_le_length (by omega)]
    | succ m =>
      obtain ⟨b1, z, hb1⟩ := exists_snoc blk (by omega)
      have hl1 : b1.length = p + 1 + m := by
        have := congrArg List.length hb1
        simp at this
        omega
      obtain ⟨b2, z2, hb2⟩ := exists_snoc b1 (by omega)
      have hl2 : b2.length = p + m := by
        have := congrArg List.length hb2
        simp at this
        omega
      have hget : (blk ++ suf).getD p 0 = b1.getD p 0 := by
        rw [hb1, List.append_assoc, List.getD_append _ _ _ _ (by omega)]
      have htk : blk.take (p + 1) = b1.take p ++ [b1.getD p 0] := by
        rw [hb1, List.take_append_of_le_length (by omega)]
        exact take_succ_getD b1 p (by omega)
      have htk2 : b1.take p = b2.take p := by
        rw [hb2, List.take_append_of_le_length (by omega)]
      have e1 : p + 1 + (m + 1) - 1 = b1.length := by omega
      have e2 : p + 1 + (m + 1) - 2 = b2.length := by omega
      have hset : ∀ v, (blk ++ suf).set b1.length v = b1 ++ v :: suf := by
        intro v
        have := set_length_snoc b1 z v suf
        rwa [← hb1] at this
      have hset2 : ∀ v w, (b1 ++ w :: suf).set b1.length v = b1 ++ v :: suf :=
        fun v w => set_length_append b1 w v suf
      have hset3 : ∀ v w, (b1 ++ w).set b2.length v = b2 ++ v :: w := by
        intro v w
        have := set_length_snoc b2 z2 v w
        rwa [← hb2] at this
      have hpre : ∀ q, q ≤ p → blk.take q = b2.take q ∧ b1.take q = b2.take q := by
        intro q hq
        constructor
        · rw [hb1, List.take_append_of_le_length (by omega), hb2,
            List.take_append_of_le_length (by omega)]
        · rw [hb2, List.take_append_of_le_length (by omega)]
      rw [metafyStates] at hst
      simp only [hget, e1, e2, hset, hset2, hset3] at hst
      rcases List.mem_cons.1 hst with h0 | hrest
      · subst h0
        refine ⟨le_refl _, rfl, hc, ?_⟩
        simp only
        rw [List.take_append_of_le_length (by omega)]
      · rw [htk, htk2] at hc
        generalize b1.getD p 0 = c at hc hrest
        rw [List.countP_append] at hc
        by_cases hm : imeta K c = true
        · rw [List.countP_cons_of_pos _ _ hm] at hc
          simp only [hm, if_true] at hrest
          have e3 : b2.length = p + m := hl2
          rw [e3] at hrest
          have h := ih m b2 (K.Meta :: (c ^^^ 32) :: suf) hl2 (by simpa using hc) st hrest
          obtain ⟨h1, h2, h3, h4⟩ := h
          have hq := hpre st.p h1
          exact ⟨by omega, h2, by rw [hq.1]; exact h3, by rw [hq.1]; exact h4⟩
        · rw [List.countP_cons_of_neg _ _ hm] at hc
          simp only [hm] at hrest
          have e3 : b1.length = p + (m + 1) := by omega
          rw [if_neg (by simp), e3] at hrest
          have h := ih (m + 1) b1 (c :: suf) (by omega)
            (by rw [htk2]; simpa using hc) st hrest
          obtain ⟨h1, h2, h3, h4⟩ := h
          have hq := hpre st.p h1
          exact ⟨by omega, h2, by rw [hq.1, ← hq.2]; exact h3, by rw [hq.1, ← hq.2]; exact h4⟩

/-- The run of the loop of `metafy` ends with `meta` or `p` at 0 and with the
buffer that `metafyLoop` returns. -/
theorem metafyStates_last (K : ZshH) :
    ∀ (p t meta : Nat) (buf : List Nat),
      ∃ st, (metafyStates K p t meta buf).getLast? = some st ∧ (st.meta = 0 ∨ st.p = 0) ∧
        st.buf = metafyLoop K p t meta buf := by
  intro p
  induction p with
  | zero =>
    intro t meta buf
    cases meta with
    | zero => exact ⟨⟨0, t, 0, buf⟩, by simp [metafyStates], Or.inl rfl, by simp [metafyLoop]⟩
    | succ m =>
      exact ⟨⟨0, t, m + 1, buf⟩, by simp [metafyStates], Or.inr rfl, by simp [metafyLoop]⟩
  | succ p ih =>
    intro t meta buf
    cases meta with
    | zero =>
      exact ⟨⟨p + 1, t, 0, buf⟩, by simp [metafyStates], Or.inl rfl, by simp [metafyLoop]⟩
    | succ m =>
      rw [metafyStates, metafyLoop]
      by_cases hi : imeta K (buf.getD p 0) = true
      · simp only [hi, if_true]
        obtain ⟨st, h1, h2, h3⟩ := ih (t - 2) m
          (((buf.set (t - 1) (buf.getD p 0)).set (t - 1) (buf.getD p 0 ^^^ 32)).set (t - 2)
            K.Meta)
        refine ⟨st, ?_, h2, h3⟩
        rw [List.getLast?_cons, h1]
        rfl
      · simp only [hi]
        rw [if_neg (by simp), if_neg (by simp)]
        obtain ⟨st, h1, h2, h3⟩ := ih (t - 1) (m + 1) (buf.set (t - 1) (buf.getD p 0))
        refine ⟨st, ?_, h2, h3⟩
        rw [List.getLast?_cons, h1]
        rfl

/-- C35. Encoding in place is safe: with the bytes `x` at the start of an area
that has room for one more byte for each protected byte of `x`, the loop of
`metafy` has, at every test of its condition, `t` exactly `meta` above `p`, with
`meta` the number of protected bytes below `p`, and the bytes below `p` are
still those of `x`, so no byte is overwritten before it is read; the loop ends
with `meta` at 0 and `t` on `p`. With room for the NUL as well, `metafy` with
`META_NOALLOC` and with `META_REALLOC` leaves, in the first
`len + meta + 1` bytes, exactly the bytes that `META_DUP` and `META_USEHEAP`
give. -/
theorem metafy_in_place (K : ZshH) (fresh fresh2 : Nat → Nat) (x rest : List Nat)
    (hroom : x.countP (imeta K) ≤ rest.length) :
    (∀ st ∈ metafyStates K x.length (x.length + x.countP (imeta K)) (x.countP (imeta K))
        (x ++ rest),
      st.p ≤ x.length ∧ st.t = st.p + st.meta ∧ st.meta = (x.take st.p).countP (imeta K) ∧
        st.buf.take st.p = x.take st.p) ∧
      (∃ q buf, (metafyStates K x.length (x.length + x.countP (imeta K)) (x.countP (imeta K))
          (x ++ rest)).getLast? = some ⟨q, q, 0, buf⟩ ∧
        buf = metafyLoop K x.length (x.length + x.countP (imeta K)) (x.countP (imeta K))
          (x ++ rest)) ∧
      (x.countP (imeta K) + 1 ≤ rest.length →
        (metafy K fresh (x ++ rest) (x.length : Int) MetaHeap.META_NOALLOC).take
            (x.length + x.countP (imeta K) + 1)
          = metafy K fresh2 (x ++ rest) (x.length : Int) MetaHeap.META_DUP ∧
        (metafy K fresh (x ++ rest) (x.length : Int) MetaHeap.META_REALLOC).take
            (x.length + x.countP (imeta K) + 1)
          = metafy K fresh2 (x ++ rest) (x.length : Int) MetaHeap.META_DUP ∧
        (metafy K fresh (x ++ rest) (x.length : Int) MetaHeap.META_USEHEAP).take
            (x.length + x.countP (imeta K) + 1)
          = metafy K fresh2 (x ++ rest) (x.length : Int) MetaHeap.META_DUP) := by
  have hsplit : x ++ rest = (x ++ rest.take (x.countP (imeta K))) ++
      rest.drop (x.countP (imeta K)) := by
    rw [List.append_assoc, List.take_append_drop]
  have hlen : (x ++ rest.take (x.countP (imeta K))).length = x.length + x.countP (imeta K) := by
    rw [List.length_append, List.length_take]
    omega
  have htake : ∀ q, q ≤ x.length → (x ++ rest.take (x.countP (imeta K))).take q = x.take q := by
    intro q hq
    rw [List.take_append_of_le_length hq]
  have hspec : ∀ st ∈ metafyStates K x.length (x.length + x.countP (imeta K))
      (x.countP (imeta K)) (x ++ rest),
      st.p ≤ x.length ∧ st.t = st.p + st.meta ∧ st.meta = (x.take st.p).countP (imeta K) ∧
        st.buf.take st.p = x.take st.p := by
    intro st hst
    rw [hsplit] at hst
    have h := metafyStates_spec K x.length (x.countP (imeta K))
      (x ++ rest.take (x.countP (imeta K))) (rest.drop (x.countP (imeta K))) hlen
      (by rw [htake _ (le_refl _), List.take_length]) st hst
    obtain ⟨h1, h2, h3, h4⟩ := h
    rw [htake _ h1] at h3 h4
    exact ⟨h1, h2, h3, h4⟩
  refine ⟨hspec, ?_, ?_⟩
  · obtain ⟨st, h1, h2, h3⟩ := metafyStates_last K x.length
      (x.length + x.countP (imeta K)) (x.countP (imeta K)) (x ++ rest)
    have hmem : st ∈ metafyStates K x.length (x.length + x.countP (imeta K))
        (x.countP (imeta K)) (x ++ rest) := List.mem_of_getLast?_eq_some h1
    obtain ⟨_, g2, g3, _⟩ := hspec st hmem
    have hm0 : st.meta = 0 := by
      rcases h2 with h | h
      · exact h
      · rw [g3, h]
        simp
    refine ⟨st.p, st.buf, ?_, h3⟩
    rw [h1]
    congr 1
    obtain ⟨p, t, m, b⟩ := st
    simp only at g2 hm0
    subst hm0
    simp only [Nat.add_zero] at g2
    subst g2
    rfl
  · intro hr
    have e := metafy_dup K fresh2 x rest
    have room : ∀ heap, metafyRoom K x rest heap := fun _ _ => hr
    have hlp : (protect K x ++ [0]).length = x.length + x.countP (imeta K) + 1 := by
      rw [List.length_append, length_protect]
      rfl
    have key : ∀ heap, (metafy K fresh (x ++ rest) (x.length : Int) heap).take
        (x.length + x.countP (imeta K) + 1) = protect K x ++ [0] := by
      intro heap
      obtain ⟨tail, ht⟩ := metafy_eq K fresh x rest heap (room heap)
      rw [ht, ← hlp]
      have : protect K x ++ 0 :: tail = (protect K x ++ [0]) ++ tail := by simp
      rw [this, List.take_left']
      rfl
    rw [e]
    exact ⟨key _, key _, key _⟩

theorem metafy_in_place_witness :
    ([97, 0, 131, 98] : List Nat).countP (imeta zsh_h) ≤ ([9, 9, 9] : List Nat).length ∧
      ((∀ st ∈ metafyStates zsh_h ([97, 0, 131, 98] : List Nat).length
          (([97, 0, 131, 98] : List Nat).length + ([97, 0, 131, 98] : List Nat).countP (imeta zsh_h))
          (([97, 0, 131, 98] : List Nat).countP (imeta zsh_h)) ([97, 0, 131, 98] ++ [9, 9, 9]),
        st.p ≤ ([97, 0, 131, 98] : List Nat).length ∧ st.t = st.p + st.meta ∧
          st.meta = (([97, 0, 131, 98] : List Nat).take st.p).countP (imeta zsh_h) ∧
          st.buf.take st.p = ([97, 0, 131, 98] : List Nat).take st.p) ∧
      (∃ q buf, (metafyStates zsh_h ([97, 0, 131, 98] : List Nat).length
          (([97, 0, 131, 98] : List Nat).length + ([97, 0, 131, 98] : List Nat).countP (imeta zsh_h))
          (([97, 0, 131, 98] : List Nat).countP (imeta zsh_h))
          ([97, 0, 131, 98] ++ [9, 9, 9])).getLast? = some ⟨q, q, 0, buf⟩ ∧
        buf = metafyLoop zsh_h ([97, 0, 131, 98] : List Nat).length
          (([97, 0, 131, 98] : List Nat).length + ([97, 0, 131, 98] : List Nat).countP (imeta zsh_h))
          (([97, 0, 131, 98] : List Nat).countP (imeta zsh_h)) ([97, 0, 131, 98] ++ [9, 9, 9])) ∧
      (([97, 0, 131, 98] : List Nat).countP (imeta zsh_h) + 1 ≤ ([9, 9, 9] : List Nat).length →
        (metafy zsh_h (fun _ => 170) ([97, 0, 131, 98] ++ [9, 9, 9])
            (([97, 0, 131, 98] : List Nat).length : Int) MetaHeap.META_NOALLOC).take
            (([97, 0, 131, 98] : List Nat).length +
              ([97, 0, 131, 98] : List Nat).countP (imeta zsh_h) + 1)
          = metafy zsh_h (fun _ => 85) ([97, 0, 131, 98] ++ [9, 9, 9])
              (([97, 0, 131, 98] : List Nat).length : Int) MetaHeap.META_DUP ∧
        (metafy zsh_h (fun _ => 170) ([97, 0, 131, 98] ++ [9, 9, 9])
            (([97, 0, 131, 98] : List Nat).length : Int) MetaHeap.META_REALLOC).take
            (([97, 0, 131, 98] : List Nat).length +
              ([97, 0, 131, 98] : List Nat).countP (imeta zsh_h) + 1)
          = metafy zsh_h (fun _ => 85) ([97, 0, 131, 98] ++ [9, 9, 9])
              (([97, 0, 131, 98] : List Nat).length : Int) MetaHeap.META_DUP ∧
        (metafy zsh_h (fun _ => 170) ([97, 0, 131, 98] ++ [9, 9, 9])
            (([97, 0, 131, 98] : List Nat).length : Int) MetaHeap.META_USEHEAP).take
            (([97, 0, 131, 98] : List Nat).length +
              ([97, 0, 131, 98] : List Nat).countP (imeta zsh_h) + 1)
          = metafy zsh_h (fun _ => 85) ([97, 0, 131, 98] ++ [9, 9, 9])
              (([97, 0, 131, 98] : List Nat).length : Int) MetaHeap.META_DUP)) ∧
      (metafyStates zsh_h 4 6 2 [97, 0, 131, 98, 9, 9, 9]).map (fun st => (st.p, st.t, st.meta))
        = [(4, 6, 2), (3, 5, 2), (2, 3, 1), (1, 1, 0)] ∧
      metafy zsh_h (fun _ => 170) [97, 0, 131, 98, 9, 9, 9] 4 MetaHeap.META_NOALLOC
        = [97, 131, 32, 131, 163, 98, 0] :=
  ⟨by decide, metafy_in_place zsh_h (fun _ => 170) (fun _ => 85) [97, 0, 131, 98] [9, 9, 9]
    (by decide), by decide, by decide⟩

theorem getD_drop_add (l : List Nat) (n i : Nat) : (l.drop n).getD i 0 = l.getD (n + i) 0 := by
  simp [List.getD_eq_getElem?_getD, List.getElem?_drop]

theorem getD_takeWhile_lt (p : Nat → Bool) :
    ∀ (l : List Nat) (i : Nat), i < (l.takeWhile p).length → p (l.getD i 0) = true := by
  intro l
  induction l with
  | nil =>
    intro i hi
    simp at hi
  | cons a l ih =>
    intro i hi
    by_cases ha : p a = true
    · rw [List.takeWhile_cons_of_pos ha] at hi
      cases i with
      | zero => simpa using ha
      | succ j =>
        simp only [List.length_cons, Nat.add_lt_add_iff_right] at hi
        simpa using ih j hi
    · rw [List.takeWhile_cons_of_neg ha] at hi
      simp at hi

/-- The bytes the digit loops of `zstrtol` step over are digits or letters. -/
theorem zstrtolDigits_consumed (base : Nat) (hb : base ≤ 36) :
    ∀ (l : List Nat) (acc : Int) (i : Nat), i < (zstrtolDigits base l acc).2 →
      l.getD i 0 ≠ 0 ∧ l.getD i 0 < 128 := by
  intro l
  induction l with
  | nil =>
    intro acc i hi
    simp [zstrtolDigits] at hi
  | cons c l ih =>
    intro acc i hi
    rw [zstrtolDigits] at hi
    by_cases h10 : base ≤ 10
    · rw [if_pos h10] at hi
      by_cases hc : 48 ≤ c ∧ c < 48 + base
      · rw [if_pos hc] at hi
        cases i with
        | zero =>
          simp only [List.getD_cons_zero]
          omega
        | succ j =>
          simp only [Nat.add_lt_add_iff_right] at hi
          simpa using ih _ j hi
      · rw [if_neg hc] at hi
        simp at hi
    · rw [if_neg h10] at hi
      by_cases hc : idigit c = true ∨ (97 ≤ c ∧ c < 97 + base - 10) ∨ (65 ≤ c ∧ c < 65 + base - 10)
      · rw [if_pos hc] at hi
        cases i with
        | zero =>
          simp only [List.getD_cons_zero]
          simp only [idigit, Bool.and_eq_true, decide_eq_true_eq] at hc
          omega
        | succ j =>
          simp only [Nat.add_lt_add_iff_right] at hi
          simpa using ih _ j hi
      · rw [if_neg hc] at hi
        simp at hi

/-- The bytes `zstrtol` steps over, with a base from 1 to 36, are blanks, a
sign, digits or letters: none of them is NUL and all are below 0x80. -/
theorem zstrtol_consumed (base : Nat) (hb0 : base ≠ 0) (hb : base ≤ 36) (l : List Nat) (i : Nat)
    (hi : i < (zstrtol l base).2) : l.getD i 0 ≠ 0 ∧ l.getD i 0 < 128 := by
  unfold zstrtol at hi
  simp only [hb0, if_false, Nat.add_zero, List.drop_zero] at hi
  by_cases h1 : i < (l.takeWhile inblank).length
  · have := getD_takeWhile_lt inblank l i h1
    simp only [inblank, Bool.or_eq_true, beq_iff_eq] at this
    omega
  · have gs : ∀ j, ((l.drop (l.takeWhile inblank).length)).getD j 0
        = l.getD ((l.takeWhile inblank).length + j) 0 := fun j => getD_drop_add l _ j
    by_cases hs : (l.drop (l.takeWhile inblank).length).headD 0 = 45 ∨
        (l.drop (l.takeWhile inblank).length).headD 0 = 43
    · simp only [if_pos hs] at hi
      by_cases h2 : i = (l.takeWhile inblank).length
      · have h3 := gs 0
        rw [List.getD_eq_getElem?_getD, ← List.head?_eq_getElem?, ← List.headD_eq_head?_getD]
          at h3
        rw [h2, ← Nat.add_zero (List.takeWhile inblank l).length, ← h3]
        omega
      · have hj : i - ((l.takeWhile inblank).length + 1) <
            (zstrtolDigits base
              ((l.drop (l.takeWhile inblank).length).drop 1) 0).2 := by omega
        have := zstrtolDigits_consumed base hb _ _ _ hj
        rw [List.drop_drop, getD_drop_add] at this
        have e : (l.takeWhile inblank).length + 1 + (i - ((l.takeWhile inblank).length + 1))
            = i := by
          omega
        rw [e] at this
        exact this
    · simp only [if_neg hs, Nat.add_zero, List.drop_zero] at hi
      have hj : i - (l.takeWhile inblank).length <
          (zstrtolDigits base (l.drop (l.takeWhile inblank).length) 0).2 := by omega
      have := zstrtolDigits_consumed base hb _ _ _ hj
      rw [getD_drop_add] at this
      have e : (l.takeWhile inblank).length + (i - (l.takeWhile inblank).length) = i := by omega
      rw [e] at this
      exact this

theorem getD_take_ne_zero (l : List Nat) (n i : Nat) (h : (l.take n).getD i 0 ≠ 0) :
    (l.take n).getD i 0 = l.getD i 0 := by
  by_cases hi : i < n
  · simp [List.getD_eq_getElem?_getD, List.getElem?_take, hi]
  · exfalso
    apply h
    rw [List.getD_eq_getElem?_getD, List.getElem?_eq_none]
    · rfl
    · rw [List.length_take]
      omega

/-- The shape of an iteration that stores one byte for a backslash and the
byte after it. -/
theorem gksShape_escape (K : ZshH) (hK : K.inBand) (Snull fw : Nat) (e b : Nat)
    (r2 : List Nat) (st : GksState) (he0 : e ≠ 0) (heM : e ≠ K.Meta) :
    gksShape K Snull fw (92 :: e :: r2) st (GksStep.brk 1 { st with out := st.out ++ [b] }) := by
  have hM : (92 : Nat) ≠ K.Meta := by
    have := hK.1.1
    omega
  refine ⟨rfl, rfl, Or.inr ?_, [b], rfl, by simp, by simp, fun _ => rfl, fun _ => by simp,
    fun h => absurd h (by decide)⟩
  intro i hi
  rcases (by omega : i = 0 ∨ i = 1) with h | h
  · subst h
    exact ⟨by simp, by simpa using hM⟩
  · subst h
    exact ⟨he0, heM⟩

/-- The shape of an iteration of the echo context that keeps the backslash and
leaves the byte after it to the next iteration. -/
theorem gksShape_keep (K : ZshH) (hK : K.inBand) (Snull : Nat) (r : List Nat)
    (st : GksState) :
    gksShape K Snull 0 (92 :: r) st (GksStep.cont 0 { st with out := st.out ++ [92] }) := by
  have hM : (92 : Nat) ≠ K.Meta := by
    have := hK.1.1
    omega
  refine ⟨Or.inr ?_, [92], rfl, by simp, fun h => absurd rfl h, fun h => absurd h (by decide)⟩
  intro i hi
  have : i = 0 := by omega
  subst this
  exact ⟨by simp, by simpa using hM⟩

/-- The shape of an iteration for `\M` or `\C` in a context other than 0. -/
theorem gksShape_flag (K : ZshH) (hK : K.inBand) (Snull fw : Nat) (e : Nat)
    (r2 : List Nat) (st st1 : GksState) (he0 : e ≠ 0) (heM : e ≠ K.Meta)
    (hout : st1.out = st.out) :
    gksShape K Snull fw (92 :: e :: r2) st
      (GksStep.cont (if (e :: r2).getD 1 0 = 45 then 2 else 1) st1) := by
  have hM : (92 : Nat) ≠ K.Meta := by
    have := hK.1.1
    omega
  have h45 : (45 : Nat) ≠ K.Meta := by
    have := hK.1.1
    omega
  refine ⟨Or.inr ?_, [], by simp [hout], by simp, fun _ => rfl, fun _ => ?_⟩
  · intro i hi
    by_cases hd : (e :: r2).getD 1 0 = 45
    · rw [if_pos hd] at hi
      rcases (by omega : i = 0 ∨ i = 1 ∨ i = 2) with h | h | h
      · subst h
        exact ⟨by simp, by simpa using hM⟩
      · subst h
        exact ⟨he0, heM⟩
      · subst h
        have e2 : (92 :: e :: r2).getD 2 0 = 45 := hd
        rw [e2]
        exact ⟨by decide, h45⟩
    · rw [if_neg hd] at hi
      rcases (by omega : i = 0 ∨ i = 1) with h | h
      · subst h
        exact ⟨by simp, by simpa using hM⟩
      · subst h
        exact ⟨he0, heM⟩
  · by_cases hd : (e :: r2).getD 1 0 = 45
    · rw [if_pos hd]
      omega
    · rw [if_neg hd]

/-- On an octal digit `zstrtol` with base 8 steps over one byte at least. -/
theorem zstrtol_pos (e : Nat) (l : List Nat) (he : 48 ≤ e ∧ e < 56) :
    1 ≤ (zstrtol (e :: l) 8).2 := by
  have hb : inblank e = false := by
    simp only [inblank, Bool.or_eq_false_iff, beq_eq_false_iff_ne, ne_eq]
    omega
  have h1 : e ≠ 45 := by omega
  have h2 : e ≠ 43 := by omega
  have he' : 48 ≤ e ∧ e < 48 + 8 := by omega
  unfold zstrtol
  simp only [List.takeWhile_cons, hb, Bool.false_eq_true, if_false, List.length_nil,
    List.drop_zero, List.headD_cons, h1, h2, or_self,
    show ((8 : Nat) = 0) = False from by simp, Nat.zero_add, Nat.add_zero]
  rw [zstrtolDigits.eq_def]
  simp [he']

/-- The shape of the `default:` label. -/
theorem gksDefault_shape (K : ZshH) (hK : K.inBand) (Snull fw : Nat) (e : Nat)
    (r2 : List Nat) (st : GksState) (he0 : e ≠ 0) (heM : e ≠ K.Meta) :
    gksShape K Snull fw (92 :: e :: r2) st (gksDefault fw (e :: r2) st) := by
  have hM : (92 : Nat) ≠ K.Meta := by
    have := hK.1.1
    omega
  have hMl : 128 ≤ K.Meta := hK.1.1
  unfold gksDefault
  simp only [List.headD_cons]
  by_cases hnum : (idigit e = true ∧ e < 56) ∨ e = 120
  · rw [if_pos hnum]
    by_cases hk : fw = 0 ∧ e ≠ 48 ∧ e ≠ 120
    · rw [if_pos hk]
      have hfw := hk.1
      subst hfw
      exact gksShape_keep K hK Snull (e :: r2) st
    · rw [if_neg hk]
      refine ⟨rfl, rfl, Or.inr ?_, [_], rfl, by simp, by simp, fun _ => rfl, fun _ => by simp,
        ?_⟩
      · intro i hi
        cases i with
        | zero => exact ⟨by simp, by simpa using hM⟩
        | succ j =>
          simp only [List.getD_cons_succ]
          by_cases hd : fw = 0 ∧ e = 48
          · simp only [if_pos hd, List.drop_succ_cons, List.drop_zero] at hi
            cases j with
            | zero =>
              simp only [List.getD_cons_zero]
              omega
            | succ j2 =>
              simp only [List.getD_cons_succ]
              by_cases hx : r2.headD 0 = 120
              · simp only [if_pos hx] at hi
                cases j2 with
                | zero =>
                  rw [List.getD_eq_getElem?_getD, ← List.head?_eq_getElem?,
                    ← List.headD_eq_head?_getD, hx]
                  omega
                | succ j3 =>
                  have hj : j3 < (zstrtol ((if r2.getD 1 0 ≠ 0 ∧ r2.getD 2 0 ≠ 0 ∧
                      r2.getD 3 0 ≠ 0 then r2.take 3 else r2).drop 1) 16).2 := by omega
                  have hz := zstrtol_consumed 16 (by decide) (by decide) _ _ hj
                  rw [getD_drop_add] at hz
                  have e1 : 1 + j3 = j3 + 1 := by omega
                  rw [e1] at hz
                  by_cases hcut : r2.getD 1 0 ≠ 0 ∧ r2.getD 2 0 ≠ 0 ∧ r2.getD 3 0 ≠ 0
                  · rw [if_pos hcut] at hz
                    rw [getD_take_ne_zero r2 3 (j3 + 1) hz.1] at hz
                    omega
                  · rw [if_neg hcut] at hz
                    omega
              · simp only [if_neg hx, Nat.add_zero, List.drop_zero] at hi
                have hj : j2 < (zstrtol (if r2.getD 1 0 ≠ 0 ∧ r2.getD 2 0 ≠ 0 ∧
                    r2.getD 3 0 ≠ 0 then r2.take 3 else r2) 8).2 := by omega
                have hz := zstrtol_consumed 8 (by decide) (by decide) _ _ hj
                by_cases hcut : r2.getD 1 0 ≠ 0 ∧ r2.getD 2 0 ≠ 0 ∧ r2.getD 3 0 ≠ 0
                · rw [if_pos hcut] at hz
                  rw [getD_take_ne_zero r2 3 j2 hz.1] at hz
                  omega
                · rw [if_neg hcut] at hz
                  omega
          · simp only [if_neg hd, Nat.zero_add, List.drop_zero, List.headD_cons] at hi
            by_cases hx : e = 120
            · simp only [if_pos hx] at hi
              cases j with
              | zero =>
                simp only [List.getD_cons_zero]
                omega
              | succ j2 =>
                have hj : j2 < (zstrtol ((if (e :: r2).getD 1 0 ≠ 0 ∧ (e :: r2).getD 2 0 ≠ 0 ∧
                    (e :: r2).getD 3 0 ≠ 0 then (e :: r2).take 3 else e :: r2).drop 1) 16).2 := by
                  omega
                have hz := zstrtol_consumed 16 (by decide) (by decide) _ _ hj
                rw [getD_drop_add] at hz
                have e1 : 1 + j2 = j2 + 1 := by omega
                rw [e1] at hz
                by_cases hcut : (e :: r2).getD 1 0 ≠ 0 ∧ (e :: r2).getD 2 0 ≠ 0 ∧
                    (e :: r2).getD 3 0 ≠ 0
                · rw [if_pos hcut] at hz
                  rw [getD_take_ne_zero (e :: r2) 3 (j2 + 1) hz.1] at hz
                  omega
                · rw [if_neg hcut] at hz
                  omega
            · simp only [if_neg hx, Nat.zero_add, List.drop_zero] at hi
              have hj : j < (zstrtol (if (e :: r2).getD 1 0 ≠ 0 ∧ (e :: r2).getD 2 0 ≠ 0 ∧
                  (e :: r2).getD 3 0 ≠ 0 then (e :: r2).take 3 else e :: r2) 8).2 := by
                omega
              have hz := zstrtol_consumed 8 (by decide) (by decide) _ _ hj
              by_cases hcut : (e :: r2).getD 1 0 ≠ 0 ∧ (e :: r2).getD 2 0 ≠ 0 ∧
                  (e :: r2).getD 3 0 ≠ 0
              · rw [if_pos hcut] at hz
                rw [getD_take_ne_zero (e :: r2) 3 j hz.1] at hz
                omega
              · rw [if_neg hcut] at hz
                omega
      · intro hk0
        exfalso
        by_cases hd : fw = 0 ∧ e = 48
        · simp only [if_pos hd] at hk0
          omega
        · simp only [if_neg hd, Nat.zero_add, List.drop_zero, List.headD_cons] at hk0
          by_cases hx : e = 120
          · simp only [if_pos hx] at hk0
            omega
          · simp only [if_neg hx, Nat.zero_add, List.drop_zero] at hk0
            have hoct : 48 ≤ e ∧ e < 56 := by
              rcases hnum with h | h
              · simp only [idigit, Bool.and_eq_true, decide_eq_true_eq] at h
                omega
              · exact absurd h hx
            by_cases hcut : (e :: r2).getD 1 0 ≠ 0 ∧ (e :: r2).getD 2 0 ≠ 0 ∧
                (e :: r2).getD 3 0 ≠ 0
            · rw [if_pos hcut] at hk0
              have := zstrtol_pos e (r2.take 2) hoct
              rw [List.take_succ_cons] at hk0
              omega
            · rw [if_neg hcut] at hk0
              have := zstrtol_pos e r2 hoct
              omega
  · rw [if_neg hnum]
    by_cases hk : fw = 0 ∧ e ≠ 92
    · rw [if_pos hk]
      refine ⟨rfl, rfl, Or.inr ?_, [92, e], rfl, by simp, by simp, fun h => ?_, fun h => ?_,
        fun h => absurd h (by decide)⟩
      · intro i hi
        rcases (by omega : i = 0 ∨ i = 1) with h | h
        · subst h
          exact ⟨by simp, by simpa using hM⟩
        · subst h
          exact ⟨he0, heM⟩
      · omega
      · exact absurd hk.1 h
    · rw [if_neg hk]
      exact gksShape_escape K hK Snull fw e e r2 st he0 heM

/-- The shape of the `switch`. -/
theorem gksEscape_shape (K : ZshH) (hK : K.inBand) (Snull fw : Nat) (e : Nat)
    (r2 : List Nat) (st : GksState) (he0 : e ≠ 0) :
    gksShape K Snull fw (92 :: e :: r2) st (gksEscape K fw (e :: r2) st) := by
  have hMl : 128 ≤ K.Meta := hK.1.1
  have hM : (92 : Nat) ≠ K.Meta := by omega
  unfold gksEscape
  simp only [List.headD_cons]
  by_cases h : e = 97
  · rw [if_pos h]
    exact gksShape_escape K hK Snull fw e 7 r2 st he0 (by omega)
  rw [if_neg h]
  clear h
  by_cases h : e = 110
  · rw [if_pos h]
    exact gksShape_escape K hK Snull fw e 10 r2 st he0 (by omega)
  rw [if_neg h]
  clear h
  by_cases h : e = 98
  · rw [if_pos h]
    exact gksShape_escape K hK Snull fw e 8 r2 st he0 (by omega)
  rw [if_neg h]
  clear h
  by_cases h : e = 116
  · rw [if_pos h]
    exact gksShape_escape K hK Snull fw e 9 r2 st he0 (by omega)
  rw [if_neg h]
  clear h
  by_cases h : e = 118
  · rw [if_pos h]
    exact gksShape_escape K hK Snull fw e 11 r2 st he0 (by omega)
  rw [if_neg h]
  clear h
  by_cases h : e = 102
  · rw [if_pos h]
    exact gksShape_escape K hK Snull fw e 12 r2 st he0 (by omega)
  rw [if_neg h]
  clear h
  by_cases h : e = 114
  · rw [if_pos h]
    exact gksShape_escape K hK Snull fw e 13 r2 st he0 (by omega)
  rw [if_neg h]
  clear h
  by_cases h : e = 69 ∧ fw = 0
  · rw [if_pos h]
    have hfw := h.2
    subst hfw
    exact gksShape_keep K hK Snull (e :: r2) st
  rw [if_neg h]
  clear h
  by_cases h : e = 69 ∨ e = 101
  · rw [if_pos h]
    exact gksShape_escape K hK Snull fw e 27 r2 st he0 (by omega)
  rw [if_neg h]
  clear h
  by_cases h : e = 77
  · rw [if_pos h]
    by_cases h0 : fw ≠ 0
    · rw [if_pos h0]
      exact gksShape_flag K hK Snull fw e r2 st _ he0 (by omega) rfl
    · rw [if_neg h0]
      have hfw : fw = 0 := by omega
      subst hfw
      exact gksShape_keep K hK Snull (e :: r2) st
  rw [if_neg h]
  clear h
  by_cases h : e = 67
  · rw [if_pos h]
    by_cases h0 : fw ≠ 0
    · rw [if_pos h0]
      exact gksShape_flag K hK Snull fw e r2 st _ he0 (by omega) rfl
    · rw [if_neg h0]
      have hfw : fw = 0 := by omega
      subst hfw
      exact gksShape_keep K hK Snull (e :: r2) st
  rw [if_neg h]
  clear h
  by_cases h : e = K.Meta
  · rw [if_pos h]
    refine ⟨rfl, rfl, Or.inr ?_, [92], rfl, by simp, by simp, fun _ => rfl, fun _ => by simp,
      fun _ => rfl⟩
    intro i hi
    have : i = 0 := by omega
    subst this
    exact ⟨by simp, by simpa using hM⟩
  rw [if_neg h]
  by_cases hc : e = 99 ∧ fw < 2
  · rw [if_pos hc]
    refine ⟨rfl, rfl, Or.inr ?_, [], by simp, by simp, by simp, fun h2 => ?_, fun _ => by simp,
      fun h0 => absurd h0 (by decide)⟩
    · intro i hi
      rcases (by omega : i = 0 ∨ i = 1) with hi0 | hi1
      · subst hi0
        exact ⟨by simp, by simpa using hM⟩
      · subst hi1
        exact ⟨he0, h⟩
    · omega
  rw [if_neg hc]
  exact gksDefault_shape K hK Snull fw e r2 st he0 h

/-- What all branches of one iteration of the loop of `getkeystring` have in
common. -/
theorem gksStep_shape (K : ZshH) (hK : K.inBand) (Snull fw : Nat) (c : Nat) (r : List Nat)
    (st : GksState) (hc0 : c ≠ 0) :
    gksShape K Snull fw (c :: r) st (gksStep K Snull fw (c :: r) st) := by
  unfold gksStep
  simp only [List.headD_cons, List.getD_cons_succ, List.drop_succ_cons, List.drop_zero]
  by_cases h : c = 92 ∧ r.getD 0 0 ≠ 0
  · rw [if_pos h]
    cases r with
    | nil => simp at h
    | cons e r2 =>
      have he0 : e ≠ 0 := by simpa using h.2
      rw [h.1]
      exact gksEscape_shape K hK Snull fw e r2 st he0
  rw [if_neg h]
  clear h
  by_cases h : fw = 4 ∧ c = Snull
  · rw [if_pos h]
    exact ⟨h.1, h.2⟩
  rw [if_neg h]
  clear h
  by_cases h : c = 94 ∧ fw = 2
  · rw [if_pos h]
    refine ⟨Or.inr ?_, [], by simp, by simp, fun _ => rfl, fun h4 => by omega⟩
    intro i hi
    have : i = 0 := by omega
    subst this
    have := hK.1.1
    simp only [List.getD_cons_zero]
    omega
  rw [if_neg h]
  clear h
  by_cases h : c = K.Meta
  · rw [if_pos h]
    exact ⟨rfl, rfl, Or.inl ⟨h, rfl⟩, [_], rfl, by simp, by simp, fun _ => rfl, fun _ => by simp,
      fun h0 => absurd h0 (by decide)⟩
  · rw [if_neg h]
    refine ⟨rfl, rfl, Or.inr ?_, [c], rfl, by simp, by simp, fun _ => rfl, fun _ => by simp,
      fun _ => rfl⟩
    intro i hi
    have : i = 0 := by omega
    subst this
    exact ⟨by simpa using hc0, by simpa using h⟩

/-- The statements after the `switch` leave the bytes before `t[-1]` alone;
`t[-1]` becomes the modified byte, written as a pair in a `$'...'` run when
it is protected. -/
theorem gksPost_out (K : ZshH) (fw : Nat) (o : List Nat) (b m c misc : Nat) :
    gksPost K fw ⟨o ++ [b], m, c, misc⟩
      = ⟨o ++ (if fw = 4 ∧ imeta K (gksModified ⟨o ++ [b], m, c, misc⟩) = true
            then [K.Meta, gksModified ⟨o ++ [b], m, c, misc⟩ ^^^ 32]
            else [gksModified ⟨o ++ [b], m, c, misc⟩]), 0, 0, misc⟩ := by
  unfold gksPost gksModified
  simp only [List.getLastD_concat]
  by_cases hm : m = 2 <;> by_cases hc : c ≠ 0 <;> by_cases hm0 : m ≠ 0 <;>
    simp only [hm, hc, hm0, if_true, gksModLast_snoc, List.getLastD_concat,
      List.dropLast_concat, ne_eq, not_true_eq_false, not_false_eq_true, if_false] <;>
    split_ifs <;> simp_all

/-- In a `$'...'` run the statements after the `switch` store the protection
of the modified byte. -/
theorem gksPost_protect (K : ZshH) (st : GksState) (o : List Nat) (b : Nat)
    (h : st.out = o ++ [b]) :
    gksPost K 4 st = ⟨o ++ protect K [gksModified st], 0, 0, st.misc⟩ := by
  obtain ⟨out, m, c, misc⟩ := st
  simp only at h
  subst h
  rw [gksPost_out]
  simp only [protect, true_and]

/-- Outside a `$'...'` run the statements after the `switch` keep the number
of bytes stored. -/
theorem gksPost_length (K : ZshH) (fw : Nat) (h4 : fw ≠ 4) (st : GksState) :
    (gksPost K fw st).out.length = st.out.length := by
  obtain ⟨out, m, c, misc⟩ := st
  rcases List.eq_nil_or_concat out with h | ⟨o, b, h⟩
  · subst h
    simp [gksPost, gksModLast, h4]
  · subst h
    rw [List.concat_eq_append, gksPost_out]
    simp [h4]

/-- In a `$'...'` run the statements after the `switch` add at most one
byte. -/
theorem gksPost_length4 (K : ZshH) (st : GksState) (o : List Nat) (b : Nat)
    (h : st.out = o ++ [b]) :
    (gksPost K 4 st).out.length ≤ st.out.length + 1 ∧
      st.out.length ≤ (gksPost K 4 st).out.length ∧
      (imeta K (gksModified st) = false → (gksPost K 4 st).out.length = st.out.length) := by
  rw [gksPost_protect K st o b h, h]
  simp only [protect]
  split_ifs with hi <;> simp [hi]

/-- Dropping plain bytes from a well-formed string leaves a well-formed
string. -/
theorem wellFormed_drop (K : ZshH) : ∀ (j : Nat) (x : List Nat), j ≤ x.length →
    (∀ i, i < j → x.getD i 0 ≠ K.Meta) → wellFormed K x = true →
    wellFormed K (x.drop j) = true := by
  intro j
  induction j with
  | zero => intro x _ _ h; exact h
  | succ j ih =>
    intro x hj hp hw
    cases x with
    | nil => simp at hj
    | cons c x =>
      have hc : c ≠ K.Meta := by simpa using hp 0 (by omega)
      rw [wellFormed_plain K c x hc] at hw
      simp only [Bool.and_eq_true] at hw
      simp only [List.drop_succ_cons]
      apply ih x (by simpa using hj) _ hw.2
      intro i hi
      simpa using hp (i + 1) (by omega)

/-- The bytes one iteration steps over lie before the terminator of a
well-formed string, and what follows them is well-formed again. -/
theorem gksConsumed_wellFormed (K : ZshH) (c : Nat) (x tail : List Nat) (k : Nat)
    (hk : gksConsumed K (c :: x ++ 0 :: tail) k) (hw : wellFormed K (c :: x) = true) :
    k ≤ x.length ∧ wellFormed K (x.drop k) = true := by
  rcases hk with ⟨hM, h1⟩ | hp
  · simp only [List.cons_append, List.headD_cons] at hM
    subst hM
    subst h1
    cases x with
    | nil => simp [wellFormed] at hw
    | cons y x1 =>
      rw [wellFormed_pair] at hw
      simp only [Bool.and_eq_true] at hw
      exact ⟨by simp, by simpa using hw.2.2⟩
  · have hle : k ≤ x.length := by
      by_contra hlt
      have h := (hp (x.length + 1) (by omega)).1
      apply h
      have e : c :: x ++ 0 :: tail = (c :: x) ++ 0 :: tail := rfl
      rw [e]
      have hl : (c :: x).length = x.length + 1 := by simp
      rw [← hl, getD_length_append]
    refine ⟨hle, ?_⟩
    have h := wellFormed_drop K (k + 1) (c :: x) (by simpa using hle) (fun i hi => by
      have h2 := (hp i (by omega)).2
      have e : c :: x ++ 0 :: tail = (c :: x) ++ 0 :: tail := rfl
      rw [e, List.getD_append _ _ _ _ (by simp; omega)] at h2
      exact h2) hw
    simpa using h

/-- Outside a `$'...'` run a well-formed string is parsed to its terminator,
and the number of bytes stored grows by at most the number of bytes read. -/
theorem gksLoop_fits (K : ZshH) (hK : K.inBand) (Snull fw : Nat) (h4 : fw ≠ 4)
    (tail : List Nat) :
    ∀ (x : List Nat) (skip lead : Nat) (st : GksState), skip ≤ x.length →
      wellFormed K (x.drop skip) = true →
      ∃ buf len m, gksLoop K Snull fw (x ++ 0 :: tail) skip lead st
          = GksResult.returned buf len m ∧
        len + skip ≤ st.out.length + x.length ∧ buf.length = len + 1 := by
  intro x
  induction x with
  | nil =>
    intro skip lead st hs _
    have h0 : skip = 0 := by simpa using hs
    subst h0
    exact ⟨_, _, _, gksLoop_nul K Snull fw tail lead st, by simp, by simp⟩
  | cons c x ih =>
    intro skip lead st hs hw
    cases skip with
    | succ skip =>
      simp only [List.cons_append]
      rw [gksLoop_skip]
      obtain ⟨buf, len, m, h, hl, hb⟩ := ih skip lead st (by simpa using hs) (by simpa using hw)
      exact ⟨buf, len, m, h, by simp only [List.length_cons]; omega, hb⟩
    | zero =>
      simp only [List.drop_zero] at hw
      have hc0 : c ≠ 0 := wellFormed_ne_zero K _ hw c (by simp)
      have hsh := gksStep_shape K hK Snull fw c (x ++ 0 :: tail) st hc0
      simp only [List.cons_append]
      cases hst : gksStep K Snull fw (c :: (x ++ 0 :: tail)) st with
      | snull =>
        rw [hst] at hsh
        exact absurd hsh.1 h4
      | brk k st1 =>
        rw [hst] at hsh
        obtain ⟨_, _, hk, o, ho, hol, _⟩ := hsh
        obtain ⟨hkl, hwd⟩ := gksConsumed_wellFormed K c x tail k hk hw
        rw [gksLoop_cons K Snull fw c _ lead k st _ h4 hc0 (by rw [hst]; rfl)]
        obtain ⟨buf, len, m, h, hl, hb⟩ := ih k lead (gksPost K fw st1) hkl hwd
        refine ⟨buf, len, m, h, ?_, hb⟩
        rw [gksPost_length K fw h4, ho, List.length_append] at hl
        simp only [List.length_cons]
        omega
      | cont k st1 =>
        rw [hst] at hsh
        obtain ⟨hk, o, ho, hol, _⟩ := hsh
        obtain ⟨hkl, hwd⟩ := gksConsumed_wellFormed K c x tail k hk hw
        rw [gksLoop_cons K Snull fw c _ lead k st _ h4 hc0 (by rw [hst]; rfl)]
        obtain ⟨buf, len, m, h, hl, hb⟩ := ih k lead st1 hkl hwd
        refine ⟨buf, len, m, h, ?_, hb⟩
        rw [ho, List.length_append] at hl
        simp only [List.length_cons]
        omega

/-- With no modifier pending the modified byte is the byte stored. -/
theorem gksModified_idle (st : GksState) (hm : st.meta = 0) (hc : st.control = 0) :
    gksModified st = st.out.getLastD 0 := by
  simp [gksModified, hm, hc]

/-- In a `$'...'` run a sentinel that is not the character of an escape ends
the loop. -/
theorem gksStep_snull (K : ZshH) (Snull : Nat) (r : List Nat) (st : GksState)
    (h : ¬ (Snull = 92 ∧ r.getD 0 0 ≠ 0)) :
    gksStep K Snull 4 (Snull :: r) st = GksStep.snull := by
  unfold gksStep
  simp only [List.headD_cons, List.getD_cons_succ]
  rw [if_neg h, if_pos ⟨trivial, trivial⟩]

/-- In a `$'...'` run over a well-formed string whose protected bytes are
`Meta` and the sentinel only, the write position stays at least two bytes
behind the read position, and at least three while a modifier is pending;
so it never passes it. -/
theorem gksLoop_behind (K : ZshH) (hK : K.inBand) (Snull : Nat) (tail : List Nat) :
    ∀ (x : List Nat) (skip lead : Nat) (st : GksState), skip ≤ x.length →
      wellFormed K (x.drop skip) = true →
      (∀ b ∈ x.drop skip, imeta K b = true → b = K.Meta ∨ b = Snull) →
      2 ≤ lead → (st.meta ≠ 0 ∨ st.control ≠ 0 → 3 ≤ lead) →
      gksLoop K Snull 4 (x ++ 0 :: tail) skip lead st ≠ GksResult.overrun := by
  intro x
  induction x with
  | nil =>
    intro skip lead st hs _ _ _ _
    have h0 : skip = 0 := by simpa using hs
    subst h0
    rw [List.nil_append, gksLoop_nul]
    exact fun h => GksResult.noConfusion h
  | cons c x ih =>
    intro skip lead st hs hw hp hl2 hl3
    cases skip with
    | succ skip =>
      simp only [List.cons_append]
      rw [gksLoop_skip]
      exact ih skip lead st (by simpa using hs) (by simpa using hw) (by simpa using hp) hl2 hl3
    | zero =>
      simp only [List.drop_zero] at hw hp
      have hc0 : c ≠ 0 := wellFormed_ne_zero K _ hw c (by simp)
      have hsh := gksStep_shape K hK Snull 4 c (x ++ 0 :: tail) st hc0
      simp only [List.cons_append]
      have hsub : ∀ k, ∀ b ∈ x.drop k, imeta K b = true → b = K.Meta ∨ b = Snull :=
        fun k b hb => hp b (List.mem_cons_of_mem _ (List.mem_of_mem_drop hb))
      cases hst : gksStep K Snull 4 (c :: (x ++ 0 :: tail)) st with
      | snull =>
        rw [gksLoop, if_neg hc0, hst]
        exact fun h => GksResult.noConfusion h
      | cont k st1 =>
        rw [hst] at hsh
        obtain ⟨hk, o, ho, _, hnil, hk1⟩ := hsh
        obtain ⟨hkl, hwd⟩ := gksConsumed_wellFormed K c x tail k hk hw
        have ho2 : st1.out = st.out := by rw [ho, hnil (by decide), List.append_nil]
        have hk1 := hk1 rfl
        rw [gksLoop_cons4 K Snull c _ lead k st st1 hc0 (by rw [hst]; rfl) (by rw [ho2]; omega)]
        apply ih k _ st1 hkl hwd (hsub k)
        · rw [ho2]
          omega
        · intro _
          rw [ho2]
          omega
      | brk k st1 =>
        rw [hst] at hsh
        obtain ⟨hm, hcn, hk, o, ho, _, _, h1, _, hhead⟩ := hsh
        obtain ⟨hkl, hwd⟩ := gksConsumed_wellFormed K c x tail k hk hw
        have h1 := h1 (by decide)
        obtain ⟨b, hb⟩ : ∃ b, o = [b] := List.length_eq_one.1 h1
        subst hb
        obtain ⟨hle, hge, heq⟩ := gksPost_length4 K st1 st.out b ho
        have hlen : st1.out.length = st.out.length + 1 := by rw [ho]; simp
        have hflags : (gksPost K 4 st1).meta = 0 ∧ (gksPost K 4 st1).control = 0 := by
          rw [gksPost_protect K st1 st.out b ho]
          exact ⟨rfl, rfl⟩
        have hgoal : ∀ wr, wr = (gksPost K 4 st1).out.length - st.out.length →
            wr ≤ lead + (k + 1) ∧ 2 ≤ lead + (k + 1) - wr := by
          intro wr hwr
          by_cases hk0 : k = 0
          · by_cases hpend : st.meta ≠ 0 ∨ st.control ≠ 0
            · have := hl3 hpend
              omega
            · have hm0 : st1.meta = 0 := by rw [hm]; omega
              have hc00 : st1.control = 0 := by rw [hcn]; omega
              have hbc : b = c := by
                have := hhead hk0
                simpa using this
              have hmod : gksModified st1 = c := by
                rw [gksModified_idle st1 hm0 hc00, ho, hbc]
                simp
              have hnot : imeta K c = false := by
                by_cases hesc : c = 92 ∧ (x ++ 0 :: tail).getD 0 0 ≠ 0
                · rw [hesc.1]
                  exact imeta_low K hK 92 (by decide) (by decide)
                · cases hi : imeta K c with
                  | false => rfl
                  | true =>
                    rcases hp c (by simp) hi with hM | hS
                    · rcases hk with ⟨_, hk1⟩ | hpl
                      · omega
                      · exact absurd hM (by simpa using (hpl 0 (by omega)).2)
                    · subst hS
                      rw [gksStep_snull K c _ st hesc] at hst
                      exact GksStep.noConfusion hst
              have := heq (by rw [hmod]; exact hnot)
              omega
          · omega
        obtain ⟨hwr, hl2n⟩ := hgoal _ rfl
        rw [gksLoop_cons4 K Snull c _ lead k st _ hc0 (by rw [hst]; rfl) hwr]
        apply ih k _ _ hkl hwd (hsub k) hl2n
        intro hpend
        rcases hpend with h | h
        · exact absurd hflags.1 h
        · exact absurd hflags.2 h

/-- C39, as literally stated, fails: the input `Meta`, NUL, `a`, `b`, `c`, NUL
has `strlen` 1, but in the generic context the `Meta` branch steps over the
NUL, and four bytes and a terminator are stored. -/
theorem getkeystring_meta_before_nul :
    strlen [131, 0, 97, 98, 99, 0] = 1 ∧
      getkeystring zsh_h zsh_Snull [131, 0, 97, 98, 99, 0] 1 0
        = GksResult.returned [32, 97, 98, 99, 0] 4 0 := by
  decide

/-- C39 (amended): for a well-formed encoded input `x` (no `Meta` right before
the terminator) and every context other than 4, `getkeystring` returns a
buffer of `len + 1` bytes with `len ≤ strlen(s)`; in context 4, when the
protected bytes after the two leading bytes are `Meta` and the sentinel only,
the write position never passes the read position. -/
theorem getkeystring_fits (K : ZshH) (hK : K.inBand) (Snull fw misc a b : Nat)
    (x tail : List Nat) (hw : wellFormed K x = true) :
    (fw ≠ 4 → ∃ buf len m,
        getkeystring K Snull (x ++ 0 :: tail) fw misc = GksResult.returned buf len m ∧
          len ≤ strlen (x ++ 0 :: tail) ∧ buf.length = len + 1) ∧
      ((∀ c ∈ x, imeta K c = true → c = K.Meta ∨ c = Snull) →
        getkeystring K Snull (a :: b :: x ++ 0 :: tail) 4 misc ≠ GksResult.overrun) := by
  constructor
  · intro h4
    obtain ⟨buf, len, m, h, hl, hb⟩ :=
      gksLoop_fits K hK Snull fw h4 tail x 0 0 ⟨[], 0, 0, misc⟩ (Nat.zero_le _) hw
    refine ⟨buf, len, m, ?_, ?_, hb⟩
    · rw [getkeystring, if_pos h4]
      exact h
    · rw [strlen_wellFormed K x tail hw]
      simpa using hl
  · intro hp
    rw [getkeystring, if_neg (by decide)]
    exact gksLoop_behind K hK Snull tail x 0 2 ⟨[], 0, 0, misc⟩ (Nat.zero_le _) hw hp
      (Nat.le_refl 2) (fun h => by rcases h with h | h <;> exact absurd rfl h)

theorem getkeystring_fits_witness :
    wellFormed zsh_h [92, 110, 131, 32, 97] = true ∧
      (∃ buf len m,
        getkeystring zsh_h zsh_Snull ([92, 110, 131, 32, 97] ++ 0 :: []) 1 0
            = GksResult.returned buf len m ∧
          len ≤ strlen ([92, 110, 131, 32, 97] ++ 0 :: []) ∧ buf.length = len + 1) ∧
      getkeystring zsh_h zsh_Snull (133 :: 152 :: [92, 110, 131, 32, 97] ++ 0 :: []) 4 0
        ≠ GksResult.overrun ∧
      getkeystring zsh_h zsh_Snull [92, 110, 131, 32, 97, 0] 1 0
        = GksResult.returned [10, 0, 97, 0] 3 0 ∧
      getkeystring zsh_h zsh_Snull [133, 152, 92, 110, 131, 32, 97, 0] 4 0
        = GksResult.returned [10, 131, 32, 97, 0] 4 0 :=
  ⟨by decide,
    (getkeystring_fits zsh_h (by decide) zsh_Snull 1 0 133 152 [92, 110, 131, 32, 97] []
      (by decide)).1 (by decide),
    (getkeystring_fits zsh_h (by decide) zsh_Snull 1 0 133 152 [92, 110, 131, 32, 97] []
      (by decide)).2 (by decide),
    by decide, by decide⟩

/-- What a `$'...'` run has stored when it ends: the bytes stored before, then
the protection of the parsed bytes. When it ends at a sentinel, the sentinel
is a byte of the input at or after the read position, the result is the text
after it, and the write position is not past it. -/
theorem gksLoop_parsed (K : ZshH) (hK : K.inBand) (Snull : Nat) :
    ∀ (w : List Nat) (skip lead : Nat) (st : GksState),
      (∀ out rest m, gksLoop K Snull 4 w skip lead st = GksResult.sentinel out rest m →
        out = st.out ++ protect K (gksParsed K Snull w skip st) ∧
          ∃ pre post, w = pre ++ Snull :: post ∧ skip ≤ pre.length ∧ rest = cstr post ∧
            out.length + skip ≤ st.out.length + lead + pre.length) ∧
      (∀ buf len m, gksLoop K Snull 4 w skip lead st = GksResult.returned buf len m →
        buf = st.out ++ protect K (gksParsed K Snull w skip st) ++ [0] ∧
          buf.length = len + 1) := by
  intro w
  induction w with
  | nil =>
    intro skip lead st
    rw [gksLoop, gksParsed]
    constructor
    · intro out rest m h
      exact GksResult.noConfusion h
    · intro buf len m h
      injection h with h1 h2 h3
      subst h1
      subst h2
      simp [protect]
  | cons c w ih =>
    intro skip lead st
    cases skip with
    | succ skip =>
      rw [gksLoop_skip, gksParsed]
      obtain ⟨ih1, ih2⟩ := ih skip lead st
      refine ⟨fun out rest m h => ?_, ih2⟩
      obtain ⟨ho, pre, post, hw, hs, hr, hl⟩ := ih1 out rest m h
      refine ⟨ho, c :: pre, post, by rw [hw]; rfl, by simpa using hs, hr, ?_⟩
      simp only [List.length_cons]
      omega
    | zero =>
      by_cases hc0 : c = 0
      · subst hc0
        rw [gksLoop_nul, gksParsed, if_pos rfl]
        constructor
        · intro out rest m h
          exact GksResult.noConfusion h
        · intro buf len m h
          injection h with h1 h2 h3
          subst h1
          subst h2
          simp [protect]
      · have hsh := gksStep_shape K hK Snull 4 c w st hc0
        rw [gksLoop, if_neg hc0, gksParsed, if_neg hc0]
        cases hst : gksStep K Snull 4 (c :: w) st with
        | snull =>
          rw [hst] at hsh
          simp only [gksFinish]
          constructor
          · intro out rest m h
            injection h with h1 h2 h3
            subst h1
            subst h2
            refine ⟨by simp [protect], [], w, ?_, Nat.le_refl _, rfl, by simp⟩
            have := hsh.2
            simp only [List.headD_cons] at this
            rw [this]
            rfl
          · intro buf len m h
            exact GksResult.noConfusion h
        | cont k st1 =>
          rw [hst] at hsh
          obtain ⟨_, o, ho, _, hnil, _⟩ := hsh
          have ho2 : st1.out = st.out := by rw [ho, hnil (by decide), List.append_nil]
          simp only [gksFinish, if_true, ho2, Nat.sub_self, Nat.not_lt_zero, if_false,
            Nat.sub_zero]
          obtain ⟨ih1, ih2⟩ := ih k (lead + (k + 1)) st1
          rw [ho2] at ih1 ih2
          refine ⟨fun out rest m h => ?_, ih2⟩
          obtain ⟨ho, pre, post, hw, hs, hr, hl⟩ := ih1 out rest m h
          refine ⟨ho, c :: pre, post, by rw [hw]; rfl, Nat.zero_le _, hr, ?_⟩
          simp only [List.length_cons]
          omega
        | brk k st1 =>
          rw [hst] at hsh
          obtain ⟨_, _, _, o, ho, _, _, h1, _, _⟩ := hsh
          have h1 := h1 (by decide)
          obtain ⟨b, hb⟩ : ∃ b, o = [b] := List.length_eq_one.1 h1
          subst hb
          have hpo := gksPost_protect K st1 st.out b ho
          obtain ⟨hle, hge, _⟩ := gksPost_length4 K st1 st.out b ho
          have hlen : st1.out.length = st.out.length + 1 := by rw [ho]; simp
          simp only [gksFinish, if_true]
          by_cases hov : lead + (k + 1) < (gksPost K 4 st1).out.length - st.out.length
          · rw [if_pos hov]
            constructor
            · intro out rest m h
              exact GksResult.noConfusion h
            · intro buf len m h
              exact GksResult.noConfusion h
          · rw [if_neg hov]
            obtain ⟨ih1, ih2⟩ := ih k
              (lead + (k + 1) - ((gksPost K 4 st1).out.length - st.out.length)) (gksPost K 4 st1)
            have hout : (gksPost K 4 st1).out = st.out ++ protect K [gksModified st1] := by
              rw [hpo]
            have hcat : ∀ l, (gksPost K 4 st1).out ++ protect K l
                = st.out ++ protect K (gksModified st1 :: l) := by
              intro l
              rw [hout, List.append_assoc, ← protect_append]
              rfl
            constructor
            · intro out rest m h
              obtain ⟨ho, pre, post, hw, hs, hr, hl⟩ := ih1 out rest m h
              refine ⟨by rw [ho, hcat], c :: pre, post, by rw [hw]; rfl, Nat.zero_le _, hr, ?_⟩
              simp only [List.length_cons]
              omega
            · intro buf len m h
              obtain ⟨hbuf, hl⟩ := ih2 buf len m h
              exact ⟨by rw [hbuf, hcat], hl⟩

/-- C31: when a `$'...'` run (`fromwhere` 4) ends at the `Snull` sentinel, the
bytes stored are the protection of the parsed bytes: a well-formed encoded
string in which each protected parsed byte is the pair `(Meta, b ^ 32)` and
every other parsed byte is itself, and which decodes to the parsed bytes. The
sentinel is a byte of the input after the two leading bytes, the result is
the text after it up to the NUL, and the write position is not past it. -/
theorem getkeystring_dollar_quote (K : ZshH) (hK : K.inBand) (Snull misc : Nat) (s : List Nat)
    (out rest : List Nat) (m : Nat)
    (h : getkeystring K Snull s 4 misc = GksResult.sentinel out rest m) :
    out = protect K (gksParsed K Snull (s.drop 2) 0 ⟨[], 0, 0, misc⟩) ∧
      wellFormed K out = true ∧ pairedScan K out = true ∧
      decode K out = gksParsed K Snull (s.drop 2) 0 ⟨[], 0, 0, misc⟩ ∧
      ∃ pre post, s.drop 2 = pre ++ Snull :: post ∧ rest = cstr post ∧
        out.length ≤ 2 + pre.length := by
  rw [getkeystring, if_neg (by decide)] at h
  obtain ⟨ho, pre, post, hw, _, hr, hl⟩ :=
    (gksLoop_parsed K hK Snull (s.drop 2) 0 2 ⟨[], 0, 0, misc⟩).1 out rest m h
  simp only [List.nil_append] at ho
  refine ⟨ho, ?_, ?_, ?_, pre, post, hw, hr, by simpa using hl⟩
  · rw [ho]
    exact wellFormed_protect K hK _
  · rw [ho]
    exact pairedScan_protect K hK _
  · rw [ho]
    exact decode_protect K _

theorem getkeystring_dollar_quote_witness :
    getkeystring zsh_h zsh_Snull [133, 152, 97, 92, 110, 92, 48, 152, 98, 99, 0] 4 0
        = GksResult.sentinel [97, 10, 131, 32] [98, 99] 0 ∧
      ([97, 10, 131, 32]
          = protect zsh_h (gksParsed zsh_h zsh_Snull
              ([133, 152, 97, 92, 110, 92, 48, 152, 98, 99, 0].drop 2) 0 ⟨[], 0, 0, 0⟩) ∧
        wellFormed zsh_h [97, 10, 131, 32] = true ∧ pairedScan zsh_h [97, 10, 131, 32] = true ∧
        decode zsh_h [97, 10, 131, 32]
          = gksParsed zsh_h zsh_Snull
              ([133, 152, 97, 92, 110, 92, 48, 152, 98, 99, 0].drop 2) 0 ⟨[], 0, 0, 0⟩ ∧
        ∃ pre post, [133, 152, 97, 92, 110, 92, 48, 152, 98, 99, 0].drop 2
            = pre ++ zsh_Snull :: post ∧ [98, 99] = cstr post ∧
          [97, 10, 131, 32].length ≤ 2 + pre.length) ∧
      gksParsed zsh_h zsh_Snull [97, 92, 110, 92, 48, 152, 98, 99, 0] 0 ⟨[], 0, 0, 0⟩
        = [97, 10, 0] :=
  ⟨by decide,
    getkeystring_dollar_quote zsh_h (by decide) zsh_Snull 0
      [133, 152, 97, 92, 110, 92, 48, 152, 98, 99, 0] [97, 10, 131, 32] [98, 99] 0 (by decide),
    by decide⟩

/-- In a `$'...'` run over a well-formed string without the sentinel the
`Snull` branch is never taken. -/
theorem gksLoop_unterminated (K : ZshH) (hK : K.inBand) (Snull : Nat) (tail : List Nat) :
    ∀ (x : List Nat) (skip lead : Nat) (st : GksState), skip ≤ x.length →
      wellFormed K (x.drop skip) = true → (∀ b ∈ x.drop skip, b ≠ Snull) →
      ∀ out rest m, gksLoop K Snull 4 (x ++ 0 :: tail) skip lead st
        ≠ GksResult.sentinel out rest m := by
  intro x
  induction x with
  | nil =>
    intro skip lead st hs _ _ out rest m
    have h0 : skip = 0 := by simpa using hs
    subst h0
    rw [List.nil_append, gksLoop_nul]
    exact fun h => GksResult.noConfusion h
  | cons c x ih =>
    intro skip lead st hs hw hp out rest m
    cases skip with
    | succ skip =>
      simp only [List.cons_append]
      rw [gksLoop_skip]
      exact ih skip lead st (by simpa using hs) (by simpa using hw) (by simpa using hp) out rest m
    | zero =>
      simp only [List.drop_zero] at hw hp
      have hc0 : c ≠ 0 := wellFormed_ne_zero K _ hw c (by simp)
      have hsh := gksStep_shape K hK Snull 4 c (x ++ 0 :: tail) st hc0
      simp only [List.cons_append]
      have hsub : ∀ k, ∀ b ∈ x.drop k, b ≠ Snull :=
        fun k b hb => hp b (List.mem_cons_of_mem _ (List.mem_of_mem_drop hb))
      rw [gksLoop, if_neg hc0]
      cases hst : gksStep K Snull 4 (c :: (x ++ 0 :: tail)) st with
      | snull =>
        rw [hst] at hsh
        have := hsh.2
        simp only [List.headD_cons] at this
        exact absurd this (hp c (by simp))
      | cont k st1 =>
        rw [hst] at hsh
        obtain ⟨hk, _⟩ := hsh
        obtain ⟨hkl, hwd⟩ := gksConsumed_wellFormed K c x tail k hk hw
        simp only [gksFinish, if_true]
        split
        · exact fun h => GksResult.noConfusion h
        · exact ih k _ st1 hkl hwd (hsub k) out rest m
      | brk k st1 =>
        rw [hst] at hsh
        obtain ⟨_, _, hk, _⟩ := hsh
        obtain ⟨hkl, hwd⟩ := gksConsumed_wellFormed K c x tail k hk hw
        simp only [gksFinish, if_true]
        split
        · exact fun h => GksResult.noConfusion h
        · exact ih k _ _ hkl hwd (hsub k) out rest m

/-- C32, as literally stated, fails: the unterminated input `$'ab` is parsed
like in the other contexts; the terminator is stored, `*len` is set to 2 and
the buffer is returned. -/
theorem getkeystring_no_sentinel_returns :
    getkeystring zsh_h zsh_Snull [133, 152, 97, 98, 0] 4 0
      = GksResult.returned [97, 98, 0] 2 0 := by
  decide

/-- C32 (amended): in context 4, for a well-formed input without the `Snull`
sentinel, `getkeystring` never takes the sentinel return; when the protected
bytes of the input are `Meta` only, it stores the protection of the parsed
bytes and the terminator, and returns the buffer with its length, as in the
other contexts. -/
theorem getkeystring_unterminated (K : ZshH) (hK : K.inBand) (Snull misc a b : Nat)
    (x tail : List Nat) (hw : wellFormed K x = true) (hs : ∀ c ∈ x, c ≠ Snull) :
    (∀ out rest m,
        getkeystring K Snull (a :: b :: x ++ 0 :: tail) 4 misc ≠ GksResult.sentinel out rest m) ∧
      ((∀ c ∈ x, imeta K c = true → c = K.Meta) →
        ∃ len m, getkeystring K Snull (a :: b :: x ++ 0 :: tail) 4 misc
            = GksResult.returned
                (protect K (gksParsed K Snull (x ++ 0 :: tail) 0 ⟨[], 0, 0, misc⟩) ++ [0])
                len m ∧
          len = (protect K (gksParsed K Snull (x ++ 0 :: tail) 0 ⟨[], 0, 0, misc⟩)).length) := by
  have hns := gksLoop_unterminated K hK Snull tail x 0 2 ⟨[], 0, 0, misc⟩ (Nat.zero_le _) hw hs
  have e : getkeystring K Snull (a :: b :: x ++ 0 :: tail) 4 misc
      = gksLoop K Snull 4 (x ++ 0 :: tail) 0 2 ⟨[], 0, 0, misc⟩ := by
    rw [getkeystring, if_neg (by decide)]
    rfl
  rw [e]
  refine ⟨hns, fun hp => ?_⟩
  have hno := gksLoop_behind K hK Snull tail x 0 2 ⟨[], 0, 0, misc⟩ (Nat.zero_le _) hw
    (fun c hc hi => Or.inl (hp c hc hi)) (Nat.le_refl 2)
    (fun h => by rcases h with h | h <;> exact absurd rfl h)
  cases hr : gksLoop K Snull 4 (x ++ 0 :: tail) 0 2 ⟨[], 0, 0, misc⟩ with
  | overrun => exact absurd hr hno
  | sentinel out rest m => exact absurd hr (hns out rest m)
  | returned buf len m =>
    obtain ⟨hb, hl⟩ :=
      (gksLoop_parsed K hK Snull (x ++ 0 :: tail) 0 2 ⟨[], 0, 0, misc⟩).2 buf len m hr
    simp only [List.nil_append] at hb
    subst hb
    refine ⟨len, m, rfl, ?_⟩
    simpa using hl.symm

theorem getkeystring_unterminated_witness :
    wellFormed zsh_h [97, 92, 48, 98] = true ∧
      (∀ out rest m,
        getkeystring zsh_h zsh_Snull (133 :: 152 :: [97, 92, 48, 98] ++ 0 :: []) 4 0
          ≠ GksResult.sentinel out rest m) ∧
      (∃ len m, getkeystring zsh_h zsh_Snull (133 :: 152 :: [97, 92, 48, 98] ++ 0 :: []) 4 0
          = GksResult.returned
              (protect zsh_h (gksParsed zsh_h zsh_Snull ([97, 92, 48, 98] ++ 0 :: []) 0
                ⟨[], 0, 0, 0⟩) ++ [0]) len m ∧
        len = (protect zsh_h (gksParsed zsh_h zsh_Snull ([97, 92, 48, 98] ++ 0 :: []) 0
                ⟨[], 0, 0, 0⟩)).length) ∧
      getkeystring zsh_h zsh_Snull [133, 152, 97, 92, 48, 98, 0] 4 0
        = GksResult.returned [97, 131, 32, 98, 0] 4 0 :=
  ⟨by decide,
    (getkeystring_unterminated zsh_h (by decide) zsh_Snull 0 133 152 [97, 92, 48, 98] []
      (by decide) (by decide)).1,
    (getkeystring_unterminated zsh_h (by decide) zsh_Snull 0 133 152 [97, 92, 48, 98] []
      (by decide) (by decide)).2 (by decide),
    by decide⟩

/-- Unless the escape is the `\0` of the echo context, the test of the numeric
escapes reads no byte after the first NUL, and the byte replaced while
`zstrtol` runs lies before it. -/
theorem gksLookahead_bounded (fw : Nat) (r : List Nat) (he : r.headD 0 ≠ 0)
    (h : ¬ (fw = 0 ∧ r.headD 0 = 48)) :
    (∀ i ∈ gksLookahead fw r, ∀ j, j < i → r.getD j 0 ≠ 0) ∧
      (∀ i, gksCapped fw r = some i → ∀ j, j ≤ i → r.getD j 0 ≠ 0) := by
  have h0 : r.getD 0 0 ≠ 0 := by
    cases r with
    | nil => simp at he
    | cons a r => simpa using he
  constructor
  · intro i hi j hj
    unfold gksLookahead at hi
    simp only [if_neg h, List.drop_zero, Nat.zero_add] at hi
    split at hi
    · split at hi
      · simp at hi
      · split at hi
        · simp only [List.mem_singleton] at hi
          have : j = 0 := by omega
          subst this
          exact h0
        · split at hi
          · simp only [List.mem_cons, List.mem_singleton, List.not_mem_nil, or_false] at hi
            rcases (by omega : j = 0 ∨ j = 1) with hj0 | hj1
            · subst hj0
              exact h0
            · subst hj1
              assumption
          · simp only [List.mem_cons, List.mem_singleton, List.not_mem_nil, or_false] at hi
            rcases (by omega : j = 0 ∨ j = 1 ∨ j = 2) with hj0 | hj1 | hj2
            · subst hj0
              exact h0
            · subst hj1
              assumption
            · subst hj2
              assumption
    · simp at hi
  · intro i hi j hj
    unfold gksCapped at hi
    simp only [if_neg h, List.drop_zero, Nat.zero_add] at hi
    split at hi
    · split at hi
      · exact Option.noConfusion hi
      · split at hi
        · rename_i hq
          injection hi with hi
          rcases (by omega : j = 0 ∨ j = 1 ∨ j = 2 ∨ j = 3) with hj0 | hj1 | hj2 | hj3
          · subst hj0
            exact h0
          · subst hj1
            exact hq.1
          · subst hj2
            exact hq.2.1
          · subst hj3
            exact hq.2.2
        · exact Option.noConfusion hi
    · exact Option.noConfusion hi

/-- C36 fails in the echo context (`fromwhere` 0) for the input backslash,
`0`, NUL (followed here by three bytes 7 that are not part of the string,
whose `strlen` is 2): the terminator is at offset 1 from the `0`; the test
reads the offsets 2, 3 and 4, and the byte at offset 4 is replaced by NUL
while `zstrtol` runs. The result does not depend on these bytes. In the
generic context the same input reads the terminator and nothing after it. -/
theorem getkeystring_lookahead_echo_zero :
    strlen [92, 48, 0, 7, 7, 7] = 2 ∧
      gksLookahead 0 [48, 0, 7, 7, 7] = [2, 3, 4] ∧
      gksCapped 0 [48, 0, 7, 7, 7] = some 4 ∧
      gksLookahead 0 [48, 0] = [2] ∧
      getkeystring zsh_h zsh_Snull [92, 48, 0, 7, 7, 7] 0 0 = GksResult.returned [0, 0] 1 0 ∧
      gksLookahead 1 [48, 0, 7, 7, 7] = [1] ∧
      gksCapped 1 [48, 0, 7, 7, 7] = none := by
  decide

/-- In the contexts 2 and above every iteration that ends in `break` has
stored exactly one byte, and the statements after the `switch` change that
byte only. -/
theorem gksStep_fresh (K : ZshH) (hK : K.inBand) (Snull fw : Nat) (h2 : 2 ≤ fw) (c : Nat)
    (r : List Nat) (st st1 : GksState) (k : Nat) (hc0 : c ≠ 0)
    (h : gksStep K Snull fw (c :: r) st = GksStep.brk k st1) :
    ∃ b, st1.out = st.out ++ [b] ∧
      (gksPost K fw st1).out
        = st.out ++ (if fw = 4 ∧ imeta K (gksModified st1) = true
            then [K.Meta, gksModified st1 ^^^ 32] else [gksModified st1]) := by
  have hsh := gksStep_shape K hK Snull fw c r st hc0
  rw [h] at hsh
  obtain ⟨_, _, _, o, ho, _, _, h1, _, _⟩ := hsh
  obtain ⟨b, hb⟩ : ∃ b, o = [b] := List.length_eq_one.1 (h1 h2)
  subst hb
  refine ⟨b, ho, ?_⟩
  obtain ⟨out, m, ct, misc⟩ := st1
  simp only at ho
  subst ho
  rw [gksPost_out]

/-- C38 fails in the generic context (`fromwhere` 1) for the input `a`,
backslash `C`, `-`, backslash `c`: the iteration of the `c` escape stores no
byte and ends in `break` with `control` pending, so the statements after the
`switch` mask the `a` stored by the first iteration to 0x01. When nothing has
been stored yet the same iteration finds the buffer empty. -/
theorem getkeystring_modifier_stale :
    getkeystring zsh_h zsh_Snull [97, 92, 67, 45, 92, 99, 0] 1 0
        = GksResult.returned [1, 0] 1 1 ∧
      gksStep zsh_h zsh_Snull 1 [92, 99, 0] ⟨[97], 0, 1, 0⟩ = GksStep.brk 1 ⟨[97], 0, 1, 1⟩ ∧
      gksPost zsh_h 1 ⟨[97], 0, 1, 1⟩ = ⟨[1], 0, 0, 1⟩ ∧
      gksStep zsh_h zsh_Snull 1 [92, 99, 0] ⟨[], 0, 1, 0⟩ = GksStep.brk 1 ⟨[], 0, 1, 1⟩ := by
  decide

/-- Reading a table entry after an assignment. -/
theorem getD_set (t : List Nat) (i b v : Nat) :
    (t.set i v).getD b 0 = if i = b ∧ b < t.length then v else t.getD b 0 := by
  simp only [List.getD_eq_getElem?_getD, List.getElem?_set]
  by_cases h : i = b
  · subst h
    by_cases hl : i < t.length
    · simp [hl]
    · simp only [hl, and_false, if_false, if_true]
      rw [List.getElem?_eq_none (by omega)]
  · simp [h]

/-- An `or` of two numbers is zero when both are. -/
theorem lor_eq_zero (a b : Nat) : a ||| b = 0 ↔ a = 0 ∧ b = 0 := by
  constructor
  · intro h
    constructor
    · apply Nat.eq_of_testBit_eq
      intro i
      have := congrArg (fun x => x.testBit i) h
      simp only [Nat.testBit_or, Nat.zero_testBit, Bool.or_eq_false_iff] at this
      simpa using this.1
    · apply Nat.eq_of_testBit_eq
      intro i
      have := congrArg (fun x => x.testBit i) h
      simp only [Nat.testBit_or, Nat.zero_testBit, Bool.or_eq_false_iff] at this
      simpa using this.2
  · rintro ⟨rfl, rfl⟩
    rfl

/-- A flag set built from flags without the bits of `m` has none of them. -/
theorem lor_land_zero (a b m : Nat) (ha : a &&& m = 0) (hb : b &&& m = 0) :
    (a ||| b) &&& m = 0 := by
  rw [Nat.and_distrib_right, ha, hb]
  rfl

/-- An invariant of every step of a loop is an invariant of the loop. -/
theorem foldl_invariant {α : Type} (Inv : List Nat → Prop) (f : List Nat → α → List Nat)
    (hf : ∀ t a, Inv t → Inv (f t a)) : ∀ (l : List α) (t : List Nat), Inv t →
      Inv (l.foldl f t) := by
  intro l
  induction l with
  | nil => intro t h; exact h
  | cons a l ih => intro t h; exact ih _ (hf t a h)

/-- An invariant of `typtab[i] |= IWSEP` and `typtab[i] |= ISEP` is an
invariant of the loop over the separators. -/
theorem typtabSep_invariant (F : ZTypes) (K : ZshH) (inblank : List Nat → Nat → Bool)
    (Inv : List Nat → Prop) (h1 : ∀ t i, Inv t → Inv (orAt t i F.IWSEP))
    (h2 : ∀ t i, Inv t → Inv (orAt t i F.ISEP)) :
    ∀ (s : List Nat) (skip : Nat) (t : List Nat), Inv t → Inv (typtabSep F K inblank s skip t) := by
  intro s
  induction s with
  | nil => intro skip t h; rw [typtabSep]; exact h
  | cons c s ih =>
    intro skip t h
    cases skip with
    | succ skip => rw [typtabSep]; exact ih skip t h
    | zero =>
      rw [typtabSep]
      have ht1 : Inv (if inblank t c = true ∧ s.headD 0 ≠ c then orAt t (c % 256) F.IWSEP
          else t) := by
        split
        · exact h1 t _ h
        · exact h
      by_cases hc : c = 0
      · rw [if_pos hc]
        exact h
      · rw [if_neg hc]
        dsimp only
        by_cases hM : c = K.Meta
        · rw [if_pos hM]
          exact ih _ _ (h2 _ _ ht1)
        · rw [if_neg hM]
          exact ih _ _ (h2 _ _ ht1)

/-- An invariant of `typtab[i] |= IWORD` is an invariant of the loop over the
word characters. -/
theorem typtabWord_invariant (F : ZTypes) (K : ZshH) (Inv : List Nat → Prop)
    (h1 : ∀ t i, Inv t → Inv (orAt t i F.IWORD)) :
    ∀ (s : List Nat) (skip : Nat) (t : List Nat), Inv t → Inv (typtabWord F K s skip t) := by
  intro s
  induction s with
  | nil => intro skip t h; rw [typtabWord]; exact h
  | cons c s ih =>
    intro skip t h
    cases skip with
    | succ skip => rw [typtabWord]; exact ih skip t h
    | zero =>
      rw [typtabWord]
      split
      · exact h
      · split
        · exact ih _ _ (h1 _ _ h)
        · exact ih _ _ (h1 _ _ h)

/-- The part of `inittyptab` after the loop over the tokens keeps every
invariant of the statements `typtab[i] |= f` for the four flags it uses. -/
theorem inittyptab_invariant (F : ZTypes) (K : ZshH) (inblank : List Nat → Nat → Bool)
    (cfg : TypConfig) (Inv : List Nat → Prop)
    (h : ∀ f ∈ [F.IWSEP, F.ISEP, F.IWORD, F.ISPECIAL], ∀ t i, Inv t → Inv (orAt t i f))
    (typtab : List Nat) (h0 : Inv (typtabMeta F K (typtabBase F typtab))) :
    Inv (inittyptab F K inblank cfg typtab) := by
  unfold inittyptab
  have a := typtabSep_invariant F K inblank Inv (h _ (by simp)) (h _ (by simp))
    (cfg.ifs.getD cfg.DEFAULT_IFS) 0 _ h0
  have b := typtabWord_invariant F K Inv (h _ (by simp))
    (cfg.wordchars.getD cfg.DEFAULT_WORDCHARS) 0 _ a
  have c := foldl_invariant Inv (fun t c => orAt t (c % 256) F.ISPECIAL)
    (fun t c ht => h _ (by simp) t _ ht) (cstr cfg.SPECCHARS) _ b
  simp only
  split
  · exact h _ (by simp) _ _ c
  · exact c

/-- Assignments and `|=` keep the number of entries. -/
theorem orAt_length (t : List Nat) (i f : Nat) : (orAt t i f).length = t.length := by
  simp [orAt]

/-- The first loop clears the first `n` entries. -/
theorem typtab_clear (n : Nat) (t : List Nat) (hn : n ≤ t.length) :
    (List.range n).foldl (fun t t0 => t.set t0 0) t = List.replicate n 0 ++ t.drop n := by
  induction n with
  | zero => simp
  | succ n ih =>
    rw [List.range_succ, List.foldl_append, ih (by omega)]
    simp only [List.foldl_cons, List.foldl_nil]
    rw [List.set_append_right _ _ (by simp), List.length_replicate, Nat.sub_self,
      List.drop_eq_getElem_cons (by omega : n < t.length), List.set_cons_zero,
      List.replicate_succ', List.append_assoc]
    rfl

/-- The first part of `inittyptab` does not depend on the table it finds. -/
theorem typtabBase_prior (F : ZTypes) (t u : List Nat) (ht : t.length = 256)
    (hu : u.length = 256) : typtabBase F t = typtabBase F u := by
  unfold typtabBase
  rw [typtab_clear 256 t (by omega), typtab_clear 256 u (by omega),
    List.drop_of_length_le (by omega), List.drop_of_length_le (by omega)]

/-- The first part of `inittyptab` keeps the number of entries. -/
theorem typtabBase_length (F : ZTypes) (t : List Nat) :
    (typtabBase F t).length = t.length := by
  unfold typtabBase
  have key : ∀ {α : Type} (f : List Nat → α → List Nat), (∀ t a, (f t a).length = t.length) →
      ∀ (l : List α) (t : List Nat), (l.foldl f t).length = t.length := by
    intro α f hf l
    induction l with
    | nil => intro t; rfl
    | cons a l ih => intro t; rw [List.foldl_cons, ih, hf]
  simp only [orAt_length, List.length_set]
  repeat (first | rw [List.length_set] | rw [key _ (fun t a => by simp)])

/-- The second part of `inittyptab` keeps the number of entries. -/
theorem typtabMeta_length (F : ZTypes) (K : ZshH) (t : List Nat) :
    (typtabMeta F K t).length = t.length := by
  unfold typtabMeta
  have h := foldl_invariant (fun u => u.length = t.length)
    (fun t i => orAt t (K.Pound % 256 + i) (F.ITOK ||| F.IMETA))
    (fun u a hu => by
      show (orAt u _ _).length = t.length
      rw [orAt_length]
      exact hu)
    (List.range (K.Nularg % 256 + 1 - K.Pound % 256))
    (orAt (orAt (orAt t 0 F.IMETA) (K.Meta % 256) F.IMETA) (K.Marker % 256) F.IMETA)
    (by simp [orAt_length])
  exact h

/-- The function `inittyptab` keeps the number of entries. -/
theorem inittyptab_length (F : ZTypes) (K : ZshH) (inblank : List Nat → Nat → Bool)
    (cfg : TypConfig) (t : List Nat) :
    (inittyptab F K inblank cfg t).length = t.length := by
  apply inittyptab_invariant F K inblank cfg (fun u => u.length = t.length)
  · intro f _ u i hu
    show (orAt u i f).length = t.length
    rw [orAt_length]
    exact hu
  · rw [typtabMeta_length, typtabBase_length]

/-- The bits of an entry after `typtab[i] |= f`. -/
theorem orAt_bit (t : List Nat) (i f m b : Nat) (hb : b < t.length) :
    (orAt t i f).getD b 0 &&& m ≠ 0 ↔ t.getD b 0 &&& m ≠ 0 ∨ (b = i ∧ f &&& m ≠ 0) := by
  unfold orAt
  rw [getD_set]
  by_cases h : i = b
  · subst h
    rw [if_pos ⟨rfl, hb⟩, Nat.and_distrib_right, ne_eq, lor_eq_zero]
    constructor
    · intro hn
      by_cases h1 : t.getD i 0 &&& m = 0
      · exact Or.inr ⟨rfl, fun h2 => hn ⟨h1, h2⟩⟩
      · exact Or.inl h1
    · rintro (h1 | ⟨_, h2⟩) hn
      · exact h1 hn.1
      · exact h2 hn.2
  · rw [if_neg (fun hh => h hh.1)]
    constructor
    · exact fun hn => Or.inl hn
    · rintro (h1 | ⟨h2, _⟩)
      · exact h1
      · exact absurd h2.symm h

/-- A table without `IMETA` and `ITOK` bits stays so under the assignment of
a flag set that has neither. -/
theorem typMarks_set (F : ZTypes) (t : List Nat) (i v : Nat)
    (h : typMarks F t (fun _ => False) (fun _ => False))
    (hv : v &&& F.IMETA = 0 ∧ v &&& F.ITOK = 0) :
    typMarks F (t.set i v) (fun _ => False) (fun _ => False) := by
  refine ⟨by rw [List.length_set]; exact h.1, fun b hb => ?_⟩
  rw [getD_set]
  split
  · simp [hv.1, hv.2]
  · exact h.2 b hb

/-- The marks of a table stay under `typtab[i] |= f` when `f` has neither
`IMETA` nor `ITOK`. -/
theorem typMarks_or (F : ZTypes) (t : List Nat) (P Q : Nat → Prop) (i f : Nat)
    (h : typMarks F t P Q) (hf : f &&& F.IMETA = 0 ∧ f &&& F.ITOK = 0) :
    typMarks F (orAt t i f) P Q := by
  refine ⟨by rw [orAt_length]; exact h.1, fun b hb => ?_⟩
  have hl : b < t.length := by rw [h.1]; exact hb
  rw [orAt_bit t i f _ b hl, orAt_bit t i f _ b hl]
  obtain ⟨h1, h2⟩ := h.2 b hb
  constructor
  · rw [← h1]
    exact ⟨fun hh => hh.elim id (fun x => absurd hf.1 x.2), Or.inl⟩
  · rw [← h2]
    exact ⟨fun hh => hh.elim id (fun x => absurd hf.2 x.2), Or.inl⟩

/-- The statement `typtab[i] |= IMETA` marks the entry `i` as protected. -/
theorem typMarks_meta (F : ZTypes) (hF : F.separate) (t : List Nat) (P Q : Nat → Prop) (i : Nat)
    (h : typMarks F t P Q) : typMarks F (orAt t i F.IMETA) (fun b => P b ∨ b = i) Q := by
  refine ⟨by rw [orAt_length]; exact h.1, fun b hb => ?_⟩
  have hl : b < t.length := by rw [h.1]; exact hb
  rw [orAt_bit t i _ _ b hl, orAt_bit t i _ _ b hl]
  obtain ⟨h1, h2⟩ := h.2 b hb
  obtain ⟨hm, _, hmt, _⟩ := hF
  constructor
  · rw [h1, Nat.and_self]
    exact ⟨fun hh => hh.elim Or.inl (fun x => Or.inr x.1), fun hh => hh.elim Or.inl
      (fun x => Or.inr ⟨x, hm⟩)⟩
  · rw [← h2]
    exact ⟨fun hh => hh.elim id (fun x => absurd hmt x.2), Or.inl⟩

/-- The statement `typtab[i] |= ITOK | IMETA` marks the entry `i` as a token
and as protected. -/
theorem typMarks_tok (F : ZTypes) (hF : F.separate) (t : List Nat) (P Q : Nat → Prop) (i : Nat)
    (h : typMarks F t P Q) :
    typMarks F (orAt t i (F.ITOK ||| F.IMETA)) (fun b => P b ∨ b = i) (fun b => Q b ∨ b = i) := by
  refine ⟨by rw [orAt_length]; exact h.1, fun b hb => ?_⟩
  have hl : b < t.length := by rw [h.1]; exact hb
  rw [orAt_bit t i _ _ b hl, orAt_bit t i _ _ b hl]
  obtain ⟨h1, h2⟩ := h.2 b hb
  obtain ⟨hm, ht, hmt, _⟩ := hF
  have e1 : (F.ITOK ||| F.IMETA) &&& F.IMETA ≠ 0 := by
    rw [Nat.and_distrib_right, Nat.and_self, ne_eq, lor_eq_zero]
    exact fun hh => hm hh.2
  have e2 : (F.ITOK ||| F.IMETA) &&& F.ITOK ≠ 0 := by
    rw [Nat.and_distrib_right, Nat.and_self, ne_eq, lor_eq_zero]
    exact fun hh => ht hh.1
  constructor
  · rw [h1]
    exact ⟨fun hh => hh.elim Or.inl (fun x => Or.inr x.1), fun hh => hh.elim Or.inl
      (fun x => Or.inr ⟨x, e1⟩)⟩
  · rw [h2]
    exact ⟨fun hh => hh.elim Or.inl (fun x => Or.inr x.1), fun hh => hh.elim Or.inl
      (fun x => Or.inr ⟨x, e2⟩)⟩

/-- The marks of a table may be stated in any equivalent way. -/
theorem typMarks_congr (F : ZTypes) (t : List Nat) (P Q P1 Q1 : Nat → Prop)
    (h : typMarks F t P Q) (hP : ∀ b, b < 256 → (P b ↔ P1 b)) (hQ : ∀ b, b < 256 → (Q b ↔ Q1 b)) :
    typMarks F t P1 Q1 :=
  ⟨h.1, fun b hb => ⟨(h.2 b hb).1.trans (hP b hb), (h.2 b hb).2.trans (hQ b hb)⟩⟩

/-- After the first part of `inittyptab` no entry has `IMETA` or `ITOK`. -/
theorem typtabBase_marks (F : ZTypes) (hF : F.separate) (t : List Nat) (hl : t.length = 256) :
    typMarks F (typtabBase F t) (fun _ => False) (fun _ => False) := by
  obtain ⟨_, _, _, hc⟩ := hF
  have hor : ∀ a b : Nat, (a &&& F.IMETA = 0 ∧ a &&& F.ITOK = 0) →
      (b &&& F.IMETA = 0 ∧ b &&& F.ITOK = 0) →
      ((a ||| b) &&& F.IMETA = 0 ∧ (a ||| b) &&& F.ITOK = 0) :=
    fun a b ha hb => ⟨lor_land_zero a b _ ha.1 hb.1, lor_land_zero a b _ ha.2 hb.2⟩
  have hal := hor _ _ (hor _ _ (hor _ _ (hor _ _ (hc F.IALPHA (by simp)) (hc F.IALNUM (by simp)))
    (hc F.IIDENT (by simp))) (hc F.IUSER (by simp))) (hc F.IWORD (by simp))
  have hdg := hor _ _ (hor _ _ (hor _ _ (hor _ _ (hc F.IDIGIT (by simp)) (hc F.IALNUM (by simp)))
    (hc F.IWORD (by simp))) (hc F.IIDENT (by simp))) (hc F.IUSER (by simp))
  have hbl := hor _ _ (hc F.IBLANK (by simp)) (hc F.INBLANK (by simp))
  have hid := hor _ _ (hc F.IIDENT (by simp)) (hc F.IUSER (by simp))
  have h0 : typMarks F ((List.range 256).foldl (fun t t0 => t.set t0 0) t)
      (fun _ => False) (fun _ => False) := by
    rw [typtab_clear 256 t (by omega), List.drop_of_length_le (by omega), List.append_nil]
    refine ⟨List.length_replicate _ _, fun b hb => ?_⟩
    rw [List.getD_eq_getElem?_getD, List.getElem?_replicate, if_pos hb]
    simp
  unfold typtabBase
  have h1 := foldl_invariant (fun t => typMarks F t (fun _ => False) (fun _ => False))
    (fun t t0 => (t.set (t0 + 128) F.ICNTRL).set t0 F.ICNTRL)
    (fun t a ht => typMarks_set F _ _ _ (typMarks_set F _ _ _ ht (hc F.ICNTRL (by simp)))
      (hc F.ICNTRL (by simp))) (List.range 32) _ h0
  have h2 := typMarks_set F _ 127 _ h1 (hc F.ICNTRL (by simp))
  have h3 := foldl_invariant (fun t => typMarks F t (fun _ => False) (fun _ => False))
    (fun t i => t.set (48 + i) (F.IDIGIT ||| F.IALNUM ||| F.IWORD ||| F.IIDENT ||| F.IUSER))
    (fun t a ht => typMarks_set F _ _ _ ht hdg) (List.range 10) _ h2
  have h4 := foldl_invariant (fun t => typMarks F t (fun _ => False) (fun _ => False))
    (fun t i => (t.set (97 + i - 97 + 65)
        (F.IALPHA ||| F.IALNUM ||| F.IIDENT ||| F.IUSER ||| F.IWORD)).set (97 + i)
        (F.IALPHA ||| F.IALNUM ||| F.IIDENT ||| F.IUSER ||| F.IWORD))
    (fun t a ht => typMarks_set F _ _ _ (typMarks_set F _ _ _ ht hal) hal) (List.range 26) _ h3
  have h5 := foldl_invariant (fun t => typMarks F t (fun _ => False) (fun _ => False))
    (fun t i => t.set (160 + i) (F.IALPHA ||| F.IALNUM ||| F.IIDENT ||| F.IUSER ||| F.IWORD))
    (fun t a ht => typMarks_set F _ _ _ ht hal) (List.range 96) _ h4
  have h6 := typMarks_set F _ 45 _ (typMarks_set F _ 95 _ h5 hid) (hc F.IUSER (by simp))
  exact typMarks_or F _ _ _ 10 _ (typMarks_or F _ _ _ 9 _ (typMarks_or F _ _ _ 32 _ h6 hbl) hbl)
    (hc F.INBLANK (by simp))

/-- The loop over the tokens marks the entries it visits. -/
theorem typtabTok_marks (F : ZTypes) (hF : F.separate) (lo : Nat) (P Q : Nat → Prop) :
    ∀ (n : Nat) (t : List Nat), typMarks F t P Q →
      typMarks F ((List.range n).foldl (fun t i => orAt t (lo + i) (F.ITOK ||| F.IMETA)) t)
        (fun b => P b ∨ (lo ≤ b ∧ b < lo + n)) (fun b => Q b ∨ (lo ≤ b ∧ b < lo + n)) := by
  intro n
  induction n with
  | zero =>
    intro t h
    exact typMarks_congr F t P Q _ _ h (fun b _ => ⟨Or.inl, fun hh => hh.elim id
      (fun x => by omega)⟩) (fun b _ => ⟨Or.inl, fun hh => hh.elim id (fun x => by omega)⟩)
  | succ n ih =>
    intro t h
    rw [List.range_succ, List.foldl_append]
    have h1 := typMarks_tok F hF _ _ _ (lo + n) (ih t h)
    refine typMarks_congr F _ _ _ _ _ h1 (fun b _ => ?_) (fun b _ => ?_)
    · constructor
      · rintro ((hp | hr) | he)
        · exact Or.inl hp
        · exact Or.inr (by omega)
        · exact Or.inr (by omega)
      · rintro (hp | hr)
        · exact Or.inl (Or.inl hp)
        · by_cases he : b = lo + n
          · exact Or.inr he
          · exact Or.inl (Or.inr (by omega))
    · constructor
      · rintro ((hp | hr) | he)
        · exact Or.inl hp
        · exact Or.inr (by omega)
        · exact Or.inr (by omega)
      · rintro (hp | hr)
        · exact Or.inl (Or.inl hp)
        · by_cases he : b = lo + n
          · exact Or.inr he
          · exact Or.inl (Or.inr (by omega))

/-- After the second part of `inittyptab` the protected entries are those of
NUL, `Meta`, `Marker` and the tokens, and the token entries are those from
`Pound` to `Nularg`. -/
theorem typtabMeta_marks (F : ZTypes) (hF : F.separate) (K : ZshH) (hK : K.inBand)
    (hP : K.Pound < 256) (t : List Nat) (h : typMarks F t (fun _ => False) (fun _ => False)) :
    typMarks F (typtabMeta F K t) (fun b => imeta K b = true) (fun b => itok K b = true) := by
  obtain ⟨⟨_, hM⟩, ⟨_, hR⟩, _, hN⟩ := hK
  unfold typtabMeta
  have h1 := typMarks_meta F hF _ _ _ (K.Marker % 256) (typMarks_meta F hF _ _ _ (K.Meta % 256)
    (typMarks_meta F hF _ _ _ 0 h))
  have h2 := typtabTok_marks F hF (K.Pound % 256) _ _ (K.Nularg % 256 + 1 - K.Pound % 256) _ h1
  refine typMarks_congr F _ _ _ _ _ h2 (fun b _ => ?_) (fun b _ => ?_)
  · rw [Nat.mod_eq_of_lt (by omega : K.Meta < 256), Nat.mod_eq_of_lt (by omega : K.Marker < 256),
      Nat.mod_eq_of_lt (by omega : K.Nularg < 256), Nat.mod_eq_of_lt hP]
    simp only [imeta, Bool.or_eq_true, beq_iff_eq, Bool.and_eq_true, decide_eq_true_eq,
      false_or]
    constructor
    · rintro (((h0 | hm) | hr) | ht)
      · exact Or.inl (Or.inl (Or.inl h0))
      · exact Or.inl (Or.inl (Or.inr hm))
      · exact Or.inl (Or.inr hr)
      · exact Or.inr (by omega)
    · rintro (((h0 | hm) | hr) | ht)
      · exact Or.inl (Or.inl (Or.inl h0))
      · exact Or.inl (Or.inl (Or.inr hm))
      · exact Or.inl (Or.inr hr)
      · exact Or.inr (by omega)
  · rw [Nat.mod_eq_of_lt (by omega : K.Nularg < 256), Nat.mod_eq_of_lt hP]
    simp only [itok, Bool.and_eq_true, decide_eq_true_eq, false_or]
    constructor
    · intro ht
      omega
    · intro ht
      omega

/-- C33: after `inittyptab`, whatever the separators, the word characters,
`bangchar` and the options are, the `IMETA` bit of `typtab[b]` is set if and
only if `b` is NUL, `Meta`, `Marker` or lies in `Pound .. Nularg`, and the
`ITOK` bit is set if and only if `b` lies in `Pound .. Nularg`; so every token
byte is protected. -/
theorem inittyptab_protected (F : ZTypes) (hF : F.separate) (K : ZshH) (hK : K.inBand)
    (hP : K.Pound < 256) (inblank : List Nat → Nat → Bool) (cfg : TypConfig)
    (typtab : List Nat) (hl : typtab.length = 256) (b : Nat) (hb : b < 256) :
    ((inittyptab F K inblank cfg typtab).getD b 0 &&& F.IMETA ≠ 0 ↔
        b = 0 ∨ b = K.Meta ∨ b = K.Marker ∨ (K.Pound ≤ b ∧ b ≤ K.Nularg)) ∧
      ((inittyptab F K inblank cfg typtab).getD b 0 &&& F.ITOK ≠ 0 ↔
        (K.Pound ≤ b ∧ b ≤ K.Nularg)) ∧
      ((inittyptab F K inblank cfg typtab).getD b 0 &&& F.IMETA ≠ 0 ↔ imeta K b = true) ∧
      ((inittyptab F K inblank cfg typtab).getD b 0 &&& F.ITOK ≠ 0 ↔ itok K b = true) ∧
      ((inittyptab F K inblank cfg typtab).getD b 0 &&& F.ITOK ≠ 0 →
        (inittyptab F K inblank cfg typtab).getD b 0 &&& F.IMETA ≠ 0) := by
  have hm : typMarks F (inittyptab F K inblank cfg typtab) (fun b => imeta K b = true)
      (fun b => itok K b = true) := by
    apply inittyptab_invariant F K inblank cfg
      (fun t => typMarks F t (fun b => imeta K b = true) (fun b => itok K b = true))
    · intro f hf t i ht
      apply typMarks_or F t _ _ i f ht
      obtain ⟨_, _, _, hc⟩ := hF
      simp only [List.mem_cons, List.mem_singleton, List.not_mem_nil, or_false] at hf
      rcases hf with h | h | h | h <;> subst h
      · exact hc F.IWSEP (by simp)
      · exact hc F.ISEP (by simp)
      · exact hc F.IWORD (by simp)
      · exact hc F.ISPECIAL (by simp)
    · exact typtabMeta_marks F hF K hK hP _ (typtabBase_marks F hF typtab hl)
  obtain ⟨h1, h2⟩ := hm.2 b hb
  have e1 : imeta K b = true ↔
      b = 0 ∨ b = K.Meta ∨ b = K.Marker ∨ (K.Pound ≤ b ∧ b ≤ K.Nularg) := by
    simp only [imeta, Bool.or_eq_true, beq_iff_eq, Bool.and_eq_true, decide_eq_true_eq]
    constructor
    · rintro (((h | h) | h) | h)
      · exact Or.inl h
      · exact Or.inr (Or.inl h)
      · exact Or.inr (Or.inr (Or.inl h))
      · exact Or.inr (Or.inr (Or.inr h))
    · rintro (h | h | h | h)
      · exact Or.inl (Or.inl (Or.inl h))
      · exact Or.inl (Or.inl (Or.inr h))
      · exact Or.inl (Or.inr h)
      · exact Or.inr h
  have e2 : itok K b = true ↔ (K.Pound ≤ b ∧ b ≤ K.Nularg) := by
    simp only [itok, Bool.and_eq_true, decide_eq_true_eq]
  refine ⟨h1.trans e1, h2.trans e2, h1, h2, fun ht => ?_⟩
  rw [h1.trans e1]
  exact Or.inr (Or.inr (Or.inr ((h2.trans e2).1 ht)))

theorem inittyptab_protected_witness :
    zsh_ztypes.separate ∧ zsh_h.inBand ∧ zsh_h.Pound < 256 ∧
      (List.replicate 256 4096).length = 256 ∧
      (((inittyptab zsh_ztypes zsh_h (zsh_inblank zsh_ztypes) zsh_typconfig
            (List.replicate 256 4096)).getD 152 0 &&& zsh_ztypes.IMETA ≠ 0 ↔
          152 = 0 ∨ 152 = zsh_h.Meta ∨ 152 = zsh_h.Marker ∨
            (zsh_h.Pound ≤ 152 ∧ 152 ≤ zsh_h.Nularg)) ∧
        ((inittyptab zsh_ztypes zsh_h (zsh_inblank zsh_ztypes) zsh_typconfig
            (List.replicate 256 4096)).getD 152 0 &&& zsh_ztypes.ITOK ≠ 0 ↔
          (zsh_h.Pound ≤ 152 ∧ 152 ≤ zsh_h.Nularg)) ∧
        ((inittyptab zsh_ztypes zsh_h (zsh_inblank zsh_ztypes) zsh_typconfig
            (List.replicate 256 4096)).getD 152 0 &&& zsh_ztypes.IMETA ≠ 0 ↔
          imeta zsh_h 152 = true) ∧
        ((inittyptab zsh_ztypes zsh_h (zsh_inblank zsh_ztypes) zsh_typconfig
            (List.replicate 256 4096)).getD 152 0 &&& zsh_ztypes.ITOK ≠ 0 ↔
          itok zsh_h 152 = true) ∧
        ((inittyptab zsh_ztypes zsh_h (zsh_inblank zsh_ztypes) zsh_typconfig
            (List.replicate 256 4096)).getD 152 0 &&& zsh_ztypes.ITOK ≠ 0 →
          (inittyptab zsh_ztypes zsh_h (zsh_inblank zsh_ztypes) zsh_typconfig
            (List.replicate 256 4096)).getD 152 0 &&& zsh_ztypes.IMETA ≠ 0)) :=
  ⟨by decide, by decide, by decide, List.length_replicate _ _,
    inittyptab_protected zsh_ztypes (by decide) zsh_h (by decide) (by decide)
      (zsh_inblank zsh_ztypes) zsh_typconfig (List.replicate 256 4096)
      (List.length_replicate _ _) 152 (by decide)⟩

set_option maxRecDepth 100000 in
/-- Some entries of the table for the constants of zsh 3.1: NUL is a control
character, a separator and protected; `Meta` is a control character and
protected; the token 0x98 is a control character, a token and protected;
the letter `A` is neither. -/
theorem inittyptab_sample :
    (inittyptab zsh_ztypes zsh_h (zsh_inblank zsh_ztypes) zsh_typconfig
        (List.replicate 256 4096)).getD 0 0 = 4640 ∧
      (inittyptab zsh_ztypes zsh_h (zsh_inblank zsh_ztypes) zsh_typconfig
        (List.replicate 256 4096)).getD 131 0 = 4608 ∧
      (inittyptab zsh_ztypes zsh_h (zsh_inblank zsh_ztypes) zsh_typconfig
        (List.replicate 256 4096)).getD 152 0 = 4624 ∧
      (inittyptab zsh_ztypes zsh_h (zsh_inblank zsh_ztypes) zsh_typconfig
        (List.replicate 256 4096)).getD 65 0 = 1474 := by
  decide

/-- C34: `inittyptab` is a total function of the table it finds; for a table
of 256 entries the result has 256 entries and is the same whatever the
entries were, so it depends on the configuration only, and running
`inittyptab` a second time gives the same table again. -/
theorem inittyptab_idempotent (F : ZTypes) (K : ZshH) (inblank : List Nat → Nat → Bool)
    (cfg : TypConfig) (t u : List Nat) (ht : t.length = 256) (hu : u.length = 256) :
    inittyptab F K inblank cfg t = inittyptab F K inblank cfg u ∧
      inittyptab F K inblank cfg (inittyptab F K inblank cfg t) = inittyptab F K inblank cfg t ∧
      (inittyptab F K inblank cfg t).length = 256 := by
  have key : ∀ a b : List Nat, a.length = 256 → b.length = 256 →
      inittyptab F K inblank cfg a = inittyptab F K inblank cfg b := by
    intro a b ha hb
    unfold inittyptab
    rw [typtabBase_prior F a b ha hb]
  have hlen : (inittyptab F K inblank cfg t).length = 256 := by
    rw [inittyptab_length, ht]
  exact ⟨key t u ht hu, key _ t hlen ht, hlen⟩

theorem inittyptab_idempotent_witness :
    (List.replicate 256 4096).length = 256 ∧ (List.replicate 256 0).length = 256 ∧
      (inittyptab zsh_ztypes zsh_h (zsh_inblank zsh_ztypes) zsh_typconfig (List.replicate 256 4096)
          = inittyptab zsh_ztypes zsh_h (zsh_inblank zsh_ztypes) zsh_typconfig
              (List.replicate 256 0) ∧
        inittyptab zsh_ztypes zsh_h (zsh_inblank zsh_ztypes) zsh_typconfig
            (inittyptab zsh_ztypes zsh_h (zsh_inblank zsh_ztypes) zsh_typconfig
              (List.replicate 256 4096))
          = inittyptab zsh_ztypes zsh_h (zsh_inblank zsh_ztypes) zsh_typconfig
              (List.replicate 256 4096) ∧
        (inittyptab zsh_ztypes zsh_h (zsh_inblank zsh_ztypes) zsh_typconfig
            (List.replicate 256 4096)).length = 256) :=
  ⟨List.length_replicate _ _, List.length_replicate _ _,
    inittyptab_idempotent zsh_ztypes zsh_h (zsh_inblank zsh_ztypes) zsh_typconfig
      (List.replicate 256 4096) (List.replicate 256 0) (List.length_replicate _ _)
      (List.length_replicate _ _)⟩

end Zsh
